import Mathlib

/-!
# LIO-SAM feature extraction (`src/featureExtraction.cpp`)

A shallow embedding of the `FeatureExtraction` node and a verification of
its documented properties.

Modelling conventions.

* A C++ `float` or `double` value is the rational number (`ℚ`) it stands
  for. Every `float` operation of the source is followed by the rounding
  `fl32` to IEEE 754 binary32, every `double` operation and literal by the
  rounding `fl64` to binary64 (to nearest, ties to even, subnormal numbers
  included; no extended precision, no fused multiply-add). Infinities and NaN
  are not represented: a result beyond the largest finite value of the format
  is rounded as if the exponent had no upper limit. A scan holds distances in
  metres, far below that limit.
* C++ `int` values are `Int` and `size_t` values are `Nat`. The indices
  handled by the node are bounded by the array capacity
  `N_SCAN * Horizon_SCAN`; the node is embedded with exact integers. The 32-bit
  evaluation of the sector bounds is embedded next to the exact one
  (`sectorStart32`, `sectorEnd32`); the two agree for ring bounds up to
  357913941 (`sector32_agree`).
* Every array (`std::vector` or `new[]` block) is a `List`; an access
  outside the list is undefined behaviour in C++ and makes the embedded
  function stop with `Fault.outOfBounds`.
* A point cloud is the list of the flattened indices of its points: the point
  pushed by `cloud->push_back(extractedCloud->points[ind])` is recorded as
  `ind`. The incoming deskewed cloud is represented by its number of points.
* `std::sort` and the PCL voxel filter are library code; they are
  parameters of the embedding (`StdSort`, `ds`).
-/

namespace LioSam

/-! ## Binary floating-point rounding -/

/-- The number of halvings that bring `n` below 2, with at most `fuel`
halvings. -/
def log2Aux : Nat → Nat → Nat
  | 0, _ => 0
  | fuel + 1, n => if 2 ≤ n then log2Aux fuel (n / 2) + 1 else 0

/-- One step of the search for the leading binary digit: a number that is at
least `2 ^ k` is divided by `2 ^ k` and `k` is added to the count. -/
def log2Step (k : Nat) (s : Nat × Nat) : Nat × Nat :=
  if 2 ^ k ≤ s.1 then (s.1 / 2 ^ k, s.2 + k) else s

/-- The position of the leading binary digit of `n`: for `n > 0`, the `k`
with `2 ^ k ≤ n < 2 ^ (k + 1)`. -/
@[irreducible] def ilog2 (n : Nat) : Nat :=
  (log2Step 1 (log2Step 2 (log2Step 4 (log2Step 8 (log2Step 16 (log2Step 32
    (log2Step 64 (n, 0)))))))).2 +
  log2Aux
    (log2Step 1 (log2Step 2 (log2Step 4 (log2Step 8 (log2Step 16 (log2Step 32
      (log2Step 64 (n, 0)))))))).1
    (log2Step 1 (log2Step 2 (log2Step 4 (log2Step 8 (log2Step 16 (log2Step 32
      (log2Step 64 (n, 0)))))))).1

/-- The binary exponent of the positive fraction `n / d`: the `e` with
`2 ^ e ≤ n / d < 2 ^ (e + 1)`. -/
def binaryExponent (n d : Nat) : Int :=
  if n * 2 ^ ((ilog2 d : Int) - (ilog2 n : Int)).toNat <
      d * 2 ^ ((ilog2 n : Int) - (ilog2 d : Int)).toNat then
    (ilog2 n : Int) - (ilog2 d : Int) - 1
  else (ilog2 n : Int) - (ilog2 d : Int)

/-- The exponent of the unit in the last place of the binary format with `p`
significant bits and least normal exponent `emin`, at the positive fraction
`n / d`: `e - (p - 1)` for the binary exponent `e` of the fraction, and the
exponent `emin - (p - 1)` of the least subnormal number when that is larger. -/
def quantum (p : Nat) (emin : Int) (n d : Nat) : Int :=
  max (binaryExponent n d - ((p : Int) - 1)) (emin - ((p : Int) - 1))

/-- The natural number nearest to the fraction `N / D`; when the fraction
lies halfway between two numbers, the even one (the IEEE 754 rule
roundTiesToEven). -/
def roundHalfEven (N D : Nat) : Nat :=
  if 2 * (N % D) < D then N / D
  else if D < 2 * (N % D) then N / D + 1
  else if (N / D) % 2 = 0 then N / D else N / D + 1

/-- The positive fraction `n / d` rounded to a multiple of its unit in the
last place `2 ^ q`: the fraction is divided by `2 ^ q`, rounded to the nearest
natural number, ties to even, and multiplied by `2 ^ q` again. -/
def roundMagnitude (p : Nat) (emin : Int) (n d : Nat) : ℚ :=
  mkRat
    ((roundHalfEven (n * 2 ^ (-(quantum p emin n d)).toNat) (d * 2 ^ (quantum p emin n d).toNat)
      * 2 ^ (quantum p emin n d).toNat : Nat) : Int)
    (2 ^ (-(quantum p emin n d)).toNat)

/-- The value `x` rounded to the binary floating-point format with `p`
significant bits and least normal exponent `emin` (subnormal numbers
included), to nearest, ties to even. The exponent has no upper limit. -/
def roundBinary (p : Nat) (emin : Int) (x : ℚ) : ℚ :=
  if x.num = 0 then 0
  else if x.num < 0 then -roundMagnitude p emin x.num.natAbs x.den
  else roundMagnitude p emin x.num.natAbs x.den

/-- Rounding to IEEE 754 binary32, the format of a C++ `float`. -/
def fl32 (x : ℚ) : ℚ := roundBinary 24 (-126) x

/-- Rounding to IEEE 754 binary64, the format of a C++ `double`. -/
def fl64 (x : ℚ) : ℚ := roundBinary 53 (-1022) x

/-! ## Data model -/

/-- The record `struct smoothness_t`: a curvature value and the flattened
index it was computed for. -/
structure smoothness_t where
  value : ℚ
  ind : Nat
  deriving DecidableEq

/-- The comparator `by_value::operator()`. -/
def by_value (left right : smoothness_t) : Bool :=
  decide (left.value < right.value)

/-- The contract of `std::sort(first, last, by_value())`: the result is a
rearrangement of the input in which no element compares less than an earlier
one. The order of records with equal values is left to the implementation. -/
structure StdSort where
  run : List smoothness_t → List smoothness_t
  perm : ∀ l, List.Perm (run l) l
  sorted : ∀ l, List.Pairwise (fun a b => by_value b a = false) (run l)

/-- The parameters read from `ParamServer` (declared in `utility.h`) that the
node uses. -/
structure ParamServer where
  N_SCAN : Nat
  Horizon_SCAN : Nat
  edgeThreshold : ℚ
  surfThreshold : ℚ

/-- The message `lio_sam::cloud_info` as far as the node reads it. The field
`cloud_deskewed` is the number of points of the deskewed cloud. -/
structure cloud_info where
  startRingIndex : List Int
  endRingIndex : List Int
  pointColInd : List Int
  pointRange : List ℚ
  cloud_deskewed : Nat
  deriving DecidableEq

/-- The mutable members of `class FeatureExtraction`, together with the local
cloud `surfaceCloudScan` of `extractFeatures`. -/
structure FeatureExtraction where
  cornerCloud : List Int
  surfaceCloud : List Int
  surfaceCloudScan : List Int
  cloudSmoothness : List smoothness_t
  cloudCurvature : List ℚ
  cloudNeighborPicked : List Int
  cloudLabel : List Int
  deriving DecidableEq

/-- What the node hands to its three publishers. -/
inductive Published where
  | cloud_corner (cloud : List Int)
  | cloud_surface (cloud : List Int)
  | cloud_info (info : cloud_info) (corner surface : List Int)
  deriving DecidableEq

/-! ## Checked array access and loops -/

/-- The one way an embedded function fails: an array access outside the
array, which is undefined behaviour in the C++ program. -/
inductive Fault where
  | outOfBounds
  deriving DecidableEq

/-- The result of running an embedded function. -/
abbrev Exec (α : Type) : Type := Except Fault α

instance instDecidableEqExec {α : Type} [DecidableEq α] : DecidableEq (Exec α) :=
  fun x y =>
    match x, y with
    | .ok a, .ok b =>
      if h : a = b then isTrue (by rw [h]) else isFalse (fun e => h (Except.ok.inj e))
    | .error a, .error b =>
      if h : a = b then isTrue (by rw [h]) else isFalse (fun e => h (Except.error.inj e))
    | .ok _, .error _ => isFalse (fun e => Except.noConfusion e)
    | .error _, .ok _ => isFalse (fun e => Except.noConfusion e)

/-- The read `a[i]`. -/
def rd {α : Type} (a : List α) (i : Int) : Exec α :=
  if i < 0 then .error .outOfBounds
  else
    match a[i.toNat]? with
    | some v => .ok v
    | none => .error .outOfBounds

/-- The write `a[i] = v`. -/
def wr {α : Type} (a : List α) (i : Int) (v : α) : Exec (List α) :=
  if 0 ≤ i ∧ i.toNat < a.length then .ok (a.set i.toNat v) else .error .outOfBounds

/-- The values `lo, lo+1, ..., hi-1` of `for (i = lo; i < hi; i++)`. -/
def upTo (lo hi : Int) : List Int :=
  (List.range (hi - lo).toNat).map (fun (t : Nat) => lo + (t : Int))

/-- The values `hi, hi-1, ..., lo` of `for (k = hi; k >= lo; k--)`. -/
def downTo (hi lo : Int) : List Int :=
  (List.range (hi - lo + 1).toNat).map (fun (t : Nat) => hi - (t : Int))

/-- A `for` loop over the given values of the loop variable. The body
returns `true` in its first component when it executes `break`. -/
def loopM {σ : Type} (body : Int → σ → Exec (Bool × σ)) : List Int → σ → Exec σ
  | [], s => .ok s
  | i :: rest, s =>
    match body i s with
    | .error e => .error e
    | .ok (true, s') => .ok s'
    | .ok (false, s') => loopM body rest s'

/-- A `for` loop whose body never executes `break`. -/
def forM {σ : Type} (body : Int → σ → Exec σ) : List Int → σ → Exec σ
  | [], s => .ok s
  | i :: rest, s =>
    match body i s with
    | .error e => .error e
    | .ok s' => forM body rest s'

/-! ## The node -/

/-- The constructor's `initializationValue`: the working arrays get
`N_SCAN * Horizon_SCAN` cells. The C++ arrays made by `new[]` start with
indeterminate contents; the embedding starts them at zero. -/
def initializationValue (P : ParamServer) : FeatureExtraction :=
  { cornerCloud := []
    surfaceCloud := []
    surfaceCloudScan := []
    cloudSmoothness := List.replicate (P.N_SCAN * P.Horizon_SCAN) ⟨0, 0⟩
    cloudCurvature := List.replicate (P.N_SCAN * P.Horizon_SCAN) 0
    cloudNeighborPicked := List.replicate (P.N_SCAN * P.Horizon_SCAN) 0
    cloudLabel := List.replicate (P.N_SCAN * P.Horizon_SCAN) 0 }

/-- The `float` expression assigned to `diffRange` in `calculateSmoothness`:
the operations are carried out from left to right, each one rounded to
binary32; the `int` literal `10` is converted to `float` for the product. -/
def diffRange (a5 a4 a3 a2 a1 r0 b1 b2 b3 b4 b5 : ℚ) : ℚ :=
  fl32 (fl32 (fl32 (fl32 (fl32 (fl32 (fl32 (fl32 (fl32 (fl32 (a5 + a4) + a3) + a2) + a1)
    - fl32 (r0 * 10)) + b1) + b2) + b3) + b4) + b5)

/-- The body of the loop of `calculateSmoothness` for one index `i`. The
product `diffRange * diffRange` is rounded to binary32. -/
def smoothnessStep (ci : cloud_info) (i : Int) (st : FeatureExtraction) :
    Exec FeatureExtraction := do
  let a5 ← rd ci.pointRange (i - 5)
  let a4 ← rd ci.pointRange (i - 4)
  let a3 ← rd ci.pointRange (i - 3)
  let a2 ← rd ci.pointRange (i - 2)
  let a1 ← rd ci.pointRange (i - 1)
  let r0 ← rd ci.pointRange i
  let b1 ← rd ci.pointRange (i + 1)
  let b2 ← rd ci.pointRange (i + 2)
  let b3 ← rd ci.pointRange (i + 3)
  let b4 ← rd ci.pointRange (i + 4)
  let b5 ← rd ci.pointRange (i + 5)
  let d : ℚ := diffRange a5 a4 a3 a2 a1 r0 b1 b2 b3 b4 b5
  let curv ← wr st.cloudCurvature i (fl32 (d * d))
  let picked ← wr st.cloudNeighborPicked i 0
  let label ← wr st.cloudLabel i 0
  let smooth ← wr st.cloudSmoothness i ⟨fl32 (d * d), i.toNat⟩
  pure { st with
    cloudCurvature := curv
    cloudNeighborPicked := picked
    cloudLabel := label
    cloudSmoothness := smooth }

/-- The function `calculateSmoothness`. -/
def calculateSmoothness (ci : cloud_info) (st : FeatureExtraction) :
    Exec FeatureExtraction :=
  forM (smoothnessStep ci) (upTo 5 ((ci.cloud_deskewed : Int) - 5)) st

/-- Consecutive writes of `1` into `cloudNeighborPicked`, at `i + d` for each
of the offsets `d` given, in order. -/
def markAll (i : Int) : List Int → List Int → Exec (List Int)
  | [], picked => .ok picked
  | d :: ds, picked =>
    match wr picked (i + d) 1 with
    | .error e => .error e
    | .ok picked' => markAll i ds picked'

/-- The body of the loop of `markOccludedPoints` for one index `i`, acting on
`cloudNeighborPicked`. The differences of ranges are `float` operations; each
is compared, as a `double`, with the `double` literal `0.3` or with the
`double` product of the literal `0.02` and the range. -/
def occludedStep (ci : cloud_info) (i : Int) (picked : List Int) :
    Exec (List Int) := do
  let depth1 ← rd ci.pointRange i
  let depth2 ← rd ci.pointRange (i + 1)
  let c1 ← rd ci.pointColInd (i + 1)
  let c0 ← rd ci.pointColInd i
  let columnDiff : Int := |c1 - c0|
  let picked1 ←
    (if columnDiff < 10 then
      if fl32 (depth1 - depth2) > fl64 0.3 then
        markAll i [-5, -4, -3, -2, -1, 0] picked
      else if fl32 (depth2 - depth1) > fl64 0.3 then
        markAll i [1, 2, 3, 4, 5, 6] picked
      else pure picked
    else pure picked)
  let rm ← rd ci.pointRange (i - 1)
  let r0 ← rd ci.pointRange i
  let rp ← rd ci.pointRange (i + 1)
  let diff1 : ℚ := |fl32 (rm - r0)|
  let diff2 : ℚ := |fl32 (rp - r0)|
  if diff1 > fl64 (fl64 0.02 * r0) ∧ diff2 > fl64 (fl64 0.02 * r0) then
    wr picked1 i 1
  else pure picked1

/-- The function `markOccludedPoints`. -/
def markOccludedPoints (ci : cloud_info) (st : FeatureExtraction) :
    Exec FeatureExtraction := do
  let picked ← forM (occludedStep ci) (upTo 5 ((ci.cloud_deskewed : Int) - 6))
    st.cloudNeighborPicked
  pure { st with cloudNeighborPicked := picked }

/-- One step of a suppression walk of `extractFeatures`, at offset `l` from
`ind`; `prev` is the offset of the point walked just before (`l - 1` going
forward, `l + 1` going backward). The walk stops when the column gap between
the two exceeds 10. -/
def walkStep (ci : cloud_info) (ind : Nat) (prev : Int → Int) (l : Int)
    (picked : List Int) : Exec (Bool × List Int) := do
  let c1 ← rd ci.pointColInd ((ind : Int) + l)
  let c0 ← rd ci.pointColInd ((ind : Int) + prev l)
  let columnDiff : Int := |c1 - c0|
  if columnDiff > 10 then pure (true, picked)
  else do
    let picked' ← wr picked ((ind : Int) + l) 1
    pure (false, picked')

/-- The two suppression walks around an accepted point `ind`:
`for (l = 1; l <= 5; l++)` and then `for (l = -1; l >= -5; l--)`. -/
def suppressNeighbors (ci : cloud_info) (ind : Nat) (picked : List Int) :
    Exec (List Int) := do
  let fwd ← loopM (walkStep ci ind (fun l => l - 1)) (upTo 1 6) picked
  loopM (walkStep ci ind (fun l => l + 1)) (downTo (-1) (-5)) fwd

/-- The push `cloud->push_back(extractedCloud->points[k])`. -/
def pushPoint (ci : cloud_info) (cloud : List Int) (k : Int) : Exec (List Int) :=
  if 0 ≤ k ∧ k < (ci.cloud_deskewed : Int) then .ok (cloud ++ [k]) else .error .outOfBounds

/-- The body of the corner loop `for (k = ep; k >= sp; k--)`; the loop state
is the node together with the counter `largestPickedNum`. -/
def cornerStep (P : ParamServer) (ci : cloud_info) (k : Int)
    (s : FeatureExtraction × Int) : Exec (Bool × (FeatureExtraction × Int)) := do
  let st := s.1
  let largestPickedNum := s.2
  let rec_ ← rd st.cloudSmoothness k
  let ind := rec_.ind
  let pk ← rd st.cloudNeighborPicked ind
  if pk = 0 then
    let curv ← rd st.cloudCurvature ind
    if curv > P.edgeThreshold then
      let largestPickedNum := largestPickedNum + 1
      if largestPickedNum ≤ 20 then
        let label ← wr st.cloudLabel ind 1
        let corner ← pushPoint ci st.cornerCloud ind
        let picked ← wr st.cloudNeighborPicked ind 1
        let picked ← suppressNeighbors ci ind picked
        pure (false, ({ st with
          cloudLabel := label
          cornerCloud := corner
          cloudNeighborPicked := picked }, largestPickedNum))
      else pure (true, (st, largestPickedNum))
    else pure (false, s)
  else pure (false, s)

/-- The body of the surface loop `for (k = sp; k <= ep; k++)`. -/
def surfaceStep (P : ParamServer) (ci : cloud_info) (k : Int)
    (st : FeatureExtraction) : Exec FeatureExtraction := do
  let rec_ ← rd st.cloudSmoothness k
  let ind := rec_.ind
  let pk ← rd st.cloudNeighborPicked ind
  if pk = 0 then
    let curv ← rd st.cloudCurvature ind
    if curv < P.surfThreshold then
      let label ← wr st.cloudLabel ind (-1)
      let picked ← wr st.cloudNeighborPicked ind 1
      let picked ← suppressNeighbors ci ind picked
      pure { st with cloudLabel := label, cloudNeighborPicked := picked }
    else pure st
  else pure st

/-- The body of the last loop of a sector: every index whose label is not
positive goes to `surfaceCloudScan`. -/
def collectStep (ci : cloud_info) (k : Int) (st : FeatureExtraction) :
    Exec FeatureExtraction := do
  let lab ← rd st.cloudLabel k
  if lab ≤ 0 then
    let scan ← pushPoint ci st.surfaceCloudScan k
    pure { st with surfaceCloudScan := scan }
  else pure st

/-- The cells `sp, ..., ep - 1` of an array. -/
def window {α : Type} (a : List α) (sp ep : Int) : List α :=
  (a.drop sp.toNat).take (ep.toNat - sp.toNat)

/-- The sort `std::sort(cloudSmoothness.begin() + sp, cloudSmoothness.begin() + ep,
by_value())`: the records at the positions `sp, ..., ep - 1` are rearranged. -/
def sortRange (srt : StdSort) (a : List smoothness_t) (sp ep : Int) :
    Exec (List smoothness_t) :=
  if 0 ≤ sp ∧ sp ≤ ep ∧ ep.toNat ≤ a.length then
    .ok (a.take sp.toNat ++ srt.run (window a sp ep) ++ a.drop ep.toNat)
  else .error .outOfBounds

/-- The first position `sp` of sector `j` of a ring with bounds `s` and `e`,
over exact integers. -/
def sectorStart (s e j : Int) : Int := Int.tdiv (s * (6 - j) + e * j) 6

/-- The last position `ep` of sector `j` of a ring with bounds `s` and `e`,
over exact integers. -/
def sectorEnd (s e j : Int) : Int := Int.tdiv (s * (5 - j) + e * (j + 1)) 6 - 1

/-- The value a 32-bit `int` holds after an operation whose exact result is
`x`: the integer of `[-2^31, 2^31)` that differs from `x` by a multiple of
`2^32`. (The C++ standard leaves signed overflow undefined; this is what the
two's-complement machine instruction yields.) -/
def wrap32 (x : Int) : Int := (x + 2147483648) % 4294967296 - 2147483648

/-- The first position `sp` of sector `j` as the source computes it, in
32-bit `int` arithmetic. -/
def sectorStart32 (s e j : Int) : Int :=
  Int.tdiv (wrap32 (wrap32 (s * wrap32 (6 - j)) + wrap32 (e * j))) 6

/-- The last position `ep` of sector `j` as the source computes it, in 32-bit
`int` arithmetic. -/
def sectorEnd32 (s e j : Int) : Int :=
  wrap32 (Int.tdiv (wrap32 (wrap32 (s * wrap32 (5 - j)) + wrap32 (e * wrap32 (j + 1)))) 6 - 1)

/-- The work on the positions `sp, ..., ep` of one sector, after the test
`sp >= ep`: sort, corner loop, surface loop, collection. -/
def processSector (P : ParamServer) (srt : StdSort) (ci : cloud_info) (sp ep : Int)
    (st : FeatureExtraction) : Exec FeatureExtraction := do
  let sorted ← sortRange srt st.cloudSmoothness sp ep
  let st1 : FeatureExtraction := { st with cloudSmoothness := sorted }
  let largestPickedNum : Int := 0
  let s2 ← loopM (cornerStep P ci) (downTo ep sp) (st1, largestPickedNum)
  let st3 ← forM (surfaceStep P ci) (upTo sp (ep + 1)) s2.1
  forM (collectStep ci) (upTo sp (ep + 1)) st3

/-- The body of the loop `for (int j = 0; j < 6; j++)` for ring `i`. -/
def sectorStep (P : ParamServer) (srt : StdSort) (ci : cloud_info) (i : Int) (j : Int)
    (st : FeatureExtraction) : Exec FeatureExtraction := do
  let s ← rd ci.startRingIndex i
  let e ← rd ci.endRingIndex i
  let sp := sectorStart s e j
  let ep := sectorEnd s e j
  if sp ≥ ep then pure st
  else processSector P srt ci sp ep st

/-- The first part of the body of the loop `for (int i = 0; i < N_SCAN; i++)`:
`surfaceCloudScan` is cleared and the six sectors of ring `i` are worked on.
Afterwards `surfaceCloudScan` holds the surface candidates of the ring. -/
def ringSectors (P : ParamServer) (srt : StdSort) (ci : cloud_info) (i : Int)
    (st : FeatureExtraction) : Exec FeatureExtraction :=
  forM (sectorStep P srt ci i) (upTo 0 6) { st with surfaceCloudScan := [] }

/-- The body of the loop `for (int i = 0; i < N_SCAN; i++)`: the six sectors
of ring `i`, then the voxel filter `ds` on the ring's surface candidates. -/
def ringStep (P : ParamServer) (srt : StdSort) (ds : List Int → List Int)
    (ci : cloud_info) (i : Int) (st : FeatureExtraction) : Exec FeatureExtraction := do
  let st1 ← ringSectors P srt ci i st
  let surfaceCloudScanDS := ds st1.surfaceCloudScan
  pure { st1 with surfaceCloud := st1.surfaceCloud ++ surfaceCloudScanDS }

/-- The function `extractFeatures`. -/
def extractFeatures (P : ParamServer) (srt : StdSort) (ds : List Int → List Int)
    (ci : cloud_info) (st : FeatureExtraction) : Exec FeatureExtraction :=
  forM (ringStep P srt ds ci) (upTo 0 (P.N_SCAN : Int))
    { st with cornerCloud := [], surfaceCloud := [], surfaceCloudScan := [] }

/-- The function `freeCloudInfoMemory`. -/
def freeCloudInfoMemory (ci : cloud_info) : cloud_info :=
  { ci with startRingIndex := [], endRingIndex := [], pointColInd := [], pointRange := [] }

/-- The function `publishFeatureCloud`: the messages handed to the three
publishers, in order. -/
def publishFeatureCloud (ci : cloud_info) (st : FeatureExtraction) : List Published :=
  [ Published.cloud_corner st.cornerCloud,
    Published.cloud_surface st.surfaceCloud,
    Published.cloud_info (freeCloudInfoMemory ci) st.cornerCloud st.surfaceCloud ]

/-- The three processing stages of the callback, in order. -/
def pipeline (P : ParamServer) (srt : StdSort) (ds : List Int → List Int)
    (ci : cloud_info) (st : FeatureExtraction) : Exec FeatureExtraction := do
  let st1 ← calculateSmoothness ci st
  let st2 ← markOccludedPoints ci st1
  extractFeatures P srt ds ci st2

/-- The callback `laserCloudInfoHandler`: the stages, then the publication.
It returns the node's new state and what was published. -/
def laserCloudInfoHandler (P : ParamServer) (srt : StdSort) (ds : List Int → List Int)
    (msgIn : cloud_info) (st : FeatureExtraction) :
    Exec (FeatureExtraction × List Published) := do
  let st3 ← pipeline P srt ds msgIn st
  pure (st3, publishFeatureCloud msgIn st3)

/-! ## A concrete sort, for running the embedding -/

/-- Insertion sort by `value`: one implementation meeting the contract of
`std::sort` with `by_value`. -/
def insertionSort : StdSort where
  run := List.insertionSort (fun a b => a.value ≤ b.value)
  perm := fun l => List.perm_insertionSort _ l
  sorted := fun l => by
    have total : IsTotal smoothness_t (fun a b => a.value ≤ b.value) :=
      ⟨fun a b => le_total a.value b.value⟩
    have trans : IsTrans smoothness_t (fun a b => a.value ≤ b.value) :=
      ⟨fun a b c hab hbc => le_trans hab hbc⟩
    have h := List.sorted_insertionSort (fun a b : smoothness_t => a.value ≤ b.value) l
    refine List.Pairwise.imp ?_ h
    intro a b hab
    simp [by_value, hab]



/-! ## Statement vocabulary -/

/-- The power of two `2 ^ q` for an integer exponent `q`. -/
def pow2 (q : Int) : ℚ :=
  if 0 ≤ q then ((2 ^ q.toNat : Nat) : ℚ) else 1 / ((2 ^ (-q).toNat : Nat) : ℚ)

/-- The integer nearest to the rational `t`; when `t` lies halfway between two
integers, the even one. -/
def nearestEven (t : ℚ) : Int :=
  if t - (⌊t⌋ : ℚ) < 1 / 2 then ⌊t⌋
  else if 1 / 2 < t - (⌊t⌋ : ℚ) then ⌊t⌋ + 1
  else if ⌊t⌋ % 2 = 0 then ⌊t⌋ else ⌊t⌋ + 1

/-- The range of the point with flattened index `i` (`0` outside the array). -/
def rangeAt (ci : cloud_info) (i : Int) : ℚ := (ci.pointRange[i.toNat]?).getD 0

/-- The column index of the point with flattened index `i` (`0` outside the
array). -/
def colAt (ci : cloud_info) (i : Int) : Int := (ci.pointColInd[i.toNat]?).getD 0

/-- The value the source computes for `cloudCurvature[i]`: the `float`
expression `diffRange` on the eleven ranges around `i`, multiplied by itself
and rounded to binary32. -/
def curvatureAt (ci : cloud_info) (i : Int) : ℚ :=
  fl32 (diffRange (rangeAt ci (i - 5)) (rangeAt ci (i - 4)) (rangeAt ci (i - 3))
      (rangeAt ci (i - 2)) (rangeAt ci (i - 1)) (rangeAt ci i) (rangeAt ci (i + 1))
      (rangeAt ci (i + 2)) (rangeAt ci (i + 3)) (rangeAt ci (i + 4)) (rangeAt ci (i + 5))
    * diffRange (rangeAt ci (i - 5)) (rangeAt ci (i - 4)) (rangeAt ci (i - 3))
      (rangeAt ci (i - 2)) (rangeAt ci (i - 1)) (rangeAt ci i) (rangeAt ci (i + 1))
      (rangeAt ci (i + 2)) (rangeAt ci (i + 3)) (rangeAt ci (i + 4)) (rangeAt ci (i + 5)))

/-- The result of a run, or the fallback `d` when the run faulted. -/
def outcome {α : Type} (x : Exec α) (d : α) : α :=
  match x with
  | .ok a => a
  | .error _ => d

/-- Whether a run completed. -/
def completes {α : Type} (x : Exec α) : Bool :=
  match x with
  | .ok _ => true
  | .error _ => false

/-- Two runs end alike: both fault, or both complete with related results. -/
def ExecRel {α β : Type} (R : α → β → Prop) (x : Exec α) (y : Exec β) : Prop :=
  match x, y with
  | .ok a, .ok b => R a b
  | .error _, .error _ => True
  | _, _ => False

/-- The working arrays have room for `n` cells. -/
def Fits (n : Nat) (st : FeatureExtraction) : Prop :=
  n ≤ st.cloudSmoothness.length ∧ n ≤ st.cloudCurvature.length ∧
  n ≤ st.cloudNeighborPicked.length ∧ n ≤ st.cloudLabel.length

/-- The curvature of index `i` in the words of the specification: the sum of
the five ranges before `i` and of the five ranges after `i`, minus ten times
the range at `i`, squared. -/
def specCurvature (ci : cloud_info) (i : Int) : ℚ :=
  ((rangeAt ci (i - 5) + rangeAt ci (i - 4) + rangeAt ci (i - 3) + rangeAt ci (i - 2)
      + rangeAt ci (i - 1))
    + (rangeAt ci (i + 1) + rangeAt ci (i + 2) + rangeAt ci (i + 3) + rangeAt ci (i + 4)
      + rangeAt ci (i + 5))
    - 10 * rangeAt ci i) ^ 2

/-- The eleven ranges around the index `i` are multiples `m / 2 ^ k` of one
power of two, with `k ≤ 74` and `|m| ≤ 204`. Then no operation of the
curvature computation at `i` rounds: every partial sum is a multiple of
`2 ^ (-k)` below `2 ^ 24 * 2 ^ (-k)`, and so is the square with `2 ^ (-2k)`. -/
def ExactWindow (ci : cloud_info) (i : Int) : Prop :=
  ∃ k : Nat, k ≤ 74 ∧ ∀ j : Int, i - 5 ≤ j → j ≤ i + 5 →
    ∃ m : Int, |m| ≤ 204 ∧ rangeAt ci j = (m : ℚ) / 2 ^ k

/-- The occlusion rule of `markOccludedPoints` at loop index `i` marks the
cell `k`: the columns of `i` and `i + 1` are less than 10 apart and either the
`float` difference `range[i] - range[i+1]` exceeds the `double` 0.3 and `k` is
one of `i-5..i`, or the `float` difference `range[i+1] - range[i]` exceeds the
`double` 0.3 and `k` is one of `i+1..i+6`. -/
def occlusionHit (ci : cloud_info) (i k : Int) : Prop :=
  (|colAt ci (i + 1) - colAt ci i| < 10 ∧
      fl32 (rangeAt ci i - rangeAt ci (i + 1)) > fl64 0.3 ∧ i - 5 ≤ k ∧ k ≤ i) ∨
  (|colAt ci (i + 1) - colAt ci i| < 10 ∧
      fl32 (rangeAt ci (i + 1) - rangeAt ci i) > fl64 0.3 ∧ i + 1 ≤ k ∧ k ≤ i + 6)

instance (ci : cloud_info) (i k : Int) : Decidable (occlusionHit ci i k) := by
  unfold occlusionHit
  exact inferInstance

/-- The parallel-beam rule of `markOccludedPoints` at loop index `i` marks the
cell `k`: `k = i` and the `float` differences of both neighbouring ranges from
`range[i]` exceed, in absolute value, the `double` product `0.02 * range[i]`. -/
def parallelHit (ci : cloud_info) (i k : Int) : Prop :=
  k = i ∧ |fl32 (rangeAt ci (i - 1) - rangeAt ci i)| > fl64 (fl64 0.02 * rangeAt ci i) ∧
    |fl32 (rangeAt ci (i + 1) - rangeAt ci i)| > fl64 (fl64 0.02 * rangeAt ci i)

/-- One of the two rules of `markOccludedPoints` at loop index `i` marks the
cell `k`. -/
def occludedHit (ci : cloud_info) (i k : Int) : Prop :=
  occlusionHit ci i k ∨ parallelHit ci i k

/-- The node `st'` is `st` after a point `ind` that was not picked
(`cloudNeighborPicked[ind] == 0`) got the label `lab`, was picked, and had its
neighbours suppressed; both loops of `extractFeatures` that accept points do
exactly this (the corner loop also pushes the point to `cornerCloud`). -/
def Accepts (ci : cloud_info) (ind : Nat) (lab : Int) (st st' : FeatureExtraction) : Prop :=
  rd st.cloudNeighborPicked ind = .ok 0 ∧
  wr st.cloudLabel ind lab = .ok st'.cloudLabel ∧
  (∃ pk1, wr st.cloudNeighborPicked ind 1 = .ok pk1 ∧
    suppressNeighbors ci ind pk1 = .ok st'.cloudNeighborPicked) ∧
  st'.cloudSmoothness = st.cloudSmoothness ∧ st'.cloudCurvature = st.cloudCurvature ∧
  st'.surfaceCloud = st.surfaceCloud ∧ st'.surfaceCloudScan = st.surfaceCloudScan

/-- All consecutive column gaps from `a` to `b` are at most 10, so that a
suppression walk between the two does not stop. -/
def noBreak (ci : cloud_info) (a b : Int) : Prop :=
  ∀ m : Int, a ≤ m → m < b → ¬ (|colAt ci (m + 1) - colAt ci m| > 10)

/-- The two points `a` and `b` are not both reachable from one another by a
suppression walk: they differ, and if they are at most 5 apart then a column
gap above 10 lies between them. -/
def Separated (ci : cloud_info) (a b : Int) : Prop :=
  a ≠ b ∧ (a < b → b - a ≤ 5 → ¬ noBreak ci a b) ∧ (b < a → a - b ≤ 5 → ¬ noBreak ci b a)

/-- The point `x` and every point a suppression walk from `x` reaches are
picked in `picked`. -/
def Guarded (ci : cloud_info) (picked : List Int) (x : Int) : Prop :=
  rd picked x = .ok 1 ∧
  (∀ y : Int, x < y → y ≤ x + 5 → noBreak ci x y → rd picked y = .ok 1) ∧
  (∀ y : Int, x - 5 ≤ y → y < x → noBreak ci y x → rd picked y = .ok 1)

/-- The state `s` of the corner loop over the positions `ks`, started from
the node `st0`, with `new` the points pushed to `cornerCloud` so far. -/
structure CornerInv (P : ParamServer) (ci : cloud_info) (ks : List Int)
    (st0 : FeatureExtraction) (s : FeatureExtraction × Int) (new : List Int) : Prop where
  smooth : s.1.cloudSmoothness = st0.cloudSmoothness
  curv : s.1.cloudCurvature = st0.cloudCurvature
  surface : s.1.surfaceCloud = st0.surfaceCloud
  scan : s.1.surfaceCloudScan = st0.surfaceCloudScan
  pickedLen : s.1.cloudNeighborPicked.length = st0.cloudNeighborPicked.length
  labelLen : s.1.cloudLabel.length = st0.cloudLabel.length
  corner : s.1.cornerCloud = st0.cornerCloud ++ new
  count : (new.length : Int) ≤ min s.2 20
  fresh : ∀ x ∈ new, rd st0.cloudNeighborPicked x = .ok 0 ∧
    ∃ c, rd st0.cloudCurvature x = .ok c ∧ c > P.edgeThreshold
  source : ∀ x ∈ new, (0 ≤ x ∧ x < (ci.cloud_deskewed : Int)) ∧
    ∃ k ∈ ks, ∃ r, rd st0.cloudSmoothness k = .ok r ∧ x = (r.ind : Int)
  guarded : ∀ x ∈ new, Guarded ci s.1.cloudNeighborPicked x
  separated : new.Pairwise (Separated ci)
  grow : ∀ k : Int, rd s.1.cloudNeighborPicked k = rd st0.cloudNeighborPicked k ∨
    rd s.1.cloudNeighborPicked k = .ok 1
  frame : ∀ k : Int, (∀ x ∈ new, k < x - 5 ∨ x + 5 < k) →
    rd s.1.cloudNeighborPicked k = rd st0.cloudNeighborPicked k
  label : ∀ k : Int, rd s.1.cloudLabel k = if k ∈ new then .ok 1 else rd st0.cloudLabel k

/-- The state `st` of the surface loop over the positions `ks`, started from
the node `st1`. -/
structure SurfInv (ci : cloud_info) (ks : List Int) (st1 st : FeatureExtraction) : Prop where
  smooth : st.cloudSmoothness = st1.cloudSmoothness
  curv : st.cloudCurvature = st1.cloudCurvature
  surface : st.surfaceCloud = st1.surfaceCloud
  scan : st.surfaceCloudScan = st1.surfaceCloudScan
  corner : st.cornerCloud = st1.cornerCloud
  pickedLen : st.cloudNeighborPicked.length = st1.cloudNeighborPicked.length
  labelLen : st.cloudLabel.length = st1.cloudLabel.length
  grow : ∀ k : Int, rd st.cloudNeighborPicked k = rd st1.cloudNeighborPicked k ∨
    rd st.cloudNeighborPicked k = .ok 1
  frame : ∀ k : Int,
    (∀ p ∈ ks, ∀ r, rd st1.cloudSmoothness p = .ok r → k < (r.ind : Int) - 5 ∨ (r.ind : Int) + 5 < k) →
    rd st.cloudNeighborPicked k = rd st1.cloudNeighborPicked k
  label : ∀ k : Int, rd st.cloudLabel k = rd st1.cloudLabel k ∨
    (rd st.cloudLabel k = .ok (-1) ∧ rd st1.cloudNeighborPicked k = .ok 0 ∧
      ∃ p ∈ ks, ∃ r, rd st1.cloudSmoothness p = .ok r ∧ k = (r.ind : Int))

/-- The test `cloudLabel[k] <= 0` of the collecting loop. -/
def labelNotCorner (label : List Int) (k : Int) : Bool :=
  match rd label k with
  | .ok lab => decide (lab ≤ 0)
  | .error _ => false

/-- The result of looking a cell up: a fault when there is no such cell. -/
def ofOption {α : Type} (o : Option α) : Exec α :=
  match o with
  | some v => .ok v
  | none => .error .outOfBounds

/-- The node `st'` is a later state of `st` within one run of
`extractFeatures`: the curvatures and the array sizes are the same, a cell of
`cloudNeighborPicked` has its old value or 1, and every point appended to
`cornerCloud` was not picked in `st` and has curvature above `edgeThreshold`. -/
structure Evolves (P : ParamServer) (st st' : FeatureExtraction) : Prop where
  curv : st'.cloudCurvature = st.cloudCurvature
  smoothLen : st'.cloudSmoothness.length = st.cloudSmoothness.length
  pickedLen : st'.cloudNeighborPicked.length = st.cloudNeighborPicked.length
  labelLen : st'.cloudLabel.length = st.cloudLabel.length
  grow : ∀ k : Int, rd st'.cloudNeighborPicked k = rd st.cloudNeighborPicked k ∨
    rd st'.cloudNeighborPicked k = .ok 1
  corners : ∃ new, st'.cornerCloud = st.cornerCloud ++ new ∧
    ∀ x ∈ new, rd st.cloudNeighborPicked x = .ok 0 ∧
      ∃ c, rd st.cloudCurvature x = .ok c ∧ c > P.edgeThreshold

/-- The cloud made of `n` copies of the cloud `x`, one after the other. -/
def copies (n : Nat) (x : List Int) : List Int :=
  match n with
  | 0 => []
  | n + 1 => x ++ copies n x

/-- Every sector of every ring of the scan is skipped by `extractFeatures`:
the ring bounds can be read and give `sp ≥ ep` for each of the six sectors. -/
def AllSectorsSkipped (P : ParamServer) (ci : cloud_info) : Prop :=
  ∀ r : Int, 0 ≤ r → r < (P.N_SCAN : Int) →
    ∃ s e, rd ci.startRingIndex r = .ok s ∧ rd ci.endRingIndex r = .ok e ∧
      ∀ j : Int, 0 ≤ j → j < 6 → sectorStart s e j ≥ sectorEnd s e j

/-- Two arrays have the same size and the same contents at every index `k`
with `5 ≤ k < N - 5`. -/
def ArrAlike {α : Type} (N : Nat) (a b : List α) : Prop :=
  a.length = b.length ∧ ∀ k : Int, 5 ≤ k → k < (N : Int) - 5 → rd a k = rd b k

/-- Every record at a position `5 ≤ k < N - 5` names an index in the same
range. -/
def IndsInside (N : Nat) (a : List smoothness_t) : Prop :=
  ∀ (k : Int) (r : smoothness_t), 5 ≤ k → k < (N : Int) - 5 → rd a k = .ok r →
    5 ≤ (r.ind : Int) ∧ (r.ind : Int) < (N : Int) - 5

/-- Two nodes cannot be told apart by a scan of `N` points whose ring bounds
lie inside `[5, N - 5)`: same clouds, same array sizes, same contents of the
working arrays at every index `5 ≤ k < N - 5`, and records that stay inside
that range. -/
structure Alike (N : Nat) (s t : FeatureExtraction) : Prop where
  corner : s.cornerCloud = t.cornerCloud
  surface : s.surfaceCloud = t.surfaceCloud
  scan : s.surfaceCloudScan = t.surfaceCloudScan
  smooth : ArrAlike N s.cloudSmoothness t.cloudSmoothness
  curv : ArrAlike N s.cloudCurvature t.cloudCurvature
  picked : ArrAlike N s.cloudNeighborPicked t.cloudNeighborPicked
  label : ArrAlike N s.cloudLabel t.cloudLabel
  inds : IndsInside N s.cloudSmoothness

/-- The ring bounds of the scan that can be read lie inside `[5, N - 5)`. -/
def RingsInside (P : ParamServer) (ci : cloud_info) : Prop :=
  ∀ (r s e : Int), 0 ≤ r → r < (P.N_SCAN : Int) →
    rd ci.startRingIndex r = .ok s → rd ci.endRingIndex r = .ok e →
    (5 ≤ s ∧ s < (ci.cloud_deskewed : Int) - 5) ∧ (5 ≤ e ∧ e < (ci.cloud_deskewed : Int) - 5)

/-- The index `k` lies in sector `j` of ring `r`, and that sector is not
skipped: the ring bounds can be read and give `sp < ep` and `sp ≤ k ≤ ep`. -/
def InSector (ci : cloud_info) (r j k : Int) : Prop :=
  ∃ s e, rd ci.startRingIndex r = .ok s ∧ rd ci.endRingIndex r = .ok e ∧
    sectorStart s e j < sectorEnd s e j ∧ sectorStart s e j ≤ k ∧ k ≤ sectorEnd s e j

/-- The ring intervals `[startRingIndex[r], endRingIndex[r]]` of the scan are
pairwise disjoint: no index lies in the intervals of two different rings. -/
def RingsDisjoint (P : ParamServer) (ci : cloud_info) : Prop :=
  ∀ (r r' s e s' e' k : Int), 0 ≤ r → r < (P.N_SCAN : Int) → 0 ≤ r' →
    r' < (P.N_SCAN : Int) → r ≠ r' →
    rd ci.startRingIndex r = .ok s → rd ci.endRingIndex r = .ok e →
    rd ci.startRingIndex r' = .ok s' → rd ci.endRingIndex r' = .ok e' →
    ¬ (s ≤ k ∧ k ≤ e ∧ s' ≤ k ∧ k ≤ e')

/-- Every record stored at a position of a sector that is not skipped names
an index of the same sector. -/
def BlockInds (P : ParamServer) (ci : cloud_info) (smooth : List smoothness_t) : Prop :=
  ∀ (r j p : Int) (rec_ : smoothness_t), 0 ≤ r → r < (P.N_SCAN : Int) → 0 ≤ j → j < 6 →
    InSector ci r j p → rd smooth p = .ok rec_ → InSector ci r j (rec_.ind : Int)

/-- The node `st'` is `st` after the work on the positions `sp, ..., ep` of
one sector whose records named indices of the sector: records and labels
outside the sector are untouched, the points appended to `cornerCloud` and to
`surfaceCloudScan` are indices of the sector, and every index of the sector
whose label was not positive is appended exactly once, to one of the two. -/
structure Touches (sp ep : Int) (st st' : FeatureExtraction) : Prop where
  smoothOut : ∀ p : Int, (p < sp ∨ ep < p) →
    rd st'.cloudSmoothness p = rd st.cloudSmoothness p
  smoothIn : ∀ (p : Int) (r : smoothness_t), sp ≤ p → p ≤ ep →
    rd st'.cloudSmoothness p = .ok r → sp ≤ (r.ind : Int) ∧ (r.ind : Int) ≤ ep
  labelOut : ∀ k : Int, (k < sp ∨ ep < k) → rd st'.cloudLabel k = rd st.cloudLabel k
  surface : st'.surfaceCloud = st.surfaceCloud
  clouds : ∃ newC newS, st'.cornerCloud = st.cornerCloud ++ newC ∧
    st'.surfaceCloudScan = st.surfaceCloudScan ++ newS ∧
    (∀ x ∈ newC, sp ≤ x ∧ x ≤ ep) ∧ (∀ x ∈ newS, sp ≤ x ∧ x ≤ ep) ∧
    (∀ k : Int, sp ≤ k → k ≤ ep → (∃ lab, rd st.cloudLabel k = .ok lab ∧ lab ≤ 0) →
      List.count k newC + List.count k newS = 1)

/-- The surface candidates of ring `r`: the contents of `surfaceCloudScan`
when the six sectors of ring `r` have been worked on, in the run of
`extractFeatures` from the node `st`. This is the cloud passed to the voxel
filter for ring `r`. -/
def ringCandidates (P : ParamServer) (srt : StdSort) (ds : List Int → List Int)
    (ci : cloud_info) (st : FeatureExtraction) (r : Int) : Exec (List Int) := do
  let pre ← forM (ringStep P srt ds ci) (upTo 0 r)
    { st with cornerCloud := [], surfaceCloud := [], surfaceCloudScan := [] }
  let post ← ringSectors P srt ci r pre
  pure post.surfaceCloudScan


/-! ## Statement vocabulary for whole runs -/

/-- The node on entry to the body of the sector loop for sector `j` of ring
`r`, in the run of `extractFeatures` from the node `st`: the rings before `r`
are done, `surfaceCloudScan` is cleared and the sectors before `j` of ring `r`
are done. -/
def sectorEntry (P : ParamServer) (srt : StdSort) (ds : List Int → List Int)
    (ci : cloud_info) (st : FeatureExtraction) (r j : Int) : Exec FeatureExtraction := do
  let pre ← forM (ringStep P srt ds ci) (upTo 0 r)
    { st with cornerCloud := [], surfaceCloud := [], surfaceCloudScan := [] }
  forM (sectorStep P srt ci r) (upTo 0 j) { pre with surfaceCloudScan := [] }

/-- The values `cloudCurvature[cloudSmoothness[k].ind]` for the positions `k`
given, in order: what a loop over these positions reads as the curvature of
the point it examines. -/
def examinedCurvatures (st : FeatureExtraction) : List Int → Exec (List ℚ)
  | [] => .ok []
  | k :: ks =>
    match rd st.cloudSmoothness k with
    | .error e => .error e
    | .ok rec_ =>
      match rd st.cloudCurvature rec_.ind with
      | .error e => .error e
      | .ok c =>
        match examinedCurvatures st ks with
        | .error e => .error e
        | .ok cs => .ok (c :: cs)

/-- The node can be worked on by a scan of `N` points: its working arrays
hold at least `N` cells and every record at a position `5 ≤ k < N - 5` names
an index in the same range. -/
structure Sound (N : Nat) (st : FeatureExtraction) : Prop where
  fits : Fits N st
  inds : IndsInside N st.cloudSmoothness

/-- The bounds of every ring can be read and satisfy `5 ≤ startRingIndex[r]`
and `endRingIndex[r] ≤ N - 5`. -/
def RingsWithin (P : ParamServer) (ci : cloud_info) : Prop :=
  ∀ r : Int, 0 ≤ r → r < (P.N_SCAN : Int) →
    ∃ s e, rd ci.startRingIndex r = .ok s ∧ rd ci.endRingIndex r = .ok e ∧
      5 ≤ s ∧ e ≤ (ci.cloud_deskewed : Int) - 5

/-- From the array `pk` of picked cells to the array `pk'`, no cell was
cleared: every cell holds what it held or holds 1, so a cell that was not 0 is
not 0. -/
def PickedGrows (pk pk' : List Int) : Prop :=
  ∀ k : Int, (rd pk' k = rd pk k ∨ rd pk' k = .ok 1) ∧
    (∀ v : Int, rd pk k = .ok v → v ≠ 0 → ∃ v', rd pk' k = .ok v' ∧ v' ≠ 0)

/-- The node as it is during `extractFeatures` on a scan of `N` points whose
curvatures are all 0: it is sound, `cornerCloud` is empty, and every index
`5 ≤ k < N - 5` has curvature 0 and a label that is not positive. -/
structure Flat (N : Nat) (st : FeatureExtraction) : Prop where
  sound : Sound N st
  corner : st.cornerCloud = []
  curv : ∀ k : Int, 5 ≤ k → k < (N : Int) - 5 → rd st.cloudCurvature k = .ok 0
  label : ∀ k : Int, 5 ≤ k → k < (N : Int) - 5 →
    ∃ lab, rd st.cloudLabel k = .ok lab ∧ lab ≤ 0

/-- The ring bounds of every ring can be read. -/
def RingsReadable (P : ParamServer) (ci : cloud_info) : Prop :=
  ∀ r : Int, 0 ≤ r → r < (P.N_SCAN : Int) →
    ∃ s e, rd ci.startRingIndex r = .ok s ∧ rd ci.endRingIndex r = .ok e

/-- The indices named by the records at the positions `sp, ..., ep`, in the
order of the positions. -/
def sectorInds (a : List smoothness_t) (sp ep : Int) : List Int :=
  (window a sp (ep + 1)).map (fun rec_ => (rec_.ind : Int))

/-- The records of the node are in order for a scan whose ring intervals lie
inside `[5, N - 5)` and are pairwise disjoint: the node is sound, every record
at a position `5 ≤ p < N - 5` holds the curvature of the index it names, and
for every sector that is not skipped the records at its positions name the
indices of the sector, each once. -/
structure Tidy (P : ParamServer) (ci : cloud_info) (st : FeatureExtraction) : Prop where
  sound : Sound ci.cloud_deskewed st
  value : ∀ p : Int, 5 ≤ p → p < (ci.cloud_deskewed : Int) - 5 →
    ∃ rec_, rd st.cloudSmoothness p = .ok rec_ ∧
      rd st.cloudCurvature rec_.ind = .ok rec_.value
  perm : ∀ r j s e : Int, 0 ≤ r → r < (P.N_SCAN : Int) → 0 ≤ j → j < 6 →
    rd ci.startRingIndex r = .ok s → rd ci.endRingIndex r = .ok e →
    sectorStart s e j < sectorEnd s e j →
    List.Perm (sectorInds st.cloudSmoothness (sectorStart s e j) (sectorEnd s e j))
      (upTo (sectorStart s e j) (sectorEnd s e j + 1))

/-! ## The run of `extractFeatures` with a record of the writes to `cloudLabel`

The functions below repeat `cornerStep`, `surfaceStep`, `processSector`,
`sectorStep`, `ringSectors`, `ringStep` and `extractFeatures` statement by
statement on a node paired with a list; each assignment `cloudLabel[ind] = v`
also appends the pair `(ind, v)` to the list, and nothing else touches it. -/

/-- The corner loop body, recording the write `cloudLabel[ind] = 1`. -/
def cornerStepLog (P : ParamServer) (ci : cloud_info) (k : Int)
    (s : (FeatureExtraction × List (Int × Int)) × Int) :
    Exec (Bool × ((FeatureExtraction × List (Int × Int)) × Int)) := do
  let st := s.1.1
  let log := s.1.2
  let largestPickedNum := s.2
  let rec_ ← rd st.cloudSmoothness k
  let ind := rec_.ind
  let pk ← rd st.cloudNeighborPicked ind
  if pk = 0 then
    let curv ← rd st.cloudCurvature ind
    if curv > P.edgeThreshold then
      let largestPickedNum := largestPickedNum + 1
      if largestPickedNum ≤ 20 then
        let label ← wr st.cloudLabel ind 1
        let corner ← pushPoint ci st.cornerCloud ind
        let picked ← wr st.cloudNeighborPicked ind 1
        let picked ← suppressNeighbors ci ind picked
        pure (false, (({ st with
          cloudLabel := label
          cornerCloud := corner
          cloudNeighborPicked := picked }, log ++ [((ind : Int), 1)]), largestPickedNum))
      else pure (true, ((st, log), largestPickedNum))
    else pure (false, s)
  else pure (false, s)

/-- The surface loop body, recording the write `cloudLabel[ind] = -1`. -/
def surfaceStepLog (P : ParamServer) (ci : cloud_info) (k : Int)
    (s : FeatureExtraction × List (Int × Int)) :
    Exec (FeatureExtraction × List (Int × Int)) := do
  let st := s.1
  let log := s.2
  let rec_ ← rd st.cloudSmoothness k
  let ind := rec_.ind
  let pk ← rd st.cloudNeighborPicked ind
  if pk = 0 then
    let curv ← rd st.cloudCurvature ind
    if curv < P.surfThreshold then
      let label ← wr st.cloudLabel ind (-1)
      let picked ← wr st.cloudNeighborPicked ind 1
      let picked ← suppressNeighbors ci ind picked
      pure ({ st with cloudLabel := label, cloudNeighborPicked := picked },
        log ++ [((ind : Int), -1)])
    else pure s
  else pure s

/-- The collecting loop body, which writes no label. -/
def collectStepLog (ci : cloud_info) (k : Int) (s : FeatureExtraction × List (Int × Int)) :
    Exec (FeatureExtraction × List (Int × Int)) := do
  let st ← collectStep ci k s.1
  pure (st, s.2)

/-- The work on one sector, with the record of the label writes. -/
def processSectorLog (P : ParamServer) (srt : StdSort) (ci : cloud_info) (sp ep : Int)
    (s : FeatureExtraction × List (Int × Int)) :
    Exec (FeatureExtraction × List (Int × Int)) := do
  let sorted ← sortRange srt s.1.cloudSmoothness sp ep
  let st1 : FeatureExtraction := { s.1 with cloudSmoothness := sorted }
  let largestPickedNum : Int := 0
  let s2 ← loopM (cornerStepLog P ci) (downTo ep sp) ((st1, s.2), largestPickedNum)
  let s3 ← forM (surfaceStepLog P ci) (upTo sp (ep + 1)) s2.1
  forM (collectStepLog ci) (upTo sp (ep + 1)) s3

/-- The body of the sector loop, with the record of the label writes. -/
def sectorStepLog (P : ParamServer) (srt : StdSort) (ci : cloud_info) (i : Int) (j : Int)
    (s : FeatureExtraction × List (Int × Int)) :
    Exec (FeatureExtraction × List (Int × Int)) := do
  let s0 ← rd ci.startRingIndex i
  let e ← rd ci.endRingIndex i
  let sp := sectorStart s0 e j
  let ep := sectorEnd s0 e j
  if sp ≥ ep then pure s
  else processSectorLog P srt ci sp ep s

/-- The six sectors of ring `i`, with the record of the label writes. -/
def ringSectorsLog (P : ParamServer) (srt : StdSort) (ci : cloud_info) (i : Int)
    (s : FeatureExtraction × List (Int × Int)) :
    Exec (FeatureExtraction × List (Int × Int)) :=
  forM (sectorStepLog P srt ci i) (upTo 0 6) ({ s.1 with surfaceCloudScan := [] }, s.2)

/-- The body of the ring loop, with the record of the label writes. -/
def ringStepLog (P : ParamServer) (srt : StdSort) (ds : List Int → List Int)
    (ci : cloud_info) (i : Int) (s : FeatureExtraction × List (Int × Int)) :
    Exec (FeatureExtraction × List (Int × Int)) := do
  let s1 ← ringSectorsLog P srt ci i s
  let surfaceCloudScanDS := ds s1.1.surfaceCloudScan
  pure ({ s1.1 with surfaceCloud := s1.1.surfaceCloud ++ surfaceCloudScanDS }, s1.2)

/-- The function `extractFeatures`, with the record of its writes to
`cloudLabel`, in order, starting from the empty record. -/
def extractFeaturesLog (P : ParamServer) (srt : StdSort) (ds : List Int → List Int)
    (ci : cloud_info) (st : FeatureExtraction) :
    Exec (FeatureExtraction × List (Int × Int)) :=
  forM (ringStepLog P srt ds ci) (upTo 0 (P.N_SCAN : Int))
    ({ st with cornerCloud := [], surfaceCloud := [], surfaceCloudScan := [] }, [])

/-- The record of label writes is consistent with the node: no index occurs
twice in it, every index in it is picked, and every value written is 1 or
-1. -/
def LogInv (s : FeatureExtraction × List (Int × Int)) : Prop :=
  (s.2.map Prod.fst).Nodup ∧ (∀ x ∈ s.2, rd s.1.cloudNeighborPicked x.1 = .ok 1) ∧
  (∀ x ∈ s.2, x.2 = 1 ∨ x.2 = -1)

/-! ## Concrete scans, for running the embedding -/

/-- A one-ring configuration with room for 40 points, with the thresholds
`edgeThreshold = 1.0` and `surfThreshold = 0.1`; the `float` nearest to 0.1 is
`13421773 / 2^27`. -/
def P1 : ParamServer where
  N_SCAN := 1
  Horizon_SCAN := 40
  edgeThreshold := 1
  surfThreshold := 13421773 / 134217728

/-- A 30-point ring with consecutive columns whose range steps from 5 down
to 2 between the indices 14 and 15. -/
def stepScan : cloud_info where
  startRingIndex := [5]
  endRingIndex := [24]
  pointColInd := (List.range 30).map (fun (n : Nat) => (n : Int))
  pointRange := (List.range 30).map (fun (n : Nat) => if n < 15 then (5 : ℚ) else 2)
  cloud_deskewed := 30

/-- A flat 20-point ring with consecutive columns. -/
def flatScan20 : cloud_info where
  startRingIndex := [5]
  endRingIndex := [14]
  pointColInd := (List.range 20).map (fun (n : Nat) => (n : Int))
  pointRange := List.replicate 20 4
  cloud_deskewed := 20

/-- A one-ring configuration with room for 140 points. -/
def P2 : ParamServer where
  N_SCAN := 1
  Horizon_SCAN := 140
  edgeThreshold := 1
  surfThreshold := 13421773 / 134217728

/-- A 140-point ring whose columns are 11 apart, so that no suppression walk
marks a neighbour, and whose range grows quadratically, so that every point
has curvature above 1 and none is marked by `markOccludedPoints`. The ranges
are multiples of `1/64` below 512, and every operation on them is exact in
binary32. Its first sector holds the 21 positions 5 to 25. -/
def capScan : cloud_info where
  startRingIndex := [5]
  endRingIndex := [134]
  pointColInd := (List.range 140).map (fun (n : Nat) => (11 * n : Int))
  pointRange := (List.range 140).map (fun (n : Nat) => (100 : ℚ) + (n : ℚ) * (n : ℚ) / 64)
  cloud_deskewed := 140

/-- A node with 140 cells in which no point is picked or labelled and every
point has curvature `(110/64)^2 = 3025/1024`, the value `calculateSmoothness`
computes for the points `5..134` of `capScan`. -/
def capState : FeatureExtraction where
  cornerCloud := []
  surfaceCloud := []
  surfaceCloudScan := []
  cloudSmoothness := (List.range 140).map (fun (n : Nat) => ⟨3025 / 1024, n⟩)
  cloudCurvature := List.replicate 140 (3025 / 1024)
  cloudNeighborPicked := List.replicate 140 0
  cloudLabel := List.replicate 140 0

/-- The ring `stepScan` with a jump of 21 columns between the indices 15
and 16. -/
def gapScan : cloud_info where
  startRingIndex := [5]
  endRingIndex := [24]
  pointColInd :=
    (List.range 30).map (fun (n : Nat) => if n < 16 then (n : Int) else (n : Int) + 20)
  pointRange := (List.range 30).map (fun (n : Nat) => if n < 15 then (5 : ℚ) else 2)
  cloud_deskewed := 30

/-- The 11-point ring of the specification's scenario: consecutive columns,
range 5.0 before the midpoint and 2.0 from the midpoint (index 5) on. The ring
bounds are the ones the projection stage gives a ring of 11 points. -/
def elevenScan : cloud_info where
  startRingIndex := [4]
  endRingIndex := [5]
  pointColInd := (List.range 11).map (fun (n : Nat) => (n : Int))
  pointRange := (List.range 11).map (fun (n : Nat) => if n < 5 then (5 : ℚ) else 2)
  cloud_deskewed := 11

/-- The node after `calculateSmoothness` and `markOccludedPoints` on
`elevenScan`. -/
def elevenMarked : FeatureExtraction :=
  outcome (calculateSmoothness elevenScan (initializationValue P1)
    >>= markOccludedPoints elevenScan) (initializationValue P1)

/-- A scan without points, with the ring bounds the projection stage gives
a ring without points. -/
def emptyScan : cloud_info where
  startRingIndex := [4]
  endRingIndex := [-6]
  pointColInd := []
  pointRange := []
  cloud_deskewed := 0

/-- The scan `stepScan` with the end of its ring moved far outside the
arrays. -/
def wildScan : cloud_info :=
  { stepScan with endRingIndex := [1000] }

/-- A 21-point ring with consecutive columns and a flat range but for a step
of 0.5 after the index 5. Its ring ends at the index 17, two past the last
index `N - 6 = 15` that the projection stage would give; its last sector is
`[15, 16]`. -/
def shortScan : cloud_info where
  startRingIndex := [5]
  endRingIndex := [17]
  pointColInd := (List.range 21).map (fun (n : Nat) => (n : Int))
  pointRange := (List.range 21).map (fun (n : Nat) => if n ≤ 5 then (21 / 2 : ℚ) else 10)
  cloud_deskewed := 21

/-- The ring `stepScan` with its ring bounds set to `[5, 8]`: the sectors of
this ring have the bounds `5..4, 5..5, 6..5, 6..6, 7..6, 7..7`. -/
def stepScan8 : cloud_info :=
  { stepScan with endRingIndex := [8] }

/-- A one-ring configuration with room for exactly 30 points. -/
def P30 : ParamServer where
  N_SCAN := 1
  Horizon_SCAN := 30
  edgeThreshold := 1
  surfThreshold := 13421773 / 134217728

/-- A two-ring configuration with room for 40 points. -/
def P220 : ParamServer where
  N_SCAN := 2
  Horizon_SCAN := 20
  edgeThreshold := 1
  surfThreshold := 13421773 / 134217728

/-- The points of `stepScan` with two overlapping rings, `[5, 24]` and
`[6, 24]`. -/
def overlapScan : cloud_info :=
  { stepScan with startRingIndex := [5, 6], endRingIndex := [24, 24] }

/-- A flat 23-point ring with consecutive columns. -/
def flatScan23 : cloud_info where
  startRingIndex := [5]
  endRingIndex := [17]
  pointColInd := (List.range 23).map (fun (n : Nat) => (n : Int))
  pointRange := List.replicate 23 4
  cloud_deskewed := 23

/-- A flat 30-point scan with two adjacent rings, `[5, 14]` and `[15, 24]`; the
columns of the second ring start again at 5, a gap of 9 from the last column
of the first. -/
def pairScan : cloud_info where
  startRingIndex := [5, 15]
  endRingIndex := [14, 24]
  pointColInd := (List.range 30).map (fun (n : Nat) => if n < 15 then (n : Int) else (n : Int) - 10)
  pointRange := List.replicate 30 4
  cloud_deskewed := 30

/-- The configuration `P1` with `edgeThreshold = 0`. -/
def P0 : ParamServer where
  N_SCAN := 1
  Horizon_SCAN := 40
  edgeThreshold := 0
  surfThreshold := 13421773 / 134217728

/-- A flat 23-point ring with consecutive columns whose range is the `float`
nearest to 7.3 at every point, `7654605 / 2^20`. -/
def flatScan73 : cloud_info where
  startRingIndex := [5]
  endRingIndex := [17]
  pointColInd := (List.range 23).map (fun (n : Nat) => (n : Int))
  pointRange := List.replicate 23 (7654605 / 1048576)
  cloud_deskewed := 23

/-- The node after `calculateSmoothness` and `markOccludedPoints` on `stepScan`,
from the initial node (`stepMarked_run`). -/
def stepMarked : FeatureExtraction where
  cornerCloud := []
  surfaceCloud := []
  surfaceCloudScan := []
  cloudSmoothness :=
    [⟨0, 0⟩, ⟨0, 0⟩, ⟨0, 0⟩, ⟨0, 0⟩, ⟨0, 0⟩, ⟨0, 5⟩, ⟨0, 6⟩, ⟨0, 7⟩,
      ⟨0, 8⟩, ⟨0, 9⟩, ⟨9, 10⟩, ⟨36, 11⟩, ⟨81, 12⟩, ⟨144, 13⟩, ⟨225, 14⟩, ⟨225, 15⟩,
      ⟨144, 16⟩, ⟨81, 17⟩, ⟨36, 18⟩, ⟨9, 19⟩, ⟨0, 20⟩, ⟨0, 21⟩, ⟨0, 22⟩, ⟨0, 23⟩,
      ⟨0, 24⟩, ⟨0, 0⟩, ⟨0, 0⟩, ⟨0, 0⟩, ⟨0, 0⟩, ⟨0, 0⟩, ⟨0, 0⟩, ⟨0, 0⟩,
      ⟨0, 0⟩, ⟨0, 0⟩, ⟨0, 0⟩, ⟨0, 0⟩, ⟨0, 0⟩, ⟨0, 0⟩, ⟨0, 0⟩, ⟨0, 0⟩]
  cloudCurvature :=
    [0, 0, 0, 0, 0, 0, 0, 0, 0, 0, 9, 36,
      81, 144, 225, 225, 144, 81, 36, 9, 0, 0, 0, 0,
      0, 0, 0, 0, 0, 0, 0, 0, 0, 0, 0, 0,
      0, 0, 0, 0]
  cloudNeighborPicked :=
    [0, 0, 0, 0, 0, 0, 0, 0, 0, 1, 1, 1,
      1, 1, 1, 0, 0, 0, 0, 0, 0, 0, 0, 0,
      0, 0, 0, 0, 0, 0, 0, 0, 0, 0, 0, 0,
      0, 0, 0, 0]
  cloudLabel :=
    [0, 0, 0, 0, 0, 0, 0, 0, 0, 0, 0, 0,
      0, 0, 0, 0, 0, 0, 0, 0, 0, 0, 0, 0,
      0, 0, 0, 0, 0, 0, 0, 0, 0, 0, 0, 0,
      0, 0, 0, 0]

/-- The node after the three stages on `stepScan`, from the initial node
(`stepDone_run`). -/
def stepDone : FeatureExtraction where
  cornerCloud := [16]
  surfaceCloud := [5, 6, 7, 8, 9, 10, 11, 12, 13, 14, 15, 17,
      18, 19, 20, 21, 22, 23]
  surfaceCloudScan := [5, 6, 7, 8, 9, 10, 11, 12, 13, 14, 15, 17,
      18, 19, 20, 21, 22, 23]
  cloudSmoothness :=
    [⟨0, 0⟩, ⟨0, 0⟩, ⟨0, 0⟩, ⟨0, 0⟩, ⟨0, 0⟩, ⟨0, 5⟩, ⟨0, 6⟩, ⟨0, 7⟩,
      ⟨0, 8⟩, ⟨0, 9⟩, ⟨9, 10⟩, ⟨36, 11⟩, ⟨81, 12⟩, ⟨144, 13⟩, ⟨225, 14⟩, ⟨225, 15⟩,
      ⟨144, 16⟩, ⟨36, 18⟩, ⟨81, 17⟩, ⟨9, 19⟩, ⟨0, 20⟩, ⟨0, 21⟩, ⟨0, 22⟩, ⟨0, 23⟩,
      ⟨0, 24⟩, ⟨0, 0⟩, ⟨0, 0⟩, ⟨0, 0⟩, ⟨0, 0⟩, ⟨0, 0⟩, ⟨0, 0⟩, ⟨0, 0⟩,
      ⟨0, 0⟩, ⟨0, 0⟩, ⟨0, 0⟩, ⟨0, 0⟩, ⟨0, 0⟩, ⟨0, 0⟩, ⟨0, 0⟩, ⟨0, 0⟩]
  cloudCurvature :=
    [0, 0, 0, 0, 0, 0, 0, 0, 0, 0, 9, 36,
      81, 144, 225, 225, 144, 81, 36, 9, 0, 0, 0, 0,
      0, 0, 0, 0, 0, 0, 0, 0, 0, 0, 0, 0,
      0, 0, 0, 0]
  cloudNeighborPicked :=
    [1, 1, 1, 1, 1, 1, 1, 1, 1, 1, 1, 1,
      1, 1, 1, 1, 1, 1, 1, 1, 1, 1, 1, 1,
      1, 1, 1, 1, 0, 0, 0, 0, 0, 0, 0, 0,
      0, 0, 0, 0]
  cloudLabel :=
    [0, 0, 0, 0, 0, -1, 0, 0, 0, 0, 0, 0,
      0, 0, 0, 0, 1, 0, 0, 0, 0, 0, -1, 0,
      0, 0, 0, 0, 0, 0, 0, 0, 0, 0, 0, 0,
      0, 0, 0, 0]

/-- The node after `calculateSmoothness` on `gapScan`, from the initial node
(`gapCalc_run`). -/
def gapCalc : FeatureExtraction where
  cornerCloud := []
  surfaceCloud := []
  surfaceCloudScan := []
  cloudSmoothness :=
    [⟨0, 0⟩, ⟨0, 0⟩, ⟨0, 0⟩, ⟨0, 0⟩, ⟨0, 0⟩, ⟨0, 5⟩, ⟨0, 6⟩, ⟨0, 7⟩,
      ⟨0, 8⟩, ⟨0, 9⟩, ⟨9, 10⟩, ⟨36, 11⟩, ⟨81, 12⟩, ⟨144, 13⟩, ⟨225, 14⟩, ⟨225, 15⟩,
      ⟨144, 16⟩, ⟨81, 17⟩, ⟨36, 18⟩, ⟨9, 19⟩, ⟨0, 20⟩, ⟨0, 21⟩, ⟨0, 22⟩, ⟨0, 23⟩,
      ⟨0, 24⟩, ⟨0, 0⟩, ⟨0, 0⟩, ⟨0, 0⟩, ⟨0, 0⟩, ⟨0, 0⟩, ⟨0, 0⟩, ⟨0, 0⟩,
      ⟨0, 0⟩, ⟨0, 0⟩, ⟨0, 0⟩, ⟨0, 0⟩, ⟨0, 0⟩, ⟨0, 0⟩, ⟨0, 0⟩, ⟨0, 0⟩]
  cloudCurvature :=
    [0, 0, 0, 0, 0, 0, 0, 0, 0, 0, 9, 36,
      81, 144, 225, 225, 144, 81, 36, 9, 0, 0, 0, 0,
      0, 0, 0, 0, 0, 0, 0, 0, 0, 0, 0, 0,
      0, 0, 0, 0]
  cloudNeighborPicked :=
    [0, 0, 0, 0, 0, 0, 0, 0, 0, 0, 0, 0,
      0, 0, 0, 0, 0, 0, 0, 0, 0, 0, 0, 0,
      0, 0, 0, 0, 0, 0, 0, 0, 0, 0, 0, 0,
      0, 0, 0, 0]
  cloudLabel :=
    [0, 0, 0, 0, 0, 0, 0, 0, 0, 0, 0, 0,
      0, 0, 0, 0, 0, 0, 0, 0, 0, 0, 0, 0,
      0, 0, 0, 0, 0, 0, 0, 0, 0, 0, 0, 0,
      0, 0, 0, 0]

/-- The node after `markOccludedPoints` on `gapScan`, from `gapCalc`
(`gapMarked_run`). -/
def gapMarked : FeatureExtraction where
  cornerCloud := []
  surfaceCloud := []
  surfaceCloudScan := []
  cloudSmoothness :=
    [⟨0, 0⟩, ⟨0, 0⟩, ⟨0, 0⟩, ⟨0, 0⟩, ⟨0, 0⟩, ⟨0, 5⟩, ⟨0, 6⟩, ⟨0, 7⟩,
      ⟨0, 8⟩, ⟨0, 9⟩, ⟨9, 10⟩, ⟨36, 11⟩, ⟨81, 12⟩, ⟨144, 13⟩, ⟨225, 14⟩, ⟨225, 15⟩,
      ⟨144, 16⟩, ⟨81, 17⟩, ⟨36, 18⟩, ⟨9, 19⟩, ⟨0, 20⟩, ⟨0, 21⟩, ⟨0, 22⟩, ⟨0, 23⟩,
      ⟨0, 24⟩, ⟨0, 0⟩, ⟨0, 0⟩, ⟨0, 0⟩, ⟨0, 0⟩, ⟨0, 0⟩, ⟨0, 0⟩, ⟨0, 0⟩,
      ⟨0, 0⟩, ⟨0, 0⟩, ⟨0, 0⟩, ⟨0, 0⟩, ⟨0, 0⟩, ⟨0, 0⟩, ⟨0, 0⟩, ⟨0, 0⟩]
  cloudCurvature :=
    [0, 0, 0, 0, 0, 0, 0, 0, 0, 0, 9, 36,
      81, 144, 225, 225, 144, 81, 36, 9, 0, 0, 0, 0,
      0, 0, 0, 0, 0, 0, 0, 0, 0, 0, 0, 0,
      0, 0, 0, 0]
  cloudNeighborPicked :=
    [0, 0, 0, 0, 0, 0, 0, 0, 0, 1, 1, 1,
      1, 1, 1, 0, 0, 0, 0, 0, 0, 0, 0, 0,
      0, 0, 0, 0, 0, 0, 0, 0, 0, 0, 0, 0,
      0, 0, 0, 0]
  cloudLabel :=
    [0, 0, 0, 0, 0, 0, 0, 0, 0, 0, 0, 0,
      0, 0, 0, 0, 0, 0, 0, 0, 0, 0, 0, 0,
      0, 0, 0, 0, 0, 0, 0, 0, 0, 0, 0, 0,
      0, 0, 0, 0]

/-- The node after `extractFeatures` on `gapScan`, from `gapMarked`
(`gapDone_run`). -/
def gapDone : FeatureExtraction where
  cornerCloud := [16, 15]
  surfaceCloud := [5, 6, 7, 8, 9, 10, 11, 12, 13, 14, 17, 18,
      19, 20, 21, 22, 23]
  surfaceCloudScan := [5, 6, 7, 8, 9, 10, 11, 12, 13, 14, 17, 18,
      19, 20, 21, 22, 23]
  cloudSmoothness :=
    [⟨0, 0⟩, ⟨0, 0⟩, ⟨0, 0⟩, ⟨0, 0⟩, ⟨0, 0⟩, ⟨0, 5⟩, ⟨0, 6⟩, ⟨0, 7⟩,
      ⟨0, 8⟩, ⟨0, 9⟩, ⟨9, 10⟩, ⟨36, 11⟩, ⟨81, 12⟩, ⟨144, 13⟩, ⟨225, 14⟩, ⟨225, 15⟩,
      ⟨144, 16⟩, ⟨36, 18⟩, ⟨81, 17⟩, ⟨9, 19⟩, ⟨0, 20⟩, ⟨0, 21⟩, ⟨0, 22⟩, ⟨0, 23⟩,
      ⟨0, 24⟩, ⟨0, 0⟩, ⟨0, 0⟩, ⟨0, 0⟩, ⟨0, 0⟩, ⟨0, 0⟩, ⟨0, 0⟩, ⟨0, 0⟩,
      ⟨0, 0⟩, ⟨0, 0⟩, ⟨0, 0⟩, ⟨0, 0⟩, ⟨0, 0⟩, ⟨0, 0⟩, ⟨0, 0⟩, ⟨0, 0⟩]
  cloudCurvature :=
    [0, 0, 0, 0, 0, 0, 0, 0, 0, 0, 9, 36,
      81, 144, 225, 225, 144, 81, 36, 9, 0, 0, 0, 0,
      0, 0, 0, 0, 0, 0, 0, 0, 0, 0, 0, 0,
      0, 0, 0, 0]
  cloudNeighborPicked :=
    [1, 1, 1, 1, 1, 1, 1, 1, 1, 1, 1, 1,
      1, 1, 1, 1, 1, 1, 1, 1, 1, 1, 1, 1,
      1, 1, 1, 1, 0, 0, 0, 0, 0, 0, 0, 0,
      0, 0, 0, 0]
  cloudLabel :=
    [0, 0, 0, 0, 0, -1, 0, 0, 0, 0, 0, 0,
      0, 0, 0, 1, 1, 0, 0, 0, 0, 0, -1, 0,
      0, 0, 0, 0, 0, 0, 0, 0, 0, 0, 0, 0,
      0, 0, 0, 0]

/-! ## Facts on the rounding -/

theorem log2Aux_spec (fuel n : Nat) (h0 : n ≠ 0) (hf : n ≤ fuel) :
    2 ^ log2Aux fuel n ≤ n ∧ n < 2 ^ (log2Aux fuel n + 1) := by
  induction fuel generalizing n with
  | zero => omega
  | succ f ih =>
    unfold log2Aux
    by_cases h2 : 2 ≤ n
    · rw [if_pos h2]
      obtain ⟨a, b⟩ := ih (n / 2) (by omega) (by omega)
      constructor
      · rw [pow_succ]; omega
      · rw [pow_succ]; omega
    · rw [if_neg h2]
      have : n = 1 := by omega
      subst this
      simp

/-- A step of the search keeps the number searched between `2 ^ r * n'` and
`2 ^ r * (n' + 1)`, where `n'` is the number left and `r` the count. -/
theorem log2Step_inv (n k : Nat) (s : Nat × Nat) (h0 : s.1 ≠ 0)
    (h : 2 ^ s.2 * s.1 ≤ n ∧ n < 2 ^ s.2 * (s.1 + 1)) :
    (log2Step k s).1 ≠ 0 ∧
    2 ^ (log2Step k s).2 * (log2Step k s).1 ≤ n ∧
    n < 2 ^ (log2Step k s).2 * ((log2Step k s).1 + 1) := by
  unfold log2Step
  by_cases hk : 2 ^ k ≤ s.1
  · rw [if_pos hk]
    have hp : 0 < 2 ^ k := Nat.pow_pos (by decide)
    have hdiv : 0 < s.1 / 2 ^ k := Nat.div_pos hk hp
    have h1 : 2 ^ k * (s.1 / 2 ^ k) ≤ s.1 := Nat.mul_div_le _ _
    have h2 : s.1 < 2 ^ k * (s.1 / 2 ^ k + 1) := by
      have := Nat.lt_mul_div_succ s.1 hp
      simpa [Nat.mul_add] using this
    refine ⟨by simpa using Nat.ne_of_gt hdiv, ?_, ?_⟩
    · show 2 ^ (s.2 + k) * (s.1 / 2 ^ k) ≤ n
      calc 2 ^ (s.2 + k) * (s.1 / 2 ^ k) = 2 ^ s.2 * (2 ^ k * (s.1 / 2 ^ k)) := by
            rw [pow_add]; ring
        _ ≤ 2 ^ s.2 * s.1 := Nat.mul_le_mul_left _ h1
        _ ≤ n := h.1
    · show n < 2 ^ (s.2 + k) * (s.1 / 2 ^ k + 1)
      calc n < 2 ^ s.2 * (s.1 + 1) := h.2
        _ ≤ 2 ^ s.2 * (2 ^ k * (s.1 / 2 ^ k + 1)) := Nat.mul_le_mul_left _ (by omega)
        _ = 2 ^ (s.2 + k) * (s.1 / 2 ^ k + 1) := by rw [pow_add]; ring
  · rw [if_neg hk]
    exact ⟨h0, h⟩

theorem ilog2_spec (n : Nat) (h0 : n ≠ 0) :
    2 ^ ilog2 n ≤ n ∧ n < 2 ^ (ilog2 n + 1) := by
  have key : ∀ (k : Nat) (s : Nat × Nat),
      (s.1 ≠ 0 ∧ 2 ^ s.2 * s.1 ≤ n ∧ n < 2 ^ s.2 * (s.1 + 1)) →
      ((log2Step k s).1 ≠ 0 ∧ 2 ^ (log2Step k s).2 * (log2Step k s).1 ≤ n ∧
        n < 2 ^ (log2Step k s).2 * ((log2Step k s).1 + 1)) :=
    fun k s h => log2Step_inv n k s h.1 h.2
  have p0 : ((n, 0) : Nat × Nat).1 ≠ 0 ∧
      2 ^ ((n, 0) : Nat × Nat).2 * ((n, 0) : Nat × Nat).1 ≤ n ∧
      n < 2 ^ ((n, 0) : Nat × Nat).2 * (((n, 0) : Nat × Nat).1 + 1) :=
    ⟨h0, by simp, by simp⟩
  unfold ilog2
  generalize ((n, 0) : Nat × Nat) = s0 at p0 ⊢
  have p1 := key 64 s0 p0
  generalize log2Step 64 s0 = s1 at p1 ⊢
  have p2 := key 32 s1 p1
  generalize log2Step 32 s1 = s2 at p2 ⊢
  have p3 := key 16 s2 p2
  generalize log2Step 16 s2 = s3 at p3 ⊢
  have p4 := key 8 s3 p3
  generalize log2Step 8 s3 = s4 at p4 ⊢
  have p5 := key 4 s4 p4
  generalize log2Step 4 s4 = s5 at p5 ⊢
  have p6 := key 2 s5 p5
  generalize log2Step 2 s5 = s6 at p6 ⊢
  have p7 := key 1 s6 p6
  generalize log2Step 1 s6 = s at p7 ⊢
  obtain ⟨a, b, c⟩ := p7
  obtain ⟨u, v⟩ := log2Aux_spec s.1 s.1 a (le_refl _)
  constructor
  · calc 2 ^ (s.2 + log2Aux s.1 s.1) = 2 ^ s.2 * 2 ^ log2Aux s.1 s.1 := pow_add _ _ _
      _ ≤ 2 ^ s.2 * s.1 := Nat.mul_le_mul_left _ u
      _ ≤ n := b
  · calc n < 2 ^ s.2 * (s.1 + 1) := c
      _ ≤ 2 ^ s.2 * 2 ^ (log2Aux s.1 s.1 + 1) := Nat.mul_le_mul_left _ (by omega)
      _ = 2 ^ (s.2 + log2Aux s.1 s.1 + 1) := by rw [← pow_add]; ring_nf

theorem pow2_eq (q : Int) : pow2 q = (2 : ℚ) ^ q := by
  unfold pow2
  by_cases h : 0 ≤ q
  · rw [if_pos h]
    obtain ⟨n, rfl⟩ := Int.eq_ofNat_of_zero_le h
    simp
  · rw [if_neg h]
    obtain ⟨n, hn⟩ := Int.exists_eq_neg_ofNat (by omega : q ≤ 0)
    subst hn
    simp

theorem pow2_pos (q : Int) : 0 < pow2 q := by
  rw [pow2_eq]; positivity

theorem pow2_add (a b : Int) : pow2 (a + b) = pow2 a * pow2 b := by
  rw [pow2_eq, pow2_eq, pow2_eq, zpow_add₀ (by norm_num)]

theorem pow2_le {a b : Int} (h : a ≤ b) : pow2 a ≤ pow2 b := by
  rw [pow2_eq, pow2_eq]
  exact zpow_le_zpow_right₀ (by norm_num) h

theorem pow2_lt_iff {a b : Int} : pow2 a < pow2 b ↔ a < b := by
  rw [pow2_eq, pow2_eq]
  exact zpow_lt_zpow_iff_right₀ (by norm_num)

theorem pow2_natCast (n : Nat) : pow2 (n : Int) = ((2 ^ n : Nat) : ℚ) := by
  rw [pow2_eq]; simp

/-- A power of two as the quotient of two natural powers of two, one of
which is 1. -/
theorem pow2_split (q : Int) :
    pow2 q = ((2 ^ q.toNat : Nat) : ℚ) / ((2 ^ (-q).toNat : Nat) : ℚ) := by
  unfold pow2
  by_cases h : 0 ≤ q
  · rw [if_pos h]
    have : (-q).toNat = 0 := by omega
    rw [this]
    simp
  · rw [if_neg h]
    have : q.toNat = 0 := by omega
    rw [this]
    simp

theorem binaryExponent_spec (n d : Nat) (hn : n ≠ 0) (hd : d ≠ 0) :
    pow2 (binaryExponent n d) ≤ (n : ℚ) / (d : ℚ) ∧
    (n : ℚ) / (d : ℚ) < pow2 (binaryExponent n d + 1) := by
  obtain ⟨n1, n2⟩ := ilog2_spec _ hn
  obtain ⟨d1, d2⟩ := ilog2_spec _ hd
  have hdpos : (0 : ℚ) < (d : ℚ) := by exact_mod_cast Nat.pos_of_ne_zero hd
  have N1 : pow2 (ilog2 n : Int) ≤ (n : ℚ) := by
    rw [pow2_natCast]; exact_mod_cast n1
  have N2 : (n : ℚ) < pow2 ((ilog2 n : Int) + 1) := by
    have : ((ilog2 n : Int) + 1) = ((ilog2 n + 1 : Nat) : Int) := by
      push_cast; rfl
    rw [this, pow2_natCast]; exact_mod_cast n2
  have D1 : pow2 (ilog2 d : Int) ≤ (d : ℚ) := by
    rw [pow2_natCast]; exact_mod_cast d1
  have D2 : (d : ℚ) < pow2 ((ilog2 d : Int) + 1) := by
    have : ((ilog2 d : Int) + 1) = ((ilog2 d + 1 : Nat) : Int) := by
      push_cast; rfl
    rw [this, pow2_natCast]; exact_mod_cast d2
  have lo : pow2 ((ilog2 n : Int) - (ilog2 d : Int) - 1) ≤ (n : ℚ) / (d : ℚ) := by
    have e : pow2 (ilog2 n : Int) =
        pow2 ((ilog2 n : Int) - (ilog2 d : Int) - 1) * pow2 ((ilog2 d : Int) + 1) := by
      rw [← pow2_add]; congr 1; ring
    rw [le_div_iff₀ hdpos]
    calc pow2 ((ilog2 n : Int) - (ilog2 d : Int) - 1) * (d : ℚ)
        ≤ pow2 ((ilog2 n : Int) - (ilog2 d : Int) - 1) * pow2 ((ilog2 d : Int) + 1) :=
          mul_le_mul_of_nonneg_left (le_of_lt D2) (le_of_lt (pow2_pos _))
      _ = pow2 (ilog2 n : Int) := e.symm
      _ ≤ _ := N1
  have hi : (n : ℚ) / (d : ℚ) < pow2 ((ilog2 n : Int) - (ilog2 d : Int) + 1) := by
    have e : pow2 ((ilog2 n : Int) + 1) =
        pow2 ((ilog2 n : Int) - (ilog2 d : Int) + 1) * pow2 (ilog2 d : Int) := by
      rw [← pow2_add]; congr 1; ring
    rw [div_lt_iff₀ hdpos]
    calc (n : ℚ) < pow2 ((ilog2 n : Int) + 1) := N2
      _ = pow2 ((ilog2 n : Int) - (ilog2 d : Int) + 1) * pow2 (ilog2 d : Int) := e
      _ ≤ _ := mul_le_mul_of_nonneg_left D1 (le_of_lt (pow2_pos _))
  -- the test of the definition compares `n / d` with `2 ^ (ilog2 n - ilog2 d)`
  have htest : (n * 2 ^ ((ilog2 d : Int) - (ilog2 n : Int)).toNat <
      d * 2 ^ ((ilog2 n : Int) - (ilog2 d : Int)).toNat) ↔
      (n : ℚ) / (d : ℚ) < pow2 ((ilog2 n : Int) - (ilog2 d : Int)) := by
    have hs := pow2_split ((ilog2 n : Int) - (ilog2 d : Int))
    have hneg : -((ilog2 n : Int) - (ilog2 d : Int)) = (ilog2 d : Int) - (ilog2 n : Int) := by
      ring
    rw [hneg] at hs
    rw [hs]
    have hp : (0 : ℚ) < ((2 ^ ((ilog2 d : Int) - (ilog2 n : Int)).toNat : Nat) : ℚ) := by
      exact_mod_cast Nat.pow_pos (by decide)
    rw [div_lt_div_iff₀ hdpos hp]
    constructor
    · intro h
      have : ((n * 2 ^ ((ilog2 d : Int) - (ilog2 n : Int)).toNat : Nat) : ℚ) <
          ((d * 2 ^ ((ilog2 n : Int) - (ilog2 d : Int)).toNat : Nat) : ℚ) := by
        exact_mod_cast h
      push_cast at this ⊢
      linarith
    · intro h
      have : ((n * 2 ^ ((ilog2 d : Int) - (ilog2 n : Int)).toNat : Nat) : ℚ) <
          ((d * 2 ^ ((ilog2 n : Int) - (ilog2 d : Int)).toNat : Nat) : ℚ) := by
        push_cast at h ⊢
        linarith
      exact_mod_cast this
  unfold binaryExponent
  by_cases h : n * 2 ^ ((ilog2 d : Int) - (ilog2 n : Int)).toNat <
      d * 2 ^ ((ilog2 n : Int) - (ilog2 d : Int)).toNat
  · rw [if_pos h]
    refine ⟨lo, ?_⟩
    have : (ilog2 n : Int) - (ilog2 d : Int) - 1 + 1 = (ilog2 n : Int) - (ilog2 d : Int) := by
      ring
    rw [this]; exact htest.1 h
  · rw [if_neg h]
    exact ⟨not_lt.1 (fun hh => h (htest.2 hh)), hi⟩

theorem nearestEven_bounds (t : ℚ) :
    ⌊t⌋ ≤ nearestEven t ∧ nearestEven t ≤ ⌊t⌋ + 1 := by
  unfold nearestEven
  split_ifs <;> omega

theorem nearestEven_intCast (n : Int) : nearestEven (n : ℚ) = n := by
  unfold nearestEven
  simp

theorem nearestEven_mono {s t : ℚ} (h : s ≤ t) : nearestEven s ≤ nearestEven t := by
  have hfl : ⌊s⌋ ≤ ⌊t⌋ := Int.floor_mono h
  rcases lt_or_eq_of_le hfl with hlt | heq
  · have := (nearestEven_bounds s).2
    have := (nearestEven_bounds t).1
    omega
  · unfold nearestEven
    rw [heq]
    have hst : s - (⌊t⌋ : ℚ) ≤ t - (⌊t⌋ : ℚ) := by linarith
    split_ifs <;> first | omega | (exfalso; linarith)

theorem nearestEven_le_of_le {t : ℚ} {n : Int} (h : t ≤ (n : ℚ)) : nearestEven t ≤ n := by
  have := nearestEven_mono h
  rwa [nearestEven_intCast] at this

theorem nearestEven_ge_of_ge {t : ℚ} {n : Int} (h : (n : ℚ) ≤ t) : n ≤ nearestEven t := by
  have := nearestEven_mono h
  rwa [nearestEven_intCast] at this

/-- The rounding of a fraction of natural numbers, computed with quotient
and remainder, is the rounding to the nearest integer, ties to even. -/
theorem roundHalfEven_eq (N D : Nat) (hD : 0 < D) :
    ((roundHalfEven N D : Nat) : Int) = nearestEven ((N : ℚ) / (D : ℚ)) := by
  have hDq : (0 : ℚ) < (D : ℚ) := by exact_mod_cast hD
  have hfl : ⌊(N : ℚ) / (D : ℚ)⌋ = ((N / D : Nat) : Int) := by
    have := Rat.floor_intCast_div_natCast (N : Int) D
    simpa using this
  have hsplit : (N : ℚ) = (D : ℚ) * ((N / D : Nat) : ℚ) + ((N % D : Nat) : ℚ) := by
    exact_mod_cast (Nat.div_add_mod N D).symm
  have hfrac : (N : ℚ) / (D : ℚ) - (((N / D : Nat) : Int) : ℚ) =
      ((N % D : Nat) : ℚ) / (D : ℚ) := by
    have e : (N : ℚ) / (D : ℚ) = ((N / D : Nat) : ℚ) + ((N % D : Nat) : ℚ) / (D : ℚ) := by
      conv_lhs => rw [hsplit]
      field_simp
      ring
    rw [e, Int.cast_natCast]
    ring
  have c1 : ((N % D : Nat) : ℚ) / (D : ℚ) < 1 / 2 ↔ 2 * (N % D) < D := by
    rw [div_lt_div_iff₀ hDq (by norm_num)]
    constructor
    · intro h
      have : ((2 * (N % D) : Nat) : ℚ) < ((D : Nat) : ℚ) := by push_cast; linarith
      exact_mod_cast this
    · intro h
      have : ((2 * (N % D) : Nat) : ℚ) < ((D : Nat) : ℚ) := by exact_mod_cast h
      push_cast at this; linarith
  have c2 : 1 / 2 < ((N % D : Nat) : ℚ) / (D : ℚ) ↔ D < 2 * (N % D) := by
    rw [div_lt_div_iff₀ (by norm_num) hDq]
    constructor
    · intro h
      have : ((D : Nat) : ℚ) < ((2 * (N % D) : Nat) : ℚ) := by push_cast; linarith
      exact_mod_cast this
    · intro h
      have : ((D : Nat) : ℚ) < ((2 * (N % D) : Nat) : ℚ) := by exact_mod_cast h
      push_cast at this; linarith
  unfold nearestEven roundHalfEven
  rw [hfl, hfrac]
  by_cases h1 : 2 * (N % D) < D
  · rw [if_pos h1, if_pos (c1.2 h1)]
  · rw [if_neg h1, if_neg (fun h => h1 (c1.1 h))]
    by_cases h2 : D < 2 * (N % D)
    · rw [if_pos h2, if_pos (c2.2 h2)]
      push_cast; rfl
    · rw [if_neg h2, if_neg (fun h => h2 (c2.1 h))]
      by_cases h3 : (N / D) % 2 = 0
      · rw [if_pos h3, if_pos (by omega)]
      · rw [if_neg h3, if_neg (by omega)]
        push_cast; rfl

/-- The rounded magnitude is the fraction divided by its unit in the last
place, rounded to the nearest integer, ties to even, times that unit. -/
theorem roundMagnitude_eq (p : Nat) (emin : Int) (n d : Nat) (hd : d ≠ 0) :
    roundMagnitude p emin n d =
      (nearestEven ((n : ℚ) / (d : ℚ) / pow2 (quantum p emin n d)) : ℚ) *
        pow2 (quantum p emin n d) := by
  unfold roundMagnitude
  generalize quantum p emin n d = q
  have hu : (0 : ℚ) < ((2 ^ q.toNat : Nat) : ℚ) := by exact_mod_cast Nat.pow_pos (by decide)
  have hv : (0 : ℚ) < ((2 ^ (-q).toNat : Nat) : ℚ) := by exact_mod_cast Nat.pow_pos (by decide)
  have hdq : (0 : ℚ) < (d : ℚ) := by exact_mod_cast Nat.pos_of_ne_zero hd
  have hD : 0 < d * 2 ^ q.toNat := Nat.mul_pos (Nat.pos_of_ne_zero hd) (Nat.pow_pos (by decide))
  have harg : (n : ℚ) / (d : ℚ) / pow2 q =
      ((n * 2 ^ (-q).toNat : Nat) : ℚ) / ((d * 2 ^ q.toNat : Nat) : ℚ) := by
    rw [pow2_split]
    push_cast
    field_simp
  rw [harg, ← roundHalfEven_eq _ _ hD, Rat.mkRat_eq_div, pow2_split]
  push_cast
  field_simp

theorem roundBinary_zero (p : Nat) (emin : Int) : roundBinary p emin 0 = 0 := by
  unfold roundBinary
  rw [if_pos Rat.num_zero]

theorem roundBinary_neg (p : Nat) (emin : Int) (x : ℚ) :
    roundBinary p emin (-x) = -roundBinary p emin x := by
  unfold roundBinary
  rw [Rat.neg_num, Rat.neg_den, Int.natAbs_neg]
  by_cases h0 : x.num = 0
  · rw [if_pos h0, if_pos (by omega)]
    simp
  · rw [if_neg h0, if_neg (by omega)]
    by_cases h1 : x.num < 0
    · rw [if_pos h1, if_neg (by omega), neg_neg]
    · rw [if_neg h1, if_pos (by omega)]

/-- A positive rational as the fraction of its numerator and denominator. -/
theorem pos_fraction {x : ℚ} (hx : 0 < x) :
    x.num.natAbs ≠ 0 ∧ x.den ≠ 0 ∧ ¬ x.num = 0 ∧ ¬ x.num < 0 ∧
      (x.num.natAbs : ℚ) / (x.den : ℚ) = x := by
  have hn := Rat.num_pos.2 hx
  have hnn : (x.num.natAbs : Int) = x.num := Int.natAbs_of_nonneg (le_of_lt hn)
  refine ⟨by omega, x.den_nz, by omega, by omega, ?_⟩
  have : ((x.num.natAbs : Nat) : ℚ) = (x.num : ℚ) := by
    rw [← Int.cast_natCast, hnn]
  rw [this]
  exact Rat.num_div_den x

/-- The rounding of a positive rational: the rational divided by its unit in
the last place, rounded to the nearest integer, ties to even, times that
unit. -/
theorem roundBinary_pos (p : Nat) (emin : Int) {x : ℚ} (hx : 0 < x) :
    roundBinary p emin x =
      (nearestEven (x / pow2 (quantum p emin x.num.natAbs x.den)) : ℚ) *
        pow2 (quantum p emin x.num.natAbs x.den) := by
  obtain ⟨_, hd, h0, h1, hfr⟩ := pos_fraction hx
  unfold roundBinary
  rw [if_neg h0, if_neg h1, roundMagnitude_eq p emin _ _ hd, hfr]

theorem exponent_pos {x : ℚ} (hx : 0 < x) :
    pow2 (binaryExponent x.num.natAbs x.den) ≤ x ∧
    x < pow2 (binaryExponent x.num.natAbs x.den + 1) := by
  obtain ⟨hn, hd, _, _, hfr⟩ := pos_fraction hx
  have := binaryExponent_spec _ _ hn hd
  rwa [hfr] at this

theorem roundBinary_nonneg (p : Nat) (emin : Int) (x : ℚ) (hx : 0 ≤ x) :
    0 ≤ roundBinary p emin x := by
  rcases eq_or_lt_of_le hx with h0 | hpos
  · rw [← h0, roundBinary_zero]
  · rw [roundBinary_pos p emin hpos]
    apply mul_nonneg _ (le_of_lt (pow2_pos _))
    have : (0 : ℚ) ≤ x / pow2 (quantum p emin x.num.natAbs x.den) :=
      div_nonneg hx (le_of_lt (pow2_pos _))
    have := nearestEven_ge_of_ge (n := 0) (by simpa using this)
    exact_mod_cast this

theorem roundBinary_nonpos (p : Nat) (emin : Int) (x : ℚ) (hx : x ≤ 0) :
    roundBinary p emin x ≤ 0 := by
  have h := roundBinary_nonneg p emin (-x) (by linarith)
  rw [roundBinary_neg] at h
  linarith

/-- A positive multiple `m * 2 ^ c` of a power of two whose factor `m` has at
most `p` binary digits, with `c` not below the exponent of the least
subnormal number, is not changed by the rounding. -/
theorem roundBinary_exact_pos (p : Nat) (emin : Int) (m c : Int) (hm0 : 0 < m)
    (hm : m < 2 ^ p) (hc : emin - ((p : Int) - 1) ≤ c) :
    roundBinary p emin ((m : ℚ) * pow2 c) = (m : ℚ) * pow2 c := by
  have hpos : 0 < (m : ℚ) * pow2 c :=
    mul_pos (by exact_mod_cast hm0) (pow2_pos c)
  rw [roundBinary_pos p emin hpos]
  generalize hq' : quantum p emin ((m : ℚ) * pow2 c).num.natAbs ((m : ℚ) * pow2 c).den = q
  have hq : q ≤ c := by
    rw [← hq']
    unfold quantum
    apply max_le _ hc
    have hlt : (m : ℚ) * pow2 c < pow2 ((p : Int) + c) := by
      rw [pow2_add]
      apply mul_lt_mul_of_pos_right _ (pow2_pos c)
      rw [pow2_natCast]
      have : ((m : Int) : ℚ) < ((2 ^ p : Nat) : ℚ) := by exact_mod_cast hm
      simpa using this
    have := pow2_lt_iff.1 (lt_of_le_of_lt (exponent_pos hpos).1 hlt)
    omega
  obtain ⟨d, hd⟩ := Int.eq_ofNat_of_zero_le (by omega : 0 ≤ c - q)
  have hc' : c = (d : Int) + q := by omega
  have e1 : (m : ℚ) * pow2 c / pow2 q = ((m * 2 ^ d : Int) : ℚ) := by
    have hne : pow2 q ≠ 0 := ne_of_gt (pow2_pos _)
    rw [div_eq_iff hne]
    conv_lhs => rw [hc', pow2_add, pow2_natCast]
    push_cast
    ring
  rw [e1, nearestEven_intCast]
  conv_rhs => rw [hc', pow2_add, pow2_natCast]
  push_cast
  ring

/-- A multiple `m * 2 ^ c` of a power of two whose factor `m` has at most `p`
binary digits, with `c` not below the exponent of the least subnormal
number, is not changed by the rounding. -/
theorem roundBinary_exact (p : Nat) (emin : Int) (m c : Int)
    (hm : |m| < 2 ^ p) (hc : emin - ((p : Int) - 1) ≤ c) :
    roundBinary p emin ((m : ℚ) * pow2 c) = (m : ℚ) * pow2 c := by
  rw [abs_lt] at hm
  rcases lt_trichotomy m 0 with hneg | hzero | hpos
  · have h := roundBinary_exact_pos p emin (-m) c (by omega) (by omega) hc
    have e : (m : ℚ) * pow2 c = -(((-m : Int) : ℚ) * pow2 c) := by push_cast; ring
    rw [e, roundBinary_neg, h]
  · subst hzero
    simp [roundBinary_zero]
  · exact roundBinary_exact_pos p emin m c hpos hm.2 hc

/-- The rounding is monotone on the positive rationals. -/
theorem roundBinary_mono (p : Nat) (emin : Int) (hp : 1 ≤ p) {x y : ℚ} (hx : 0 < x)
    (hxy : x ≤ y) : roundBinary p emin x ≤ roundBinary p emin y := by
  have hy : 0 < y := lt_of_lt_of_le hx hxy
  rw [roundBinary_pos p emin hx, roundBinary_pos p emin hy]
  have ex := exponent_pos hx
  have ey := exponent_pos hy
  generalize hex' : binaryExponent x.num.natAbs x.den = bx at ex
  generalize hey' : binaryExponent y.num.natAbs y.den = by_ at ey
  have hexy : bx ≤ by_ := by
    have := pow2_lt_iff.1 (lt_of_le_of_lt (le_trans ex.1 hxy) ey.2)
    omega
  have hqx : quantum p emin x.num.natAbs x.den =
      max (bx - ((p : Int) - 1)) (emin - ((p : Int) - 1)) := by
    unfold quantum; rw [hex']
  have hqy : quantum p emin y.num.natAbs y.den =
      max (by_ - ((p : Int) - 1)) (emin - ((p : Int) - 1)) := by
    unfold quantum; rw [hey']
  generalize quantum p emin x.num.natAbs x.den = qx at hqx ⊢
  generalize quantum p emin y.num.natAbs y.den = qy at hqy ⊢
  have hq : qx ≤ qy := by
    rw [hqx, hqy]; exact max_le_max (by omega) (le_refl _)
  rcases lt_or_eq_of_le hq with hlt | heq
  · -- different units: `2 ^ by_` lies between the two results
    have hqy' : qy = by_ - ((p : Int) - 1) := by
      rw [hqy]
      apply max_eq_left
      by_contra hcon
      rw [hqx, hqy, max_eq_right (by omega : by_ - ((p : Int) - 1) ≤ _)] at hlt
      have := le_max_right (bx - ((p : Int) - 1)) (emin - ((p : Int) - 1))
      omega
    have hex : bx < by_ := by
      have := le_max_left (bx - ((p : Int) - 1)) (emin - ((p : Int) - 1))
      rw [← hqx] at this
      omega
    obtain ⟨d, hd⟩ := Int.eq_ofNat_of_zero_le (by omega : 0 ≤ by_ - qx)
    have hA : (nearestEven (x / pow2 qx) : ℚ) * pow2 qx ≤ pow2 by_ := by
      have hxlt : x ≤ pow2 by_ := le_trans (le_of_lt ex.2) (pow2_le (by omega))
      have e : pow2 by_ = ((2 ^ d : Nat) : ℚ) * pow2 qx := by
        rw [← pow2_natCast, ← pow2_add]; congr 1; omega
      have : x / pow2 qx ≤ (((2 ^ d : Nat) : Int) : ℚ) := by
        rw [div_le_iff₀ (pow2_pos _)]
        push_cast
        push_cast at e
        rw [← e]; exact hxlt
      have := nearestEven_le_of_le this
      rw [e]
      apply mul_le_mul_of_nonneg_right _ (le_of_lt (pow2_pos _))
      exact_mod_cast this
    obtain ⟨d', hd'⟩ := Int.eq_ofNat_of_zero_le (by omega : 0 ≤ (p : Int) - 1)
    have hB : pow2 by_ ≤ (nearestEven (y / pow2 qy) : ℚ) * pow2 qy := by
      have e : pow2 by_ = ((2 ^ d' : Nat) : ℚ) * pow2 qy := by
        rw [← pow2_natCast, ← pow2_add]; congr 1; omega
      have : (((2 ^ d' : Nat) : Int) : ℚ) ≤ y / pow2 qy := by
        rw [le_div_iff₀ (pow2_pos _)]
        push_cast
        push_cast at e
        rw [← e]; exact ey.1
      have := nearestEven_ge_of_ge this
      rw [e]
      apply mul_le_mul_of_nonneg_right _ (le_of_lt (pow2_pos _))
      exact_mod_cast this
    exact le_trans hA hB
  · rw [← heq]
    apply mul_le_mul_of_nonneg_right _ (le_of_lt (pow2_pos _))
    have : x / pow2 qx ≤ y / pow2 qx :=
      div_le_div_of_nonneg_right hxy (le_of_lt (pow2_pos _))
    exact_mod_cast nearestEven_mono this

theorem pos_of_fl32_pos {x : ℚ} (h : 0 < fl32 x) : 0 < x := by
  by_contra hx
  have := roundBinary_nonpos 24 (-126) x (not_lt.1 hx)
  unfold fl32 at h
  linarith

theorem fl32_zero : fl32 0 = 0 := roundBinary_zero _ _

/-- The `double` literal `0.3`. -/
theorem fl64_three_tenths : fl64 0.3 = 5404319552844595 / 18014398509481984 := by
  decide!

/-- The `float` nearest to 0.3. -/
theorem fl32_three_tenths : fl32 0.3 = 5033165 / 16777216 := by
  decide!

/-- The `double` literal `0.02`. -/
theorem fl64_two_hundredths : fl64 0.02 = 5764607523034235 / 288230376151711744 := by
  decide!

theorem fl64_three_tenths_pos : 0 < fl64 0.3 := by
  rw [fl64_three_tenths]; norm_num

/-- A `float` difference above the `double` 0.3 comes from a positive exact
difference. -/
theorem pos_of_fl32_gt {x : ℚ} (h : fl32 x > fl64 0.3) : 0 < x :=
  pos_of_fl32_pos (lt_trans fl64_three_tenths_pos h)

/-- An exact difference above 0.3 gives a `float` difference above the
`double` 0.3: the rounding is monotone, the `float` nearest to 0.3 lies above
0.3 and the `double` nearest to 0.3 lies below it. -/
theorem fl32_gt_of_gt {x : ℚ} (h : x > 0.3) : fl32 x > fl64 0.3 := by
  have h1 : fl32 0.3 ≤ fl32 x :=
    roundBinary_mono 24 (-126) (by decide) (by norm_num) (le_of_lt h)
  rw [fl32_three_tenths] at h1
  rw [fl64_three_tenths]
  have : (5404319552844595 / 18014398509481984 : ℚ) < 5033165 / 16777216 := by norm_num
  exact lt_of_lt_of_le this h1

/-- A multiple `m / 2 ^ k` of a power of two with `|m| < 2 ^ 24` and `k ≤ 149`
is a binary32 number. -/
theorem fl32_grid (k : Nat) (hk : k ≤ 149) (m : Int) (hm : |m| < 2 ^ 24) :
    fl32 ((m : ℚ) / 2 ^ k) = (m : ℚ) / 2 ^ k := by
  have e : (m : ℚ) / 2 ^ k = (m : ℚ) * pow2 (-(k : Int)) := by
    rw [pow2_eq, zpow_neg, zpow_natCast, div_eq_mul_inv]
  rw [e]
  exact roundBinary_exact 24 (-126) m (-(k : Int)) hm (by push_cast; omega)

/-- The expression `diffRange` involves no rounding when the eleven ranges
are multiples `m / 2 ^ k` of one power of two with `|m| ≤ B` and
`20 * B < 2 ^ 24`. -/
theorem diffRange_exact (k : Nat) (hk : k ≤ 149) (B : Int) (hB : 20 * B < 2 ^ 24)
    (m5 m4 m3 m2 m1 m0 n1 n2 n3 n4 n5 : Int)
    (h5 : |m5| ≤ B) (h4 : |m4| ≤ B) (h3 : |m3| ≤ B) (h2 : |m2| ≤ B) (h1 : |m1| ≤ B)
    (h0 : |m0| ≤ B) (g1 : |n1| ≤ B) (g2 : |n2| ≤ B) (g3 : |n3| ≤ B) (g4 : |n4| ≤ B)
    (g5 : |n5| ≤ B) :
    diffRange ((m5 : ℚ) / 2 ^ k) ((m4 : ℚ) / 2 ^ k) ((m3 : ℚ) / 2 ^ k) ((m2 : ℚ) / 2 ^ k)
      ((m1 : ℚ) / 2 ^ k) ((m0 : ℚ) / 2 ^ k) ((n1 : ℚ) / 2 ^ k) ((n2 : ℚ) / 2 ^ k)
      ((n3 : ℚ) / 2 ^ k) ((n4 : ℚ) / 2 ^ k) ((n5 : ℚ) / 2 ^ k) =
    ((m5 + m4 + m3 + m2 + m1 - m0 * 10 + n1 + n2 + n3 + n4 + n5 : Int) : ℚ) / 2 ^ k := by
  rw [abs_le] at h5 h4 h3 h2 h1 h0 g1 g2 g3 g4 g5
  have hp : (0 : ℚ) < 2 ^ k := by positivity
  have step : ∀ (a b : Int), |a + b| < 2 ^ 24 →
      fl32 ((a : ℚ) / 2 ^ k + (b : ℚ) / 2 ^ k) = ((a + b : Int) : ℚ) / 2 ^ k := by
    intro a b hab
    have e : (a : ℚ) / 2 ^ k + (b : ℚ) / 2 ^ k = ((a + b : Int) : ℚ) / 2 ^ k := by
      push_cast; ring
    rw [e]
    exact fl32_grid k hk _ hab
  have stepm : fl32 ((m0 : ℚ) / 2 ^ k * 10) = ((m0 * 10 : Int) : ℚ) / 2 ^ k := by
    have e : (m0 : ℚ) / 2 ^ k * 10 = ((m0 * 10 : Int) : ℚ) / 2 ^ k := by
      push_cast; ring
    rw [e]
    exact fl32_grid k hk _ (by rw [abs_lt]; constructor <;> omega)
  have steps : ∀ (a b : Int), |a - b| < 2 ^ 24 →
      fl32 ((a : ℚ) / 2 ^ k - (b : ℚ) / 2 ^ k) = ((a - b : Int) : ℚ) / 2 ^ k := by
    intro a b hab
    have e : (a : ℚ) / 2 ^ k - (b : ℚ) / 2 ^ k = ((a - b : Int) : ℚ) / 2 ^ k := by
      push_cast; ring
    rw [e]
    exact fl32_grid k hk _ hab
  unfold diffRange
  rw [step m5 m4 (by rw [abs_lt]; constructor <;> omega),
    step _ m3 (by rw [abs_lt]; constructor <;> omega),
    step _ m2 (by rw [abs_lt]; constructor <;> omega),
    step _ m1 (by rw [abs_lt]; constructor <;> omega),
    stepm,
    steps _ _ (by rw [abs_lt]; constructor <;> omega),
    step _ n1 (by rw [abs_lt]; constructor <;> omega),
    step _ n2 (by rw [abs_lt]; constructor <;> omega),
    step _ n3 (by rw [abs_lt]; constructor <;> omega),
    step _ n4 (by rw [abs_lt]; constructor <;> omega),
    step _ n5 (by rw [abs_lt]; constructor <;> omega)]

/-- Rounding to binary32 does not pass a bound that is itself a binary32
number: if `|x| ≤ m * 2 ^ k` with `0 < m < 2 ^ 24`, then
`|fl32 x| ≤ m * 2 ^ k`. -/
theorem fl32_abs_le (m : Int) (k : Nat) (hm0 : 0 < m) (hm : m < 2 ^ 24) (x : ℚ)
    (h : |x| ≤ (m : ℚ) * 2 ^ k) : |fl32 x| ≤ (m : ℚ) * 2 ^ k := by
  have e : (m : ℚ) * 2 ^ k = (m : ℚ) * pow2 (k : Int) := by
    rw [pow2_eq, zpow_natCast]
  have hex : roundBinary 24 (-126) ((m : ℚ) * 2 ^ k) = (m : ℚ) * 2 ^ k := by
    rw [e]
    exact roundBinary_exact_pos 24 (-126) m k hm0 hm (by omega)
  unfold fl32
  rcases lt_trichotomy x 0 with hneg | hzero | hpos
  · have h1 : -x ≤ (m : ℚ) * 2 ^ k := by
      rw [abs_of_neg hneg] at h
      exact h
    have h2 := roundBinary_mono 24 (-126) (by norm_num) (by linarith : (0 : ℚ) < -x) h1
    rw [roundBinary_neg, hex] at h2
    have h3 := roundBinary_nonpos 24 (-126) x (le_of_lt hneg)
    rw [abs_of_nonpos h3]
    exact h2
  · rw [hzero, roundBinary_zero, abs_zero]
    have : (0 : ℚ) < (m : ℚ) * 2 ^ k := mul_pos (by exact_mod_cast hm0) (by positivity)
    linarith
  · have h1 : x ≤ (m : ℚ) * 2 ^ k := by
      rw [abs_of_pos hpos] at h
      exact h
    have h2 := roundBinary_mono 24 (-126) (by norm_num) hpos h1
    rw [hex] at h2
    have h3 := roundBinary_nonneg 24 (-126) x (le_of_lt hpos)
    rw [abs_of_nonneg h3]
    exact h2

/-- The expression `diffRange` on eleven ranges of magnitude at most `2 ^ k`
has magnitude at most `20 * 2 ^ k`, and so has every intermediate result. -/
theorem diffRange_abs_le (k : Nat) (a5 a4 a3 a2 a1 r0 b1 b2 b3 b4 b5 : ℚ)
    (h5 : |a5| ≤ 2 ^ k) (h4 : |a4| ≤ 2 ^ k) (h3 : |a3| ≤ 2 ^ k) (h2 : |a2| ≤ 2 ^ k)
    (h1 : |a1| ≤ 2 ^ k) (h0 : |r0| ≤ 2 ^ k) (g1 : |b1| ≤ 2 ^ k) (g2 : |b2| ≤ 2 ^ k)
    (g3 : |b3| ≤ 2 ^ k) (g4 : |b4| ≤ 2 ^ k) (g5 : |b5| ≤ 2 ^ k) :
    |diffRange a5 a4 a3 a2 a1 r0 b1 b2 b3 b4 b5| ≤ 20 * 2 ^ k := by
  have add : ∀ (m : Int) (s b : ℚ), 0 < m → m + 1 < 2 ^ 24 → |s| ≤ (m : ℚ) * 2 ^ k →
      |b| ≤ 2 ^ k → |fl32 (s + b)| ≤ ((m + 1 : Int) : ℚ) * 2 ^ k := by
    intro m s b hm0 hm hs hb
    apply fl32_abs_le (m + 1) k (by omega) hm
    have := abs_add s b
    push_cast
    linarith
  have s1 : |fl32 (a5 + a4)| ≤ ((2 : Int) : ℚ) * 2 ^ k := by
    apply fl32_abs_le 2 k (by norm_num) (by norm_num)
    have := abs_add a5 a4
    push_cast
    linarith
  have s2 := add 2 _ a3 (by norm_num) (by norm_num) s1 h3
  have s3 := add (2 + 1) _ a2 (by norm_num) (by norm_num) s2 h2
  have s4 := add (2 + 1 + 1) _ a1 (by norm_num) (by norm_num) s3 h1
  have t : |fl32 (r0 * 10)| ≤ ((10 : Int) : ℚ) * 2 ^ k := by
    apply fl32_abs_le 10 k (by norm_num) (by norm_num)
    rw [abs_mul]
    have : |(10 : ℚ)| = 10 := abs_of_pos (by norm_num)
    rw [this]
    push_cast
    linarith
  have s5 : |fl32 (fl32 (fl32 (fl32 (fl32 (a5 + a4) + a3) + a2) + a1) - fl32 (r0 * 10))|
      ≤ ((15 : Int) : ℚ) * 2 ^ k := by
    apply fl32_abs_le 15 k (by norm_num) (by norm_num)
    have := abs_sub (fl32 (fl32 (fl32 (fl32 (a5 + a4) + a3) + a2) + a1)) (fl32 (r0 * 10))
    push_cast at s4 t ⊢
    linarith
  have s6 := add 15 _ b1 (by norm_num) (by norm_num) s5 g1
  have s7 := add (15 + 1) _ b2 (by norm_num) (by norm_num) s6 g2
  have s8 := add (15 + 1 + 1) _ b3 (by norm_num) (by norm_num) s7 g3
  have s9 := add (15 + 1 + 1 + 1) _ b4 (by norm_num) (by norm_num) s8 g4
  have s10 := add (15 + 1 + 1 + 1 + 1) _ b5 (by norm_num) (by norm_num) s9 g5
  unfold diffRange
  push_cast at s10
  norm_num at s10 ⊢
  linarith

/-! ## Basic facts: results, arrays, loops -/

@[simp] theorem bind_ok {α β : Type} (a : α) (f : α → Exec β) :
    (Except.ok a >>= f) = f a := rfl

@[simp] theorem bind_error {α β : Type} (e : Fault) (f : α → Exec β) :
    ((Except.error e : Exec α) >>= f) = Except.error e := rfl

@[simp] theorem pure_eq_ok {α : Type} (a : α) : (pure a : Exec α) = Except.ok a := rfl

theorem bind_eq_ok {α β : Type} {x : Exec α} {f : α → Exec β} {b : β}
    (h : (x >>= f) = Except.ok b) : ∃ a, x = Except.ok a ∧ f a = Except.ok b := by
  cases x with
  | error e => simp at h
  | ok a => exact ⟨a, rfl, by simpa using h⟩

theorem fault_eq (e : Fault) : e = Fault.outOfBounds := by
  cases e; rfl

theorem map_ok {α β : Type} {f : α → β} {x : Exec α} {b : β}
    (h : Except.map f x = .ok b) : ∃ a, x = .ok a ∧ f a = b := by
  cases x with
  | error e => cases h
  | ok a => exact ⟨a, rfl, Except.ok.inj h⟩

theorem completes_outcome {α : Type} (x : Exec α) (d : α) (h : completes x = true) :
    x = .ok (outcome x d) := by
  cases x with
  | error e => simp [completes] at h
  | ok a => rfl

theorem rd_ok_iff {α : Type} (a : List α) (i : Int) (v : α) :
    rd a i = .ok v ↔ 0 ≤ i ∧ a[i.toNat]? = some v := by
  unfold rd
  by_cases h : i < 0
  · simp only [h, if_true]
    constructor
    · intro e; cases e
    · intro e; omega
  · simp only [h, if_false]
    cases h2 : a[i.toNat]? with
    | none =>
      constructor
      · intro e; cases e
      · intro e; cases e.2
    | some w =>
      constructor
      · intro e
        cases e
        exact ⟨by omega, rfl⟩
      · intro e
        cases e.2
        rfl

theorem rd_ok_bounds {α : Type} {a : List α} {i : Int} {v : α} (h : rd a i = .ok v) :
    0 ≤ i ∧ i < (a.length : Int) := by
  rw [rd_ok_iff] at h
  obtain ⟨h0, h1⟩ := h
  have := (List.getElem?_eq_some_iff.mp h1).1
  omega

theorem rd_ok_of_bounds {α : Type} (a : List α) (i : Int) (h0 : 0 ≤ i)
    (h1 : i < (a.length : Int)) : ∃ v, rd a i = .ok v := by
  have hlt : i.toNat < a.length := by omega
  refine ⟨a[i.toNat], ?_⟩
  rw [rd_ok_iff]
  exact ⟨h0, List.getElem?_eq_getElem hlt⟩

theorem rd_error_of_not_bounds {α : Type} (a : List α) (i : Int)
    (h : ¬ (0 ≤ i ∧ i < (a.length : Int))) : rd a i = .error .outOfBounds := by
  cases hr : rd a i with
  | error e => rw [fault_eq e]
  | ok v => exact absurd (rd_ok_bounds hr) h

theorem wr_ok_iff {α : Type} (a : List α) (i : Int) (v : α) (a' : List α) :
    wr a i v = .ok a' ↔ (0 ≤ i ∧ i < (a.length : Int)) ∧ a' = a.set i.toNat v := by
  unfold wr
  by_cases h : 0 ≤ i ∧ i.toNat < a.length
  · rw [if_pos h]
    constructor
    · intro e
      cases e
      exact ⟨⟨h.1, by omega⟩, rfl⟩
    · intro e
      rw [e.2]
  · rw [if_neg h]
    constructor
    · intro e; cases e
    · intro e; exact absurd ⟨e.1.1, by omega⟩ h

theorem wr_ok_of_bounds {α : Type} (a : List α) (i : Int) (v : α) (h0 : 0 ≤ i)
    (h1 : i < (a.length : Int)) : ∃ a', wr a i v = .ok a' :=
  ⟨a.set i.toNat v, (wr_ok_iff a i v _).mpr ⟨⟨h0, h1⟩, rfl⟩⟩

theorem wr_error_of_not_bounds {α : Type} (a : List α) (i : Int) (v : α)
    (h : ¬ (0 ≤ i ∧ i < (a.length : Int))) : wr a i v = .error .outOfBounds := by
  cases hr : wr a i v with
  | error e => rw [fault_eq e]
  | ok a' => exact absurd ((wr_ok_iff a i v a').mp hr).1 h

theorem wr_length {α : Type} {a a' : List α} {i : Int} {v : α} (h : wr a i v = .ok a') :
    a'.length = a.length := by
  rw [wr_ok_iff] at h
  rw [h.2, List.length_set]

theorem wr_bounds {α : Type} {a a' : List α} {i : Int} {v : α} (h : wr a i v = .ok a') :
    0 ≤ i ∧ i < (a.length : Int) := ((wr_ok_iff a i v a').mp h).1

theorem rd_wr {α : Type} {a a' : List α} {i : Int} {v : α} (h : wr a i v = .ok a') (j : Int) :
    rd a' j = if j = i then .ok v else rd a j := by
  rw [wr_ok_iff] at h
  obtain ⟨⟨h0, h1⟩, rfl⟩ := h
  by_cases hj : j = i
  · subst hj
    simp only [if_true]
    rw [rd_ok_iff]
    refine ⟨h0, ?_⟩
    rw [List.getElem?_set]
    have : j.toNat < a.length := by omega
    simp [this]
  · simp only [hj, if_false]
    unfold rd
    by_cases hneg : j < 0
    · simp [hneg]
    · simp only [hneg, if_false]
      have hne : i.toNat ≠ j.toNat := by omega
      rw [List.getElem?_set]
      simp [hne]

theorem rd_wr_same {α : Type} {a a' : List α} {i : Int} {v : α} (h : wr a i v = .ok a') :
    rd a' i = .ok v := by
  rw [rd_wr h]; simp

theorem rd_wr_other {α : Type} {a a' : List α} {i : Int} {v : α} (h : wr a i v = .ok a')
    {j : Int} (hj : j ≠ i) : rd a' j = rd a j := by
  rw [rd_wr h]; simp [hj]

theorem rd_congr_length {α : Type} {a b : List α} (h : a.length = b.length) (i : Int) :
    (∃ v, rd a i = .ok v) ↔ (∃ v, rd b i = .ok v) := by
  constructor
  · rintro ⟨v, hv⟩
    have := rd_ok_bounds hv
    exact rd_ok_of_bounds b i this.1 (by omega)
  · rintro ⟨v, hv⟩
    have := rd_ok_bounds hv
    exact rd_ok_of_bounds a i this.1 (by omega)

theorem rangeAt_of_rd {ci : cloud_info} {i : Int} {v : ℚ} (h : rd ci.pointRange i = .ok v) :
    v = rangeAt ci i := by
  rw [rd_ok_iff] at h
  simp [rangeAt, h.2]

theorem colAt_of_rd {ci : cloud_info} {i : Int} {v : Int} (h : rd ci.pointColInd i = .ok v) :
    v = colAt ci i := by
  rw [rd_ok_iff] at h
  simp [colAt, h.2]

theorem rd_range_of_bounds (ci : cloud_info) (i : Int) (h0 : 0 ≤ i)
    (h1 : i < (ci.pointRange.length : Int)) : rd ci.pointRange i = .ok (rangeAt ci i) := by
  obtain ⟨v, hv⟩ := rd_ok_of_bounds ci.pointRange i h0 h1
  rw [hv, rangeAt_of_rd hv]

theorem rd_col_of_bounds (ci : cloud_info) (i : Int) (h0 : 0 ≤ i)
    (h1 : i < (ci.pointColInd.length : Int)) : rd ci.pointColInd i = .ok (colAt ci i) := by
  obtain ⟨v, hv⟩ := rd_ok_of_bounds ci.pointColInd i h0 h1
  rw [hv, colAt_of_rd hv]

theorem mem_upTo (lo hi k : Int) : k ∈ upTo lo hi ↔ lo ≤ k ∧ k < hi := by
  unfold upTo
  rw [List.mem_map]
  constructor
  · rintro ⟨t, ht, rfl⟩
    rw [List.mem_range] at ht
    omega
  · rintro ⟨h1, h2⟩
    exact ⟨(k - lo).toNat, List.mem_range.mpr (by omega), by omega⟩

theorem mem_downTo (hi lo k : Int) : k ∈ downTo hi lo ↔ lo ≤ k ∧ k ≤ hi := by
  unfold downTo
  rw [List.mem_map]
  constructor
  · rintro ⟨t, ht, rfl⟩
    rw [List.mem_range] at ht
    omega
  · rintro ⟨h1, h2⟩
    exact ⟨(hi - k).toNat, List.mem_range.mpr (by omega), by omega⟩

theorem nodup_upTo (lo hi : Int) : (upTo lo hi).Nodup := by
  unfold upTo
  refine (List.nodup_range _).map ?_
  intro a b h
  simp only at h
  omega

theorem nodup_downTo (hi lo : Int) : (downTo hi lo).Nodup := by
  unfold downTo
  refine (List.nodup_range _).map ?_
  intro a b h
  simp only at h
  omega

/-! ## Loop rules -/

theorem forM_inv {σ : Type} (body : Int → σ → Exec σ) (I : σ → Prop) :
    ∀ (l : List Int) (s s' : σ),
      (∀ i ∈ l, ∀ t t', I t → body i t = .ok t' → I t') →
      I s → forM body l s = .ok s' → I s' := by
  intro l
  induction l with
  | nil =>
    intro s s' _ hs h
    simp only [forM, Except.ok.injEq] at h
    exact h ▸ hs
  | cons i rest ih =>
    intro s s' hb hs h
    simp only [forM] at h
    cases hbi : body i s with
    | error e => simp [hbi] at h
    | ok t =>
      simp only [hbi] at h
      exact ih t s' (fun k hk => hb k (List.mem_cons_of_mem _ hk))
        (hb i (List.mem_cons_self _ _) s t hs hbi) h

theorem forM_append {σ : Type} (body : Int → σ → Exec σ) :
    ∀ (l1 l2 : List Int) (s : σ),
      forM body (l1 ++ l2) s = (forM body l1 s >>= forM body l2) := by
  intro l1
  induction l1 with
  | nil => intro l2 s; simp [forM]
  | cons i rest ih =>
    intro l2 s
    simp only [List.cons_append, forM]
    cases hbi : body i s with
    | error e => simp
    | ok t => simp [ih]

theorem forM_total {σ : Type} (body : Int → σ → Exec σ) (I : σ → Prop) :
    ∀ (l : List Int) (s : σ),
      (∀ i ∈ l, ∀ t, I t → ∃ t', body i t = .ok t' ∧ I t') →
      I s → ∃ s', forM body l s = .ok s' ∧ I s' := by
  intro l
  induction l with
  | nil => intro s _ hs; exact ⟨s, rfl, hs⟩
  | cons i rest ih =>
    intro s hb hs
    obtain ⟨t, ht, hIt⟩ := hb i (List.mem_cons_self _ _) s hs
    obtain ⟨s', hs', hI⟩ := ih t (fun k hk => hb k (List.mem_cons_of_mem _ hk)) hIt
    exact ⟨s', by simp only [forM, ht, hs'], hI⟩

theorem loopM_inv {σ : Type} (body : Int → σ → Exec (Bool × σ)) (I : σ → Prop) :
    ∀ (l : List Int) (s s' : σ),
      (∀ i ∈ l, ∀ t b t', I t → body i t = .ok (b, t') → I t') →
      I s → loopM body l s = .ok s' → I s' := by
  intro l
  induction l with
  | nil =>
    intro s s' _ hs h
    simp only [loopM, Except.ok.injEq] at h
    exact h ▸ hs
  | cons i rest ih =>
    intro s s' hb hs h
    simp only [loopM] at h
    cases hbi : body i s with
    | error e => simp [hbi] at h
    | ok r =>
      obtain ⟨b, t⟩ := r
      have hIt := hb i (List.mem_cons_self _ _) s b t hs hbi
      cases b with
      | true =>
        simp only [hbi, Except.ok.injEq] at h
        exact h ▸ hIt
      | false =>
        simp only [hbi] at h
        exact ih t s' (fun k hk => hb k (List.mem_cons_of_mem _ hk)) hIt h

theorem execRel_bind {α β γ δ : Type} {R : α → β → Prop} {Q : γ → δ → Prop}
    {x : Exec α} {y : Exec β} {f : α → Exec γ} {g : β → Exec δ}
    (hxy : ExecRel R x y) (hfg : ∀ a b, R a b → ExecRel Q (f a) (g b)) :
    ExecRel Q (x >>= f) (y >>= g) := by
  cases x with
  | error e =>
    cases y with
    | error e' => simp [ExecRel]
    | ok b => simp [ExecRel] at hxy
  | ok a =>
    cases y with
    | error e' => simp [ExecRel] at hxy
    | ok b => simpa using hfg a b (by simpa [ExecRel] using hxy)

theorem execRel_bind_ok {α β γ δ : Type} {R : α → β → Prop} {Q : γ → δ → Prop}
    {x : Exec α} {y : Exec β} {f : α → Exec γ} {g : β → Exec δ}
    (hxy : ExecRel R x y)
    (hfg : ∀ a b, x = .ok a → y = .ok b → R a b → ExecRel Q (f a) (g b)) :
    ExecRel Q (x >>= f) (y >>= g) := by
  cases x with
  | error e =>
    cases y with
    | error e' => simp [ExecRel]
    | ok b => simp [ExecRel] at hxy
  | ok a =>
    cases y with
    | error e' => simp [ExecRel] at hxy
    | ok b => simpa using hfg a b rfl rfl (by simpa [ExecRel] using hxy)

theorem execRel_ok {α β : Type} {R : α → β → Prop} {a : α} {b : β} (h : R a b) :
    ExecRel R (Except.ok a : Exec α) (Except.ok b : Exec β) := h

theorem execRel_error {α β : Type} {R : α → β → Prop} (e e' : Fault) :
    ExecRel R (Except.error e : Exec α) (Except.error e' : Exec β) := trivial

theorem forM_rel {σ τ : Type} (body : Int → σ → Exec σ) (body' : Int → τ → Exec τ)
    (R : σ → τ → Prop) :
    ∀ (l : List Int) (s : σ) (t : τ),
      (∀ i ∈ l, ∀ s t, R s t → ExecRel R (body i s) (body' i t)) →
      R s t → ExecRel R (forM body l s) (forM body' l t) := by
  intro l
  induction l with
  | nil => intro s t _ h; exact h
  | cons i rest ih =>
    intro s t hb h
    have h1 := hb i (List.mem_cons_self _ _) s t h
    simp only [forM]
    cases hs : body i s with
    | error e =>
      cases ht : body' i t with
      | error e' => trivial
      | ok t1 => simp [hs, ht, ExecRel] at h1
    | ok s1 =>
      cases ht : body' i t with
      | error e' => simp [hs, ht, ExecRel] at h1
      | ok t1 =>
        simp only [hs, ht, ExecRel] at h1
        exact ih s1 t1 (fun k hk => hb k (List.mem_cons_of_mem _ hk)) h1

theorem loopM_rel {σ τ : Type} (body : Int → σ → Exec (Bool × σ))
    (body' : Int → τ → Exec (Bool × τ)) (R : σ → τ → Prop) :
    ∀ (l : List Int) (s : σ) (t : τ),
      (∀ i ∈ l, ∀ s t, R s t →
        ExecRel (fun p q => p.1 = q.1 ∧ R p.2 q.2) (body i s) (body' i t)) →
      R s t → ExecRel R (loopM body l s) (loopM body' l t) := by
  intro l
  induction l with
  | nil => intro s t _ h; exact h
  | cons i rest ih =>
    intro s t hb h
    have h1 := hb i (List.mem_cons_self _ _) s t h
    simp only [loopM]
    cases hs : body i s with
    | error e =>
      cases ht : body' i t with
      | error e' => trivial
      | ok t1 => simp [hs, ht, ExecRel] at h1
    | ok s1 =>
      cases ht : body' i t with
      | error e' => simp [hs, ht, ExecRel] at h1
      | ok t1 =>
        simp only [hs, ht, ExecRel] at h1
        obtain ⟨b, s2⟩ := s1
        obtain ⟨b', t2⟩ := t1
        simp only at h1
        obtain ⟨rfl, h2⟩ := h1
        cases b with
        | true => exact h2
        | false => exact ih s2 t2 (fun k hk => hb k (List.mem_cons_of_mem _ hk)) h2

/-! ## `calculateSmoothness` -/

theorem smoothnessStep_spec (ci : cloud_info) (i : Int) (st : FeatureExtraction)
    (h5 : 5 ≤ i) (hr : i + 5 < (ci.pointRange.length : Int))
    (hs : i < (st.cloudSmoothness.length : Int)) (hc : i < (st.cloudCurvature.length : Int))
    (hp : i < (st.cloudNeighborPicked.length : Int)) (hl : i < (st.cloudLabel.length : Int)) :
    ∃ st', smoothnessStep ci i st = .ok st' ∧
      st'.cornerCloud = st.cornerCloud ∧ st'.surfaceCloud = st.surfaceCloud ∧
      st'.surfaceCloudScan = st.surfaceCloudScan ∧
      wr st.cloudCurvature i (curvatureAt ci i) = .ok st'.cloudCurvature ∧
      wr st.cloudNeighborPicked i 0 = .ok st'.cloudNeighborPicked ∧
      wr st.cloudLabel i 0 = .ok st'.cloudLabel ∧
      wr st.cloudSmoothness i ⟨curvatureAt ci i, i.toNat⟩ = .ok st'.cloudSmoothness := by
  obtain ⟨c', hc'⟩ := wr_ok_of_bounds st.cloudCurvature i (curvatureAt ci i) (by omega) hc
  obtain ⟨p', hp'⟩ := wr_ok_of_bounds st.cloudNeighborPicked i 0 (by omega) hp
  obtain ⟨l', hl'⟩ := wr_ok_of_bounds st.cloudLabel i 0 (by omega) hl
  obtain ⟨s', hs'⟩ := wr_ok_of_bounds st.cloudSmoothness i
    (⟨curvatureAt ci i, i.toNat⟩ : smoothness_t) (by omega) hs
  refine ⟨{ st with cloudCurvature := c', cloudNeighborPicked := p', cloudLabel := l',
                    cloudSmoothness := s' }, ?_, rfl, rfl, rfl, hc', hp', hl', hs'⟩
  unfold smoothnessStep
  rw [rd_range_of_bounds ci (i - 5) (by omega) (by omega),
    rd_range_of_bounds ci (i - 4) (by omega) (by omega),
    rd_range_of_bounds ci (i - 3) (by omega) (by omega),
    rd_range_of_bounds ci (i - 2) (by omega) (by omega),
    rd_range_of_bounds ci (i - 1) (by omega) (by omega),
    rd_range_of_bounds ci i (by omega) (by omega),
    rd_range_of_bounds ci (i + 1) (by omega) (by omega),
    rd_range_of_bounds ci (i + 2) (by omega) (by omega),
    rd_range_of_bounds ci (i + 3) (by omega) (by omega),
    rd_range_of_bounds ci (i + 4) (by omega) (by omega),
    rd_range_of_bounds ci (i + 5) (by omega) (by omega)]
  simp only [bind_ok]
  unfold curvatureAt at hc' hs'
  rw [hc', hp', hl', hs']
  rfl

/-- What a run of the loop of `calculateSmoothness` over the indices `l`
leaves in the node. -/
theorem forM_smoothnessStep (ci : cloud_info) :
    ∀ (l : List Int) (st : FeatureExtraction), l.Nodup →
      (∀ i ∈ l, 5 ≤ i ∧ i + 5 < (ci.pointRange.length : Int) ∧
        i < (st.cloudSmoothness.length : Int) ∧ i < (st.cloudCurvature.length : Int) ∧
        i < (st.cloudNeighborPicked.length : Int) ∧ i < (st.cloudLabel.length : Int)) →
      ∃ st', forM (smoothnessStep ci) l st = .ok st' ∧
        st'.cornerCloud = st.cornerCloud ∧ st'.surfaceCloud = st.surfaceCloud ∧
        st'.surfaceCloudScan = st.surfaceCloudScan ∧
        st'.cloudSmoothness.length = st.cloudSmoothness.length ∧
        st'.cloudCurvature.length = st.cloudCurvature.length ∧
        st'.cloudNeighborPicked.length = st.cloudNeighborPicked.length ∧
        st'.cloudLabel.length = st.cloudLabel.length ∧
        ∀ j : Int,
          (rd st'.cloudCurvature j =
            if j ∈ l then .ok (curvatureAt ci j) else rd st.cloudCurvature j) ∧
          (rd st'.cloudNeighborPicked j =
            if j ∈ l then .ok 0 else rd st.cloudNeighborPicked j) ∧
          (rd st'.cloudLabel j = if j ∈ l then .ok 0 else rd st.cloudLabel j) ∧
          (rd st'.cloudSmoothness j =
            if j ∈ l then .ok ⟨curvatureAt ci j, j.toNat⟩ else rd st.cloudSmoothness j) := by
  intro l
  induction l with
  | nil =>
    intro st _ _
    exact ⟨st, rfl, rfl, rfl, rfl, rfl, rfl, rfl, rfl, fun j => by simp⟩
  | cons i rest ih =>
    intro st hnd hb
    obtain ⟨h5, hr, hs, hc, hp, hl⟩ := hb i (List.mem_cons_self _ _)
    obtain ⟨st1, hst1, e1, e2, e3, w1, w2, w3, w4⟩ :=
      smoothnessStep_spec ci i st h5 hr hs hc hp hl
    have hnd' := List.nodup_cons.mp hnd
    obtain ⟨st', hst', f1, f2, f3, g1, g2, g3, g4, hj⟩ := ih st1 hnd'.2 (by
      intro k hk
      obtain ⟨a, b, c, d, e, f⟩ := hb k (List.mem_cons_of_mem _ hk)
      rw [wr_length w1, wr_length w2, wr_length w3, wr_length w4]
      exact ⟨a, b, c, d, e, f⟩)
    refine ⟨st', by simp only [forM, hst1, hst'], f1.trans e1, f2.trans e2, f3.trans e3,
      g1.trans (wr_length w4), g2.trans (wr_length w1), g3.trans (wr_length w2),
      g4.trans (wr_length w3), ?_⟩
    intro j
    obtain ⟨j1, j2, j3, j4⟩ := hj j
    by_cases hjr : j ∈ rest
    · have : j ∈ i :: rest := List.mem_cons_of_mem _ hjr
      simp only [hjr, this, if_true] at j1 j2 j3 j4 ⊢
      exact ⟨j1, j2, j3, j4⟩
    · simp only [hjr, if_false] at j1 j2 j3 j4
      rw [j1, j2, j3, j4, rd_wr w1, rd_wr w2, rd_wr w3, rd_wr w4]
      by_cases hji : j = i
      · subst hji
        simp
      · have : ¬ j ∈ i :: rest := by
          intro hm
          rcases List.mem_cons.mp hm with h | h
          · exact hji h
          · exact hjr h
        simp [hji, this]

/-- The effect of `calculateSmoothness` on a scan of `N` points whose range
array has at least `N` entries, run on working arrays with room for `N` cells:
it completes, the cells `5 ≤ j < N - 5` of the four working arrays are
overwritten, and nothing else changes. -/
theorem calculateSmoothness_spec (ci : cloud_info) (st : FeatureExtraction)
    (hr : ci.cloud_deskewed ≤ ci.pointRange.length) (hf : Fits ci.cloud_deskewed st) :
    ∃ st', calculateSmoothness ci st = .ok st' ∧
      st'.cornerCloud = st.cornerCloud ∧ st'.surfaceCloud = st.surfaceCloud ∧
      st'.surfaceCloudScan = st.surfaceCloudScan ∧
      st'.cloudSmoothness.length = st.cloudSmoothness.length ∧
      st'.cloudCurvature.length = st.cloudCurvature.length ∧
      st'.cloudNeighborPicked.length = st.cloudNeighborPicked.length ∧
      st'.cloudLabel.length = st.cloudLabel.length ∧
      ∀ j : Int,
        (rd st'.cloudCurvature j =
          if 5 ≤ j ∧ j < (ci.cloud_deskewed : Int) - 5 then .ok (curvatureAt ci j)
          else rd st.cloudCurvature j) ∧
        (rd st'.cloudNeighborPicked j =
          if 5 ≤ j ∧ j < (ci.cloud_deskewed : Int) - 5 then .ok 0
          else rd st.cloudNeighborPicked j) ∧
        (rd st'.cloudLabel j =
          if 5 ≤ j ∧ j < (ci.cloud_deskewed : Int) - 5 then .ok 0 else rd st.cloudLabel j) ∧
        (rd st'.cloudSmoothness j =
          if 5 ≤ j ∧ j < (ci.cloud_deskewed : Int) - 5 then .ok ⟨curvatureAt ci j, j.toNat⟩
          else rd st.cloudSmoothness j) := by
  obtain ⟨h1, h2, h3, h4⟩ := hf
  obtain ⟨st', hst', e1, e2, e3, g1, g2, g3, g4, hj⟩ :=
    forM_smoothnessStep ci (upTo 5 ((ci.cloud_deskewed : Int) - 5)) st (nodup_upTo _ _) (by
      intro i hi
      rw [mem_upTo] at hi
      refine ⟨hi.1, ?_, ?_, ?_, ?_, ?_⟩ <;> omega)
  refine ⟨st', hst', e1, e2, e3, g1, g2, g3, g4, ?_⟩
  intro j
  have := hj j
  simp only [mem_upTo] at this
  exact this

/-! ## `markOccludedPoints` -/

theorem markAll_spec (i : Int) :
    ∀ (ds : List Int) (pk : List Int),
      (∀ d ∈ ds, 0 ≤ i + d ∧ i + d < (pk.length : Int)) →
      ∃ pk', markAll i ds pk = .ok pk' ∧ pk'.length = pk.length ∧
        ∀ k : Int, rd pk' k = if k - i ∈ ds then .ok 1 else rd pk k := by
  intro ds
  induction ds with
  | nil => intro pk _; exact ⟨pk, rfl, rfl, fun k => by simp⟩
  | cons d rest ih =>
    intro pk hb
    obtain ⟨h0, h1⟩ := hb d (List.mem_cons_self _ _)
    obtain ⟨pk1, hpk1⟩ := wr_ok_of_bounds pk (i + d) 1 h0 h1
    obtain ⟨pk', hpk', hlen, hk⟩ := ih pk1 (by
      intro e he
      rw [wr_length hpk1]
      exact hb e (List.mem_cons_of_mem _ he))
    refine ⟨pk', by simp only [markAll, hpk1, hpk'], hlen.trans (wr_length hpk1), ?_⟩
    intro k
    rw [hk k, rd_wr hpk1]
    by_cases hr : k - i ∈ rest
    · simp [hr]
    · by_cases hd : k = i + d
      · have : k - i = d := by omega
        simp [hd, this]
      · have : ¬ k - i = d := by omega
        simp [hr, hd, this]

theorem occludedStep_spec (ci : cloud_info) (i : Int) (pk : List Int)
    (h5 : 5 ≤ i) (hr : i + 1 < (ci.pointRange.length : Int))
    (hc : i + 1 < (ci.pointColInd.length : Int)) (hp : i + 6 < (pk.length : Int)) :
    ∃ pk', occludedStep ci i pk = .ok pk' ∧ pk'.length = pk.length ∧
      ∀ k : Int, (occludedHit ci i k → rd pk' k = .ok 1) ∧
        (¬ occludedHit ci i k → rd pk' k = rd pk k) := by
  unfold occludedStep
  rw [rd_range_of_bounds ci i (by omega) (by omega),
    rd_range_of_bounds ci (i + 1) (by omega) (by omega),
    rd_col_of_bounds ci (i + 1) (by omega) (by omega),
    rd_col_of_bounds ci i (by omega) (by omega),
    rd_range_of_bounds ci (i - 1) (by omega) (by omega)]
  simp only [bind_ok]
  -- the occlusion rule
  have hA : ∃ p1, (if |colAt ci (i + 1) - colAt ci i| < 10 then
        if fl32 (rangeAt ci i - rangeAt ci (i + 1)) > fl64 0.3 then
          markAll i [-5, -4, -3, -2, -1, 0] pk
        else if fl32 (rangeAt ci (i + 1) - rangeAt ci i) > fl64 0.3 then
          markAll i [1, 2, 3, 4, 5, 6] pk
        else pure pk
      else pure pk) = Except.ok p1 ∧ p1.length = pk.length ∧
      ∀ k : Int, rd p1 k = if occlusionHit ci i k then .ok 1 else rd pk k := by
    by_cases hgap : |colAt ci (i + 1) - colAt ci i| < 10
    · by_cases hfar : fl32 (rangeAt ci i - rangeAt ci (i + 1)) > fl64 0.3
      · obtain ⟨p1, hp1, hlen, hk⟩ := markAll_spec i [-5, -4, -3, -2, -1, 0] pk (by
          intro d hd
          simp only [List.mem_cons, List.mem_singleton, List.not_mem_nil, or_false] at hd
          omega)
        refine ⟨p1, by simp only [hgap, hfar, if_true, hp1], hlen, ?_⟩
        intro k
        rw [hk k]
        have hnear : ¬ fl32 (rangeAt ci (i + 1) - rangeAt ci i) > fl64 0.3 := by
          intro h
          have := pos_of_fl32_gt h
          have := pos_of_fl32_gt hfar
          linarith
        have : (k - i ∈ [-5, -4, -3, -2, -1, 0]) ↔ occlusionHit ci i k := by
          unfold occlusionHit
          simp only [List.mem_cons, List.mem_singleton, List.not_mem_nil, or_false, hgap,
            hfar, hnear, true_and, false_and, or_false]
          omega
        simp only [this]
      · by_cases hnear : fl32 (rangeAt ci (i + 1) - rangeAt ci i) > fl64 0.3
        · obtain ⟨p1, hp1, hlen, hk⟩ := markAll_spec i [1, 2, 3, 4, 5, 6] pk (by
            intro d hd
            simp only [List.mem_cons, List.mem_singleton, List.not_mem_nil, or_false] at hd
            omega)
          refine ⟨p1, by simp only [hgap, hfar, hnear, if_true, if_false, hp1], hlen, ?_⟩
          intro k
          rw [hk k]
          have : (k - i ∈ [1, 2, 3, 4, 5, 6]) ↔ occlusionHit ci i k := by
            unfold occlusionHit
            simp only [List.mem_cons, List.mem_singleton, List.not_mem_nil, or_false, hgap,
              hfar, hnear, true_and, false_and, false_or]
            omega
          simp only [this]
        · refine ⟨pk, by simp only [hgap, hfar, hnear, if_true, if_false, pure_eq_ok], rfl, ?_⟩
          intro k
          have : ¬ occlusionHit ci i k := by
            unfold occlusionHit
            simp only [hgap, hfar, hnear, true_and, false_and, or_false, not_false_eq_true]
          simp only [this, if_false]
    · refine ⟨pk, by simp only [hgap, if_false, pure_eq_ok], rfl, ?_⟩
      intro k
      have : ¬ occlusionHit ci i k := by
        unfold occlusionHit
        simp only [hgap, false_and, or_false, not_false_eq_true]
      simp only [this, if_false]
  obtain ⟨p1, hp1, hlen1, hk1⟩ := hA
  rw [hp1]
  simp only [bind_ok]
  by_cases hB : |fl32 (rangeAt ci (i - 1) - rangeAt ci i)| > fl64 (fl64 0.02 * rangeAt ci i) ∧
      |fl32 (rangeAt ci (i + 1) - rangeAt ci i)| > fl64 (fl64 0.02 * rangeAt ci i)
  · obtain ⟨p2, hp2⟩ := wr_ok_of_bounds p1 i 1 (by omega) (by omega)
    refine ⟨p2, by simp only [hB, and_self, if_true, hp2], (wr_length hp2).trans hlen1, ?_⟩
    intro k
    rw [rd_wr hp2, hk1 k]
    unfold occludedHit parallelHit
    by_cases hki : k = i
    · subst hki
      simp [hB]
    · by_cases ho : occlusionHit ci i k
      · simp [hki, ho]
      · simp [hki, ho]
  · refine ⟨p1, by simp only [hB, if_false, pure_eq_ok], hlen1, ?_⟩
    intro k
    rw [hk1 k]
    unfold occludedHit parallelHit
    by_cases ho : occlusionHit ci i k
    · simp [ho]
    · simp [ho, hB]

theorem forM_occludedStep (ci : cloud_info) :
    ∀ (l : List Int) (pk : List Int),
      (∀ i ∈ l, 5 ≤ i ∧ i + 1 < (ci.pointRange.length : Int) ∧
        i + 1 < (ci.pointColInd.length : Int) ∧ i + 6 < (pk.length : Int)) →
      ∃ pk', forM (occludedStep ci) l pk = .ok pk' ∧ pk'.length = pk.length ∧
        ∀ k : Int, ((∃ i ∈ l, occludedHit ci i k) → rd pk' k = .ok 1) ∧
          ((¬ ∃ i ∈ l, occludedHit ci i k) → rd pk' k = rd pk k) := by
  intro l
  induction l with
  | nil =>
    intro pk _
    exact ⟨pk, rfl, rfl, fun k => ⟨fun ⟨i, hi, _⟩ => absurd hi (List.not_mem_nil _),
      fun _ => rfl⟩⟩
  | cons i rest ih =>
    intro pk hb
    obtain ⟨h5, hr, hc, hp⟩ := hb i (List.mem_cons_self _ _)
    obtain ⟨pk1, hpk1, hlen1, hk1⟩ := occludedStep_spec ci i pk h5 hr hc hp
    obtain ⟨pk', hpk', hlen, hk⟩ := ih pk1 (by
      intro j hj
      rw [hlen1]
      exact hb j (List.mem_cons_of_mem _ hj))
    refine ⟨pk', by simp only [forM, hpk1, hpk'], hlen.trans hlen1, ?_⟩
    intro k
    by_cases hrest : ∃ j ∈ rest, occludedHit ci j k
    · refine ⟨fun _ => (hk k).1 hrest, ?_⟩
      intro hno
      obtain ⟨j, hj, hhit⟩ := hrest
      exact absurd ⟨j, List.mem_cons_of_mem _ hj, hhit⟩ hno
    · have e1 := (hk k).2 hrest
      by_cases hi : occludedHit ci i k
      · refine ⟨fun _ => by rw [e1]; exact (hk1 k).1 hi, ?_⟩
        intro hno
        exact absurd ⟨i, List.mem_cons_self _ _, hi⟩ hno
      · refine ⟨?_, fun _ => by rw [e1]; exact (hk1 k).2 hi⟩
        rintro ⟨j, hj, hhit⟩
        rcases List.mem_cons.mp hj with h | h
        · subst h; exact absurd hhit hi
        · exact absurd ⟨j, h, hhit⟩ hrest

/-- The effect of `markOccludedPoints` on a scan of `N` points whose range
and column arrays have at least `N` entries, with room for `N` cells in
`cloudNeighborPicked`: it completes, changes nothing but
`cloudNeighborPicked`, and sets to 1 exactly the cells marked by a rule at
some loop index `5 ≤ i < N - 6`. -/
theorem markOccludedPoints_spec (ci : cloud_info) (st : FeatureExtraction)
    (hr : ci.cloud_deskewed ≤ ci.pointRange.length)
    (hc : ci.cloud_deskewed ≤ ci.pointColInd.length)
    (hp : ci.cloud_deskewed ≤ st.cloudNeighborPicked.length) :
    ∃ pk', markOccludedPoints ci st = .ok { st with cloudNeighborPicked := pk' } ∧
      pk'.length = st.cloudNeighborPicked.length ∧
      ∀ k : Int,
        ((∃ i, (5 ≤ i ∧ i < (ci.cloud_deskewed : Int) - 6) ∧ occludedHit ci i k) →
          rd pk' k = .ok 1) ∧
        ((¬ ∃ i, (5 ≤ i ∧ i < (ci.cloud_deskewed : Int) - 6) ∧ occludedHit ci i k) →
          rd pk' k = rd st.cloudNeighborPicked k) := by
  obtain ⟨pk', hpk', hlen, hk⟩ :=
    forM_occludedStep ci (upTo 5 ((ci.cloud_deskewed : Int) - 6)) st.cloudNeighborPicked (by
      intro i hi
      rw [mem_upTo] at hi
      refine ⟨hi.1, ?_, ?_, ?_⟩ <;> omega)
  refine ⟨pk', ?_, hlen, ?_⟩
  · unfold markOccludedPoints
    rw [hpk']
    rfl
  · intro k
    have := hk k
    simp only [mem_upTo] at this
    exact this

/-! ## The steps of `extractFeatures` -/

theorem upTo_nil (lo hi : Int) (h : hi ≤ lo) : upTo lo hi = [] := by
  unfold upTo
  have : (hi - lo).toNat = 0 := by omega
  rw [this]
  rfl

theorem upTo_cons (lo hi : Int) (h : lo < hi) : upTo lo hi = lo :: upTo (lo + 1) hi := by
  unfold upTo
  have : (hi - lo).toNat = (hi - (lo + 1)).toNat + 1 := by omega
  rw [this, List.range_succ_eq_map, List.map_cons, List.map_map]
  congr 1
  · simp
  · apply List.map_congr_left
    intro t _
    simp only [Function.comp_apply, Nat.cast_succ]
    omega

theorem downTo_nil (hi lo : Int) (h : hi < lo) : downTo hi lo = [] := by
  unfold downTo
  have : (hi - lo + 1).toNat = 0 := by omega
  rw [this]
  rfl

theorem downTo_cons (hi lo : Int) (h : lo ≤ hi) : downTo hi lo = hi :: downTo (hi - 1) lo := by
  unfold downTo
  have : (hi - lo + 1).toNat = (hi - 1 - lo + 1).toNat + 1 := by omega
  rw [this, List.range_succ_eq_map, List.map_cons, List.map_map]
  congr 1
  · simp
  · apply List.map_congr_left
    intro t _
    simp only [Function.comp_apply, Nat.cast_succ]
    omega

theorem walkStep_spec {ci : cloud_info} {ind : Nat} {prev : Int → Int} {l : Int}
    {pk pk' : List Int} {b : Bool} (h : walkStep ci ind prev l pk = .ok (b, pk')) :
    (b = true ∧ pk' = pk ∧
      |colAt ci ((ind : Int) + l) - colAt ci ((ind : Int) + prev l)| > 10) ∨
    (b = false ∧ ¬ (|colAt ci ((ind : Int) + l) - colAt ci ((ind : Int) + prev l)| > 10) ∧
      wr pk ((ind : Int) + l) 1 = .ok pk') := by
  unfold walkStep at h
  obtain ⟨c1, hc1, h⟩ := bind_eq_ok h
  obtain ⟨c0, hc0, h⟩ := bind_eq_ok h
  rw [colAt_of_rd hc1, colAt_of_rd hc0] at h
  by_cases hg : |colAt ci ((ind : Int) + l) - colAt ci ((ind : Int) + prev l)| > 10
  · simp only [hg, if_true, pure_eq_ok, Except.ok.injEq, Prod.mk.injEq] at h
    exact Or.inl ⟨h.1.symm, h.2.symm, hg⟩
  · simp only [hg, if_false] at h
    obtain ⟨p1, hp1, h⟩ := bind_eq_ok h
    simp only [pure_eq_ok, Except.ok.injEq, Prod.mk.injEq] at h
    obtain ⟨rfl, rfl⟩ := h
    exact Or.inr ⟨rfl, hg, hp1⟩

theorem walkFwd_spec (ci : cloud_info) (ind : Nat) :
    ∀ (n : Nat) (a b : Int) (pk pk' : List Int), (b - a).toNat = n →
      loopM (walkStep ci ind (fun l => l - 1)) (upTo a b) pk = .ok pk' →
      pk'.length = pk.length ∧
      (∀ k : Int, rd pk' k = rd pk k ∨ rd pk' k = .ok 1) ∧
      (∀ k : Int, (k < (ind : Int) + a ∨ (ind : Int) + b ≤ k) → rd pk' k = rd pk k) ∧
      (∀ y : Int, (ind : Int) + a ≤ y → y < (ind : Int) + b →
        noBreak ci ((ind : Int) + a - 1) y → rd pk' y = .ok 1) := by
  intro n
  induction n with
  | zero =>
    intro a b pk pk' hn hrun
    rw [upTo_nil a b (by omega)] at hrun
    simp only [loopM, Except.ok.injEq] at hrun
    subst hrun
    exact ⟨rfl, fun k => Or.inl rfl, fun k _ => rfl, fun y h1 h2 => by omega⟩
  | succ n ih =>
    intro a b pk pk' hn hrun
    rw [upTo_cons a b (by omega)] at hrun
    simp only [loopM] at hrun
    cases hw : walkStep ci ind (fun l => l - 1) a pk with
    | error e => simp [hw] at hrun
    | ok r =>
      obtain ⟨br, p1⟩ := r
      rcases walkStep_spec hw with ⟨rfl, rfl, hg⟩ | ⟨rfl, hg, hwr⟩
      · simp only [hw, Except.ok.injEq] at hrun
        subst hrun
        refine ⟨rfl, fun k => Or.inl rfl, fun k _ => rfl, ?_⟩
        intro y h1 h2 hnb
        exfalso
        apply hnb ((ind : Int) + a - 1) (le_refl _) (by omega)
        have e1 : (ind : Int) + a - 1 + 1 = (ind : Int) + a := by omega
        have e2 : (ind : Int) + a - 1 = (ind : Int) + (a - 1) := by omega
        rw [e1, e2]
        exact hg
      · simp only [hw] at hrun
        obtain ⟨hlen, hgrow, hframe, hmark⟩ := ih (a + 1) b p1 pk' (by omega) hrun
        refine ⟨hlen.trans (wr_length hwr), ?_, ?_, ?_⟩
        · intro k
          rcases hgrow k with h | h
          · rw [h, rd_wr hwr]
            by_cases hk : k = (ind : Int) + a
            · right; simp [hk]
            · left; simp [hk]
          · right; exact h
        · intro k hk
          rw [hframe k (by omega), rd_wr_other hwr (by omega)]
        · intro y h1 h2 hnb
          by_cases hy : y = (ind : Int) + a
          · rw [hframe y (by omega), hy, rd_wr_same hwr]
          · apply hmark y (by omega) h2
            intro m hm1 hm2
            exact hnb m (by omega) hm2

theorem walkBwd_spec (ci : cloud_info) (ind : Nat) :
    ∀ (n : Nat) (hi lo : Int) (pk pk' : List Int), (hi - lo + 1).toNat = n →
      loopM (walkStep ci ind (fun l => l + 1)) (downTo hi lo) pk = .ok pk' →
      pk'.length = pk.length ∧
      (∀ k : Int, rd pk' k = rd pk k ∨ rd pk' k = .ok 1) ∧
      (∀ k : Int, (k < (ind : Int) + lo ∨ (ind : Int) + hi < k) → rd pk' k = rd pk k) ∧
      (∀ y : Int, (ind : Int) + lo ≤ y → y ≤ (ind : Int) + hi →
        noBreak ci y ((ind : Int) + hi + 1) → rd pk' y = .ok 1) := by
  intro n
  induction n with
  | zero =>
    intro hi lo pk pk' hn hrun
    rw [downTo_nil hi lo (by omega)] at hrun
    simp only [loopM, Except.ok.injEq] at hrun
    subst hrun
    exact ⟨rfl, fun k => Or.inl rfl, fun k _ => rfl, fun y h1 h2 => by omega⟩
  | succ n ih =>
    intro hi lo pk pk' hn hrun
    rw [downTo_cons hi lo (by omega)] at hrun
    simp only [loopM] at hrun
    cases hw : walkStep ci ind (fun l => l + 1) hi pk with
    | error e => simp [hw] at hrun
    | ok r =>
      obtain ⟨br, p1⟩ := r
      rcases walkStep_spec hw with ⟨rfl, rfl, hg⟩ | ⟨rfl, hg, hwr⟩
      · simp only [hw, Except.ok.injEq] at hrun
        subst hrun
        refine ⟨rfl, fun k => Or.inl rfl, fun k _ => rfl, ?_⟩
        intro y h1 h2 hnb
        exfalso
        apply hnb ((ind : Int) + hi) (by omega) (by omega)
        have e1 : (ind : Int) + hi + 1 = (ind : Int) + (hi + 1) := by omega
        rw [e1, abs_sub_comm]
        exact hg
      · simp only [hw] at hrun
        obtain ⟨hlen, hgrow, hframe, hmark⟩ := ih (hi - 1) lo p1 pk' (by omega) hrun
        refine ⟨hlen.trans (wr_length hwr), ?_, ?_, ?_⟩
        · intro k
          rcases hgrow k with h | h
          · rw [h, rd_wr hwr]
            by_cases hk : k = (ind : Int) + hi
            · right; simp [hk]
            · left; simp [hk]
          · right; exact h
        · intro k hk
          rw [hframe k (by omega), rd_wr_other hwr (by omega)]
        · intro y h1 h2 hnb
          by_cases hy : y = (ind : Int) + hi
          · rw [hframe y (by omega), hy, rd_wr_same hwr]
          · apply hmark y h1 (by omega)
            intro m hm1 hm2
            have e : (ind : Int) + (hi - 1) + 1 = (ind : Int) + hi := by omega
            rw [e] at hm2
            exact hnb m hm1 (by omega)

/-- The effect of the two suppression walks around `ind`: the array keeps its
length, every cell keeps its value or becomes 1, only cells within 5 of `ind`
(other than `ind` itself) change, and a cell within 5 of `ind` becomes 1 when
no column gap above 10 separates it from `ind`. -/
theorem suppressNeighbors_spec {ci : cloud_info} {ind : Nat} {pk pk' : List Int}
    (h : suppressNeighbors ci ind pk = .ok pk') :
    pk'.length = pk.length ∧
    (∀ k : Int, rd pk' k = rd pk k ∨ rd pk' k = .ok 1) ∧
    (∀ k : Int, (k < (ind : Int) - 5 ∨ (ind : Int) + 5 < k ∨ k = ind) → rd pk' k = rd pk k) ∧
    (∀ y : Int, (ind : Int) < y → y ≤ (ind : Int) + 5 → noBreak ci ind y → rd pk' y = .ok 1) ∧
    (∀ y : Int, (ind : Int) - 5 ≤ y → y < (ind : Int) → noBreak ci y ind →
      rd pk' y = .ok 1) := by
  unfold suppressNeighbors at h
  obtain ⟨fwd, hf, hb⟩ := bind_eq_ok h
  obtain ⟨l1, g1, f1, m1⟩ := walkFwd_spec ci ind 5 1 6 pk fwd (by decide) hf
  obtain ⟨l2, g2, f2, m2⟩ := walkBwd_spec ci ind 5 (-1) (-5) fwd pk' (by decide) hb
  refine ⟨l2.trans l1, ?_, ?_, ?_, ?_⟩
  · intro k
    rcases g2 k with h2 | h2
    · rcases g1 k with h1 | h1
      · left; rw [h2, h1]
      · right; rw [h2, h1]
    · right; exact h2
  · intro k hk
    rw [f2 k (by omega), f1 k (by omega)]
  · intro y h1 h2 hnb
    have := m1 y (by omega) (by omega) (by
      have e : (ind : Int) + 1 - 1 = ind := by omega
      rw [e]; exact hnb)
    rcases g2 y with h | h
    · rw [h, this]
    · exact h
  · intro y h1 h2 hnb
    exact m2 y (by omega) (by omega) (by
      have e : (ind : Int) + -1 + 1 = ind := by omega
      rw [e]; exact hnb)

theorem pushPoint_spec {ci : cloud_info} {cloud cloud' : List Int} {k : Int}
    (h : pushPoint ci cloud k = .ok cloud') :
    cloud' = cloud ++ [k] ∧ 0 ≤ k ∧ k < (ci.cloud_deskewed : Int) := by
  unfold pushPoint at h
  by_cases hk : 0 ≤ k ∧ k < (ci.cloud_deskewed : Int)
  · rw [if_pos hk] at h
    cases h
    exact ⟨rfl, hk⟩
  · rw [if_neg hk] at h
    cases h

/-- The three outcomes of one iteration of the corner loop: the point is not
a candidate; it is the 21st candidate and the loop breaks; or it is accepted
and pushed to `cornerCloud`. -/
theorem cornerStep_spec {P : ParamServer} {ci : cloud_info} {k : Int}
    {st st' : FeatureExtraction} {n n' : Int} {b : Bool}
    (h : cornerStep P ci k (st, n) = .ok (b, (st', n'))) :
    (b = false ∧ st' = st ∧ n' = n) ∨
    (b = true ∧ st' = st ∧ n' = n + 1 ∧ ¬ (n + 1 ≤ 20)) ∨
    (b = false ∧ n' = n + 1 ∧ n + 1 ≤ 20 ∧
      ∃ r c, rd st.cloudSmoothness k = .ok r ∧ rd st.cloudCurvature r.ind = .ok c ∧
        c > P.edgeThreshold ∧ Accepts ci r.ind 1 st st' ∧
        pushPoint ci st.cornerCloud r.ind = .ok st'.cornerCloud) := by
  unfold cornerStep at h
  simp only at h
  obtain ⟨r, hr, h⟩ := bind_eq_ok h
  obtain ⟨pk, hpk, h⟩ := bind_eq_ok h
  by_cases hp0 : pk = 0
  · subst hp0
    simp only [if_true] at h
    obtain ⟨c, hc, h⟩ := bind_eq_ok h
    by_cases hthr : c > P.edgeThreshold
    · simp only [hthr, if_true] at h
      by_cases hn : n + 1 ≤ 20
      · simp only [hn, if_true] at h
        obtain ⟨label, hlabel, h⟩ := bind_eq_ok h
        obtain ⟨corner, hcorner, h⟩ := bind_eq_ok h
        obtain ⟨p1, hp1, h⟩ := bind_eq_ok h
        obtain ⟨p2, hp2, h⟩ := bind_eq_ok h
        simp only [pure_eq_ok, Except.ok.injEq, Prod.mk.injEq] at h
        obtain ⟨rfl, rfl, rfl⟩ := h
        refine Or.inr (Or.inr ⟨rfl, rfl, hn, r, c, hr, hc, hthr, ?_, hcorner⟩)
        exact ⟨hpk, hlabel, ⟨p1, hp1, hp2⟩, rfl, rfl, rfl, rfl⟩
      · simp only [hn, if_false, pure_eq_ok, Except.ok.injEq, Prod.mk.injEq] at h
        obtain ⟨rfl, rfl, rfl⟩ := h
        exact Or.inr (Or.inl ⟨rfl, rfl, rfl, hn⟩)
    · simp only [hthr, if_false, pure_eq_ok, Except.ok.injEq, Prod.mk.injEq] at h
      obtain ⟨rfl, rfl, rfl⟩ := h
      exact Or.inl ⟨rfl, rfl, rfl⟩
  · simp only [hp0, if_false, pure_eq_ok, Except.ok.injEq, Prod.mk.injEq] at h
    obtain ⟨rfl, rfl, rfl⟩ := h
    exact Or.inl ⟨rfl, rfl, rfl⟩

/-- The two outcomes of one iteration of the surface loop: nothing happens,
or the point is accepted with the label `-1`. -/
theorem surfaceStep_spec {P : ParamServer} {ci : cloud_info} {k : Int}
    {st st' : FeatureExtraction} (h : surfaceStep P ci k st = .ok st') :
    st' = st ∨
    (∃ r c, rd st.cloudSmoothness k = .ok r ∧ rd st.cloudCurvature r.ind = .ok c ∧
      c < P.surfThreshold ∧ Accepts ci r.ind (-1) st st' ∧
      st'.cornerCloud = st.cornerCloud) := by
  unfold surfaceStep at h
  simp only at h
  obtain ⟨r, hr, h⟩ := bind_eq_ok h
  obtain ⟨pk, hpk, h⟩ := bind_eq_ok h
  by_cases hp0 : pk = 0
  · subst hp0
    simp only [if_true] at h
    obtain ⟨c, hc, h⟩ := bind_eq_ok h
    by_cases hthr : c < P.surfThreshold
    · simp only [hthr, if_true] at h
      obtain ⟨label, hlabel, h⟩ := bind_eq_ok h
      obtain ⟨p1, hp1, h⟩ := bind_eq_ok h
      obtain ⟨p2, hp2, h⟩ := bind_eq_ok h
      simp only [pure_eq_ok, Except.ok.injEq] at h
      subst h
      exact Or.inr ⟨r, c, hr, hc, hthr, ⟨hpk, hlabel, ⟨p1, hp1, hp2⟩, rfl, rfl, rfl, rfl⟩, rfl⟩
    · simp only [hthr, if_false, pure_eq_ok, Except.ok.injEq] at h
      exact Or.inl h.symm
  · simp only [hp0, if_false, pure_eq_ok, Except.ok.injEq] at h
    exact Or.inl h.symm

/-- The two outcomes of one iteration of the collecting loop. -/
theorem collectStep_spec {ci : cloud_info} {k : Int} {st st' : FeatureExtraction}
    (h : collectStep ci k st = .ok st') :
    ∃ lab, rd st.cloudLabel k = .ok lab ∧
      ((lab ≤ 0 ∧ st' = { st with surfaceCloudScan := st.surfaceCloudScan ++ [k] } ∧
          0 ≤ k ∧ k < (ci.cloud_deskewed : Int)) ∨
       (¬ lab ≤ 0 ∧ st' = st)) := by
  unfold collectStep at h
  obtain ⟨lab, hlab, h⟩ := bind_eq_ok h
  refine ⟨lab, hlab, ?_⟩
  by_cases hl : lab ≤ 0
  · simp only [hl, if_true] at h
    obtain ⟨scan, hscan, h⟩ := bind_eq_ok h
    simp only [pure_eq_ok, Except.ok.injEq] at h
    obtain ⟨e, h0, h1⟩ := pushPoint_spec hscan
    subst e
    exact Or.inl ⟨hl, h.symm, h0, h1⟩
  · simp only [hl, if_false, pure_eq_ok, Except.ok.injEq] at h
    exact Or.inr ⟨hl, h.symm⟩

/-- What an accepted point does to `cloudNeighborPicked` and `cloudLabel`. -/
theorem accepts_effect {ci : cloud_info} {ind : Nat} {lab : Int}
    {st st' : FeatureExtraction} (h : Accepts ci ind lab st st') :
    st'.cloudNeighborPicked.length = st.cloudNeighborPicked.length ∧
    st'.cloudLabel.length = st.cloudLabel.length ∧
    (∀ k : Int, rd st'.cloudLabel k = if k = ind then .ok lab else rd st.cloudLabel k) ∧
    rd st'.cloudNeighborPicked ind = .ok 1 ∧
    (∀ k : Int, rd st'.cloudNeighborPicked k = rd st.cloudNeighborPicked k ∨
      rd st'.cloudNeighborPicked k = .ok 1) ∧
    (∀ k : Int, (k < (ind : Int) - 5 ∨ (ind : Int) + 5 < k) →
      rd st'.cloudNeighborPicked k = rd st.cloudNeighborPicked k) ∧
    (∀ y : Int, (ind : Int) < y → y ≤ (ind : Int) + 5 → noBreak ci ind y →
      rd st'.cloudNeighborPicked y = .ok 1) ∧
    (∀ y : Int, (ind : Int) - 5 ≤ y → y < (ind : Int) → noBreak ci y ind →
      rd st'.cloudNeighborPicked y = .ok 1) := by
  obtain ⟨_, hlabel, ⟨p1, hp1, hp2⟩, _, _, _, _⟩ := h
  obtain ⟨l, g, f, m1, m2⟩ := suppressNeighbors_spec hp2
  refine ⟨l.trans (wr_length hp1), wr_length hlabel, fun k => rd_wr hlabel k, ?_, ?_, ?_,
    m1, m2⟩
  · rw [f ind (Or.inr (Or.inr rfl))]
    exact rd_wr_same hp1
  · intro k
    rcases g k with h | h
    · rw [h, rd_wr hp1]
      by_cases hk : k = (ind : Int)
      · right; simp [hk]
      · left; simp [hk]
    · right; exact h
  · intro k hk
    rw [f k (by omega), rd_wr_other hp1 (by omega)]

/-! ## The corner loop -/

theorem guarded_mono {ci : cloud_info} {pk pk' : List Int} {x : Int}
    (hg : Guarded ci pk x) (h : ∀ k : Int, rd pk' k = rd pk k ∨ rd pk' k = .ok 1) :
    Guarded ci pk' x := by
  obtain ⟨g0, g1, g2⟩ := hg
  refine ⟨?_, ?_, ?_⟩
  · rcases h x with e | e
    · rw [e]; exact g0
    · exact e
  · intro y h1 h2 hnb
    rcases h y with e | e
    · rw [e]; exact g1 y h1 h2 hnb
    · exact e
  · intro y h1 h2 hnb
    rcases h y with e | e
    · rw [e]; exact g2 y h1 h2 hnb
    · exact e

theorem guarded_separated {ci : cloud_info} {pk : List Int} {a x : Int}
    (hg : Guarded ci pk a) (hx : rd pk x = .ok 0) : Separated ci a x := by
  obtain ⟨g0, g1, g2⟩ := hg
  refine ⟨?_, ?_, ?_⟩
  · intro e
    subst e
    rw [g0] at hx
    cases hx
  · intro h1 h2 hnb
    have := g1 x h1 (by omega) hnb
    rw [this] at hx
    cases hx
  · intro h1 h2 hnb
    have := g2 x (by omega) h1 hnb
    rw [this] at hx
    cases hx

theorem cornerInv_init (P : ParamServer) (ci : cloud_info) (ks : List Int)
    (st0 : FeatureExtraction) : CornerInv P ci ks st0 (st0, 0) [] where
  smooth := rfl
  curv := rfl
  surface := rfl
  scan := rfl
  pickedLen := rfl
  labelLen := rfl
  corner := by simp
  count := by simp
  fresh := by intro x hx; cases hx
  source := by intro x hx; cases hx
  guarded := by intro x hx; cases hx
  separated := List.Pairwise.nil
  grow := fun k => Or.inl rfl
  frame := fun k _ => rfl
  label := fun k => by simp

theorem cornerInv_step {P : ParamServer} {ci : cloud_info} {ks : List Int}
    {st0 : FeatureExtraction} {s s' : FeatureExtraction × Int} {new : List Int}
    {k : Int} {b : Bool} (hk : k ∈ ks) (hI : CornerInv P ci ks st0 s new)
    (h : cornerStep P ci k s = .ok (b, s')) :
    ∃ new', CornerInv P ci ks st0 s' new' := by
  obtain ⟨st, n⟩ := s
  obtain ⟨st', n'⟩ := s'
  rcases cornerStep_spec h with ⟨_, rfl, rfl⟩ | ⟨_, rfl, rfl, hn⟩ |
    ⟨_, rfl, hn, r, c, hr, hc, hthr, hacc, hpush⟩
  · exact ⟨new, hI⟩
  · refine ⟨new, { hI with count := ?_ }⟩
    have := hI.count
    simp only at this ⊢
    omega
  · obtain ⟨hl1, hl2, hlab, hself, hgrow, hframe, hm1, hm2⟩ := accepts_effect hacc
    obtain ⟨hp0, _, _, hsm, hcv, hsf, hsc⟩ := hacc
    obtain ⟨hcorner, hx0, hx1⟩ := pushPoint_spec hpush
    have hp0' : rd st0.cloudNeighborPicked (r.ind : Int) = .ok 0 := by
      rcases hI.grow (r.ind : Int) with e | e
      · rw [← e]; exact hp0
      · simp only at e; rw [e] at hp0; cases hp0
    refine ⟨new ++ [(r.ind : Int)], ?_⟩
    constructor
    · exact hsm.trans hI.smooth
    · exact hcv.trans hI.curv
    · exact hsf.trans hI.surface
    · exact hsc.trans hI.scan
    · exact hl1.trans hI.pickedLen
    · exact hl2.trans hI.labelLen
    · show st'.cornerCloud = st0.cornerCloud ++ (new ++ [(r.ind : Int)])
      rw [hcorner, hI.corner, List.append_assoc]
    · have := hI.count
      simp only [List.length_append, List.length_singleton, Nat.cast_add, Nat.cast_one] at this ⊢
      omega
    · intro x hx
      rcases List.mem_append.mp hx with hx | hx
      · exact hI.fresh x hx
      · rw [List.mem_singleton] at hx
        subst hx
        refine ⟨hp0', c, ?_, hthr⟩
        rw [← hI.curv]; exact hc
    · intro x hx
      rcases List.mem_append.mp hx with hx | hx
      · exact hI.source x hx
      · rw [List.mem_singleton] at hx
        subst hx
        refine ⟨⟨hx0, hx1⟩, k, hk, r, ?_, rfl⟩
        rw [← hI.smooth]; exact hr
    · intro x hx
      rcases List.mem_append.mp hx with hx | hx
      · exact guarded_mono (hI.guarded x hx) hgrow
      · rw [List.mem_singleton] at hx
        subst hx
        exact ⟨hself, hm1, hm2⟩
    · rw [List.pairwise_append]
      refine ⟨hI.separated, List.pairwise_singleton _ _, ?_⟩
      intro a ha x hx
      rw [List.mem_singleton] at hx
      subst hx
      exact guarded_separated (hI.guarded a ha) hp0
    · intro j
      rcases hgrow j with e | e
      · rcases hI.grow j with e' | e'
        · left; rw [e]; exact e'
        · right; rw [e]; exact e'
      · right; exact e
    · intro j hj
      show rd st'.cloudNeighborPicked j = _
      rw [hframe j (hj _ (List.mem_append_right _ (List.mem_singleton_self _)))]
      exact hI.frame j (fun x hx => hj x (List.mem_append_left _ hx))
    · intro j
      show rd st'.cloudLabel j = _
      rw [hlab j, hI.label j]
      by_cases hj : j = (r.ind : Int)
      · simp [hj]
      · by_cases hjn : j ∈ new
        · simp [hj, hjn]
        · simp [hj, hjn]

/-- The corner loop over the positions `ks`, started with the counter at 0,
ends in a state described by `CornerInv`. -/
theorem cornerLoop_spec {P : ParamServer} {ci : cloud_info} {ks : List Int}
    {st0 : FeatureExtraction} {s' : FeatureExtraction × Int}
    (h : loopM (cornerStep P ci) ks (st0, 0) = .ok s') :
    ∃ new, CornerInv P ci ks st0 s' new := by
  refine loopM_inv (cornerStep P ci) (fun s => ∃ new, CornerInv P ci ks st0 s new) ks
    (st0, 0) s' ?_ ⟨[], cornerInv_init P ci ks st0⟩ h
  intro i hi t b t' ⟨new, hI⟩ hstep
  exact cornerInv_step hi hI hstep

/-! ## The surface loop and the collecting loop -/

theorem surfInv_init (ci : cloud_info) (ks : List Int) (st1 : FeatureExtraction) :
    SurfInv ci ks st1 st1 where
  smooth := rfl
  curv := rfl
  surface := rfl
  scan := rfl
  corner := rfl
  pickedLen := rfl
  labelLen := rfl
  grow := fun _ => Or.inl rfl
  frame := fun _ _ => rfl
  label := fun _ => Or.inl rfl

theorem surfInv_step {P : ParamServer} {ci : cloud_info} {ks : List Int}
    {st1 st st' : FeatureExtraction} {k : Int} (hk : k ∈ ks) (hI : SurfInv ci ks st1 st)
    (h : surfaceStep P ci k st = .ok st') : SurfInv ci ks st1 st' := by
  rcases surfaceStep_spec h with rfl | ⟨r, c, hr, hc, hthr, hacc, hcorner⟩
  · exact hI
  · obtain ⟨hl1, hl2, hlab, hself, hgrow, hframe, hm1, hm2⟩ := accepts_effect hacc
    obtain ⟨hp0, _, _, hsm, hcv, hsf, hsc⟩ := hacc
    have hr1 : rd st1.cloudSmoothness k = .ok r := by rw [← hI.smooth]; exact hr
    have hp0' : rd st1.cloudNeighborPicked (r.ind : Int) = .ok 0 := by
      rcases hI.grow (r.ind : Int) with e | e
      · rw [← e]; exact hp0
      · rw [e] at hp0; cases hp0
    constructor
    · exact hsm.trans hI.smooth
    · exact hcv.trans hI.curv
    · exact hsf.trans hI.surface
    · exact hsc.trans hI.scan
    · exact hcorner.trans hI.corner
    · exact hl1.trans hI.pickedLen
    · exact hl2.trans hI.labelLen
    · intro j
      rcases hgrow j with e | e
      · rcases hI.grow j with e' | e'
        · left; rw [e]; exact e'
        · right; rw [e]; exact e'
      · right; exact e
    · intro j hj
      rw [hframe j (hj k hk r hr1)]
      exact hI.frame j hj
    · intro j
      rw [hlab j]
      by_cases hj : j = (r.ind : Int)
      · right
        rw [if_pos hj, hj]
        exact ⟨rfl, hp0', k, hk, r, hr1, rfl⟩
      · rw [if_neg hj]
        exact hI.label j

theorem surfaceLoop_spec {P : ParamServer} {ci : cloud_info} {ks : List Int}
    {st1 st' : FeatureExtraction} (h : forM (surfaceStep P ci) ks st1 = .ok st') :
    SurfInv ci ks st1 st' := by
  refine forM_inv (surfaceStep P ci) (SurfInv ci ks st1) ks st1 st' ?_ (surfInv_init ci ks st1) h
  intro i hi t t' hI hstep
  exact surfInv_step hi hI hstep

theorem labelNotCorner_true_iff (label : List Int) (k : Int) :
    labelNotCorner label k = true ↔ ∃ lab, rd label k = .ok lab ∧ lab ≤ 0 := by
  unfold labelNotCorner
  cases h : rd label k with
  | error e => simp
  | ok lab => simp

/-- The collecting loop over the positions `ks` appends to `surfaceCloudScan`,
in order, the positions whose label is not positive, and changes nothing
else. -/
theorem collectLoop_spec {ci : cloud_info} :
    ∀ (ks : List Int) (st st' : FeatureExtraction),
      forM (collectStep ci) ks st = .ok st' →
      st' = { st with surfaceCloudScan :=
        st.surfaceCloudScan ++ ks.filter (labelNotCorner st.cloudLabel) } ∧
      (∀ k ∈ ks, (∃ lab, rd st.cloudLabel k = .ok lab) ∧
        (labelNotCorner st.cloudLabel k = true → 0 ≤ k ∧ k < (ci.cloud_deskewed : Int))) := by
  intro ks
  induction ks with
  | nil =>
    intro st st' h
    simp only [forM, Except.ok.injEq] at h
    subst h
    simp
  | cons k rest ih =>
    intro st st' h
    simp only [forM] at h
    cases hs : collectStep ci k st with
    | error e => simp [hs] at h
    | ok st1 =>
      simp only [hs] at h
      obtain ⟨lab, hlab, hcase⟩ := collectStep_spec hs
      rcases hcase with ⟨hle, rfl, h0, h1⟩ | ⟨hgt, e1⟩
      · obtain ⟨e, hall⟩ := ih _ st' h
        have hk : labelNotCorner st.cloudLabel k = true :=
          (labelNotCorner_true_iff _ _).mpr ⟨lab, hlab, hle⟩
        refine ⟨?_, ?_⟩
        · rw [e]
          simp [List.filter_cons, hk]
        · intro j hj
          rcases List.mem_cons.mp hj with rfl | hj
          · exact ⟨⟨lab, hlab⟩, fun _ => ⟨h0, h1⟩⟩
          · exact hall j hj
      · rw [e1] at h
        obtain ⟨e, hall⟩ := ih _ st' h
        have hk : ¬ labelNotCorner st.cloudLabel k = true := by
          rw [labelNotCorner_true_iff]
          rintro ⟨lab', hlab', hle⟩
          rw [hlab] at hlab'
          cases hlab'
          exact hgt hle
        refine ⟨?_, ?_⟩
        · rw [e]
          simp [List.filter_cons, hk]
        · intro j hj
          rcases List.mem_cons.mp hj with rfl | hj
          · exact ⟨⟨lab, hlab⟩, fun hh => absurd hh hk⟩
          · exact hall j hj

/-! ## Sorting and the work on one sector -/

theorem rd_toNat {α : Type} (a : List α) (i : Int) (h : 0 ≤ i) :
    rd a i = ofOption a[i.toNat]? := by
  unfold rd ofOption
  rw [if_neg (by omega)]

theorem window_length {α : Type} (a : List α) (sp ep : Int) (h0 : 0 ≤ sp) (h1 : sp ≤ ep)
    (h2 : ep.toNat ≤ a.length) : ((window a sp ep).length : Int) = ep - sp := by
  unfold window
  rw [List.length_take, List.length_drop]
  omega

theorem rd_window {α : Type} (a : List α) (sp ep : Int) (h0 : 0 ≤ sp) (t : Int)
    (ht0 : 0 ≤ t) (ht1 : t < ep - sp) : rd (window a sp ep) t = rd a (sp + t) := by
  rw [rd_toNat _ _ ht0, rd_toNat _ _ (by omega)]
  unfold window
  rw [List.getElem?_take_of_lt (by omega), List.getElem?_drop]
  have : (sp + t).toNat = sp.toNat + t.toNat := by omega
  rw [this]

/-- The effect of the sort of the positions `sp, ..., ep - 1`: the positions
outside keep their records, and the records inside are rearranged. -/
theorem sortRange_spec {srt : StdSort} {a a' : List smoothness_t} {sp ep : Int}
    (h : sortRange srt a sp ep = .ok a') :
    (0 ≤ sp ∧ sp ≤ ep ∧ ep ≤ (a.length : Int)) ∧ a'.length = a.length ∧
    (∀ p : Int, (p < sp ∨ ep ≤ p) → rd a' p = rd a p) ∧
    (∀ p : Int, sp ≤ p → p < ep → rd a' p = rd (srt.run (window a sp ep)) (p - sp)) := by
  unfold sortRange at h
  by_cases hb : 0 ≤ sp ∧ sp ≤ ep ∧ ep.toNat ≤ a.length
  · rw [if_pos hb] at h
    cases h
    obtain ⟨h0, h1, h2⟩ := hb
    have hw : (srt.run (window a sp ep)).length = ep.toNat - sp.toNat := by
      rw [(srt.perm _).length_eq]
      have := window_length a sp ep h0 h1 h2
      omega
    refine ⟨⟨h0, h1, by omega⟩, ?_, ?_, ?_⟩
    · simp only [List.length_append, List.length_take, List.length_drop, hw]
      omega
    · intro p hp
      by_cases hneg : p < 0
      · unfold rd; simp [hneg]
      · rw [rd_toNat _ _ (by omega), rd_toNat _ _ (by omega)]
        rcases hp with hp | hp
        · rw [List.append_assoc, List.getElem?_append_left (by
            rw [List.length_take]; omega), List.getElem?_take_of_lt (by omega)]
        · rw [List.getElem?_append_right (by
            simp only [List.length_append, List.length_take, hw]; omega)]
          simp only [List.length_append, List.length_take, hw, List.getElem?_drop]
          have : ep.toNat + (p.toNat - (min sp.toNat a.length + (ep.toNat - sp.toNat)))
              = p.toNat := by omega
          rw [this]
    · intro p hp1 hp2
      rw [rd_toNat _ _ (by omega), rd_toNat _ _ (by omega)]
      rw [List.getElem?_append_left (by
        simp only [List.length_append, List.length_take, hw]; omega)]
      rw [List.getElem?_append_right (by rw [List.length_take]; omega)]
      have : p.toNat - (List.take sp.toNat a).length = (p - sp).toNat := by
        rw [List.length_take]; omega
      rw [this]
  · rw [if_neg hb] at h
    cases h

/-- After the sort, every position of the sorted range holds a record that
was at some position of the range before. -/
theorem sortRange_source {srt : StdSort} {a a' : List smoothness_t} {sp ep : Int}
    (h : sortRange srt a sp ep = .ok a') (p : Int) (hp1 : sp ≤ p) (hp2 : p < ep) :
    ∃ q r, sp ≤ q ∧ q < ep ∧ rd a q = .ok r ∧ rd a' p = .ok r := by
  obtain ⟨⟨h0, h1, h2⟩, hlen, hout, hin⟩ := sortRange_spec h
  have hw := window_length a sp ep h0 h1 (by omega)
  have hwl : (srt.run (window a sp ep)).length = (window a sp ep).length :=
    (srt.perm _).length_eq
  obtain ⟨r, hr⟩ := rd_ok_of_bounds (srt.run (window a sp ep)) (p - sp) (by omega) (by omega)
  have hmem : r ∈ window a sp ep := by
    apply (srt.perm _).mem_iff.mp
    rw [rd_ok_iff] at hr
    exact List.mem_iff_getElem?.mpr ⟨_, hr.2⟩
  obtain ⟨t, ht, hget⟩ := List.getElem_of_mem hmem
  refine ⟨sp + (t : Int), r, by omega, by omega, ?_, ?_⟩
  · rw [← rd_window a sp ep h0 (t : Int) (by omega) (by omega), rd_ok_iff]
    refine ⟨by omega, ?_⟩
    rw [Int.toNat_natCast, List.getElem?_eq_getElem ht, hget]
  · rw [hin p hp1 hp2, hr]

/-- The work on one sector, stage by stage. -/
theorem processSector_spec {P : ParamServer} {srt : StdSort} {ci : cloud_info} {sp ep : Int}
    {st st' : FeatureExtraction} (h : processSector P srt ci sp ep st = .ok st') :
    ∃ sorted s2 new st3, sortRange srt st.cloudSmoothness sp ep = .ok sorted ∧
      CornerInv P ci (downTo ep sp) { st with cloudSmoothness := sorted } s2 new ∧
      SurfInv ci (upTo sp (ep + 1)) s2.1 st3 ∧
      st' = { st3 with surfaceCloudScan := st3.surfaceCloudScan ++
        (upTo sp (ep + 1)).filter (labelNotCorner st3.cloudLabel) } ∧
      (∀ k ∈ upTo sp (ep + 1), (∃ lab, rd st3.cloudLabel k = .ok lab) ∧
        (labelNotCorner st3.cloudLabel k = true → 0 ≤ k ∧ k < (ci.cloud_deskewed : Int))) := by
  unfold processSector at h
  obtain ⟨sorted, hsorted, h⟩ := bind_eq_ok h
  obtain ⟨s2, hs2, h⟩ := bind_eq_ok h
  obtain ⟨st3, hst3, h⟩ := bind_eq_ok h
  obtain ⟨new, hnew⟩ := cornerLoop_spec hs2
  obtain ⟨e, hall⟩ := collectLoop_spec _ _ _ h
  exact ⟨sorted, s2, new, st3, hsorted, hnew, surfaceLoop_spec hst3, e, hall⟩

/-- The two outcomes of the body of the sector loop: the sector is skipped,
or its positions are worked on. -/
theorem sectorStep_spec {P : ParamServer} {srt : StdSort} {ci : cloud_info} {i j : Int}
    {st st' : FeatureExtraction} (h : sectorStep P srt ci i j st = .ok st') :
    ∃ s e, rd ci.startRingIndex i = .ok s ∧ rd ci.endRingIndex i = .ok e ∧
      ((sectorStart s e j ≥ sectorEnd s e j ∧ st' = st) ∨
       (sectorStart s e j < sectorEnd s e j ∧
        processSector P srt ci (sectorStart s e j) (sectorEnd s e j) st = .ok st')) := by
  unfold sectorStep at h
  obtain ⟨s, hs, h⟩ := bind_eq_ok h
  obtain ⟨e, he, h⟩ := bind_eq_ok h
  refine ⟨s, e, hs, he, ?_⟩
  by_cases hskip : sectorStart s e j ≥ sectorEnd s e j
  · simp only [hskip, if_true, pure_eq_ok, Except.ok.injEq] at h
    exact Or.inl ⟨hskip, h.symm⟩
  · simp only [hskip, if_false] at h
    exact Or.inr ⟨by omega, h⟩

/-- The corner points a sector contributes: what `sectorStep` appends to
`cornerCloud`, with the facts the corner loop guarantees about them. -/
theorem sectorStep_corners {P : ParamServer} {srt : StdSort} {ci : cloud_info} {i j : Int}
    {st st' : FeatureExtraction} (h : sectorStep P srt ci i j st = .ok st') :
    ∃ new, st'.cornerCloud = st.cornerCloud ++ new ∧ new.length ≤ 20 ∧
      new.Pairwise (Separated ci) ∧
      (∀ x ∈ new, rd st.cloudNeighborPicked x = .ok 0 ∧
        ∃ c, rd st.cloudCurvature x = .ok c ∧ c > P.edgeThreshold) := by
  obtain ⟨s, e, _, _, hcase⟩ := sectorStep_spec h
  rcases hcase with ⟨_, rfl⟩ | ⟨_, hproc⟩
  · exact ⟨[], by simp, by simp, List.Pairwise.nil, by intro x hx; cases hx⟩
  · obtain ⟨sorted, s2, new, st3, _, hC, hS, rfl, _⟩ := processSector_spec hproc
    refine ⟨new, ?_, ?_, hC.separated, hC.fresh⟩
    · show st3.cornerCloud = _
      rw [hS.corner, hC.corner]
    · have := hC.count
      omega

/-! ## What every run of `extractFeatures` preserves -/

theorem evolves_refl (P : ParamServer) (st : FeatureExtraction) : Evolves P st st where
  curv := rfl
  smoothLen := rfl
  pickedLen := rfl
  labelLen := rfl
  grow := fun _ => Or.inl rfl
  corners := ⟨[], by simp, by intro x hx; cases hx⟩

theorem evolves_trans {P : ParamServer} {a b c : FeatureExtraction}
    (h1 : Evolves P a b) (h2 : Evolves P b c) : Evolves P a c where
  curv := h2.curv.trans h1.curv
  smoothLen := h2.smoothLen.trans h1.smoothLen
  pickedLen := h2.pickedLen.trans h1.pickedLen
  labelLen := h2.labelLen.trans h1.labelLen
  grow := by
    intro k
    rcases h2.grow k with e | e
    · rcases h1.grow k with e' | e'
      · left; rw [e]; exact e'
      · right; rw [e]; exact e'
    · right; exact e
  corners := by
    obtain ⟨n1, e1, f1⟩ := h1.corners
    obtain ⟨n2, e2, f2⟩ := h2.corners
    refine ⟨n1 ++ n2, by rw [e2, e1, List.append_assoc], ?_⟩
    intro x hx
    rcases List.mem_append.mp hx with hx | hx
    · exact f1 x hx
    · obtain ⟨p0, c, hc, hthr⟩ := f2 x hx
      refine ⟨?_, c, ?_, hthr⟩
      · rcases h1.grow x with e | e
        · rw [← e]; exact p0
        · rw [e] at p0; cases p0
      · rw [← h1.curv]; exact hc

theorem processSector_evolves {P : ParamServer} {srt : StdSort} {ci : cloud_info}
    {sp ep : Int} {st st' : FeatureExtraction}
    (h : processSector P srt ci sp ep st = .ok st') : Evolves P st st' := by
  obtain ⟨sorted, s2, new, st3, hsort, hC, hS, rfl, _⟩ := processSector_spec h
  obtain ⟨_, hlen, _, _⟩ := sortRange_spec hsort
  constructor
  · show st3.cloudCurvature = _
    rw [hS.curv, hC.curv]
  · show st3.cloudSmoothness.length = _
    rw [hS.smooth, hC.smooth]
    exact hlen
  · show st3.cloudNeighborPicked.length = _
    rw [hS.pickedLen, hC.pickedLen]
  · show st3.cloudLabel.length = _
    rw [hS.labelLen, hC.labelLen]
  · intro k
    show rd st3.cloudNeighborPicked k = _ ∨ rd st3.cloudNeighborPicked k = _
    rcases hS.grow k with e | e
    · rcases hC.grow k with e' | e'
      · left; rw [e]; exact e'
      · right; rw [e]; exact e'
    · right; exact e
  · refine ⟨new, ?_, hC.fresh⟩
    show st3.cornerCloud = _
    rw [hS.corner, hC.corner]

theorem sectorStep_evolves {P : ParamServer} {srt : StdSort} {ci : cloud_info} {i j : Int}
    {st st' : FeatureExtraction} (h : sectorStep P srt ci i j st = .ok st') :
    Evolves P st st' := by
  obtain ⟨s, e, _, _, hcase⟩ := sectorStep_spec h
  rcases hcase with ⟨_, e1⟩ | ⟨_, hproc⟩
  · rw [e1]
    exact evolves_refl P st
  · exact processSector_evolves hproc

theorem ringStep_evolves {P : ParamServer} {srt : StdSort} {ds : List Int → List Int}
    {ci : cloud_info} {i : Int} {st st' : FeatureExtraction}
    (h : ringStep P srt ds ci i st = .ok st') : Evolves P st st' := by
  unfold ringStep at h
  obtain ⟨st1, hst1, h⟩ := bind_eq_ok h
  simp only [pure_eq_ok, Except.ok.injEq] at h
  subst h
  unfold ringSectors at hst1
  have h0 : Evolves P st { st with surfaceCloudScan := [] } :=
    ⟨rfl, rfl, rfl, rfl, fun _ => Or.inl rfl, ⟨[], by simp, by intro x hx; cases hx⟩⟩
  have h1 : Evolves P st st1 :=
    forM_inv (sectorStep P srt ci i) (Evolves P st) (upTo 0 6) _ st1
      (fun j _ t t' hI hstep => evolves_trans hI (sectorStep_evolves hstep)) h0 hst1
  exact ⟨h1.curv, h1.smoothLen, h1.pickedLen, h1.labelLen, h1.grow, h1.corners⟩

/-- Every point in `cornerCloud` after `extractFeatures` was not picked when
`extractFeatures` started and has curvature above `edgeThreshold`; the run
changes no curvature, no array size, and never resets a picked cell. -/
theorem extractFeatures_evolves {P : ParamServer} {srt : StdSort} {ds : List Int → List Int}
    {ci : cloud_info} {st st' : FeatureExtraction}
    (h : extractFeatures P srt ds ci st = .ok st') :
    Evolves P { st with cornerCloud := [], surfaceCloud := [], surfaceCloudScan := [] } st' := by
  unfold extractFeatures at h
  exact forM_inv (ringStep P srt ds ci) (Evolves P _) (upTo 0 (P.N_SCAN : Int)) _ st'
    (fun i _ t t' hI hstep => evolves_trans hI (ringStep_evolves hstep)) (evolves_refl P _) h

theorem extractFeatures_corners {P : ParamServer} {srt : StdSort} {ds : List Int → List Int}
    {ci : cloud_info} {st st' : FeatureExtraction}
    (h : extractFeatures P srt ds ci st = .ok st') :
    ∀ x ∈ st'.cornerCloud, rd st.cloudNeighborPicked x = .ok 0 ∧
      ∃ c, rd st.cloudCurvature x = .ok c ∧ c > P.edgeThreshold := by
  obtain ⟨new, e, f⟩ := (extractFeatures_evolves h).corners
  intro x hx
  rw [e] at hx
  simp only [List.nil_append] at hx
  exact f x hx

/-! ## Two runs on nodes that a scan cannot tell apart -/

theorem execRel_refl {α : Type} (x : Exec α) : ExecRel (fun a b => a = b) x x := by
  cases x with
  | error e => trivial
  | ok a => exact rfl

theorem execRel_of_eq {α : Type} {x y : Exec α} (h : x = y) :
    ExecRel (fun a b => a = b) x y := by
  rw [h]; exact execRel_refl y

theorem execRel_mono {α β : Type} {R Q : α → β → Prop} {x : Exec α} {y : Exec β}
    (h : ExecRel R x y) (hRQ : ∀ a b, R a b → Q a b) : ExecRel Q x y := by
  cases x with
  | error e =>
    cases y with
    | error e' => trivial
    | ok b => exact h
  | ok a =>
    cases y with
    | error e' => exact h
    | ok b => exact hRQ a b h

theorem arrAlike_refl {α : Type} (N : Nat) (a : List α) : ArrAlike N a a :=
  ⟨rfl, fun _ _ _ => rfl⟩

/-- Reads at one index of two arrays of the same size fault together. -/
theorem rd_rel_any {α : Type} {a b : List α} (h : a.length = b.length) (k : Int) :
    ExecRel (fun _ _ => True) (rd a k) (rd b k) := by
  by_cases hk : 0 ≤ k ∧ k < (a.length : Int)
  · obtain ⟨v, hv⟩ := rd_ok_of_bounds a k hk.1 hk.2
    obtain ⟨w, hw⟩ := rd_ok_of_bounds b k hk.1 (by omega)
    rw [hv, hw]
    trivial
  · rw [rd_error_of_not_bounds a k hk, rd_error_of_not_bounds b k (by omega)]
    trivial

theorem wr_rel {α : Type} {N : Nat} {a b : List α} (h : ArrAlike N a b) (i : Int) (v : α) :
    ExecRel (ArrAlike N) (wr a i v) (wr b i v) := by
  by_cases hi : 0 ≤ i ∧ i < (a.length : Int)
  · obtain ⟨a', ha'⟩ := wr_ok_of_bounds a i v hi.1 hi.2
    obtain ⟨b', hb'⟩ := wr_ok_of_bounds b i v hi.1 (by rw [← h.1]; exact hi.2)
    rw [ha', hb']
    refine ⟨by rw [wr_length ha', wr_length hb', h.1], ?_⟩
    intro k h5 hN
    rw [rd_wr ha', rd_wr hb', h.2 k h5 hN]
  · rw [wr_error_of_not_bounds a i v hi, wr_error_of_not_bounds b i v (by rw [← h.1]; exact hi)]
    trivial

theorem walkStep_rel {N : Nat} (ci : cloud_info) (ind : Nat) (prev : Int → Int) (l : Int)
    {p q : List Int} (h : ArrAlike N p q) :
    ExecRel (fun x y => x.1 = y.1 ∧ ArrAlike N x.2 y.2)
      (walkStep ci ind prev l p) (walkStep ci ind prev l q) := by
  unfold walkStep
  refine execRel_bind (execRel_refl _) ?_
  rintro c1 _ rfl
  refine execRel_bind (execRel_refl _) ?_
  rintro c0 _ rfl
  by_cases hg : |c1 - c0| > 10
  · simp only [hg, if_true]
    exact ⟨rfl, h⟩
  · simp only [hg, if_false]
    refine execRel_bind (wr_rel h _ _) ?_
    intro p' q' h'
    exact ⟨rfl, h'⟩

theorem suppressNeighbors_rel {N : Nat} (ci : cloud_info) (ind : Nat)
    {p q : List Int} (h : ArrAlike N p q) :
    ExecRel (ArrAlike N) (suppressNeighbors ci ind p) (suppressNeighbors ci ind q) := by
  unfold suppressNeighbors
  refine execRel_bind (loopM_rel _ _ (ArrAlike N) _ p q
    (fun l _ s t hst => walkStep_rel ci ind _ l hst) h) ?_
  intro p' q' h'
  exact loopM_rel _ _ (ArrAlike N) _ p' q' (fun l _ s t hst => walkStep_rel ci ind _ l hst) h'

theorem cornerStep_rel {N : Nat} (P : ParamServer) (ci : cloud_info) (k : Int)
    (h5 : 5 ≤ k) (hN : k < (N : Int) - 5) {s t : FeatureExtraction} (n : Int)
    (h : Alike N s t) :
    ExecRel (fun x y => x.1 = y.1 ∧ (Alike N x.2.1 y.2.1 ∧ x.2.2 = y.2.2))
      (cornerStep P ci k (s, n)) (cornerStep P ci k (t, n)) := by
  unfold cornerStep
  dsimp only
  refine execRel_bind_ok (execRel_of_eq (h.smooth.2 k h5 hN)) ?_
  rintro r _ hr _ rfl
  obtain ⟨hi5, hiN⟩ := h.inds k r h5 hN hr
  refine execRel_bind (execRel_of_eq (h.picked.2 _ hi5 hiN)) ?_
  rintro pk _ rfl
  by_cases hp0 : pk = 0
  · simp only [hp0, if_true]
    refine execRel_bind (execRel_of_eq (h.curv.2 _ hi5 hiN)) ?_
    rintro c _ rfl
    by_cases hthr : c > P.edgeThreshold
    · simp only [hthr, if_true]
      by_cases hn : n + 1 ≤ 20
      · simp only [hn, if_true]
        refine execRel_bind (wr_rel h.label _ _) ?_
        intro l1 l2 hl
        refine execRel_bind (R := fun a b => a = b) (by rw [h.corner]; exact execRel_refl _) ?_
        rintro c1 _ rfl
        refine execRel_bind (wr_rel h.picked _ _) ?_
        intro p1 p2 hp
        refine execRel_bind (suppressNeighbors_rel ci _ hp) ?_
        intro q1 q2 hq
        exact ⟨rfl, ⟨rfl, h.surface, h.scan, h.smooth, h.curv, hq, hl, h.inds⟩, rfl⟩
      · simp only [hn, if_false]
        exact ⟨rfl, h, rfl⟩
    · simp only [hthr, if_false]
      exact ⟨rfl, h, rfl⟩
  · simp only [hp0, if_false]
    exact ⟨rfl, h, rfl⟩

theorem surfaceStep_rel {N : Nat} (P : ParamServer) (ci : cloud_info) (k : Int)
    (h5 : 5 ≤ k) (hN : k < (N : Int) - 5) {s t : FeatureExtraction} (h : Alike N s t) :
    ExecRel (Alike N) (surfaceStep P ci k s) (surfaceStep P ci k t) := by
  unfold surfaceStep
  dsimp only
  refine execRel_bind_ok (execRel_of_eq (h.smooth.2 k h5 hN)) ?_
  rintro r _ hr _ rfl
  obtain ⟨hi5, hiN⟩ := h.inds k r h5 hN hr
  refine execRel_bind (execRel_of_eq (h.picked.2 _ hi5 hiN)) ?_
  rintro pk _ rfl
  by_cases hp0 : pk = 0
  · simp only [hp0, if_true]
    refine execRel_bind (execRel_of_eq (h.curv.2 _ hi5 hiN)) ?_
    rintro c _ rfl
    by_cases hthr : c < P.surfThreshold
    · simp only [hthr, if_true]
      refine execRel_bind (wr_rel h.label _ _) ?_
      intro l1 l2 hl
      refine execRel_bind (wr_rel h.picked _ _) ?_
      intro p1 p2 hp
      refine execRel_bind (suppressNeighbors_rel ci _ hp) ?_
      intro q1 q2 hq
      exact ⟨h.corner, h.surface, h.scan, h.smooth, h.curv, hq, hl, h.inds⟩
    · simp only [hthr, if_false]
      exact h
  · simp only [hp0, if_false]
    exact h

theorem collectStep_rel {N : Nat} (ci : cloud_info) (k : Int)
    (h5 : 5 ≤ k) (hN : k < (N : Int) - 5) {s t : FeatureExtraction} (h : Alike N s t) :
    ExecRel (Alike N) (collectStep ci k s) (collectStep ci k t) := by
  unfold collectStep
  refine execRel_bind (execRel_of_eq (h.label.2 k h5 hN)) ?_
  rintro lab _ rfl
  by_cases hl : lab ≤ 0
  · simp only [hl, if_true]
    refine execRel_bind (R := fun a b => a = b) (by rw [h.scan]; exact execRel_refl _) ?_
    rintro c1 _ rfl
    exact ⟨h.corner, h.surface, rfl, h.smooth, h.curv, h.picked, h.label, h.inds⟩
  · simp only [hl, if_false]
    exact h

theorem ofOption_inj {α : Type} {o o' : Option α} (h : ofOption o = ofOption o') : o = o' := by
  cases o with
  | none =>
    cases o' with
    | none => rfl
    | some w => simp [ofOption] at h
  | some v =>
    cases o' with
    | none => simp [ofOption] at h
    | some w =>
      simp only [ofOption, Except.ok.injEq] at h
      rw [h]

theorem window_ext {α : Type} {a b : List α} {sp ep : Int} (h0 : 0 ≤ sp) (h1 : sp ≤ ep)
    (ha : ep ≤ (a.length : Int)) (hb : ep ≤ (b.length : Int))
    (h : ∀ k : Int, sp ≤ k → k < ep → rd a k = rd b k) :
    window a sp ep = window b sp ep := by
  apply List.ext_getElem?
  intro n
  have la := window_length a sp ep h0 h1 (by omega)
  have lb := window_length b sp ep h0 h1 (by omega)
  by_cases hn : (n : Int) < ep - sp
  · have e1 := rd_window a sp ep h0 (n : Int) (by omega) hn
    have e2 := rd_window b sp ep h0 (n : Int) (by omega) hn
    rw [rd_toNat _ _ (by omega)] at e1 e2
    rw [h (sp + n) (by omega) (by omega)] at e1
    rw [← e2] at e1
    have := ofOption_inj e1
    simpa using this
  · rw [List.getElem?_eq_none (by omega), List.getElem?_eq_none (by omega)]

theorem sortRange_ok_of_bounds (srt : StdSort) (a : List smoothness_t) (sp ep : Int)
    (h0 : 0 ≤ sp) (h1 : sp ≤ ep) (h2 : ep ≤ (a.length : Int)) :
    ∃ a', sortRange srt a sp ep = .ok a' := by
  unfold sortRange
  rw [if_pos ⟨h0, h1, by omega⟩]
  exact ⟨_, rfl⟩

theorem sortRange_rel {N : Nat} (srt : StdSort) {a b : List smoothness_t}
    (h : ArrAlike N a b) (hi : IndsInside N a) (sp ep : Int) (h5 : 5 ≤ sp)
    (hN : ep ≤ (N : Int) - 5) :
    ExecRel (fun a' b' => ArrAlike N a' b' ∧ IndsInside N a')
      (sortRange srt a sp ep) (sortRange srt b sp ep) := by
  cases ha : sortRange srt a sp ep with
  | error e =>
    cases hb : sortRange srt b sp ep with
    | error e' => trivial
    | ok b' =>
      obtain ⟨⟨h0, h1, h2⟩, _⟩ := sortRange_spec hb
      obtain ⟨a', ha'⟩ := sortRange_ok_of_bounds srt a sp ep h0 h1 (by rw [h.1]; exact h2)
      rw [ha] at ha'
      cases ha'
  | ok a' =>
    obtain ⟨⟨h0, h1, h2⟩, hlen, hout, hin⟩ := sortRange_spec ha
    cases hb : sortRange srt b sp ep with
    | error e' =>
      obtain ⟨b', hb'⟩ := sortRange_ok_of_bounds srt b sp ep h0 h1 (by rw [← h.1]; exact h2)
      rw [hb] at hb'
      cases hb'
    | ok b' =>
      obtain ⟨⟨_, _, g2⟩, glen, gout, gin⟩ := sortRange_spec hb
      have hw : window a sp ep = window b sp ep :=
        window_ext h0 h1 h2 g2 (fun k hk1 hk2 => h.2 k (by omega) (by omega))
      refine ⟨⟨by rw [hlen, glen, h.1], ?_⟩, ?_⟩
      · intro k hk5 hkN
        by_cases hk : sp ≤ k ∧ k < ep
        · rw [hin k hk.1 hk.2, gin k hk.1 hk.2, hw]
        · rw [hout k (by omega), gout k (by omega)]
          exact h.2 k hk5 hkN
      · intro k r hk5 hkN hr
        by_cases hk : sp ≤ k ∧ k < ep
        · obtain ⟨q, r', hq1, hq2, hrq, hrk⟩ := sortRange_source ha k hk.1 hk.2
          rw [hr] at hrk
          cases hrk
          exact hi q r (by omega) (by omega) hrq
        · rw [hout k (by omega)] at hr
          exact hi k r hk5 hkN hr

theorem processSector_rel {N : Nat} (P : ParamServer) (srt : StdSort) (ci : cloud_info)
    (sp ep : Int) (h5 : 5 ≤ sp) (hN : ep < (N : Int) - 5) {s t : FeatureExtraction}
    (h : Alike N s t) :
    ExecRel (Alike N) (processSector P srt ci sp ep s) (processSector P srt ci sp ep t) := by
  unfold processSector
  refine execRel_bind (sortRange_rel srt h.smooth h.inds sp ep h5 (by omega)) ?_
  intro a' b' hab
  dsimp only
  have h1 : Alike N { s with cloudSmoothness := a' } { t with cloudSmoothness := b' } :=
    ⟨h.corner, h.surface, h.scan, hab.1, h.curv, h.picked, h.label, hab.2⟩
  refine execRel_bind
    (loopM_rel (cornerStep P ci) (cornerStep P ci)
      (fun x y => Alike N x.1 y.1 ∧ x.2 = y.2) (downTo ep sp) _ _ ?_ ⟨h1, rfl⟩) ?_
  · intro k hk x y hxy
    rw [mem_downTo] at hk
    obtain ⟨x1, x2⟩ := x
    obtain ⟨y1, y2⟩ := y
    obtain ⟨hA, rfl⟩ := hxy
    exact cornerStep_rel P ci k (by omega) (by omega) x2 hA
  · intro x y hxy
    refine execRel_bind
      (forM_rel (surfaceStep P ci) (surfaceStep P ci) (Alike N) (upTo sp (ep + 1)) _ _ ?_
        hxy.1) ?_
    · intro k hk x' y' hxy'
      rw [mem_upTo] at hk
      exact surfaceStep_rel P ci k (by omega) (by omega) hxy'
    · intro x' y' hxy'
      refine forM_rel (collectStep ci) (collectStep ci) (Alike N) (upTo sp (ep + 1)) _ _ ?_ hxy'
      intro k hk x'' y'' hxy''
      rw [mem_upTo] at hk
      exact collectStep_rel ci k (by omega) (by omega) hxy''

/-- The sectors of a ring with bounds inside `[5, N - 5)` that are not skipped
lie inside `[5, N - 5)`. -/
theorem sector_inside (s e j N : Int) (hs : 5 ≤ s) (he : e < N - 5) (hs' : 0 ≤ e)
    (hj0 : 0 ≤ j) (hj6 : j < 6) (h : sectorStart s e j < sectorEnd s e j) :
    s ≤ sectorStart s e j ∧ sectorEnd s e j < e ∧ 5 ≤ sectorStart s e j ∧
      sectorEnd s e j < N - 5 := by
  unfold sectorStart sectorEnd at *
  have hj : j = 0 ∨ j = 1 ∨ j = 2 ∨ j = 3 ∨ j = 4 ∨ j = 5 := by omega
  rcases hj with rfl | rfl | rfl | rfl | rfl | rfl <;>
    (rw [Int.tdiv_eq_ediv (by omega) (by omega), Int.tdiv_eq_ediv (by omega) (by omega)] at *
     omega)

theorem sectorStep_rel {N : Nat} (P : ParamServer) (srt : StdSort) (ci : cloud_info)
    (hNN : N = ci.cloud_deskewed) (hrings : RingsInside P ci) (r j : Int)
    (hr0 : 0 ≤ r) (hr1 : r < (P.N_SCAN : Int)) (hj0 : 0 ≤ j) (hj6 : j < 6)
    {s t : FeatureExtraction} (h : Alike N s t) :
    ExecRel (Alike N) (sectorStep P srt ci r j s) (sectorStep P srt ci r j t) := by
  unfold sectorStep
  refine execRel_bind_ok (execRel_refl _) ?_
  rintro sv _ hs _ rfl
  refine execRel_bind_ok (execRel_refl _) ?_
  rintro ev _ he _ rfl
  dsimp only
  by_cases hskip : sectorStart sv ev j ≥ sectorEnd sv ev j
  · simp only [hskip, if_true]
    exact h
  · simp only [hskip, if_false]
    obtain ⟨⟨a1, a2⟩, ⟨b1, b2⟩⟩ := hrings r sv ev hr0 hr1 hs he
    obtain ⟨_, _, c1, c2⟩ := sector_inside sv ev j (ci.cloud_deskewed : Int) a1 b2 (by omega)
      hj0 hj6 (by omega)
    subst hNN
    exact processSector_rel P srt ci _ _ c1 c2 h

theorem ringStep_rel {N : Nat} (P : ParamServer) (srt : StdSort) (ds : List Int → List Int)
    (ci : cloud_info) (hNN : N = ci.cloud_deskewed) (hrings : RingsInside P ci) (r : Int)
    (hr0 : 0 ≤ r) (hr1 : r < (P.N_SCAN : Int)) {s t : FeatureExtraction} (h : Alike N s t) :
    ExecRel (Alike N) (ringStep P srt ds ci r s) (ringStep P srt ds ci r t) := by
  unfold ringStep ringSectors
  have h0 : Alike N { s with surfaceCloudScan := [] } { t with surfaceCloudScan := [] } :=
    ⟨h.corner, h.surface, rfl, h.smooth, h.curv, h.picked, h.label, h.inds⟩
  refine execRel_bind
    (forM_rel (sectorStep P srt ci r) (sectorStep P srt ci r) (Alike N) (upTo 0 6) _ _ ?_ h0) ?_
  · intro j hj x y hxy
    rw [mem_upTo] at hj
    exact sectorStep_rel P srt ci hNN hrings r j hr0 hr1 hj.1 hj.2 hxy
  · intro x y hxy
    exact ⟨hxy.corner, by show x.surfaceCloud ++ _ = y.surfaceCloud ++ _; rw [hxy.surface, hxy.scan],
      hxy.scan, hxy.smooth, hxy.curv, hxy.picked, hxy.label, hxy.inds⟩

/-- Two runs of `extractFeatures` on the same scan, from nodes whose working
arrays agree on `[5, N - 5)`, end alike; the clouds the two nodes held before
do not matter. -/
theorem extractFeatures_rel (P : ParamServer) (srt : StdSort) (ds : List Int → List Int)
    (ci : cloud_info) (hrings : RingsInside P ci) {s t : FeatureExtraction}
    (hsm : ArrAlike ci.cloud_deskewed s.cloudSmoothness t.cloudSmoothness)
    (hcv : ArrAlike ci.cloud_deskewed s.cloudCurvature t.cloudCurvature)
    (hpk : ArrAlike ci.cloud_deskewed s.cloudNeighborPicked t.cloudNeighborPicked)
    (hlb : ArrAlike ci.cloud_deskewed s.cloudLabel t.cloudLabel)
    (hin : IndsInside ci.cloud_deskewed s.cloudSmoothness) :
    ExecRel (Alike ci.cloud_deskewed) (extractFeatures P srt ds ci s)
      (extractFeatures P srt ds ci t) := by
  unfold extractFeatures
  refine forM_rel (ringStep P srt ds ci) (ringStep P srt ds ci) (Alike ci.cloud_deskewed)
    (upTo 0 (P.N_SCAN : Int)) _ _ ?_ ⟨rfl, rfl, rfl, hsm, hcv, hpk, hlb, hin⟩
  intro r hr x y hxy
  rw [mem_upTo] at hr
  exact ringStep_rel P srt ds ci rfl hrings r hr.1 hr.2 hxy

/-! ## Array sizes -/

theorem smoothnessStep_lengths {ci : cloud_info} {i : Int} {st st' : FeatureExtraction}
    (h : smoothnessStep ci i st = .ok st') :
    st'.cloudSmoothness.length = st.cloudSmoothness.length ∧
    st'.cloudCurvature.length = st.cloudCurvature.length ∧
    st'.cloudNeighborPicked.length = st.cloudNeighborPicked.length ∧
    st'.cloudLabel.length = st.cloudLabel.length := by
  unfold smoothnessStep at h
  obtain ⟨_, _, h⟩ := bind_eq_ok h
  obtain ⟨_, _, h⟩ := bind_eq_ok h
  obtain ⟨_, _, h⟩ := bind_eq_ok h
  obtain ⟨_, _, h⟩ := bind_eq_ok h
  obtain ⟨_, _, h⟩ := bind_eq_ok h
  obtain ⟨_, _, h⟩ := bind_eq_ok h
  obtain ⟨_, _, h⟩ := bind_eq_ok h
  obtain ⟨_, _, h⟩ := bind_eq_ok h
  obtain ⟨_, _, h⟩ := bind_eq_ok h
  obtain ⟨_, _, h⟩ := bind_eq_ok h
  obtain ⟨_, _, h⟩ := bind_eq_ok h
  obtain ⟨c, hc, h⟩ := bind_eq_ok h
  obtain ⟨p, hp, h⟩ := bind_eq_ok h
  obtain ⟨l, hl, h⟩ := bind_eq_ok h
  obtain ⟨s, hs, h⟩ := bind_eq_ok h
  simp only [pure_eq_ok, Except.ok.injEq] at h
  subst h
  exact ⟨wr_length hs, wr_length hc, wr_length hp, wr_length hl⟩

theorem markAll_length (i : Int) :
    ∀ (ds : List Int) (pk pk' : List Int), markAll i ds pk = .ok pk' →
      pk'.length = pk.length := by
  intro ds
  induction ds with
  | nil =>
    intro pk pk' h
    simp only [markAll, Except.ok.injEq] at h
    rw [h]
  | cons d rest ih =>
    intro pk pk' h
    simp only [markAll] at h
    cases hw : wr pk (i + d) 1 with
    | error e => simp [hw] at h
    | ok p1 =>
      simp only [hw] at h
      rw [ih p1 pk' h, wr_length hw]

theorem occludedStep_length {ci : cloud_info} {i : Int} {pk pk' : List Int}
    (h : occludedStep ci i pk = .ok pk') : pk'.length = pk.length := by
  unfold occludedStep at h
  obtain ⟨d1, _, h⟩ := bind_eq_ok h
  obtain ⟨d2, _, h⟩ := bind_eq_ok h
  obtain ⟨c1, _, h⟩ := bind_eq_ok h
  obtain ⟨c0, _, h⟩ := bind_eq_ok h
  obtain ⟨p1, hp1, h⟩ := bind_eq_ok h
  obtain ⟨rm, _, h⟩ := bind_eq_ok h
  obtain ⟨r0, _, h⟩ := bind_eq_ok h
  obtain ⟨rp, _, h⟩ := bind_eq_ok h
  have hl1 : p1.length = pk.length := by
    split at hp1
    · split at hp1
      · exact markAll_length i _ _ _ hp1
      · split at hp1
        · exact markAll_length i _ _ _ hp1
        · simp only [pure_eq_ok, Except.ok.injEq] at hp1
          rw [hp1]
    · simp only [pure_eq_ok, Except.ok.injEq] at hp1
      rw [hp1]
  dsimp only at h
  split at h
  · rw [wr_length h, hl1]
  · simp only [pure_eq_ok, Except.ok.injEq] at h
    rw [← h, hl1]

/-- The callback's stages never change the size of a working array. -/
theorem pipeline_lengths {P : ParamServer} {srt : StdSort} {ds : List Int → List Int}
    {ci : cloud_info} {st st' : FeatureExtraction} (h : pipeline P srt ds ci st = .ok st') :
    st'.cloudSmoothness.length = st.cloudSmoothness.length ∧
    st'.cloudCurvature.length = st.cloudCurvature.length ∧
    st'.cloudNeighborPicked.length = st.cloudNeighborPicked.length ∧
    st'.cloudLabel.length = st.cloudLabel.length := by
  unfold pipeline at h
  obtain ⟨st1, h1, h⟩ := bind_eq_ok h
  obtain ⟨st2, h2, h3⟩ := bind_eq_ok h
  have e1 := forM_inv (smoothnessStep ci)
    (fun x => x.cloudSmoothness.length = st.cloudSmoothness.length ∧
      x.cloudCurvature.length = st.cloudCurvature.length ∧
      x.cloudNeighborPicked.length = st.cloudNeighborPicked.length ∧
      x.cloudLabel.length = st.cloudLabel.length) _ st st1
    (fun i _ t t' hI hstep => by
      obtain ⟨a, b, c, d⟩ := smoothnessStep_lengths hstep
      exact ⟨a.trans hI.1, b.trans hI.2.1, c.trans hI.2.2.1, d.trans hI.2.2.2⟩)
    ⟨rfl, rfl, rfl, rfl⟩ h1
  unfold markOccludedPoints at h2
  obtain ⟨pk, hpk, h2⟩ := bind_eq_ok h2
  simp only [pure_eq_ok, Except.ok.injEq] at h2
  subst h2
  have e2 := forM_inv (occludedStep ci)
    (fun x => x.length = st1.cloudNeighborPicked.length) _ _ pk
    (fun i _ t t' hI hstep => (occludedStep_length hstep).trans hI) rfl hpk
  have e3 := extractFeatures_evolves h3
  exact ⟨e3.smoothLen.trans e1.1, by rw [e3.curv]; exact e1.2.1,
    e3.pickedLen.trans (e2.trans e1.2.2.1), e3.labelLen.trans e1.2.2.2⟩

/-! ## The account of one sector -/

theorem processSector_touches {P : ParamServer} {srt : StdSort} {ci : cloud_info}
    {sp ep : Int} {st st' : FeatureExtraction}
    (h : processSector P srt ci sp ep st = .ok st')
    (hin : ∀ (p : Int) (r : smoothness_t), sp ≤ p → p ≤ ep →
      rd st.cloudSmoothness p = .ok r → sp ≤ (r.ind : Int) ∧ (r.ind : Int) ≤ ep) :
    Touches sp ep st st' := by
  obtain ⟨sorted, s2, new, st3, hsort, hC, hS, rfl, hcol⟩ := processSector_spec h
  obtain ⟨⟨h0, h1, h2⟩, hlen, hout, hinw⟩ := sortRange_spec hsort
  -- the records of the sector after the sort
  have hsorted : ∀ (p : Int) (r : smoothness_t), sp ≤ p → p ≤ ep →
      rd sorted p = .ok r → sp ≤ (r.ind : Int) ∧ (r.ind : Int) ≤ ep := by
    intro p r hp1 hp2 hr
    by_cases hp : p < ep
    · obtain ⟨q, r', hq1, hq2, hrq, hrp⟩ := sortRange_source hsort p hp1 hp
      rw [hr] at hrp
      cases hrp
      exact hin q r hq1 (by omega) hrq
    · rw [hout p (by omega)] at hr
      exact hin p r hp1 hp2 hr
  have hsm3 : st3.cloudSmoothness = sorted := by rw [hS.smooth, hC.smooth]
  have hnewIn : ∀ x ∈ new, sp ≤ x ∧ x ≤ ep := by
    intro x hx
    obtain ⟨_, k, hk, r, hr, rfl⟩ := hC.source x hx
    rw [mem_downTo] at hk
    exact hsorted k r hk.1 hk.2 hr
  have hnodup : new.Nodup := hC.separated.imp (fun hab => hab.1)
  have hlab2 : ∀ k : Int, rd s2.1.cloudLabel k = if k ∈ new then .ok 1 else rd st.cloudLabel k :=
    hC.label
  constructor
  · intro p hp
    show rd st3.cloudSmoothness p = _
    rw [hsm3]
    exact hout p (by omega)
  · intro p r hp1 hp2 hr
    have : rd st3.cloudSmoothness p = .ok r := hr
    rw [hsm3] at this
    exact hsorted p r hp1 hp2 this
  · intro k hk
    show rd st3.cloudLabel k = _
    have hknew : k ∉ new := fun hx => by have := hnewIn k hx; omega
    rcases hS.label k with e | ⟨_, _, p, hp, r, hr, rfl⟩
    · rw [e, hlab2 k, if_neg hknew]
    · exfalso
      rw [mem_upTo] at hp
      rw [hC.smooth] at hr
      have := hsorted p r hp.1 (by omega) hr
      omega
  · show st3.surfaceCloud = _
    rw [hS.surface, hC.surface]
  · refine ⟨new, (upTo sp (ep + 1)).filter (labelNotCorner st3.cloudLabel), ?_, ?_, hnewIn, ?_, ?_⟩
    · show st3.cornerCloud = _
      rw [hS.corner, hC.corner]
    · show st3.surfaceCloudScan ++ _ = _
      rw [hS.scan, hC.scan]
    · intro x hx
      have := (List.mem_filter.mp hx).1
      rw [mem_upTo] at this
      omega
    · intro k hk1 hk2 ⟨lab, hlab, hle⟩
      have hkmem : k ∈ upTo sp (ep + 1) := (mem_upTo _ _ _).mpr ⟨hk1, by omega⟩
      by_cases hknew : k ∈ new
      · have hc1 : List.count k new = 1 := List.count_eq_one_of_mem hnodup hknew
        have hl2 : rd s2.1.cloudLabel k = .ok 1 := by rw [hlab2 k, if_pos hknew]
        have hp2 : rd s2.1.cloudNeighborPicked k = .ok 1 := (hC.guarded k hknew).1
        have hl3 : rd st3.cloudLabel k = .ok 1 := by
          rcases hS.label k with e | ⟨_, hp0, _⟩
          · rw [e, hl2]
          · rw [hp2] at hp0
            cases hp0
        have hnot : ¬ labelNotCorner st3.cloudLabel k = true := by
          rw [labelNotCorner_true_iff]
          rintro ⟨lab', hlab', hle'⟩
          rw [hl3] at hlab'
          cases hlab'
          omega
        have hc2 : List.count k ((upTo sp (ep + 1)).filter (labelNotCorner st3.cloudLabel)) = 0 :=
          List.count_eq_zero.mpr (fun hm => hnot (List.mem_filter.mp hm).2)
        omega
      · have hc1 : List.count k new = 0 := List.count_eq_zero.mpr hknew
        have hl2 : rd s2.1.cloudLabel k = .ok lab := by rw [hlab2 k, if_neg hknew, hlab]
        have hyes : labelNotCorner st3.cloudLabel k = true := by
          rw [labelNotCorner_true_iff]
          rcases hS.label k with e | ⟨e, _, _⟩
          · exact ⟨lab, by rw [e, hl2], hle⟩
          · exact ⟨-1, e, by omega⟩
        have hc2 : List.count k ((upTo sp (ep + 1)).filter (labelNotCorner st3.cloudLabel)) = 1 := by
          rw [List.count_filter hyes]
          exact List.count_eq_one_of_mem (nodup_upTo _ _) hkmem
        omega

/-- Two sectors `j < j'` of one ring that are not skipped share no index. -/
theorem sectors_apart (s e j j' k : Int) (hs : 0 ≤ s) (he : 0 ≤ e)
    (hj0 : 0 ≤ j) (hjj : j < j') (hj6' : j' < 6)
    (h1 : sectorStart s e j ≤ k ∧ k ≤ sectorEnd s e j)
    (h2 : sectorStart s e j' ≤ k ∧ k ≤ sectorEnd s e j') : False := by
  unfold sectorStart sectorEnd at *
  have hj : j = 0 ∨ j = 1 ∨ j = 2 ∨ j = 3 ∨ j = 4 := by omega
  have hj' : j' = 1 ∨ j' = 2 ∨ j' = 3 ∨ j' = 4 ∨ j' = 5 := by omega
  rcases hj with rfl | rfl | rfl | rfl | rfl <;>
    rcases hj' with rfl | rfl | rfl | rfl | rfl <;>
    first
    | exact absurd hjj (by decide)
    | (rw [Int.tdiv_eq_ediv (by omega) (by omega), Int.tdiv_eq_ediv (by omega) (by omega)] at h1 h2
       omega)

/-- Two different sectors of one ring that are not skipped share no index. -/
theorem sectors_disjoint (s e j j' k : Int) (hs : 0 ≤ s) (he : 0 ≤ e)
    (hj0 : 0 ≤ j) (hj6 : j < 6) (hj0' : 0 ≤ j') (hj6' : j' < 6) (hne : j ≠ j')
    (h1 : sectorStart s e j ≤ k ∧ k ≤ sectorEnd s e j)
    (h2 : sectorStart s e j' ≤ k ∧ k ≤ sectorEnd s e j') : False := by
  rcases lt_or_gt_of_ne hne with h | h
  · exact sectors_apart s e j j' k hs he hj0 h hj6' h1 h2
  · exact sectors_apart s e j' j k hs he hj0' h hj6 h2 h1

/-- With ring intervals inside `[5, N - 5)` and pairwise disjoint, an index
lies in at most one sector that is not skipped. -/
theorem inSector_unique {P : ParamServer} {ci : cloud_info} (hrings : RingsInside P ci)
    (hdisj : RingsDisjoint P ci) {r j r' j' k : Int}
    (hr0 : 0 ≤ r) (hr1 : r < (P.N_SCAN : Int)) (hj0 : 0 ≤ j) (hj6 : j < 6)
    (hr0' : 0 ≤ r') (hr1' : r' < (P.N_SCAN : Int)) (hj0' : 0 ≤ j') (hj6' : j' < 6)
    (h : InSector ci r j k) (h' : InSector ci r' j' k) : r = r' ∧ j = j' := by
  obtain ⟨s, e, hs, he, hlt, hk1, hk2⟩ := h
  obtain ⟨s', e', hs', he', hlt', hk1', hk2'⟩ := h'
  obtain ⟨⟨a1, a2⟩, ⟨b1, b2⟩⟩ := hrings r s e hr0 hr1 hs he
  obtain ⟨⟨a1', a2'⟩, ⟨b1', b2'⟩⟩ := hrings r' s' e' hr0' hr1' hs' he'
  obtain ⟨c1, c2, _, _⟩ := sector_inside s e j (ci.cloud_deskewed : Int) a1 b2 (by omega)
    hj0 hj6 hlt
  obtain ⟨c1', c2', _, _⟩ := sector_inside s' e' j' (ci.cloud_deskewed : Int) a1' b2' (by omega)
    hj0' hj6' hlt'
  by_cases hrr : r = r'
  · subst hrr
    rw [hs] at hs'
    rw [he] at he'
    cases hs'
    cases he'
    refine ⟨rfl, ?_⟩
    by_contra hne
    exact sectors_disjoint s e j j' k (by omega) (by omega) hj0 hj6 hj0' hj6' hne
      ⟨hk1, hk2⟩ ⟨hk1', hk2'⟩
  · exfalso
    exact hdisj r r' s e s' e' k hr0 hr1 hr0' hr1' hrr hs he hs' he'
      ⟨by omega, by omega, by omega, by omega⟩

/-- The account of the body of the sector loop, for a scan whose ring
intervals lie inside `[5, N - 5)` and are pairwise disjoint, run on a node
whose records name indices of their own sectors: that property is kept, an
index outside the sector keeps its label and its number of occurrences in
`cornerCloud` and in `surfaceCloudScan`, and an index of the sector whose
label was not positive gains exactly one occurrence, in one of the two. -/
theorem sectorStep_account {P : ParamServer} {srt : StdSort} {ci : cloud_info}
    (hrings : RingsInside P ci) (hdisj : RingsDisjoint P ci) {r j : Int}
    (hr0 : 0 ≤ r) (hr1 : r < (P.N_SCAN : Int)) (hj0 : 0 ≤ j) (hj6 : j < 6)
    {st st' : FeatureExtraction} (h : sectorStep P srt ci r j st = .ok st')
    (hB : BlockInds P ci st.cloudSmoothness) :
    BlockInds P ci st'.cloudSmoothness ∧
    (∀ k : Int, ¬ InSector ci r j k →
      rd st'.cloudLabel k = rd st.cloudLabel k ∧
      List.count k st'.cornerCloud = List.count k st.cornerCloud ∧
      List.count k st'.surfaceCloudScan = List.count k st.surfaceCloudScan) ∧
    (∀ k : Int, InSector ci r j k → (∃ lab, rd st.cloudLabel k = .ok lab ∧ lab ≤ 0) →
      List.count k st'.cornerCloud + List.count k st'.surfaceCloudScan =
        List.count k st.cornerCloud + List.count k st.surfaceCloudScan + 1) := by
  obtain ⟨s, e, hs, he, hcase⟩ := sectorStep_spec h
  rcases hcase with ⟨hskip, e1⟩ | ⟨hlt, hproc⟩
  · subst e1
    refine ⟨hB, fun k _ => ⟨rfl, rfl, rfl⟩, ?_⟩
    rintro k ⟨s', e', hs', he', hlt', _⟩ _
    rw [hs] at hs'
    rw [he] at he'
    cases hs'
    cases he'
    omega
  · have hown : ∀ p : Int, sectorStart s e j ≤ p → p ≤ sectorEnd s e j → InSector ci r j p :=
      fun p h1 h2 => ⟨s, e, hs, he, hlt, h1, h2⟩
    have hbounds : ∀ p : Int, InSector ci r j p →
        sectorStart s e j ≤ p ∧ p ≤ sectorEnd s e j := by
      rintro p ⟨s', e', hs', he', _, h1, h2⟩
      rw [hs] at hs'
      rw [he] at he'
      cases hs'
      cases he'
      exact ⟨h1, h2⟩
    have hT := processSector_touches hproc (by
      intro p rec_ hp1 hp2 hrd
      exact hbounds _ (hB r j p rec_ hr0 hr1 hj0 hj6 (hown p hp1 hp2) hrd))
    obtain ⟨newC, newS, ec, es, hC, hS, hcount⟩ := hT.clouds
    refine ⟨?_, ?_, ?_⟩
    · intro r' j' p rec_ hr0' hr1' hj0' hj6' hp hrd
      by_cases hpin : sectorStart s e j ≤ p ∧ p ≤ sectorEnd s e j
      · obtain ⟨rfl, rfl⟩ := inSector_unique hrings hdisj hr0' hr1' hj0' hj6' hr0 hr1 hj0 hj6
          hp (hown p hpin.1 hpin.2)
        obtain ⟨i1, i2⟩ := hT.smoothIn p rec_ hpin.1 hpin.2 hrd
        exact hown _ i1 i2
      · rw [hT.smoothOut p (by omega)] at hrd
        exact hB r' j' p rec_ hr0' hr1' hj0' hj6' hp hrd
    · intro k hk
      have hkout : k < sectorStart s e j ∨ sectorEnd s e j < k := by
        by_contra hcon
        exact hk (hown k (by omega) (by omega))
      have hkC : k ∉ newC := fun hx => by have := hC k hx; omega
      have hkS : k ∉ newS := fun hx => by have := hS k hx; omega
      refine ⟨hT.labelOut k hkout, ?_, ?_⟩
      · rw [ec, List.count_append, List.count_eq_zero.mpr hkC]
        rfl
      · rw [es, List.count_append, List.count_eq_zero.mpr hkS]
        rfl
    · intro k hk hlab
      obtain ⟨k1, k2⟩ := hbounds k hk
      have := hcount k k1 k2 hlab
      rw [ec, es, List.count_append, List.count_append]
      omega

/-! ## The account of a whole run -/

theorem upTo_split (n : Nat) :
    ∀ (lo mid hi : Int), (mid - lo).toNat = n → lo ≤ mid → mid ≤ hi →
      upTo lo hi = upTo lo mid ++ upTo mid hi := by
  induction n with
  | zero =>
    intro lo mid hi hn h1 h2
    have : mid = lo := by omega
    subst this
    rw [upTo_nil mid mid (le_refl _)]
    rfl
  | succ n ih =>
    intro lo mid hi hn h1 h2
    rw [upTo_cons lo hi (by omega), upTo_cons lo mid (by omega),
      ih (lo + 1) mid hi (by omega) (by omega) h2]
    rfl

theorem forM_append_ok {σ : Type} {body : Int → σ → Exec σ} {l1 l2 : List Int} {s s' : σ}
    (h : forM body (l1 ++ l2) s = .ok s') :
    ∃ m, forM body l1 s = .ok m ∧ forM body l2 m = .ok s' := by
  rw [forM_append] at h
  exact bind_eq_ok h

theorem forM_cons_ok {σ : Type} {body : Int → σ → Exec σ} {i : Int} {l : List Int} {s s' : σ}
    (h : forM body (i :: l) s = .ok s') :
    ∃ m, body i s = .ok m ∧ forM body l m = .ok s' := by
  simp only [forM] at h
  cases hb : body i s with
  | error e => simp [hb] at h
  | ok m =>
    simp only [hb] at h
    exact ⟨m, rfl, h⟩

/-- A run of the sector loop over sectors none of which holds the index `k`
keeps the label of `k` and its numbers of occurrences in the two clouds. -/
theorem sectors_other {P : ParamServer} {srt : StdSort} {ci : cloud_info}
    (hrings : RingsInside P ci) (hdisj : RingsDisjoint P ci) {r : Int}
    (hr0 : 0 ≤ r) (hr1 : r < (P.N_SCAN : Int)) (k : Int) (js : List Int)
    (hjs : ∀ j ∈ js, (0 ≤ j ∧ j < 6) ∧ ¬ InSector ci r j k)
    {st st' : FeatureExtraction} (h : forM (sectorStep P srt ci r) js st = .ok st')
    (hB : BlockInds P ci st.cloudSmoothness) :
    BlockInds P ci st'.cloudSmoothness ∧ rd st'.cloudLabel k = rd st.cloudLabel k ∧
    List.count k st'.cornerCloud = List.count k st.cornerCloud ∧
    List.count k st'.surfaceCloudScan = List.count k st.surfaceCloudScan := by
  refine forM_inv (sectorStep P srt ci r)
    (fun x => BlockInds P ci x.cloudSmoothness ∧ rd x.cloudLabel k = rd st.cloudLabel k ∧
      List.count k x.cornerCloud = List.count k st.cornerCloud ∧
      List.count k x.surfaceCloudScan = List.count k st.surfaceCloudScan) js st st' ?_
    ⟨hB, rfl, rfl, rfl⟩ h
  intro j hj t t' ⟨i1, i2, i3, i4⟩ hstep
  obtain ⟨⟨hj0, hj6⟩, hnot⟩ := hjs j hj
  obtain ⟨b, hother, _⟩ := sectorStep_account hrings hdisj hr0 hr1 hj0 hj6 hstep i1
  obtain ⟨o1, o2, o3⟩ := hother k hnot
  exact ⟨b, o1.trans i2, o2.trans i3, o3.trans i4⟩

/-- A ring other than the one holding the index `k` keeps the label of `k`
and its number of occurrences in `cornerCloud`. -/
theorem ringStep_other {P : ParamServer} {srt : StdSort} {ds : List Int → List Int}
    {ci : cloud_info} (hrings : RingsInside P ci) (hdisj : RingsDisjoint P ci) {r : Int}
    (hr0 : 0 ≤ r) (hr1 : r < (P.N_SCAN : Int)) (k : Int)
    (hk : ∀ j : Int, 0 ≤ j → j < 6 → ¬ InSector ci r j k)
    {st st' : FeatureExtraction} (h : ringStep P srt ds ci r st = .ok st')
    (hB : BlockInds P ci st.cloudSmoothness) :
    BlockInds P ci st'.cloudSmoothness ∧ rd st'.cloudLabel k = rd st.cloudLabel k ∧
    List.count k st'.cornerCloud = List.count k st.cornerCloud := by
  unfold ringStep at h
  obtain ⟨st1, hst1, h⟩ := bind_eq_ok h
  simp only [pure_eq_ok, Except.ok.injEq] at h
  subst h
  unfold ringSectors at hst1
  obtain ⟨b, o1, o2, _⟩ := sectors_other hrings hdisj hr0 hr1 k (upTo 0 6) (by
    intro j hj
    rw [mem_upTo] at hj
    exact ⟨hj, hk j hj.1 hj.2⟩) hst1 hB
  exact ⟨b, o1, o2⟩

/-- The ring holding the index `k` in one of its sectors that are not
skipped, started with `k` unlabelled: afterwards `k` occurs exactly once more
in `cornerCloud` and the ring's `surfaceCloudScan` taken together. -/
theorem ringSectors_own {P : ParamServer} {srt : StdSort} {ci : cloud_info}
    (hrings : RingsInside P ci) (hdisj : RingsDisjoint P ci) {r j0 : Int}
    (hr0 : 0 ≤ r) (hr1 : r < (P.N_SCAN : Int)) (hj0 : 0 ≤ j0) (hj6 : j0 < 6) (k : Int)
    (hk : InSector ci r j0 k)
    {st st' : FeatureExtraction} (h : ringSectors P srt ci r st = .ok st')
    (hB : BlockInds P ci st.cloudSmoothness)
    (hlab : ∃ lab, rd st.cloudLabel k = .ok lab ∧ lab ≤ 0) :
    BlockInds P ci st'.cloudSmoothness ∧
    List.count k st'.cornerCloud + List.count k st'.surfaceCloudScan =
      List.count k st.cornerCloud + 1 := by
  unfold ringSectors at h
  have hother : ∀ j : Int, 0 ≤ j → j < 6 → j ≠ j0 → ¬ InSector ci r j k := by
    intro j h0 h6 hne hin
    exact hne (inSector_unique hrings hdisj hr0 hr1 h0 h6 hr0 hr1 hj0 hj6 hin hk).2
  rw [upTo_split j0.toNat 0 j0 6 (by omega) hj0 (by omega), upTo_cons j0 6 hj6] at h
  obtain ⟨m1, hm1, h⟩ := forM_append_ok h
  obtain ⟨m2, hm2, hm3⟩ := forM_cons_ok h
  obtain ⟨b1, l1, c1, s1⟩ := sectors_other hrings hdisj hr0 hr1 k (upTo 0 j0) (by
    intro j hj
    rw [mem_upTo] at hj
    exact ⟨⟨hj.1, by omega⟩, hother j hj.1 (by omega) (by omega)⟩) hm1 hB
  obtain ⟨b2, _, hown⟩ := sectorStep_account hrings hdisj hr0 hr1 hj0 hj6 hm2 b1
  have c2 := hown k hk (by rw [l1]; exact hlab)
  obtain ⟨b3, _, c3, s3⟩ := sectors_other hrings hdisj hr0 hr1 k (upTo (j0 + 1) 6) (by
    intro j hj
    rw [mem_upTo] at hj
    exact ⟨⟨by omega, hj.2⟩, hother j (by omega) hj.2 (by omega)⟩) hm3 b2
  refine ⟨b3, ?_⟩
  rw [c3, s3, c2, c1, s1]
  show _ + List.count k [] + 1 = _
  simp

/-! ## The runs on the concrete scans -/

theorem pipeline_stages {P : ParamServer} {srt : StdSort} {ds : List Int → List Int}
    {ci : cloud_info} {st s1 s2 s3 : FeatureExtraction}
    (h1 : calculateSmoothness ci st = .ok s1) (h2 : markOccludedPoints ci s1 = .ok s2)
    (h3 : extractFeatures P srt ds ci s2 = .ok s3) :
    pipeline P srt ds ci st = .ok s3 := by
  unfold pipeline
  rw [h1, bind_ok, h2, bind_ok, h3]

theorem stages_bind {ci : cloud_info} {st s1 s2 : FeatureExtraction}
    (h1 : calculateSmoothness ci st = .ok s1) (h2 : markOccludedPoints ci s1 = .ok s2) :
    calculateSmoothness ci st >>= markOccludedPoints ci = .ok s2 := by
  rw [h1, bind_ok, h2]

set_option maxRecDepth 100000 in
theorem gapCalc_run : calculateSmoothness gapScan (initializationValue P1) = .ok gapCalc := by
  decide!

set_option maxRecDepth 100000 in
theorem gapMarked_run : markOccludedPoints gapScan gapCalc = .ok gapMarked := by
  decide!

set_option maxRecDepth 100000 in
theorem gapDone_run :
    extractFeatures P1 insertionSort id gapScan gapMarked = .ok gapDone := by
  decide!

/-- The function `calculateSmoothness` reads the ranges and the number of
points of the scan and nothing else of it. -/
theorem calculateSmoothness_congr (ci ci' : cloud_info) (st : FeatureExtraction)
    (h1 : ci.pointRange = ci'.pointRange) (h2 : ci.cloud_deskewed = ci'.cloud_deskewed) :
    calculateSmoothness ci st = calculateSmoothness ci' st := by
  have hs : smoothnessStep ci = smoothnessStep ci' := by
    funext i s
    unfold smoothnessStep
    rw [h1]
  unfold calculateSmoothness
  rw [hs, h2]

set_option maxRecDepth 100000 in
theorem stepMarked_run :
    calculateSmoothness stepScan (initializationValue P1) >>= markOccludedPoints stepScan
      = .ok stepMarked := by
  have h : markOccludedPoints stepScan gapCalc = .ok stepMarked := by
    decide!
  rw [calculateSmoothness_congr stepScan gapScan (initializationValue P1) rfl rfl,
    gapCalc_run, bind_ok, h]

set_option maxRecDepth 100000 in
theorem stepDone_run :
    pipeline P1 insertionSort id stepScan (initializationValue P1) = .ok stepDone := by
  have h : extractFeatures P1 insertionSort id stepScan stepMarked = .ok stepDone := by
    decide!
  have h0 := stepMarked_run
  unfold pipeline
  rw [← bind_assoc, h0, bind_ok, h]

/-! ## Claims on the corner points of one sector -/

/-- C1 (corner cap). Whatever the scan, the configuration and the state of
the node, the processing of sector `j` of ring `i` appends at most 20 points to
`cornerCloud`. -/
theorem corner_cap (P : ParamServer) (srt : StdSort) (ci : cloud_info) (i j : Int)
    (st st' : FeatureExtraction) (h : sectorStep P srt ci i j st = .ok st') :
    ∃ new, st'.cornerCloud = st.cornerCloud ++ new ∧ new.length ≤ 20 := by
  obtain ⟨new, h1, h2, _, _⟩ := sectorStep_corners h
  exact ⟨new, h1, h2⟩

set_option maxRecDepth 100000 in
theorem corner_cap_witness :
    (∃ new, (outcome (sectorStep P2 insertionSort capScan 0 0 capState) capState).cornerCloud
        = capState.cornerCloud ++ new ∧ new.length ≤ 20) ∧
    (outcome (sectorStep P2 insertionSort capScan 0 0 capState) capState).cornerCloud
      = [25, 24, 23, 22, 21, 20, 19, 18, 17, 16, 15, 14, 13, 12, 11, 10, 9, 8, 7, 6] := by
  have hw : completes (sectorStep P2 insertionSort capScan 0 0 capState) = true ∧
      (outcome (sectorStep P2 insertionSort capScan 0 0 capState) capState).cornerCloud
        = [25, 24, 23, 22, 21, 20, 19, 18, 17, 16, 15, 14, 13, 12, 11, 10, 9, 8, 7, 6] := by
    decide!
  exact ⟨corner_cap P2 insertionSort capScan 0 0 capState _ (completes_outcome _ _ hw.1),
    hw.2⟩

theorem separated_symm {ci : cloud_info} {a b : Int} (h : Separated ci a b) :
    Separated ci b a :=
  ⟨fun e => h.1 e.symm, h.2.2, h.2.1⟩

/-- C2 (suppression correctness). On a scan whose column array covers its
points, if the processing of one sector appends two corner points `a < b` with
`b - a ≤ 5`, then some pair of consecutive points between them has a column gap
of at least 10: there is `m` with `a ≤ m < b` and
`|col[m+1] - col[m]| ≥ 10`. -/
theorem suppression_correctness (P : ParamServer) (srt : StdSort) (ci : cloud_info)
    (i j : Int) (st st' : FeatureExtraction)
    (hc : ci.cloud_deskewed ≤ ci.pointColInd.length)
    (h : sectorStep P srt ci i j st = .ok st') :
    ∃ new, st'.cornerCloud = st.cornerCloud ++ new ∧
      ∀ a ∈ new, ∀ b ∈ new, a < b → b - a ≤ 5 →
        ∃ m : Int, a ≤ m ∧ m < b ∧ m + 1 < (ci.pointColInd.length : Int) ∧
          |colAt ci (m + 1) - colAt ci m| ≥ 10 := by
  obtain ⟨s, e, _, _, hcase⟩ := sectorStep_spec h
  rcases hcase with ⟨_, rfl⟩ | ⟨_, hproc⟩
  · exact ⟨[], by simp, by intro a ha; cases ha⟩
  · obtain ⟨sorted, s2, new, st3, _, hC, hS, rfl, _⟩ := processSector_spec hproc
    refine ⟨new, ?_, ?_⟩
    · show st3.cornerCloud = _
      rw [hS.corner, hC.corner]
    · intro a ha b hb hab hd
      have hsep : Separated ci a b :=
        hC.separated.forall (fun _ _ hxy => separated_symm hxy) ha hb (by omega)
      have hnb := hsep.2.1 hab hd
      unfold noBreak at hnb
      push_neg at hnb
      obtain ⟨m, hm1, hm2, hgap⟩ := hnb
      have hbN := (hC.source b hb).1.2
      exact ⟨m, hm1, hm2, by omega, by omega⟩

set_option maxRecDepth 100000 in
theorem suppression_correctness_witness :
    (∃ new, (outcome (sectorStep P1 insertionSort gapScan 0 3 gapMarked) gapMarked).cornerCloud
        = gapMarked.cornerCloud ++ new ∧
      ∀ a ∈ new, ∀ b ∈ new, a < b → b - a ≤ 5 →
        ∃ m : Int, a ≤ m ∧ m < b ∧ m + 1 < (gapScan.pointColInd.length : Int) ∧
          |colAt gapScan (m + 1) - colAt gapScan m| ≥ 10) ∧
    (outcome (sectorStep P1 insertionSort gapScan 0 3 gapMarked) gapMarked).cornerCloud
      = [16, 15] := by
  have hw : completes (sectorStep P1 insertionSort gapScan 0 3 gapMarked) = true ∧
      (outcome (sectorStep P1 insertionSort gapScan 0 3 gapMarked) gapMarked).cornerCloud
        = [16, 15] := by
    decide!
  exact ⟨suppression_correctness P1 insertionSort gapScan 0 3 gapMarked _ (by decide)
    (completes_outcome _ _ hw.1), hw.2⟩

/-! ## Claims on `calculateSmoothness` -/

theorem curvatureAt_nonneg (ci : cloud_info) (i : Int) : 0 ≤ curvatureAt ci i := by
  unfold curvatureAt
  exact roundBinary_nonneg 24 (-126) _ (mul_self_nonneg _)

/-- On a window of ranges on which no operation rounds, the value computed by
the source is the value of the specification's formula. -/
theorem curvatureAt_exact (ci : cloud_info) (i : Int) (h : ExactWindow ci i) :
    curvatureAt ci i = specCurvature ci i := by
  obtain ⟨k, hk, hg⟩ := h
  obtain ⟨m5, a5, e5⟩ := hg (i - 5) (by omega) (by omega)
  obtain ⟨m4, a4, e4⟩ := hg (i - 4) (by omega) (by omega)
  obtain ⟨m3, a3, e3⟩ := hg (i - 3) (by omega) (by omega)
  obtain ⟨m2, a2, e2⟩ := hg (i - 2) (by omega) (by omega)
  obtain ⟨m1, a1, e1⟩ := hg (i - 1) (by omega) (by omega)
  obtain ⟨m0, a0, e0⟩ := hg i (by omega) (by omega)
  obtain ⟨n1, b1, f1⟩ := hg (i + 1) (by omega) (by omega)
  obtain ⟨n2, b2, f2⟩ := hg (i + 2) (by omega) (by omega)
  obtain ⟨n3, b3, f3⟩ := hg (i + 3) (by omega) (by omega)
  obtain ⟨n4, b4, f4⟩ := hg (i + 4) (by omega) (by omega)
  obtain ⟨n5, b5, f5⟩ := hg (i + 5) (by omega) (by omega)
  unfold curvatureAt specCurvature
  rw [e5, e4, e3, e2, e1, e0, f1, f2, f3, f4, f5,
    diffRange_exact k (by omega) 204 (by norm_num) m5 m4 m3 m2 m1 m0 n1 n2 n3 n4 n5
      a5 a4 a3 a2 a1 a0 b1 b2 b3 b4 b5]
  have hD : |m5 + m4 + m3 + m2 + m1 - m0 * 10 + n1 + n2 + n3 + n4 + n5| ≤ 4080 := by
    rw [abs_le] at a5 a4 a3 a2 a1 a0 b1 b2 b3 b4 b5 ⊢
    constructor <;> omega
  have e : ((m5 + m4 + m3 + m2 + m1 - m0 * 10 + n1 + n2 + n3 + n4 + n5 : Int) : ℚ) / 2 ^ k *
      (((m5 + m4 + m3 + m2 + m1 - m0 * 10 + n1 + n2 + n3 + n4 + n5 : Int) : ℚ) / 2 ^ k) =
      (((m5 + m4 + m3 + m2 + m1 - m0 * 10 + n1 + n2 + n3 + n4 + n5) *
        (m5 + m4 + m3 + m2 + m1 - m0 * 10 + n1 + n2 + n3 + n4 + n5) : Int) : ℚ)
        / 2 ^ (k + k) := by
    push_cast; ring
  have hsq : |(m5 + m4 + m3 + m2 + m1 - m0 * 10 + n1 + n2 + n3 + n4 + n5) *
      (m5 + m4 + m3 + m2 + m1 - m0 * 10 + n1 + n2 + n3 + n4 + n5)| < 2 ^ 24 := by
    rw [abs_mul, ← sq]
    have h1 : |m5 + m4 + m3 + m2 + m1 - m0 * 10 + n1 + n2 + n3 + n4 + n5| ^ 2 ≤ 4080 ^ 2 :=
      pow_le_pow_left₀ (abs_nonneg _) hD 2
    omega
  rw [e, fl32_grid (k + k) (by omega) _ hsq]
  push_cast
  ring

theorem rangeAt_abs_le (ci : cloud_info) (B : ℚ) (hB0 : 0 ≤ B)
    (hB : ∀ x ∈ ci.pointRange, |x| ≤ B) (j : Int) : |rangeAt ci j| ≤ B := by
  unfold rangeAt
  cases h : ci.pointRange[j.toNat]? with
  | none => simpa using hB0
  | some v => simpa using hB v (List.getElem?_mem h)

/-- On a scan whose ranges have magnitude at most `2 ^ 58` the curvature
computed is at most `2 ^ 125`, below the largest finite binary32 number. -/
theorem curvatureAt_le (ci : cloud_info) (hB : ∀ x ∈ ci.pointRange, |x| ≤ 2 ^ 58)
    (i : Int) : curvatureAt ci i ≤ 2 ^ 125 := by
  have hr := rangeAt_abs_le ci (2 ^ 58) (by positivity) hB
  have hd := diffRange_abs_le 58 _ _ _ _ _ _ _ _ _ _ _ (hr (i - 5)) (hr (i - 4)) (hr (i - 3))
    (hr (i - 2)) (hr (i - 1)) (hr i) (hr (i + 1)) (hr (i + 2)) (hr (i + 3)) (hr (i + 4))
    (hr (i + 5))
  unfold curvatureAt
  generalize diffRange (rangeAt ci (i - 5)) (rangeAt ci (i - 4)) (rangeAt ci (i - 3))
      (rangeAt ci (i - 2)) (rangeAt ci (i - 1)) (rangeAt ci i) (rangeAt ci (i + 1))
      (rangeAt ci (i + 2)) (rangeAt ci (i + 3)) (rangeAt ci (i + 4)) (rangeAt ci (i + 5)) = d
    at hd ⊢
  have hsq : |d * d| ≤ ((400 : Int) : ℚ) * 2 ^ 116 := by
    rw [abs_mul]
    have h0 := abs_nonneg d
    have : |d| * |d| ≤ (20 * 2 ^ 58) * (20 * 2 ^ 58) := mul_le_mul hd hd h0 (by positivity)
    push_cast
    calc |d| * |d| ≤ (20 * 2 ^ 58) * (20 * 2 ^ 58) := this
      _ = 400 * 2 ^ 116 := by norm_num
  have h := fl32_abs_le 400 116 (by norm_num) (by norm_num) _ hsq
  have h2 := le_abs_self (fl32 (d * d))
  have : ((400 : Int) : ℚ) * 2 ^ 116 ≤ 2 ^ 125 := by norm_num
  linarith

/-- C3, as stated, fails. On `flatScan73`, the flat ring whose range is the
`float` nearest to 7.3 at every point, the sum of the ten neighbouring ranges
minus ten times the range is 0 over exact arithmetic, so the formula gives 0;
`calculateSmoothness` stores `2^-40` in `cloudCurvature[5]`, because the running
sum of the source is rounded to binary32 after every addition. -/
theorem curvature_rounded :
    ∃ st', calculateSmoothness flatScan73 (initializationValue P1) = .ok st' ∧
      rd st'.cloudCurvature 5 = .ok (1 / 1099511627776) ∧
      specCurvature flatScan73 5 = 0 := by
  have hw : completes (calculateSmoothness flatScan73 (initializationValue P1)) = true ∧
      rd (outcome (calculateSmoothness flatScan73 (initializationValue P1))
        (initializationValue P1)).cloudCurvature 5 = .ok (1 / 1099511627776) ∧
      specCurvature flatScan73 5 = 0 := by
    decide!
  exact ⟨_, completes_outcome _ _ hw.1, hw.2.1, hw.2.2⟩

/-- C3, amended. On a scan of `N` points (range array of at least `N`
entries, working arrays of at least `N` cells) whose ranges have magnitude at
most `2^58`, `calculateSmoothness` completes, and for every flattened index `i`
with `5 ≤ i < N - 5` the value `c` stored in `cloudCurvature[i]` is the binary32
evaluation of the formula (the sum taken from left to right as the source
writes it, every operation rounded), it is not negative and at most `2^125`
(no operation overflows), and the smoothness record at position `i` is
`(c, i)`. When the eleven ranges around `i` are multiples `m / 2^k` of one
power of two with `k ≤ 74` and `|m| ≤ 204`, so that no binary32 operation
rounds, `c` is the square of the sum of the ten neighbouring ranges minus ten
times `range[i]` over exact arithmetic. -/
theorem curvature_formula (ci : cloud_info) (st : FeatureExtraction)
    (hr : ci.cloud_deskewed ≤ ci.pointRange.length) (hf : Fits ci.cloud_deskewed st)
    (hB : ∀ x ∈ ci.pointRange, |x| ≤ 2 ^ 58) :
    ∃ st', calculateSmoothness ci st = .ok st' ∧
      ∀ i : Int, 5 ≤ i → i < (ci.cloud_deskewed : Int) - 5 →
        ∃ c, rd st'.cloudCurvature i = .ok c ∧ c = curvatureAt ci i ∧ 0 ≤ c ∧ c ≤ 2 ^ 125 ∧
          rd st'.cloudSmoothness i = .ok ⟨c, i.toNat⟩ ∧
          (ExactWindow ci i → c = specCurvature ci i) := by
  obtain ⟨st', hst', _, _, _, _, _, _, _, hj⟩ := calculateSmoothness_spec ci st hr hf
  refine ⟨st', hst', ?_⟩
  intro i h5 hN
  obtain ⟨j1, _, _, j4⟩ := hj i
  simp only [h5, hN, and_self, if_true] at j1 j4
  exact ⟨curvatureAt ci i, j1, rfl, curvatureAt_nonneg ci i, curvatureAt_le ci hB i, j4,
    curvatureAt_exact ci i⟩

theorem curvature_formula_witness :
    (∀ x ∈ stepScan.pointRange, |x| ≤ 2 ^ 58) ∧
    (ExactWindow stepScan 12 ∧ specCurvature stepScan 12 = 81) ∧
    ∃ st', calculateSmoothness stepScan (initializationValue P1) = .ok st' ∧
      ∀ i : Int, 5 ≤ i → i < (stepScan.cloud_deskewed : Int) - 5 →
        ∃ c, rd st'.cloudCurvature i = .ok c ∧ c = curvatureAt stepScan i ∧ 0 ≤ c ∧
          c ≤ 2 ^ 125 ∧ rd st'.cloudSmoothness i = .ok ⟨c, i.toNat⟩ ∧
          (ExactWindow stepScan i → c = specCurvature stepScan i) := by
  refine ⟨by decide!, ⟨⟨0, by decide, ?_⟩, by decide!⟩,
    curvature_formula stepScan (initializationValue P1) (by decide)
      ⟨by decide, by decide, by decide, by decide⟩ (by decide!)⟩
  intro j h1 h2
  have hj : j = 7 ∨ j = 8 ∨ j = 9 ∨ j = 10 ∨ j = 11 ∨ j = 12 ∨ j = 13 ∨ j = 14 ∨ j = 15 ∨
      j = 16 ∨ j = 17 := by omega
  rcases hj with rfl | rfl | rfl | rfl | rfl | rfl | rfl | rfl | rfl | rfl | rfl
  · exact ⟨5, by decide, by decide!⟩
  · exact ⟨5, by decide, by decide!⟩
  · exact ⟨5, by decide, by decide!⟩
  · exact ⟨5, by decide, by decide!⟩
  · exact ⟨5, by decide, by decide!⟩
  · exact ⟨5, by decide, by decide!⟩
  · exact ⟨5, by decide, by decide!⟩
  · exact ⟨5, by decide, by decide!⟩
  · exact ⟨2, by decide, by decide!⟩
  · exact ⟨2, by decide, by decide!⟩
  · exact ⟨2, by decide, by decide!⟩

/-- C9, as stated, fails: after the 30-point scan `stepScan`, running
`calculateSmoothness` on the 20-point scan `flatScan20` leaves
`cloudNeighborPicked[0] = 1` and `cloudLabel[16] = 1`, two cells with an index
in `[0, 20)` that are not reset. -/
theorem reset_not_full :
    ∃ stA stB, pipeline P1 insertionSort id stepScan (initializationValue P1) = .ok stA ∧
      calculateSmoothness flatScan20 stA = .ok stB ∧
      rd stB.cloudNeighborPicked 0 = .ok 1 ∧ rd stB.cloudLabel 16 = .ok 1 := by
  have hw : completes (calculateSmoothness flatScan20 stepDone) = true ∧
      rd (outcome (calculateSmoothness flatScan20 stepDone) stepDone).cloudNeighborPicked 0
        = .ok 1 ∧
      rd (outcome (calculateSmoothness flatScan20 stepDone) stepDone).cloudLabel 16
        = .ok 1 := by
    decide!
  exact ⟨stepDone, outcome (calculateSmoothness flatScan20 stepDone) stepDone, stepDone_run,
    completes_outcome _ _ hw.1, hw.2.1, hw.2.2⟩

/-- C9, amended. After `calculateSmoothness` on a scan of `N` points, whatever
the state left by the previous scan, `cloudNeighborPicked[i] = 0` and
`cloudLabel[i] = 0` for every index `i` with `5 ≤ i < N - 5`; the cells
outside that window keep the contents they had. -/
theorem reset_window (ci : cloud_info) (st : FeatureExtraction)
    (hr : ci.cloud_deskewed ≤ ci.pointRange.length) (hf : Fits ci.cloud_deskewed st) :
    ∃ st', calculateSmoothness ci st = .ok st' ∧
      (∀ i : Int, 5 ≤ i → i < (ci.cloud_deskewed : Int) - 5 →
        rd st'.cloudNeighborPicked i = .ok 0 ∧ rd st'.cloudLabel i = .ok 0) ∧
      (∀ i : Int, ¬ (5 ≤ i ∧ i < (ci.cloud_deskewed : Int) - 5) →
        rd st'.cloudNeighborPicked i = rd st.cloudNeighborPicked i ∧
        rd st'.cloudLabel i = rd st.cloudLabel i) := by
  obtain ⟨st', hst', _, _, _, _, _, _, _, hj⟩ := calculateSmoothness_spec ci st hr hf
  refine ⟨st', hst', ?_, ?_⟩
  · intro i h5 hN
    obtain ⟨_, j2, j3, _⟩ := hj i
    simp only [h5, hN, and_self, if_true] at j2 j3
    exact ⟨j2, j3⟩
  · intro i hi
    obtain ⟨_, j2, j3, _⟩ := hj i
    simp only [hi, if_false] at j2 j3
    exact ⟨j2, j3⟩

theorem reset_window_witness :
    (rd stepDone.cloudNeighborPicked 5 = .ok 1 ∧ rd stepDone.cloudLabel 5 = .ok (-1)) ∧
    ∃ st', calculateSmoothness flatScan20 stepDone = .ok st' ∧
      (∀ i : Int, 5 ≤ i → i < (flatScan20.cloud_deskewed : Int) - 5 →
        rd st'.cloudNeighborPicked i = .ok 0 ∧ rd st'.cloudLabel i = .ok 0) ∧
      (∀ i : Int, ¬ (5 ≤ i ∧ i < (flatScan20.cloud_deskewed : Int) - 5) →
        rd st'.cloudNeighborPicked i = rd stepDone.cloudNeighborPicked i ∧
        rd st'.cloudLabel i = rd stepDone.cloudLabel i) :=
  ⟨⟨by decide, by decide⟩,
    reset_window flatScan20 stepDone (by decide) ⟨by decide, by decide, by decide, by decide⟩⟩

/-! ## Claims on `markOccludedPoints` -/

/-- C5 (corner validity). On a scan of `N` points (range and column arrays of
at least `N` entries, working arrays of at least `N` cells), every flattened
index in `cornerCloud` after `extractFeatures` has a curvature strictly above
`edgeThreshold` and was left unpicked by `markOccludedPoints`: its cell of
`cloudNeighborPicked` was 0 when `extractFeatures` started, and neither the
occlusion rule nor the parallel-beam rule marked it at any loop index. -/
theorem corner_validity (P : ParamServer) (srt : StdSort) (ds : List Int → List Int)
    (ci : cloud_info) (st st1 st2 st3 : FeatureExtraction)
    (hr : ci.cloud_deskewed ≤ ci.pointRange.length)
    (hc : ci.cloud_deskewed ≤ ci.pointColInd.length)
    (hf : Fits ci.cloud_deskewed st)
    (h1 : calculateSmoothness ci st = .ok st1) (h2 : markOccludedPoints ci st1 = .ok st2)
    (h3 : extractFeatures P srt ds ci st2 = .ok st3) :
    ∀ x ∈ st3.cornerCloud,
      (∃ c, rd st3.cloudCurvature x = .ok c ∧ c > P.edgeThreshold) ∧
      rd st2.cloudNeighborPicked x = .ok 0 ∧
      ¬ ∃ i, (5 ≤ i ∧ i < (ci.cloud_deskewed : Int) - 6) ∧ occludedHit ci i x := by
  intro x hx
  obtain ⟨hp0, c, hcv, hthr⟩ := extractFeatures_corners h3 x hx
  have hE := extractFeatures_evolves h3
  refine ⟨⟨c, ?_, hthr⟩, hp0, ?_⟩
  · rw [hE.curv]; exact hcv
  · intro hhit
    obtain ⟨st1', hst1', _, _, _, _, _, g3, _, _⟩ := calculateSmoothness_spec ci st hr hf
    rw [h1] at hst1'
    cases hst1'
    obtain ⟨pk', hst2, _, hk⟩ := markOccludedPoints_spec ci st1 hr hc (by
      rw [g3]; exact hf.2.2.1)
    rw [h2] at hst2
    cases hst2
    have := (hk x).1 hhit
    rw [hp0] at this
    cases this

theorem corner_validity_witness :
    gapDone.cornerCloud = [16, 15] ∧
    ∀ x ∈ gapDone.cornerCloud,
      (∃ c, rd gapDone.cloudCurvature x = .ok c ∧ c > P1.edgeThreshold) ∧
      rd gapMarked.cloudNeighborPicked x = .ok 0 ∧
      ¬ ∃ i, (5 ≤ i ∧ i < (gapScan.cloud_deskewed : Int) - 6) ∧ occludedHit gapScan i x :=
  ⟨rfl, corner_validity P1 insertionSort id gapScan (initializationValue P1) gapCalc
    gapMarked gapDone (by decide) (by decide) ⟨by decide, by decide, by decide, by decide⟩
    gapCalc_run gapMarked_run gapDone_run⟩

/-- C10, as stated, fails. On `gapScan` the adjacent indices 14 and 15 have a
column gap of 1 and ranges 5 and 2, yet after `markOccludedPoints` the nearer
point 15 is not picked, and `extractFeatures` outputs it as a corner. On the
11-point ring of the scenario, `elevenScan`, the flanking points 4 and 5 are
both left unpicked: the loop of `markOccludedPoints` has no iteration. -/
theorem occlusion_not_both_sides :
    (|colAt gapScan 15 - colAt gapScan 14| < 10 ∧
      |rangeAt gapScan 14 - rangeAt gapScan 15| > 0.3 ∧
      calculateSmoothness gapScan (initializationValue P1) >>= markOccludedPoints gapScan
        = .ok gapMarked ∧
      rd gapMarked.cloudNeighborPicked 15 = .ok 0 ∧
      extractFeatures P1 insertionSort id gapScan gapMarked = .ok gapDone ∧
      15 ∈ gapDone.cornerCloud) ∧
    (|colAt elevenScan 5 - colAt elevenScan 4| < 10 ∧
      |rangeAt elevenScan 4 - rangeAt elevenScan 5| > 0.3 ∧
      rd elevenMarked.cloudNeighborPicked 4 = .ok 0 ∧
      rd elevenMarked.cloudNeighborPicked 5 = .ok 0) :=
  ⟨⟨by decide!, by decide!, stages_bind gapCalc_run gapMarked_run, by decide, gapDone_run,
    by decide⟩, by decide!⟩

/-- C10, amended. On a scan of `N` points, for every pair of adjacent
indices `(i, i+1)` with `5 ≤ i < N - 6` whose column gap is below 10 and whose
ranges differ by more than 0.3, the point of the pair with the larger range
(`i` when `range[i] > range[i+1]`, otherwise `i+1`) is marked picked by the
occlusion rule of `markOccludedPoints`, and `extractFeatures` never appends it
to `cornerCloud`, whatever its curvature. -/
theorem occlusion_far_side (P : ParamServer) (srt : StdSort) (ds : List Int → List Int)
    (ci : cloud_info) (st st1 st2 st3 : FeatureExtraction)
    (hr : ci.cloud_deskewed ≤ ci.pointRange.length)
    (hc : ci.cloud_deskewed ≤ ci.pointColInd.length)
    (hf : Fits ci.cloud_deskewed st)
    (h1 : calculateSmoothness ci st = .ok st1) (h2 : markOccludedPoints ci st1 = .ok st2)
    (h3 : extractFeatures P srt ds ci st2 = .ok st3)
    (i : Int) (hi : 5 ≤ i) (hiN : i < (ci.cloud_deskewed : Int) - 6)
    (hgap : |colAt ci (i + 1) - colAt ci i| < 10)
    (hjump : |rangeAt ci i - rangeAt ci (i + 1)| > 0.3) :
    occlusionHit ci i (if rangeAt ci i > rangeAt ci (i + 1) then i else i + 1) ∧
    rd st2.cloudNeighborPicked (if rangeAt ci i > rangeAt ci (i + 1) then i else i + 1)
      = .ok 1 ∧
    (if rangeAt ci i > rangeAt ci (i + 1) then i else i + 1) ∉ st3.cornerCloud := by
  have hhit : occlusionHit ci i (if rangeAt ci i > rangeAt ci (i + 1) then i else i + 1) := by
    unfold occlusionHit
    by_cases hfar : rangeAt ci i > rangeAt ci (i + 1)
    · rw [if_pos hfar]
      left
      refine ⟨hgap, ?_, by omega, le_refl _⟩
      rw [abs_of_pos (by linarith)] at hjump
      exact fl32_gt_of_gt hjump
    · rw [if_neg hfar]
      right
      refine ⟨hgap, ?_, le_refl _, by omega⟩
      rw [abs_of_nonpos (by linarith)] at hjump
      exact fl32_gt_of_gt (by linarith)
  obtain ⟨st1', hst1', _, _, _, _, _, g3, _, _⟩ := calculateSmoothness_spec ci st hr hf
  rw [h1] at hst1'
  cases hst1'
  obtain ⟨pk', hst2, _, hk⟩ := markOccludedPoints_spec ci st1 hr hc (by
    rw [g3]; exact hf.2.2.1)
  rw [h2] at hst2
  cases hst2
  have hp1 := (hk _).1 ⟨i, ⟨hi, hiN⟩, Or.inl hhit⟩
  refine ⟨hhit, hp1, ?_⟩
  intro hx
  have := (extractFeatures_corners h3 _ hx).1
  rw [hp1] at this
  cases this

theorem occlusion_far_side_witness :
    occlusionHit gapScan 14
      (if rangeAt gapScan 14 > rangeAt gapScan (14 + 1) then 14 else 14 + 1) ∧
    rd gapMarked.cloudNeighborPicked
      (if rangeAt gapScan 14 > rangeAt gapScan (14 + 1) then 14 else 14 + 1) = .ok 1 ∧
    (if rangeAt gapScan 14 > rangeAt gapScan (14 + 1) then 14 else 14 + 1) ∉
      gapDone.cornerCloud :=
  occlusion_far_side P1 insertionSort id gapScan (initializationValue P1) gapCalc
    gapMarked gapDone (by decide) (by decide) ⟨by decide, by decide, by decide, by decide⟩
    gapCalc_run gapMarked_run gapDone_run
    14 (by decide) (by decide) (by decide!) (by decide!)

/-! ## Claims on the account of the indices of a ring -/

/-- After `calculateSmoothness` and `markOccludedPoints` on a scan of `N`
points, every position `5 ≤ p < N - 5` holds its own record and the label 0. -/
theorem marked_fresh (ci : cloud_info) (st st2 : FeatureExtraction)
    (hr : ci.cloud_deskewed ≤ ci.pointRange.length)
    (hc : ci.cloud_deskewed ≤ ci.pointColInd.length)
    (hf : Fits ci.cloud_deskewed st)
    (h12 : (calculateSmoothness ci st >>= markOccludedPoints ci) = .ok st2) :
    ∀ p : Int, 5 ≤ p → p < (ci.cloud_deskewed : Int) - 5 →
      rd st2.cloudSmoothness p = .ok ⟨curvatureAt ci p, p.toNat⟩ ∧
      rd st2.cloudLabel p = .ok 0 := by
  obtain ⟨st1, hst1, _, _, _, _, _, g3, _, hj⟩ := calculateSmoothness_spec ci st hr hf
  obtain ⟨pk', hst2, _, _⟩ := markOccludedPoints_spec ci st1 hr hc (by rw [g3]; exact hf.2.2.1)
  rw [hst1] at h12
  simp only [bind_ok] at h12
  rw [hst2] at h12
  cases h12
  intro p h5 hN
  obtain ⟨_, _, j3, j4⟩ := hj p
  simp only [h5, hN, and_self, if_true] at j3 j4
  exact ⟨j4, j3⟩

/-- C6, as stated, fails. On `stepScan`, whose ring is `[5, 24]`, the index
24 (the end of the ring) is in no sector and the index 16 is a corner; with
the voxel filter replaced by the identity, the surface output is the list of
the ring's surface candidates, and the index 24 is neither in it nor in the
corner output. -/
theorem ring_end_dropped :
    pipeline P1 insertionSort id stepScan (initializationValue P1) = .ok stepDone ∧
    rd stepScan.startRingIndex 0 = .ok 5 ∧ rd stepScan.endRingIndex 0 = .ok 24 ∧
    calculateSmoothness stepScan (initializationValue P1) >>= markOccludedPoints stepScan
      = .ok stepMarked ∧
    ringCandidates P1 insertionSort id stepScan stepMarked 0 =
      .ok [5, 6, 7, 8, 9, 10, 11, 12, 13, 14, 15, 17, 18, 19, 20, 21, 22, 23] ∧
    stepDone.cornerCloud = [16] ∧
    stepDone.surfaceCloud =
      [5, 6, 7, 8, 9, 10, 11, 12, 13, 14, 15, 17, 18, 19, 20, 21, 22, 23] :=
  ⟨stepDone_run, by decide, by decide, stepMarked_run, by decide!, rfl, rfl⟩

/-- C6, amended. On a scan of `N` points whose ring intervals lie inside
`[5, N - 5)` and are pairwise disjoint, for every ring `r`: every flattened
index `k` that lies in a sector of ring `r` that is not skipped is counted
exactly once after `extractFeatures`, in the corner output or in the surface
candidates of ring `r`, and not in both; every other index of the ring
interval `[startRingIndex[r], endRingIndex[r]]` is in neither of the two; and
the index `endRingIndex[r]` lies in no sector of the ring that is not
skipped. -/
theorem sector_exhaustive (P : ParamServer) (srt : StdSort) (ds : List Int → List Int)
    (ci : cloud_info) (st st2 out : FeatureExtraction)
    (hr : ci.cloud_deskewed ≤ ci.pointRange.length)
    (hc : ci.cloud_deskewed ≤ ci.pointColInd.length)
    (hf : Fits ci.cloud_deskewed st)
    (hrings : RingsInside P ci) (hdisj : RingsDisjoint P ci)
    (h12 : (calculateSmoothness ci st >>= markOccludedPoints ci) = .ok st2)
    (h3 : extractFeatures P srt ds ci st2 = .ok out)
    (r : Int) (hr0 : 0 ≤ r) (hr1 : r < (P.N_SCAN : Int)) :
    ∃ cand, ringCandidates P srt ds ci st2 r = .ok cand ∧
      (∀ k : Int, (∃ j : Int, 0 ≤ j ∧ j < 6 ∧ InSector ci r j k) →
        List.count k out.cornerCloud + List.count k cand = 1) ∧
      (∀ s e k : Int, rd ci.startRingIndex r = .ok s → rd ci.endRingIndex r = .ok e →
        s ≤ k → k ≤ e → (¬ ∃ j : Int, 0 ≤ j ∧ j < 6 ∧ InSector ci r j k) →
        List.count k out.cornerCloud = 0 ∧ List.count k cand = 0) ∧
      (∀ e : Int, rd ci.endRingIndex r = .ok e →
        ¬ ∃ j : Int, 0 ≤ j ∧ j < 6 ∧ InSector ci r j e) := by
  have hfresh := marked_fresh ci st st2 hr hc hf h12
  -- every sector that is not skipped lies in the window and in its ring
  have hwin : ∀ (r' j' p : Int), 0 ≤ r' → r' < (P.N_SCAN : Int) → 0 ≤ j' → j' < 6 →
      InSector ci r' j' p → 5 ≤ p ∧ p < (ci.cloud_deskewed : Int) - 5 := by
    rintro r' j' p h0 h1 h2 h3 ⟨s, e, hs, he, hlt, hp1, hp2⟩
    obtain ⟨⟨a1, _⟩, ⟨b1, b2⟩⟩ := hrings r' s e h0 h1 hs he
    obtain ⟨_, _, c1, c2⟩ := sector_inside s e j' (ci.cloud_deskewed : Int) a1 b2 (by omega)
      h2 h3 hlt
    omega
  have hB0 : BlockInds P ci st2.cloudSmoothness := by
    intro r' j' p rec_ h0 h1 h2 h3' hp hrd
    obtain ⟨w1, w2⟩ := hwin r' j' p h0 h1 h2 h3' hp
    rw [(hfresh p w1 w2).1] at hrd
    cases hrd
    have : ((p.toNat : Nat) : Int) = p := by omega
    show InSector ci r' j' ((p.toNat : Nat) : Int)
    rw [this]
    exact hp
  unfold extractFeatures at h3
  rw [upTo_split r.toNat 0 r (P.N_SCAN : Int) (by omega) hr0 (by omega),
    upTo_cons r (P.N_SCAN : Int) hr1] at h3
  obtain ⟨pre, hpre, h3⟩ := forM_append_ok h3
  obtain ⟨mid, hmid, hpost⟩ := forM_cons_ok h3
  unfold ringStep at hmid
  obtain ⟨post, hsec, hmid⟩ := bind_eq_ok hmid
  simp only [pure_eq_ok, Except.ok.injEq] at hmid
  subst hmid
  -- an index in no sector that is not skipped is in no bucket
  have hnone : ∀ k : Int,
      (∀ r' j' : Int, 0 ≤ r' → r' < (P.N_SCAN : Int) → 0 ≤ j' → j' < 6 →
        ¬ InSector ci r' j' k) →
      List.count k out.cornerCloud = 0 ∧ List.count k post.surfaceCloudScan = 0 := by
    intro k hk
    obtain ⟨b1, c1⟩ := forM_inv (ringStep P srt ds ci)
      (fun x => BlockInds P ci x.cloudSmoothness ∧ List.count k x.cornerCloud = 0) (upTo 0 r)
      { st2 with cornerCloud := [], surfaceCloud := [], surfaceCloudScan := [] } pre (by
        intro r' hr' t t' ⟨i1, i3⟩ hstep
        rw [mem_upTo] at hr'
        obtain ⟨o1, _, o3⟩ := ringStep_other hrings hdisj hr'.1 (by omega) k
          (fun j hj0 hj6 => hk r' j hr'.1 (by omega) hj0 hj6) hstep i1
        exact ⟨o1, o3.trans i3⟩) ⟨hB0, rfl⟩ hpre
    have hsec' := hsec
    unfold ringSectors at hsec'
    obtain ⟨b2, _, c2, s2⟩ := sectors_other hrings hdisj hr0 hr1 k (upTo 0 6) (by
      intro j hj
      rw [mem_upTo] at hj
      exact ⟨hj, hk r j hr0 hr1 hj.1 hj.2⟩) hsec' b1
    obtain ⟨_, c3⟩ := forM_inv (ringStep P srt ds ci)
      (fun x => BlockInds P ci x.cloudSmoothness ∧ List.count k x.cornerCloud = 0)
      (upTo (r + 1) _)
      { post with surfaceCloud := post.surfaceCloud ++ ds post.surfaceCloudScan } out (by
        intro r' hr' t t' ⟨i1, i3⟩ hstep
        rw [mem_upTo] at hr'
        obtain ⟨o1, _, o3⟩ := ringStep_other hrings hdisj (by omega) hr'.2 k
          (fun j hj0 hj6 => hk r' j (by omega) hr'.2 hj0 hj6) hstep i1
        exact ⟨o1, o3.trans i3⟩) ⟨b2, c2.trans c1⟩ hpost
    exact ⟨c3, by rw [s2]; rfl⟩
  refine ⟨post.surfaceCloudScan, ?_, ?_, ?_, ?_⟩
  · unfold ringCandidates
    rw [hpre]
    simp only [bind_ok]
    rw [hsec]
    rfl
  · rintro k ⟨j, hj0, hj6, hk⟩
    obtain ⟨w1, w2⟩ := hwin r j k hr0 hr1 hj0 hj6 hk
    have hl0 : rd st2.cloudLabel k = .ok 0 := (hfresh k w1 w2).2
    have hother : ∀ r' : Int, 0 ≤ r' → r' < (P.N_SCAN : Int) → r' ≠ r →
        ∀ j' : Int, 0 ≤ j' → j' < 6 → ¬ InSector ci r' j' k := by
      intro r' h0 h1 hne j' h2 h3' hin
      exact hne (inSector_unique hrings hdisj h0 h1 h2 h3' hr0 hr1 hj0 hj6 hin hk).1
    -- the rings before `r`
    obtain ⟨b1, l1, c1⟩ := forM_inv (ringStep P srt ds ci)
      (fun x => BlockInds P ci x.cloudSmoothness ∧ rd x.cloudLabel k = .ok 0 ∧
        List.count k x.cornerCloud = 0) (upTo 0 r)
      { st2 with cornerCloud := [], surfaceCloud := [], surfaceCloudScan := [] } pre (by
        intro r' hr' t t' ⟨i1, i2, i3⟩ hstep
        rw [mem_upTo] at hr'
        obtain ⟨o1, o2, o3⟩ := ringStep_other hrings hdisj hr'.1 (by omega) k
          (hother r' hr'.1 (by omega) (by omega)) hstep i1
        exact ⟨o1, o2.trans i2, o3.trans i3⟩) ⟨hB0, hl0, rfl⟩ hpre
    -- the ring `r`
    obtain ⟨b2, c2⟩ := ringSectors_own hrings hdisj hr0 hr1 hj0 hj6 k hk hsec b1
      ⟨0, l1, le_refl _⟩
    -- the rings after `r`
    obtain ⟨_, c3⟩ := forM_inv (ringStep P srt ds ci)
      (fun x => BlockInds P ci x.cloudSmoothness ∧
        List.count k x.cornerCloud = List.count k post.cornerCloud) (upTo (r + 1) _)
      { post with surfaceCloud := post.surfaceCloud ++ ds post.surfaceCloudScan } out (by
        intro r' hr' t t' ⟨i1, i2⟩ hstep
        rw [mem_upTo] at hr'
        obtain ⟨o1, _, o3⟩ := ringStep_other hrings hdisj (by omega) hr'.2 k
          (hother r' (by omega) hr'.2 (by omega)) hstep i1
        exact ⟨o1, o3.trans i2⟩) ⟨b2, rfl⟩ hpost
    rw [c3, c2, c1]
  · intro s e k hs he hk1 hk2 hnot
    apply hnone k
    intro r' j' h0 h1 h2 h3' hin
    by_cases hrr : r' = r
    · subst hrr
      exact hnot ⟨j', h2, h3', hin⟩
    · obtain ⟨s', e', hs', he', hlt, hp1, hp2⟩ := hin
      obtain ⟨⟨a1, _⟩, ⟨_, b2⟩⟩ := hrings r' s' e' h0 h1 hs' he'
      obtain ⟨c1, c2, _, _⟩ := sector_inside s' e' j' (ci.cloud_deskewed : Int) a1 b2
        (by omega) h2 h3' hlt
      exact hdisj r r' s e s' e' k hr0 hr1 h0 h1 (fun h => hrr h.symm) hs he hs' he'
        ⟨hk1, hk2, by omega, by omega⟩
  · rintro e he ⟨j, hj0, hj6, s', e', hs', he', hlt, hp1, hp2⟩
    rw [he] at he'
    cases he'
    obtain ⟨⟨a1, _⟩, ⟨_, b2⟩⟩ := hrings r s' e hr0 hr1 hs' he
    obtain ⟨_, c2, _, _⟩ := sector_inside s' e j (ci.cloud_deskewed : Int) a1 b2
      (by omega) hj0 hj6 hlt
    omega

theorem sector_exhaustive_witness :
    ∃ cand, ringCandidates P1 insertionSort id gapScan gapMarked 0 = .ok cand ∧
      (∀ k : Int, (∃ j : Int, 0 ≤ j ∧ j < 6 ∧ InSector gapScan 0 j k) →
        List.count k gapDone.cornerCloud + List.count k cand = 1) ∧
      (∀ s e k : Int, rd gapScan.startRingIndex 0 = .ok s →
        rd gapScan.endRingIndex 0 = .ok e →
        s ≤ k → k ≤ e → (¬ ∃ j : Int, 0 ≤ j ∧ j < 6 ∧ InSector gapScan 0 j k) →
        List.count k gapDone.cornerCloud = 0 ∧ List.count k cand = 0) ∧
      (∀ e : Int, rd gapScan.endRingIndex 0 = .ok e →
        ¬ ∃ j : Int, 0 ≤ j ∧ j < 6 ∧ InSector gapScan 0 j e) := by
  refine sector_exhaustive P1 insertionSort id gapScan (initializationValue P1) gapMarked
    gapDone (by decide) (by decide) ⟨by decide, by decide, by decide, by decide⟩ ?_ ?_
    (stages_bind gapCalc_run gapMarked_run) gapDone_run
    0 (by decide) (by decide)
  · intro r s e h0 h1 hs he
    have hr : r = 0 := by
      have : (P1.N_SCAN : Int) = 1 := rfl
      omega
    subst hr
    have e1 : s = 5 := by
      have : rd gapScan.startRingIndex 0 = .ok 5 := by decide
      rw [this] at hs
      cases hs
      rfl
    have e2 : e = 24 := by
      have : rd gapScan.endRingIndex 0 = .ok 24 := by decide
      rw [this] at he
      cases he
      rfl
    subst e1 e2
    decide
  · intro r r' s e s' e' k h0 h1 h0' h1' hne
    have : (P1.N_SCAN : Int) = 1 := rfl
    omega

/-! ## Claims on the callback -/

theorem forM_skip {σ : Type} (body : Int → σ → Exec σ) (s : σ) :
    ∀ (l : List Int), (∀ i ∈ l, body i s = .ok s) → forM body l s = .ok s := by
  intro l
  induction l with
  | nil => intro _; rfl
  | cons i rest ih =>
    intro h
    simp only [forM, h i (List.mem_cons_self _ _)]
    exact ih (fun k hk => h k (List.mem_cons_of_mem _ hk))

theorem ringStep_skipped (P : ParamServer) (srt : StdSort) (ds : List Int → List Int)
    (ci : cloud_info) (r : Int) (st : FeatureExtraction) (hs : st.surfaceCloudScan = [])
    (h : ∃ s e, rd ci.startRingIndex r = .ok s ∧ rd ci.endRingIndex r = .ok e ∧
      ∀ j : Int, 0 ≤ j → j < 6 → sectorStart s e j ≥ sectorEnd s e j) :
    ringStep P srt ds ci r st = .ok { st with surfaceCloud := st.surfaceCloud ++ ds [] } := by
  obtain ⟨s, e, h1, h2, hj⟩ := h
  unfold ringStep ringSectors
  have e0 : ({ st with surfaceCloudScan := [] } : FeatureExtraction) = st := by
    cases st
    simp only at hs
    subst hs
    rfl
  rw [e0, forM_skip (sectorStep P srt ci r) st (upTo 0 6) (by
    intro j hjm
    rw [mem_upTo] at hjm
    unfold sectorStep
    rw [h1, h2]
    simp only [bind_ok]
    rw [if_pos (hj j hjm.1 hjm.2)]
    rfl)]
  simp only [bind_ok, pure_eq_ok, hs]

theorem rings_skipped (P : ParamServer) (srt : StdSort) (ds : List Int → List Int)
    (ci : cloud_info) :
    ∀ (n : Nat) (a b : Int) (st : FeatureExtraction), (b - a).toNat = n →
      st.surfaceCloudScan = [] →
      (∀ r : Int, a ≤ r → r < b →
        ∃ s e, rd ci.startRingIndex r = .ok s ∧ rd ci.endRingIndex r = .ok e ∧
          ∀ j : Int, 0 ≤ j → j < 6 → sectorStart s e j ≥ sectorEnd s e j) →
      forM (ringStep P srt ds ci) (upTo a b) st =
        .ok { st with surfaceCloud := st.surfaceCloud ++ copies n (ds []) } := by
  intro n
  induction n with
  | zero =>
    intro a b st hn _ _
    rw [upTo_nil a b (by omega)]
    simp [forM, copies]
  | succ n ih =>
    intro a b st hn hs hr
    rw [upTo_cons a b (by omega)]
    simp only [forM, ringStep_skipped P srt ds ci a st hs (hr a (le_refl _) (by omega))]
    rw [ih (a + 1) b { st with surfaceCloud := st.surfaceCloud ++ ds [] } (by omega) hs
      (fun r h1 h2 => hr r (by omega) h2)]
    simp [copies, List.append_assoc]

/-- C7, as stated, fails. The scan `emptyScan` has no point at all, and the
callback publishes for it: an empty corner set, an empty surface set and the
combined record. The scan `wildScan` has a ring end far outside the arrays, and
the callback does not detect it: the sort of its first sector reaches outside
`cloudSmoothness`. -/
theorem malformed_scan_not_dropped :
    laserCloudInfoHandler P1 insertionSort id emptyScan (initializationValue P1) =
      .ok (initializationValue P1,
        [Published.cloud_corner [], Published.cloud_surface [],
         Published.cloud_info (freeCloudInfoMemory emptyScan) [] []]) ∧
    laserCloudInfoHandler P1 insertionSort id wildScan (initializationValue P1) =
      .error Fault.outOfBounds := by
  decide!

/-- C7, amended. The callback makes no check of the scan: it runs the three
stages and publishes. For every scan with fewer than 11 points in which every
sector of every ring is skipped, it completes without any access outside an
array and publishes an empty corner set, the surface set made of the voxel
filter's output on the empty candidate set of each ring, and the combined
record with these two sets. -/
theorem degenerate_scan_published (P : ParamServer) (srt : StdSort)
    (ds : List Int → List Int) (msgIn : cloud_info) (st : FeatureExtraction)
    (hN : msgIn.cloud_deskewed < 11) (hskip : AllSectorsSkipped P msgIn) :
    laserCloudInfoHandler P srt ds msgIn st =
      .ok ({ st with cornerCloud := [], surfaceCloud := copies P.N_SCAN (ds []),
                     surfaceCloudScan := [] },
        [Published.cloud_corner [], Published.cloud_surface (copies P.N_SCAN (ds [])),
         Published.cloud_info (freeCloudInfoMemory msgIn) [] (copies P.N_SCAN (ds []))]) := by
  unfold laserCloudInfoHandler pipeline calculateSmoothness markOccludedPoints extractFeatures
  rw [upTo_nil 5 _ (by omega), upTo_nil 5 _ (by omega)]
  simp only [forM, bind_ok, pure_eq_ok]
  rw [rings_skipped P srt ds msgIn P.N_SCAN 0 (P.N_SCAN : Int) _ (by omega) rfl
    (fun r h1 h2 => hskip r h1 h2)]
  simp [publishFeatureCloud]

theorem degenerate_scan_published_witness :
    laserCloudInfoHandler P1 insertionSort id emptyScan (initializationValue P1) =
      .ok (initializationValue P1,
        [Published.cloud_corner [], Published.cloud_surface [],
         Published.cloud_info (freeCloudInfoMemory emptyScan) [] []]) :=
  degenerate_scan_published P1 insertionSort id emptyScan (initializationValue P1)
    (by decide) (by
      intro r h0 h1
      have hr : r = 0 := by
        have : (P1.N_SCAN : Int) = 1 := rfl
        omega
      subst hr
      refine ⟨4, -6, by decide, by decide, ?_⟩
      intro j hj0 hj6
      have : j = 0 ∨ j = 1 ∨ j = 2 ∨ j = 3 ∨ j = 4 ∨ j = 5 := by omega
      rcases this with rfl | rfl | rfl | rfl | rfl | rfl <;> decide)

/-! ## Claims on consecutive scans -/

/-- After `calculateSmoothness` and `markOccludedPoints` on one scan, started
from two nodes with working arrays of the same sizes, the working arrays of the
two nodes agree on `[5, N - 5)`. -/
theorem marked_alike (ci : cloud_info) (s t : FeatureExtraction)
    (hr : ci.cloud_deskewed ≤ ci.pointRange.length)
    (hc : ci.cloud_deskewed ≤ ci.pointColInd.length)
    (hf : Fits ci.cloud_deskewed t)
    (hl : s.cloudSmoothness.length = t.cloudSmoothness.length ∧
      s.cloudCurvature.length = t.cloudCurvature.length ∧
      s.cloudNeighborPicked.length = t.cloudNeighborPicked.length ∧
      s.cloudLabel.length = t.cloudLabel.length) :
    ∃ s2 t2, (calculateSmoothness ci s >>= markOccludedPoints ci) = .ok s2 ∧
      (calculateSmoothness ci t >>= markOccludedPoints ci) = .ok t2 ∧
      ArrAlike ci.cloud_deskewed s2.cloudSmoothness t2.cloudSmoothness ∧
      ArrAlike ci.cloud_deskewed s2.cloudCurvature t2.cloudCurvature ∧
      ArrAlike ci.cloud_deskewed s2.cloudNeighborPicked t2.cloudNeighborPicked ∧
      ArrAlike ci.cloud_deskewed s2.cloudLabel t2.cloudLabel ∧
      IndsInside ci.cloud_deskewed s2.cloudSmoothness := by
  have hfs : Fits ci.cloud_deskewed s := by
    obtain ⟨a, b, c, d⟩ := hf
    obtain ⟨e1, e2, e3, e4⟩ := hl
    exact ⟨by omega, by omega, by omega, by omega⟩
  obtain ⟨s1, hs1, _, _, _, a1, a2, a3, a4, aj⟩ := calculateSmoothness_spec ci s hr hfs
  obtain ⟨t1, ht1, _, _, _, b1, b2, b3, b4, bj⟩ := calculateSmoothness_spec ci t hr hf
  obtain ⟨ps, hs2, pl, pk⟩ := markOccludedPoints_spec ci s1 hr hc (by rw [a3]; exact hfs.2.2.1)
  obtain ⟨pt, ht2, ql, qk⟩ := markOccludedPoints_spec ci t1 hr hc (by rw [b3]; exact hf.2.2.1)
  refine ⟨_, _, by rw [hs1]; exact hs2, by rw [ht1]; exact ht2, ?_, ?_, ?_, ?_, ?_⟩
  · refine ⟨by show s1.cloudSmoothness.length = t1.cloudSmoothness.length; omega, ?_⟩
    intro k h5 hN
    show rd s1.cloudSmoothness k = rd t1.cloudSmoothness k
    rw [(aj k).2.2.2, (bj k).2.2.2]
    simp only [h5, hN, and_self, if_true]
  · refine ⟨by show s1.cloudCurvature.length = t1.cloudCurvature.length; omega, ?_⟩
    intro k h5 hN
    show rd s1.cloudCurvature k = rd t1.cloudCurvature k
    rw [(aj k).1, (bj k).1]
    simp only [h5, hN, and_self, if_true]
  · refine ⟨by show ps.length = pt.length; omega, ?_⟩
    intro k h5 hN
    show rd ps k = rd pt k
    by_cases hh : ∃ i, (5 ≤ i ∧ i < (ci.cloud_deskewed : Int) - 6) ∧ occludedHit ci i k
    · rw [(pk k).1 hh, (qk k).1 hh]
    · rw [(pk k).2 hh, (qk k).2 hh, (aj k).2.1, (bj k).2.1]
      simp only [h5, hN, and_self, if_true]
  · refine ⟨by show s1.cloudLabel.length = t1.cloudLabel.length; omega, ?_⟩
    intro k h5 hN
    show rd s1.cloudLabel k = rd t1.cloudLabel k
    rw [(aj k).2.2.1, (bj k).2.2.1]
    simp only [h5, hN, and_self, if_true]
  · intro k r h5 hN hrd
    have : rd s1.cloudSmoothness k = .ok r := hrd
    rw [(aj k).2.2.2] at this
    simp only [h5, hN, and_self, if_true, Except.ok.injEq] at this
    subst this
    show 5 ≤ ((k.toNat : Nat) : Int) ∧ ((k.toNat : Nat) : Int) < _
    omega

/-- C8, as stated, fails. The ranges of `stepScan` and `shortScan` are
binary32 numbers. After the scan `stepScan`, the scan `shortScan` (21 points,
with a ring that ends at the index 17 and a last sector `[15, 16]`) gets a
surface output without the index 16; run alone from the initial node it gets
a surface output with the index 16: `calculateSmoothness` resets the cells
`5..15` only, and the label 1 that `stepScan` left at the index 16 stays. -/
theorem cross_scan_leakage :
    ((∀ x ∈ stepScan.pointRange, fl32 x = x) ∧ (∀ x ∈ shortScan.pointRange, fl32 x = x)) ∧
    pipeline P1 insertionSort id stepScan (initializationValue P1) = .ok stepDone ∧
    rd stepDone.cloudLabel 16 = .ok 1 ∧
    (∃ outAB outB,
      pipeline P1 insertionSort id shortScan stepDone = .ok outAB ∧
      pipeline P1 insertionSort id shortScan (initializationValue P1) = .ok outB ∧
      outAB.cornerCloud = [6] ∧ outB.cornerCloud = [6] ∧
      outAB.surfaceCloud = [5, 7, 8, 9, 10, 11, 12, 13, 14, 15] ∧
      outB.surfaceCloud = [5, 7, 8, 9, 10, 11, 12, 13, 14, 15, 16]) := by
  have hAB : Except.map (fun (o : FeatureExtraction) => (o.cornerCloud, o.surfaceCloud))
      (pipeline P1 insertionSort id shortScan stepDone) =
      .ok ([6], [5, 7, 8, 9, 10, 11, 12, 13, 14, 15]) := by
    decide!
  have hB : Except.map (fun (o : FeatureExtraction) => (o.cornerCloud, o.surfaceCloud))
      (pipeline P1 insertionSort id shortScan (initializationValue P1)) =
      .ok ([6], [5, 7, 8, 9, 10, 11, 12, 13, 14, 15, 16]) := by
    decide!
  obtain ⟨outAB, e1, e2⟩ := map_ok hAB
  obtain ⟨outB, e3, e4⟩ := map_ok hB
  exact ⟨⟨by decide!, by decide!⟩, stepDone_run, by decide, outAB, outB, e1, e3,
    congrArg Prod.fst e2, congrArg Prod.fst e4, congrArg Prod.snd e2, congrArg Prod.snd e4⟩

/-- C8, amended. Let the scan `B` have `N` points, range and column arrays of
at least `N` entries and ring bounds inside `[5, N - 5)`, and let the node have
room for `N` cells. Then the callback's stages on `B` after any scan `A` and
the callback's stages on `B` alone, from the node `st0`, end alike: both runs
fault, or both complete with the same `cornerCloud` and the same
`surfaceCloud`. -/
theorem no_cross_scan_leakage (P : ParamServer) (srt : StdSort)
    (dsA dsB : List Int → List Int) (A B : cloud_info) (st0 stA : FeatureExtraction)
    (hA : pipeline P srt dsA A st0 = .ok stA)
    (hr : B.cloud_deskewed ≤ B.pointRange.length)
    (hc : B.cloud_deskewed ≤ B.pointColInd.length)
    (hf : Fits B.cloud_deskewed st0) (hrings : RingsInside P B) :
    ExecRel (fun x y => x.cornerCloud = y.cornerCloud ∧ x.surfaceCloud = y.surfaceCloud)
      (pipeline P srt dsB B stA) (pipeline P srt dsB B st0) := by
  obtain ⟨s2, t2, hs2, ht2, h1, h2, h3, h4, h5⟩ :=
    marked_alike B stA st0 hr hc hf (pipeline_lengths hA)
  have es : pipeline P srt dsB B stA = extractFeatures P srt dsB B s2 := by
    have : pipeline P srt dsB B stA =
        ((calculateSmoothness B stA >>= markOccludedPoints B) >>= extractFeatures P srt dsB B) := by
      unfold pipeline
      cases calculateSmoothness B stA <;> rfl
    rw [this, hs2]
    rfl
  have et : pipeline P srt dsB B st0 = extractFeatures P srt dsB B t2 := by
    have : pipeline P srt dsB B st0 =
        ((calculateSmoothness B st0 >>= markOccludedPoints B) >>= extractFeatures P srt dsB B) := by
      unfold pipeline
      cases calculateSmoothness B st0 <;> rfl
    rw [this, ht2]
    rfl
  rw [es, et]
  exact execRel_mono (extractFeatures_rel P srt dsB B hrings h1 h2 h3 h4 h5)
    (fun a b hab => ⟨hab.corner, hab.surface⟩)

set_option maxRecDepth 100000 in
theorem no_cross_scan_leakage_witness :
    pipeline P1 insertionSort id stepScan (initializationValue P1) = .ok stepDone ∧
    pipeline P1 insertionSort id gapScan (initializationValue P1) = .ok gapDone ∧
    (∃ out, pipeline P1 insertionSort id gapScan stepDone = .ok out ∧
      out.cornerCloud = gapDone.cornerCloud ∧ out.surfaceCloud = gapDone.surfaceCloud) ∧
    ExecRel (fun x y => x.cornerCloud = y.cornerCloud ∧ x.surfaceCloud = y.surfaceCloud)
      (pipeline P1 insertionSort id gapScan stepDone)
      (pipeline P1 insertionSort id gapScan (initializationValue P1)) := by
  have hrel : ExecRel
      (fun x y => x.cornerCloud = y.cornerCloud ∧ x.surfaceCloud = y.surfaceCloud)
      (pipeline P1 insertionSort id gapScan stepDone)
      (pipeline P1 insertionSort id gapScan (initializationValue P1)) := by
    refine no_cross_scan_leakage P1 insertionSort id id stepScan gapScan
      (initializationValue P1) stepDone stepDone_run (by decide) (by decide)
      ⟨by decide, by decide, by decide, by decide⟩ ?_
    intro r s e h0 h1 hs he
    have hr : r = 0 := by
      have : (P1.N_SCAN : Int) = 1 := rfl
      omega
    subst hr
    have e1 : s = 5 := by
      have : rd gapScan.startRingIndex 0 = .ok 5 := by decide
      rw [this] at hs
      cases hs
      rfl
    have e2 : e = 24 := by
      have : rd gapScan.endRingIndex 0 = .ok 24 := by decide
      rw [this] at he
      cases he
      rfl
    subst e1 e2
    decide
  have hB : pipeline P1 insertionSort id gapScan (initializationValue P1) = .ok gapDone :=
    pipeline_stages gapCalc_run gapMarked_run gapDone_run
  refine ⟨stepDone_run, hB, ?_, hrel⟩
  have hrel2 := hrel
  rw [hB] at hrel2
  cases hx : pipeline P1 insertionSort id gapScan stepDone with
  | error f =>
    rw [hx] at hrel2
    exact hrel2.elim
  | ok out =>
    rw [hx] at hrel2
    exact ⟨out, rfl, hrel2.1, hrel2.2⟩

/-! ## Runs that complete -/

theorem bind_total {α β : Type} {x : Exec α} {f : α → Exec β} {R : α → Prop} {Q : β → Prop}
    (hx : ∃ a, x = .ok a ∧ R a) (hf : ∀ a, x = .ok a → R a → ∃ b, f a = .ok b ∧ Q b) :
    ∃ b, (x >>= f) = .ok b ∧ Q b := by
  obtain ⟨a, ha, hR⟩ := hx
  obtain ⟨b, hb, hQ⟩ := hf a ha hR
  exact ⟨b, by rw [ha, bind_ok, hb], hQ⟩

theorem loopM_total {σ : Type} (body : Int → σ → Exec (Bool × σ)) (I : σ → Prop) :
    ∀ (l : List Int) (s : σ),
      (∀ i ∈ l, ∀ t, I t → ∃ b t', body i t = .ok (b, t') ∧ I t') →
      I s → ∃ s', loopM body l s = .ok s' ∧ I s' := by
  intro l
  induction l with
  | nil => intro s _ hs; exact ⟨s, rfl, hs⟩
  | cons i rest ih =>
    intro s hbody hs
    obtain ⟨b, t', hb, ht'⟩ := hbody i (List.mem_cons_self _ _) s hs
    cases b with
    | true => exact ⟨t', by simp only [loopM, hb], ht'⟩
    | false =>
      obtain ⟨s', h1, h2⟩ := ih t' (fun j hj => hbody j (List.mem_cons_of_mem _ hj)) ht'
      exact ⟨s', by simp only [loopM, hb, h1], h2⟩

/-- Truncating division by 6, in terms of the rounding-down division. -/
theorem tdiv_six (a : Int) :
    Int.tdiv a 6 = if 0 ≤ a then a / 6 else -((-a) / 6) := by
  by_cases h : 0 ≤ a
  · rw [if_pos h, Int.tdiv_eq_ediv h (by omega)]
  · rw [if_neg h]
    have h1 : Int.tdiv (-a) 6 = (-a) / 6 := Int.tdiv_eq_ediv (by omega) (by omega)
    rw [← h1, Int.neg_tdiv, neg_neg]

/-- A sector that is not skipped, of a ring that starts at a non-negative
index, lies between the start of the ring and the index before its end. -/
theorem sector_bounds (s e j : Int) (hs : 0 ≤ s) (hj0 : 0 ≤ j) (hj6 : j < 6)
    (h : sectorStart s e j < sectorEnd s e j) :
    s ≤ sectorStart s e j ∧ sectorEnd s e j < e := by
  unfold sectorStart sectorEnd at *
  have hj : j = 0 ∨ j = 1 ∨ j = 2 ∨ j = 3 ∨ j = 4 ∨ j = 5 := by omega
  rcases hj with rfl | rfl | rfl | rfl | rfl | rfl <;>
    (rw [tdiv_six, tdiv_six] at *
     split_ifs at * <;> omega)

theorem walkStep_total {ci : cloud_info} {N : Nat} (hc : N ≤ ci.pointColInd.length)
    (ind : Nat) (prev : Int → Int) (l : Int) (pk : List Int)
    (h0 : 0 ≤ (ind : Int) + l) (h1 : (ind : Int) + l < N)
    (h2 : 0 ≤ (ind : Int) + prev l) (h3 : (ind : Int) + prev l < N)
    (hp : N ≤ pk.length) :
    ∃ b pk', walkStep ci ind prev l pk = .ok (b, pk') ∧ N ≤ pk'.length := by
  unfold walkStep
  obtain ⟨c1, hc1⟩ := rd_ok_of_bounds ci.pointColInd ((ind : Int) + l) h0 (by omega)
  obtain ⟨c0, hc0⟩ := rd_ok_of_bounds ci.pointColInd ((ind : Int) + prev l) h2 (by omega)
  rw [hc1, bind_ok, hc0, bind_ok]
  dsimp only
  by_cases hgap : |c1 - c0| > 10
  · rw [if_pos hgap]
    exact ⟨true, pk, rfl, hp⟩
  · rw [if_neg hgap]
    obtain ⟨pk', hpk'⟩ := wr_ok_of_bounds pk ((ind : Int) + l) 1 h0 (by omega)
    rw [hpk', bind_ok]
    exact ⟨false, pk', rfl, by rw [wr_length hpk']; exact hp⟩

theorem suppressNeighbors_total {ci : cloud_info} {N : Nat} (hc : N ≤ ci.pointColInd.length)
    (ind : Nat) (pk : List Int) (h5 : 5 ≤ (ind : Int)) (hN : (ind : Int) < (N : Int) - 5)
    (hp : N ≤ pk.length) :
    ∃ pk', suppressNeighbors ci ind pk = .ok pk' ∧ N ≤ pk'.length := by
  unfold suppressNeighbors
  refine bind_total (R := fun (p : List Int) => N ≤ p.length) ?_ ?_
  · refine loopM_total _ (fun (p : List Int) => N ≤ p.length) _ _ ?_ hp
    intro l hl t ht
    rw [mem_upTo] at hl
    exact walkStep_total hc ind _ l t (by omega) (by omega) (by omega) (by omega) ht
  · intro fwd _ hfwd
    refine loopM_total _ (fun (p : List Int) => N ≤ p.length) _ _ ?_ hfwd
    intro l hl t ht
    rw [mem_downTo] at hl
    exact walkStep_total hc ind _ l t (by omega) (by omega) (by omega) (by omega) ht

theorem cornerStep_total {P : ParamServer} {ci : cloud_info}
    (hc : ci.cloud_deskewed ≤ ci.pointColInd.length) {st : FeatureExtraction} (n : Int)
    (hS : Sound ci.cloud_deskewed st) (k : Int) (h5 : 5 ≤ k)
    (hk : k < (ci.cloud_deskewed : Int) - 5) :
    ∃ b s', cornerStep P ci k (st, n) = .ok (b, s') ∧ Sound ci.cloud_deskewed s'.1 := by
  obtain ⟨f1, f2, f3, f4⟩ := hS.fits
  obtain ⟨r, hr⟩ := rd_ok_of_bounds st.cloudSmoothness k (by omega) (by omega)
  obtain ⟨i5, iN⟩ := hS.inds k r h5 hk hr
  obtain ⟨pk, hpk⟩ := rd_ok_of_bounds st.cloudNeighborPicked r.ind (by omega) (by omega)
  obtain ⟨c, hcv⟩ := rd_ok_of_bounds st.cloudCurvature r.ind (by omega) (by omega)
  unfold cornerStep
  dsimp only
  rw [hr, bind_ok, hpk, bind_ok]
  by_cases hp0 : pk = 0
  · simp only [hp0, if_true]
    rw [hcv, bind_ok]
    by_cases hthr : c > P.edgeThreshold
    · simp only [hthr, if_true]
      by_cases hn : n + 1 ≤ 20
      · simp only [hn, if_true]
        obtain ⟨lab, hlab⟩ := wr_ok_of_bounds st.cloudLabel r.ind 1 (by omega) (by omega)
        have hpush : pushPoint ci st.cornerCloud r.ind = .ok (st.cornerCloud ++ [(r.ind : Int)]) := by
          unfold pushPoint
          rw [if_pos ⟨by omega, by omega⟩]
        obtain ⟨p1, hp1⟩ := wr_ok_of_bounds st.cloudNeighborPicked r.ind 1 (by omega) (by omega)
        obtain ⟨p2, hp2, hlen⟩ := suppressNeighbors_total hc r.ind p1 i5 iN
          (by rw [wr_length hp1]; exact f3)
        rw [hlab, bind_ok, hpush, bind_ok, hp1, bind_ok, hp2, bind_ok]
        exact ⟨false, _, rfl, ⟨f1, f2, hlen, by rw [wr_length hlab]; exact f4⟩, hS.inds⟩
      · simp only [hn, if_false]
        exact ⟨true, _, rfl, hS⟩
    · simp only [hthr, if_false]
      exact ⟨false, _, rfl, hS⟩
  · simp only [hp0, if_false]
    exact ⟨false, _, rfl, hS⟩

theorem surfaceStep_total {P : ParamServer} {ci : cloud_info}
    (hc : ci.cloud_deskewed ≤ ci.pointColInd.length) {st : FeatureExtraction}
    (hS : Sound ci.cloud_deskewed st) (k : Int) (h5 : 5 ≤ k)
    (hk : k < (ci.cloud_deskewed : Int) - 5) :
    ∃ st', surfaceStep P ci k st = .ok st' ∧ Sound ci.cloud_deskewed st' := by
  obtain ⟨f1, f2, f3, f4⟩ := hS.fits
  obtain ⟨r, hr⟩ := rd_ok_of_bounds st.cloudSmoothness k (by omega) (by omega)
  obtain ⟨i5, iN⟩ := hS.inds k r h5 hk hr
  obtain ⟨pk, hpk⟩ := rd_ok_of_bounds st.cloudNeighborPicked r.ind (by omega) (by omega)
  obtain ⟨c, hcv⟩ := rd_ok_of_bounds st.cloudCurvature r.ind (by omega) (by omega)
  unfold surfaceStep
  dsimp only
  rw [hr, bind_ok, hpk, bind_ok]
  by_cases hp0 : pk = 0
  · simp only [hp0, if_true]
    rw [hcv, bind_ok]
    by_cases hthr : c < P.surfThreshold
    · simp only [hthr, if_true]
      obtain ⟨lab, hlab⟩ := wr_ok_of_bounds st.cloudLabel r.ind (-1) (by omega) (by omega)
      obtain ⟨p1, hp1⟩ := wr_ok_of_bounds st.cloudNeighborPicked r.ind 1 (by omega) (by omega)
      obtain ⟨p2, hp2, hlen⟩ := suppressNeighbors_total hc r.ind p1 i5 iN
        (by rw [wr_length hp1]; exact f3)
      rw [hlab, bind_ok, hp1, bind_ok, hp2, bind_ok]
      exact ⟨_, rfl, ⟨f1, f2, hlen, by rw [wr_length hlab]; exact f4⟩, hS.inds⟩
    · simp only [hthr, if_false]
      exact ⟨_, rfl, hS⟩
  · simp only [hp0, if_false]
    exact ⟨_, rfl, hS⟩

theorem collectStep_total {ci : cloud_info} {st : FeatureExtraction}
    (hS : Sound ci.cloud_deskewed st) (k : Int) (h5 : 5 ≤ k)
    (hk : k < (ci.cloud_deskewed : Int) - 5) :
    ∃ st', collectStep ci k st = .ok st' ∧ Sound ci.cloud_deskewed st' := by
  obtain ⟨f1, f2, f3, f4⟩ := hS.fits
  obtain ⟨lab, hlab⟩ := rd_ok_of_bounds st.cloudLabel k (by omega) (by omega)
  unfold collectStep
  rw [hlab, bind_ok]
  by_cases hle : lab ≤ 0
  · simp only [hle, if_true]
    have hpush : pushPoint ci st.surfaceCloudScan k = .ok (st.surfaceCloudScan ++ [k]) := by
      unfold pushPoint
      rw [if_pos ⟨by omega, by omega⟩]
    rw [hpush, bind_ok]
    exact ⟨_, rfl, ⟨f1, f2, f3, f4⟩, hS.inds⟩
  · simp only [hle, if_false]
    exact ⟨_, rfl, hS⟩

theorem sortRange_sound (srt : StdSort) {N : Nat} {a : List smoothness_t} (hl : N ≤ a.length)
    (hi : IndsInside N a) (sp ep : Int) (h5 : 5 ≤ sp) (h1 : sp ≤ ep)
    (hN : ep ≤ (N : Int) - 5) :
    ∃ a', sortRange srt a sp ep = .ok a' ∧ a'.length = a.length ∧ IndsInside N a' := by
  obtain ⟨a', ha'⟩ := sortRange_ok_of_bounds srt a sp ep (by omega) h1 (by omega)
  have hrel := sortRange_rel srt (arrAlike_refl N a) hi sp ep h5 hN
  rw [ha'] at hrel
  exact ⟨a', ha', (sortRange_spec ha').2.1, hrel.2⟩

theorem processSector_total (P : ParamServer) (srt : StdSort) {ci : cloud_info}
    (hc : ci.cloud_deskewed ≤ ci.pointColInd.length) {st : FeatureExtraction}
    (hS : Sound ci.cloud_deskewed st) (sp ep : Int) (h5 : 5 ≤ sp) (h1 : sp ≤ ep)
    (hN : ep < (ci.cloud_deskewed : Int) - 5) :
    ∃ st', processSector P srt ci sp ep st = .ok st' ∧ Sound ci.cloud_deskewed st' := by
  obtain ⟨f1, f2, f3, f4⟩ := hS.fits
  obtain ⟨sorted, hsorted, hlen, hinds⟩ :=
    sortRange_sound srt f1 hS.inds sp ep h5 h1 (by omega)
  unfold processSector
  rw [hsorted, bind_ok]
  dsimp only
  have hS1 : Sound ci.cloud_deskewed { st with cloudSmoothness := sorted } :=
    ⟨⟨by show _ ≤ sorted.length; rw [hlen]; exact f1, f2, f3, f4⟩, hinds⟩
  refine bind_total
    (R := fun (s : FeatureExtraction × Int) => Sound ci.cloud_deskewed s.1) ?_ ?_
  · refine loopM_total _ (fun (s : FeatureExtraction × Int) => Sound ci.cloud_deskewed s.1)
      _ _ ?_ hS1
    rintro k hk ⟨t, n⟩ ht
    rw [mem_downTo] at hk
    exact cornerStep_total hc n ht k (by omega) (by omega)
  · intro s2 _ hs2
    refine bind_total (R := fun (s : FeatureExtraction) => Sound ci.cloud_deskewed s) ?_ ?_
    · refine forM_total _ (fun (s : FeatureExtraction) => Sound ci.cloud_deskewed s) _ _ ?_ hs2
      intro k hk t ht
      rw [mem_upTo] at hk
      exact surfaceStep_total hc ht k (by omega) (by omega)
    · intro st3 _ hst3
      refine forM_total _ (fun (s : FeatureExtraction) => Sound ci.cloud_deskewed s) _ _ ?_ hst3
      intro k hk t ht
      rw [mem_upTo] at hk
      exact collectStep_total ht k (by omega) (by omega)

theorem sectorStep_total (P : ParamServer) (srt : StdSort) {ci : cloud_info}
    (hc : ci.cloud_deskewed ≤ ci.pointColInd.length) (hrings : RingsWithin P ci)
    {st : FeatureExtraction} (hS : Sound ci.cloud_deskewed st) (r j : Int)
    (hr0 : 0 ≤ r) (hr1 : r < (P.N_SCAN : Int)) (hj0 : 0 ≤ j) (hj6 : j < 6) :
    ∃ st', sectorStep P srt ci r j st = .ok st' ∧ Sound ci.cloud_deskewed st' := by
  obtain ⟨s, e, hs, he, h5, hN⟩ := hrings r hr0 hr1
  unfold sectorStep
  rw [hs, bind_ok, he, bind_ok]
  dsimp only
  by_cases hskip : sectorStart s e j ≥ sectorEnd s e j
  · simp only [hskip, if_true]
    exact ⟨st, rfl, hS⟩
  · simp only [hskip, if_false]
    obtain ⟨b1, b2⟩ := sector_bounds s e j (by omega) hj0 hj6 (by omega)
    exact processSector_total P srt hc hS _ _ (by omega) (by omega) (by omega)

theorem ringSectors_total (P : ParamServer) (srt : StdSort) {ci : cloud_info}
    (hc : ci.cloud_deskewed ≤ ci.pointColInd.length) (hrings : RingsWithin P ci)
    {st : FeatureExtraction} (hS : Sound ci.cloud_deskewed st) (r : Int)
    (hr0 : 0 ≤ r) (hr1 : r < (P.N_SCAN : Int)) (js : List Int)
    (hjs : ∀ j ∈ js, 0 ≤ j ∧ j < 6) :
    ∃ st', forM (sectorStep P srt ci r) js st = .ok st' ∧ Sound ci.cloud_deskewed st' := by
  refine forM_total _ (fun (s : FeatureExtraction) => Sound ci.cloud_deskewed s) _ _ ?_ hS
  intro j hj t ht
  exact sectorStep_total P srt hc hrings ht r j hr0 hr1 (hjs j hj).1 (hjs j hj).2

theorem sound_scan {N : Nat} {st : FeatureExtraction} (hS : Sound N st) (l : List Int) :
    Sound N { st with surfaceCloudScan := l } :=
  ⟨hS.fits, hS.inds⟩

theorem ringStep_total (P : ParamServer) (srt : StdSort) (ds : List Int → List Int)
    {ci : cloud_info} (hc : ci.cloud_deskewed ≤ ci.pointColInd.length)
    (hrings : RingsWithin P ci) {st : FeatureExtraction} (hS : Sound ci.cloud_deskewed st)
    (r : Int) (hr0 : 0 ≤ r) (hr1 : r < (P.N_SCAN : Int)) :
    ∃ st', ringStep P srt ds ci r st = .ok st' ∧ Sound ci.cloud_deskewed st' := by
  unfold ringStep ringSectors
  obtain ⟨st1, h1, hS1⟩ := ringSectors_total P srt hc hrings
    (sound_scan hS []) r hr0 hr1 (upTo 0 6) (fun j hj => by rw [mem_upTo] at hj; omega)
  rw [h1, bind_ok]
  exact ⟨_, rfl, hS1.fits, hS1.inds⟩

theorem rings_total (P : ParamServer) (srt : StdSort) (ds : List Int → List Int)
    {ci : cloud_info} (hc : ci.cloud_deskewed ≤ ci.pointColInd.length)
    (hrings : RingsWithin P ci) {st : FeatureExtraction} (hS : Sound ci.cloud_deskewed st)
    (rs : List Int) (hrs : ∀ r ∈ rs, 0 ≤ r ∧ r < (P.N_SCAN : Int)) :
    ∃ st', forM (ringStep P srt ds ci) rs st = .ok st' ∧ Sound ci.cloud_deskewed st' := by
  refine forM_total _ (fun (s : FeatureExtraction) => Sound ci.cloud_deskewed s) _ _ ?_ hS
  intro r hr t ht
  exact ringStep_total P srt ds hc hrings ht r (hrs r hr).1 (hrs r hr).2

theorem extractFeatures_total (P : ParamServer) (srt : StdSort) (ds : List Int → List Int)
    {ci : cloud_info} (hc : ci.cloud_deskewed ≤ ci.pointColInd.length)
    (hrings : RingsWithin P ci) {st : FeatureExtraction} (hS : Sound ci.cloud_deskewed st) :
    ∃ st', extractFeatures P srt ds ci st = .ok st' ∧ Sound ci.cloud_deskewed st' := by
  unfold extractFeatures
  have hS0 : Sound ci.cloud_deskewed
      { st with cornerCloud := [], surfaceCloud := [], surfaceCloudScan := [] } :=
    ⟨hS.fits, hS.inds⟩
  exact rings_total P srt ds hc hrings hS0 _ (fun r hr => by rw [mem_upTo] at hr; omega)

theorem sectorEntry_total (P : ParamServer) (srt : StdSort) (ds : List Int → List Int)
    {ci : cloud_info} (hc : ci.cloud_deskewed ≤ ci.pointColInd.length)
    (hrings : RingsWithin P ci) {st : FeatureExtraction} (hS : Sound ci.cloud_deskewed st)
    (r j : Int) (hr0 : 0 ≤ r) (hr1 : r < (P.N_SCAN : Int)) (hj6 : j ≤ 6) :
    ∃ pre, sectorEntry P srt ds ci st r j = .ok pre ∧ Sound ci.cloud_deskewed pre := by
  unfold sectorEntry
  refine bind_total (R := fun (s : FeatureExtraction) => Sound ci.cloud_deskewed s) ?_ ?_
  · have hS0 : Sound ci.cloud_deskewed
        { st with cornerCloud := [], surfaceCloud := [], surfaceCloudScan := [] } :=
      ⟨hS.fits, hS.inds⟩
    exact rings_total P srt ds hc hrings hS0 _ (fun r' hr' => by rw [mem_upTo] at hr'; omega)
  · intro pre _ hpre
    exact ringSectors_total P srt hc hrings (sound_scan hpre []) r hr0 hr1 _
      (fun j' hj' => by rw [mem_upTo] at hj'; omega)

/-! ## The node after the first two stages -/

/-- On a scan of `N` points whose range and column arrays hold `N` entries,
run on working arrays of at least `N` cells, `calculateSmoothness` and
`markOccludedPoints` complete; afterwards every position `5 ≤ p < N - 5` holds
its own record, its curvature and the label 0. -/
theorem marked_total (ci : cloud_info) (st : FeatureExtraction)
    (hr : ci.cloud_deskewed ≤ ci.pointRange.length)
    (hc : ci.cloud_deskewed ≤ ci.pointColInd.length)
    (hf : Fits ci.cloud_deskewed st) :
    ∃ st1 st2, calculateSmoothness ci st = .ok st1 ∧ markOccludedPoints ci st1 = .ok st2 ∧
      Sound ci.cloud_deskewed st2 ∧
      st2.cloudCurvature = st1.cloudCurvature ∧ st2.cloudLabel = st1.cloudLabel ∧
      st2.cloudSmoothness = st1.cloudSmoothness ∧
      ∀ p : Int, 5 ≤ p → p < (ci.cloud_deskewed : Int) - 5 →
        rd st2.cloudSmoothness p = .ok ⟨curvatureAt ci p, p.toNat⟩ ∧
        rd st2.cloudCurvature p = .ok (curvatureAt ci p) ∧
        rd st1.cloudNeighborPicked p = .ok 0 ∧
        rd st2.cloudLabel p = .ok 0 := by
  obtain ⟨f1, f2, f3, f4⟩ := hf
  obtain ⟨st1, hst1, _, _, _, g1, g2, g3, g4, hj⟩ :=
    calculateSmoothness_spec ci st hr ⟨f1, f2, f3, f4⟩
  obtain ⟨pk', hst2, hlen, _⟩ := markOccludedPoints_spec ci st1 hr hc (by rw [g3]; exact f3)
  have hwin : ∀ p : Int, 5 ≤ p → p < (ci.cloud_deskewed : Int) - 5 →
      rd st1.cloudSmoothness p = .ok ⟨curvatureAt ci p, p.toNat⟩ ∧
      rd st1.cloudCurvature p = .ok (curvatureAt ci p) ∧
      rd st1.cloudNeighborPicked p = .ok 0 ∧
      rd st1.cloudLabel p = .ok 0 := by
    intro p h5 hN
    obtain ⟨j1, j2, j3, j4⟩ := hj p
    simp only [h5, hN, and_self, if_true] at j1 j2 j3 j4
    exact ⟨j4, j1, j2, j3⟩
  refine ⟨st1, _, hst1, hst2, ⟨⟨?_, ?_, ?_, ?_⟩, ?_⟩, rfl, rfl, rfl, hwin⟩
  · show _ ≤ st1.cloudSmoothness.length
    rw [g1]; exact f1
  · show _ ≤ st1.cloudCurvature.length
    rw [g2]; exact f2
  · show _ ≤ pk'.length
    rw [hlen, g3]; exact f3
  · show _ ≤ st1.cloudLabel.length
    rw [g4]; exact f4
  · intro k r h5 hN hrd
    have : rd st1.cloudSmoothness k = .ok r := hrd
    rw [(hwin k h5 hN).1] at this
    cases this
    show 5 ≤ ((k.toNat : Nat) : Int) ∧ ((k.toNat : Nat) : Int) < _
    omega

theorem pipeline_total (P : ParamServer) (srt : StdSort) (ds : List Int → List Int)
    (ci : cloud_info) (st : FeatureExtraction)
    (hr : ci.cloud_deskewed ≤ ci.pointRange.length)
    (hc : ci.cloud_deskewed ≤ ci.pointColInd.length)
    (hf : Fits ci.cloud_deskewed st) (hrings : RingsWithin P ci) :
    ∃ st1 st2 st3, calculateSmoothness ci st = .ok st1 ∧
      markOccludedPoints ci st1 = .ok st2 ∧ extractFeatures P srt ds ci st2 = .ok st3 ∧
      Sound ci.cloud_deskewed st2 ∧ Sound ci.cloud_deskewed st3 := by
  obtain ⟨st1, st2, h1, h2, hS, _⟩ := marked_total ci st hr hc hf
  obtain ⟨st3, h3, hS3⟩ := extractFeatures_total P srt ds hc hrings hS
  exact ⟨st1, st2, st3, h1, h2, h3, hS, hS3⟩

/-! ## Picked cells are never cleared -/

theorem pickedGrows_of_grow {pk pk' : List Int}
    (h : ∀ k : Int, rd pk' k = rd pk k ∨ rd pk' k = .ok 1) : PickedGrows pk pk' := by
  intro k
  refine ⟨h k, ?_⟩
  intro v hv hne
  rcases h k with e | e
  · exact ⟨v, by rw [e, hv], hne⟩
  · exact ⟨1, e, by decide⟩

theorem grow_trans {a b c : List Int}
    (h1 : ∀ k : Int, rd b k = rd a k ∨ rd b k = .ok 1)
    (h2 : ∀ k : Int, rd c k = rd b k ∨ rd c k = .ok 1) :
    ∀ k : Int, rd c k = rd a k ∨ rd c k = .ok 1 := by
  intro k
  rcases h2 k with e | e
  · rcases h1 k with e' | e'
    · exact Or.inl (by rw [e, e'])
    · exact Or.inr (by rw [e, e'])
  · exact Or.inr e

theorem wr_one_grow {pk pk' : List Int} {i : Int} (h : wr pk i 1 = .ok pk') :
    ∀ k : Int, rd pk' k = rd pk k ∨ rd pk' k = .ok 1 := by
  intro k
  rw [rd_wr h k]
  by_cases hk : k = i
  · exact Or.inr (by rw [if_pos hk])
  · exact Or.inl (by rw [if_neg hk])

theorem markAll_grow (i : Int) :
    ∀ (ds : List Int) (pk pk' : List Int), markAll i ds pk = .ok pk' →
      ∀ k : Int, rd pk' k = rd pk k ∨ rd pk' k = .ok 1 := by
  intro ds
  induction ds with
  | nil =>
    intro pk pk' h k
    simp only [markAll, Except.ok.injEq] at h
    exact Or.inl (by rw [h])
  | cons d rest ih =>
    intro pk pk' h
    simp only [markAll] at h
    cases hw : wr pk (i + d) 1 with
    | error e => rw [hw] at h; cases h
    | ok p1 =>
      rw [hw] at h
      exact grow_trans (wr_one_grow hw) (ih p1 pk' h)

theorem occludedStep_grow {ci : cloud_info} {i : Int} {pk pk' : List Int}
    (h : occludedStep ci i pk = .ok pk') :
    ∀ k : Int, rd pk' k = rd pk k ∨ rd pk' k = .ok 1 := by
  unfold occludedStep at h
  obtain ⟨depth1, _, h⟩ := bind_eq_ok h
  obtain ⟨depth2, _, h⟩ := bind_eq_ok h
  obtain ⟨c1, _, h⟩ := bind_eq_ok h
  obtain ⟨c0, _, h⟩ := bind_eq_ok h
  obtain ⟨picked1, hp1, h⟩ := bind_eq_ok h
  obtain ⟨rm, _, h⟩ := bind_eq_ok h
  obtain ⟨r0, _, h⟩ := bind_eq_ok h
  obtain ⟨rp, _, h⟩ := bind_eq_ok h
  have g1 : ∀ k : Int, rd picked1 k = rd pk k ∨ rd picked1 k = .ok 1 := by
    by_cases hgap : |c1 - c0| < 10
    · rw [if_pos hgap] at hp1
      by_cases ha : fl32 (depth1 - depth2) > fl64 0.3
      · rw [if_pos ha] at hp1
        exact markAll_grow i _ _ _ hp1
      · rw [if_neg ha] at hp1
        by_cases hb : fl32 (depth2 - depth1) > fl64 0.3
        · rw [if_pos hb] at hp1
          exact markAll_grow i _ _ _ hp1
        · rw [if_neg hb] at hp1
          cases hp1
          exact fun k => Or.inl rfl
    · rw [if_neg hgap] at hp1
      cases hp1
      exact fun k => Or.inl rfl
  by_cases hpar : |fl32 (rm - r0)| > fl64 (fl64 0.02 * r0) ∧ |fl32 (rp - r0)| > fl64 (fl64 0.02 * r0)
  · rw [if_pos hpar] at h
    exact grow_trans g1 (wr_one_grow h)
  · rw [if_neg hpar] at h
    cases h
    exact g1

theorem markOccludedPoints_grow {ci : cloud_info} {st st' : FeatureExtraction}
    (h : markOccludedPoints ci st = .ok st') :
    ∀ k : Int, rd st'.cloudNeighborPicked k = rd st.cloudNeighborPicked k ∨
      rd st'.cloudNeighborPicked k = .ok 1 := by
  unfold markOccludedPoints at h
  obtain ⟨pk', hpk', h⟩ := bind_eq_ok h
  cases h
  exact forM_inv (occludedStep ci)
    (fun (p : List Int) => ∀ k : Int, rd p k = rd st.cloudNeighborPicked k ∨ rd p k = .ok 1)
    _ _ pk' (fun i _ t t' hI hstep => grow_trans hI (occludedStep_grow hstep))
    (fun k => Or.inl rfl) hpk'

theorem cornerStep_grow {P : ParamServer} {ci : cloud_info} {k : Int}
    {st st' : FeatureExtraction} {n n' : Int} {b : Bool}
    (h : cornerStep P ci k (st, n) = .ok (b, (st', n'))) :
    ∀ x : Int, rd st'.cloudNeighborPicked x = rd st.cloudNeighborPicked x ∨
      rd st'.cloudNeighborPicked x = .ok 1 := by
  rcases cornerStep_spec h with ⟨_, rfl, _⟩ | ⟨_, rfl, _⟩ | ⟨_, _, _, r, c, _, _, _, hacc, _⟩
  · exact fun x => Or.inl rfl
  · exact fun x => Or.inl rfl
  · exact (accepts_effect hacc).2.2.2.2.1

theorem surfaceStep_grow {P : ParamServer} {ci : cloud_info} {k : Int}
    {st st' : FeatureExtraction} (h : surfaceStep P ci k st = .ok st') :
    ∀ x : Int, rd st'.cloudNeighborPicked x = rd st.cloudNeighborPicked x ∨
      rd st'.cloudNeighborPicked x = .ok 1 := by
  rcases surfaceStep_spec h with rfl | ⟨r, c, _, _, _, hacc, _⟩
  · exact fun x => Or.inl rfl
  · exact (accepts_effect hacc).2.2.2.2.1

theorem collectStep_picked {ci : cloud_info} {k : Int} {st st' : FeatureExtraction}
    (h : collectStep ci k st = .ok st') :
    st'.cloudNeighborPicked = st.cloudNeighborPicked := by
  obtain ⟨lab, _, hcase⟩ := collectStep_spec h
  rcases hcase with ⟨_, rfl, _⟩ | ⟨_, rfl⟩ <;> rfl

/-! ## Scans with a constant range -/

/-- On a scan whose range is the constant `c = m / 2 ^ k` with `m < 2 ^ 19`
and `k ≤ 149` (a binary32 number with at most 19 significant bits), every
partial sum of the curvature computation is exact and the result is 0. -/
theorem curvatureAt_flat (ci : cloud_info) (c : ℚ) (m k : Nat) (hm : m < 2 ^ 19)
    (hk : k ≤ 149) (hcm : c = (m : ℚ) / 2 ^ k)
    (hflat : ∀ i : Int, 0 ≤ i → i < (ci.cloud_deskewed : Int) → rangeAt ci i = c)
    (p : Int) (h5 : 5 ≤ p) (hN : p < (ci.cloud_deskewed : Int) - 5) :
    curvatureAt ci p = 0 := by
  unfold curvatureAt
  rw [hflat (p - 5) (by omega) (by omega), hflat (p - 4) (by omega) (by omega),
    hflat (p - 3) (by omega) (by omega), hflat (p - 2) (by omega) (by omega),
    hflat (p - 1) (by omega) (by omega), hflat p (by omega) (by omega),
    hflat (p + 1) (by omega) (by omega), hflat (p + 2) (by omega) (by omega),
    hflat (p + 3) (by omega) (by omega), hflat (p + 4) (by omega) (by omega),
    hflat (p + 5) (by omega) (by omega)]
  have hc' : c = ((m : Int) : ℚ) / 2 ^ k := by rw [hcm]; simp
  have hb : |(m : Int)| ≤ 524288 := by
    rw [abs_le]
    constructor <;> omega
  rw [hc', diffRange_exact k hk 524288 (by norm_num) m m m m m m m m m m m
    hb hb hb hb hb hb hb hb hb hb hb]
  have : ((m : Int) + m + m + m + m - m * 10 + m + m + m + m + m : Int) = 0 := by ring
  rw [this]
  simp [fl32_zero]

theorem no_hit_flat (ci : cloud_info) (c : ℚ) (hc0 : 0 ≤ c)
    (hflat : ∀ i : Int, 0 ≤ i → i < (ci.cloud_deskewed : Int) → rangeAt ci i = c)
    (k : Int) :
    ¬ ∃ i, (5 ≤ i ∧ i < (ci.cloud_deskewed : Int) - 6) ∧ occludedHit ci i k := by
  rintro ⟨i, ⟨h5, hN⟩, hhit⟩
  have e0 := hflat i (by omega) (by omega)
  have e1 := hflat (i + 1) (by omega) (by omega)
  have em := hflat (i - 1) (by omega) (by omega)
  rcases hhit with hocc | hpar
  · unfold occlusionHit at hocc
    rw [e0, e1, sub_self, fl32_zero] at hocc
    rcases hocc with ⟨_, h, _⟩ | ⟨_, h, _⟩ <;>
      exact absurd h (not_lt.mpr (le_of_lt fl64_three_tenths_pos))
  · unfold parallelHit at hpar
    rw [e0, em, sub_self, fl32_zero, abs_zero] at hpar
    obtain ⟨_, h, _⟩ := hpar
    have h2 : (0 : ℚ) ≤ fl64 0.02 := roundBinary_nonneg 53 (-1022) _ (by norm_num)
    have : (0 : ℚ) ≤ fl64 (fl64 0.02 * c) :=
      roundBinary_nonneg 53 (-1022) _ (mul_nonneg h2 hc0)
    exact absurd h (not_lt.mpr this)

theorem flat_sectorStep {P : ParamServer} {srt : StdSort} {ci : cloud_info}
    (hc : ci.cloud_deskewed ≤ ci.pointColInd.length) (hrings : RingsWithin P ci)
    (hedge : 0 ≤ P.edgeThreshold) {r j : Int}
    (hr0 : 0 ≤ r) (hr1 : r < (P.N_SCAN : Int)) (hj0 : 0 ≤ j) (hj6 : j < 6)
    {st st' : FeatureExtraction} (hF : Flat ci.cloud_deskewed st)
    (h : sectorStep P srt ci r j st = .ok st') :
    Flat ci.cloud_deskewed st' ∧ st'.surfaceCloud = st.surfaceCloud ∧
    ∃ newS, st'.surfaceCloudScan = st.surfaceCloudScan ++ newS ∧
      ∀ k : Int, InSector ci r j k → k ∈ newS := by
  obtain ⟨st'', h', hS'⟩ := sectorStep_total P srt hc hrings hF.sound r j hr0 hr1 hj0 hj6
  rw [h] at h'
  cases h'
  obtain ⟨s, e, hs, he, hcase⟩ := sectorStep_spec h
  obtain ⟨s', e', hs', he', h5, hN⟩ := hrings r hr0 hr1
  rw [hs] at hs'
  rw [he] at he'
  cases hs'
  cases he'
  rcases hcase with ⟨hskip, rfl⟩ | ⟨hlt, hproc⟩
  · refine ⟨hF, rfl, [], by simp, ?_⟩
    rintro k ⟨s', e', hs', he', hlt', _⟩
    rw [hs] at hs'
    rw [he] at he'
    cases hs'
    cases he'
    omega
  · obtain ⟨b1, b2⟩ := sector_bounds s e j (by omega) hj0 hj6 hlt
    obtain ⟨sorted, s2, new, st3, hsort, hC, hS, rfl, _⟩ := processSector_spec hproc
    obtain ⟨sorted', hsort', _, hinds⟩ := sortRange_sound srt hF.sound.fits.1 hF.sound.inds
      (sectorStart s e j) (sectorEnd s e j) (by omega) (by omega) (by omega)
    rw [hsort] at hsort'
    cases hsort'
    have hnew : new = [] := by
      apply List.eq_nil_iff_forall_not_mem.mpr
      intro x hx
      obtain ⟨_, k, hk, rec_, hrec, rfl⟩ := hC.source x hx
      rw [mem_downTo] at hk
      obtain ⟨i5, iN⟩ := hinds k rec_ (by omega) (by omega) hrec
      obtain ⟨_, c, hcv, hgt⟩ := hC.fresh _ hx
      have h0 : rd st.cloudCurvature (rec_.ind : Int) = .ok 0 := hF.curv _ i5 iN
      have : rd st.cloudCurvature (rec_.ind : Int) = .ok c := hcv
      rw [h0] at this
      cases this
      exact absurd hgt (not_lt.mpr hedge)
    subst hnew
    have hlab2 : ∀ k : Int, rd s2.1.cloudLabel k = rd st.cloudLabel k := by
      intro k
      have := hC.label k
      simpa using this
    have hlab3 : ∀ k : Int, 5 ≤ k → k < (ci.cloud_deskewed : Int) - 5 →
        ∃ lab, rd st3.cloudLabel k = .ok lab ∧ lab ≤ 0 := by
      intro k k5 kN
      rcases hS.label k with e1 | ⟨e1, _⟩
      · rw [e1, hlab2 k]
        exact hF.label k k5 kN
      · exact ⟨-1, e1, by omega⟩
    refine ⟨⟨hS', ?_, ?_, hlab3⟩, ?_,
      (upTo (sectorStart s e j) (sectorEnd s e j + 1)).filter (labelNotCorner st3.cloudLabel),
      ?_, ?_⟩
    · show st3.cornerCloud = []
      rw [hS.corner, hC.corner]
      simpa using hF.corner
    · intro k k5 kN
      show rd st3.cloudCurvature k = _
      rw [hS.curv, hC.curv]
      exact hF.curv k k5 kN
    · show st3.surfaceCloud = _
      rw [hS.surface, hC.surface]
    · show st3.surfaceCloudScan ++ _ = st.surfaceCloudScan ++ _
      rw [hS.scan, hC.scan]
    · rintro k ⟨s', e', hs', he', _, k1, k2⟩
      rw [hs] at hs'
      rw [he] at he'
      cases hs'
      cases he'
      rw [List.mem_filter, mem_upTo, labelNotCorner_true_iff]
      exact ⟨⟨k1, by omega⟩, hlab3 k (by omega) (by omega)⟩

theorem flat_sectors {P : ParamServer} {srt : StdSort} {ci : cloud_info}
    (hc : ci.cloud_deskewed ≤ ci.pointColInd.length) (hrings : RingsWithin P ci)
    (hedge : 0 ≤ P.edgeThreshold) {r : Int} (hr0 : 0 ≤ r) (hr1 : r < (P.N_SCAN : Int)) :
    ∀ (js : List Int) (st st' : FeatureExtraction), (∀ j ∈ js, 0 ≤ j ∧ j < 6) →
      Flat ci.cloud_deskewed st → forM (sectorStep P srt ci r) js st = .ok st' →
      Flat ci.cloud_deskewed st' ∧ st'.surfaceCloud = st.surfaceCloud ∧
      ∃ newS, st'.surfaceCloudScan = st.surfaceCloudScan ++ newS ∧
        ∀ j ∈ js, ∀ k : Int, InSector ci r j k → k ∈ newS := by
  intro js
  induction js with
  | nil =>
    intro st st' _ hF h
    cases h
    exact ⟨hF, rfl, [], by simp, by intro j hj; cases hj⟩
  | cons j rest ih =>
    intro st st' hjs hF h
    obtain ⟨m, hm, hrest⟩ := forM_cons_ok h
    obtain ⟨hFm, e1, n1, en1, hin1⟩ := flat_sectorStep hc hrings hedge hr0 hr1
      (hjs j (List.mem_cons_self _ _)).1 (hjs j (List.mem_cons_self _ _)).2 hF hm
    obtain ⟨hF', e2, n2, en2, hin2⟩ := ih m st' (fun i hi => hjs i (List.mem_cons_of_mem _ hi))
      hFm hrest
    refine ⟨hF', by rw [e2, e1], n1 ++ n2, by rw [en2, en1, List.append_assoc], ?_⟩
    intro i hi k hk
    rcases List.mem_cons.mp hi with rfl | hi'
    · exact List.mem_append_left _ (hin1 k hk)
    · exact List.mem_append_right _ (hin2 i hi' k hk)

theorem flat_ringStep {P : ParamServer} {srt : StdSort} {ds : List Int → List Int}
    {ci : cloud_info} (hc : ci.cloud_deskewed ≤ ci.pointColInd.length)
    (hrings : RingsWithin P ci) (hedge : 0 ≤ P.edgeThreshold) {r : Int}
    (hr0 : 0 ≤ r) (hr1 : r < (P.N_SCAN : Int)) {st st' : FeatureExtraction}
    (hF : Flat ci.cloud_deskewed st) (h : ringStep P srt ds ci r st = .ok st') :
    Flat ci.cloud_deskewed st' := by
  unfold ringStep ringSectors at h
  obtain ⟨st1, h1, h⟩ := bind_eq_ok h
  cases h
  have hF0 : Flat ci.cloud_deskewed { st with surfaceCloudScan := [] } :=
    ⟨sound_scan hF.sound [], hF.corner, hF.curv, hF.label⟩
  obtain ⟨hF1, _⟩ := flat_sectors hc hrings hedge hr0 hr1 (upTo 0 6) _ st1
    (fun j hj => by rw [mem_upTo] at hj; omega) hF0 h1
  exact ⟨⟨hF1.sound.fits, hF1.sound.inds⟩, hF1.corner, hF1.curv, hF1.label⟩

/-! ## The records of a sector -/

theorem window_split {α : Type} (a : List α) (sp mid ep : Int)
    (h1 : sp ≤ mid) (h2 : mid ≤ ep) :
    window a sp ep = window a sp mid ++ window a mid ep := by
  unfold window
  have e1 : ep.toNat - sp.toNat = (mid.toNat - sp.toNat) + (ep.toNat - mid.toNat) := by omega
  rw [e1, List.take_add, List.drop_drop]
  have e2 : sp.toNat + (mid.toNat - sp.toNat) = mid.toNat := by omega
  rw [e2]

theorem sortRange_window {srt : StdSort} {a a' : List smoothness_t} {sp ep : Int}
    (h : sortRange srt a sp ep = .ok a') :
    window a' sp ep = srt.run (window a sp ep) := by
  obtain ⟨⟨h0, h1, h2⟩, _⟩ := sortRange_spec h
  unfold sortRange at h
  rw [if_pos ⟨h0, h1, by omega⟩] at h
  cases h
  have hw := window_length a sp ep h0 h1 (by omega)
  have hrun : (srt.run (window a sp ep)).length = ep.toNat - sp.toNat := by
    rw [(srt.perm _).length_eq]
    omega
  show List.take _ (List.drop _ (List.take sp.toNat a ++ srt.run (window a sp ep)
    ++ List.drop ep.toNat a)) = _
  rw [List.append_assoc, List.drop_left' (by rw [List.length_take]; omega),
    List.take_left' hrun]

theorem mem_window {α : Type} {a : List α} {sp ep p : Int} {v : α} (h0 : 0 ≤ sp)
    (h1 : sp ≤ p) (h2 : p < ep) (h : rd a p = .ok v) : v ∈ window a sp ep := by
  have := rd_window a sp ep h0 (p - sp) (by omega) (by omega)
  rw [show sp + (p - sp) = p by omega, h, rd_ok_iff] at this
  exact List.mem_iff_getElem?.mpr ⟨_, this.2⟩

/-- The sort of the positions `sp, ..., ep - 1` leaves the indices named at
the positions `sp, ..., ep` the same, up to their order. -/
theorem sortRange_inds {srt : StdSort} {a a' : List smoothness_t} {sp ep : Int}
    (h : sortRange srt a sp ep = .ok a') (hep : ep < (a.length : Int)) :
    List.Perm (sectorInds a' sp ep) (sectorInds a sp ep) := by
  obtain ⟨⟨h0, h1, h2⟩, hlen, hout, _⟩ := sortRange_spec h
  unfold sectorInds
  rw [window_split a' sp ep (ep + 1) h1 (by omega),
    window_split a sp ep (ep + 1) h1 (by omega), sortRange_window h,
    window_ext (a := a') (b := a) (by omega) (by omega) (by rw [hlen]; omega) (by omega)
      (fun k hk1 hk2 => hout k (Or.inr hk1))]
  exact ((srt.perm _).append_right _).map _

/-- Where every position holds its own record, the records of the positions
`sp, ..., ep` name the indices `sp, ..., ep` in order. -/
theorem sectorInds_fresh (a : List smoothness_t) (sp ep : Int) (h0 : 0 ≤ sp)
    (h1 : sp ≤ ep) (h2 : ep < (a.length : Int))
    (h : ∀ p : Int, sp ≤ p → p ≤ ep → ∃ v, rd a p = .ok ⟨v, p.toNat⟩) :
    sectorInds a sp ep = upTo sp (ep + 1) := by
  unfold sectorInds upTo
  have hw := window_length a sp (ep + 1) h0 (by omega) (by omega)
  apply List.ext_getElem?
  intro n
  rw [List.getElem?_map, List.getElem?_map]
  by_cases hn : (n : Int) < ep + 1 - sp
  · obtain ⟨v, hv⟩ := h (sp + n) (by omega) (by omega)
    have hrd := rd_window a sp (ep + 1) h0 (n : Int) (by omega) hn
    rw [hv, rd_ok_iff] at hrd
    rw [Int.toNat_natCast] at hrd
    rw [hrd.2, List.getElem?_range (by omega)]
    show some (((sp + (n : Int)).toNat : Nat) : Int) = some (sp + (n : Int))
    congr 1
    omega
  · rw [List.getElem?_eq_none (by omega), List.getElem?_eq_none (by
      rw [List.length_range]; omega)]
    rfl

/-! ## Records in order through a run -/

theorem tidy_blockInds {P : ParamServer} {ci : cloud_info} {st : FeatureExtraction}
    (hrings : RingsInside P ci) (hT : Tidy P ci st) : BlockInds P ci st.cloudSmoothness := by
  rintro r j p rec_ hr0 hr1 hj0 hj6 ⟨s, e, hs, he, hlt, hp1, hp2⟩ hrd
  obtain ⟨⟨a1, _⟩, ⟨_, b2⟩⟩ := hrings r s e hr0 hr1 hs he
  obtain ⟨_, _, c1, _⟩ := sector_inside s e j (ci.cloud_deskewed : Int) a1 b2 (by omega)
    hj0 hj6 hlt
  have hmem : (rec_.ind : Int) ∈ sectorInds st.cloudSmoothness (sectorStart s e j)
      (sectorEnd s e j) :=
    List.mem_map_of_mem _ (mem_window (by omega) hp1 (by omega) hrd)
  rw [(hT.perm r j s e hr0 hr1 hj0 hj6 hs he hlt).mem_iff, mem_upTo] at hmem
  exact ⟨s, e, hs, he, hlt, hmem.1, by omega⟩

theorem tidy_sectorStep {P : ParamServer} {srt : StdSort} {ci : cloud_info}
    (hc : ci.cloud_deskewed ≤ ci.pointColInd.length)
    (hrings : RingsInside P ci) (hdisj : RingsDisjoint P ci) {r0 j0 : Int}
    (hr0 : 0 ≤ r0) (hr1 : r0 < (P.N_SCAN : Int)) (hj0 : 0 ≤ j0) (hj6 : j0 < 6)
    {st st' : FeatureExtraction} (hT : Tidy P ci st)
    (h : sectorStep P srt ci r0 j0 st = .ok st') : Tidy P ci st' := by
  obtain ⟨s, e, hs, he, hcase⟩ := sectorStep_spec h
  rcases hcase with ⟨_, rfl⟩ | ⟨hlt, hproc⟩
  · exact hT
  · obtain ⟨⟨a1, _⟩, ⟨_, b2⟩⟩ := hrings r0 s e hr0 hr1 hs he
    obtain ⟨c1, c2, c3, c4⟩ := sector_inside s e j0 (ci.cloud_deskewed : Int) a1 b2 (by omega)
      hj0 hj6 hlt
    obtain ⟨st'', h', hS'⟩ := processSector_total P srt hc hT.sound
      (sectorStart s e j0) (sectorEnd s e j0) c3 (by omega) c4
    rw [hproc] at h'
    cases h'
    obtain ⟨sorted, s2, new, st3, hsort, hC, hS, rfl, _⟩ := processSector_spec hproc
    obtain ⟨_, hlen, hout, _⟩ := sortRange_spec hsort
    have hsm : st3.cloudSmoothness = sorted := by rw [hS.smooth, hC.smooth]
    have hcv : st3.cloudCurvature = st.cloudCurvature := by rw [hS.curv, hC.curv]
    have hfit := hT.sound.fits.1
    refine ⟨hS', ?_, ?_⟩
    · intro p p5 pN
      show ∃ rec_, rd st3.cloudSmoothness p = .ok rec_ ∧
        rd st3.cloudCurvature rec_.ind = .ok rec_.value
      rw [hsm, hcv]
      by_cases hp : sectorStart s e j0 ≤ p ∧ p < sectorEnd s e j0
      · obtain ⟨q, rec_, hq1, hq2, hrq, hrp⟩ := sortRange_source hsort p hp.1 hp.2
        obtain ⟨rec', hr', hv'⟩ := hT.value q (by omega) (by omega)
        rw [hrq] at hr'
        cases hr'
        exact ⟨rec_, hrp, hv'⟩
      · rw [hout p (by omega)]
        exact hT.value p p5 pN
    · intro r j s' e' hr0' hr1' hj0' hj6' hs' he' hlt'
      show List.Perm (sectorInds st3.cloudSmoothness _ _) _
      rw [hsm]
      by_cases hsame : r = r0 ∧ j = j0
      · obtain ⟨rfl, rfl⟩ := hsame
        rw [hs] at hs'
        rw [he] at he'
        cases hs'
        cases he'
        exact (sortRange_inds hsort (by omega)).trans
          (hT.perm r j s e hr0 hr1 hj0 hj6 hs he hlt)
      · obtain ⟨⟨a1', _⟩, ⟨_, b2'⟩⟩ := hrings r s' e' hr0' hr1' hs' he'
        obtain ⟨_, _, c3', c4'⟩ := sector_inside s' e' j (ci.cloud_deskewed : Int) a1' b2'
          (by omega) hj0' hj6' hlt'
        have hwin : window sorted (sectorStart s' e' j) (sectorEnd s' e' j + 1) =
            window st.cloudSmoothness (sectorStart s' e' j) (sectorEnd s' e' j + 1) := by
          refine window_ext (by omega) (by omega) (by rw [hlen]; omega) (by omega) ?_
          intro k hk1 hk2
          refine hout k ?_
          by_contra hcon
          exact hsame (inSector_unique hrings hdisj hr0' hr1' hj0' hj6' hr0 hr1 hj0 hj6
            ⟨s', e', hs', he', hlt', hk1, by omega⟩
            ⟨s, e, hs, he, hlt, by omega, by omega⟩)
        unfold sectorInds
        rw [hwin]
        exact hT.perm r j s' e' hr0' hr1' hj0' hj6' hs' he' hlt'

theorem tidy_sectors {P : ParamServer} {srt : StdSort} {ci : cloud_info}
    (hc : ci.cloud_deskewed ≤ ci.pointColInd.length)
    (hrings : RingsInside P ci) (hdisj : RingsDisjoint P ci) {r : Int}
    (hr0 : 0 ≤ r) (hr1 : r < (P.N_SCAN : Int)) (js : List Int)
    (hjs : ∀ j ∈ js, 0 ≤ j ∧ j < 6) {st st' : FeatureExtraction} (hT : Tidy P ci st)
    (h : forM (sectorStep P srt ci r) js st = .ok st') : Tidy P ci st' :=
  forM_inv (sectorStep P srt ci r) (Tidy P ci) js st st'
    (fun j hj _ _ hI hstep =>
      tidy_sectorStep hc hrings hdisj hr0 hr1 (hjs j hj).1 (hjs j hj).2 hI hstep) hT h

theorem tidy_clouds {P : ParamServer} {ci : cloud_info} {st : FeatureExtraction}
    (hT : Tidy P ci st) (c s t : List Int) :
    Tidy P ci { st with cornerCloud := c, surfaceCloud := s, surfaceCloudScan := t } :=
  ⟨⟨hT.sound.fits, hT.sound.inds⟩, hT.value, hT.perm⟩

theorem tidy_ringStep {P : ParamServer} {srt : StdSort} {ds : List Int → List Int}
    {ci : cloud_info} (hc : ci.cloud_deskewed ≤ ci.pointColInd.length)
    (hrings : RingsInside P ci) (hdisj : RingsDisjoint P ci) {r : Int}
    (hr0 : 0 ≤ r) (hr1 : r < (P.N_SCAN : Int)) {st st' : FeatureExtraction}
    (hT : Tidy P ci st) (h : ringStep P srt ds ci r st = .ok st') : Tidy P ci st' := by
  unfold ringStep ringSectors at h
  obtain ⟨st1, h1, h⟩ := bind_eq_ok h
  cases h
  have hT1 := tidy_sectors hc hrings hdisj hr0 hr1 (upTo 0 6)
    (fun j hj => by rw [mem_upTo] at hj; omega)
    (tidy_clouds hT st.cornerCloud st.surfaceCloud []) h1
  exact tidy_clouds hT1 _ _ _

/-- After the first two stages the records are in order. -/
theorem tidy_marked {P : ParamServer} {ci : cloud_info} {st2 : FeatureExtraction}
    (hrings : RingsInside P ci) (hS : Sound ci.cloud_deskewed st2)
    (hwin : ∀ p : Int, 5 ≤ p → p < (ci.cloud_deskewed : Int) - 5 →
      rd st2.cloudSmoothness p = .ok ⟨curvatureAt ci p, p.toNat⟩ ∧
      rd st2.cloudCurvature p = .ok (curvatureAt ci p)) : Tidy P ci st2 := by
  refine ⟨hS, ?_, ?_⟩
  · intro p p5 pN
    refine ⟨_, (hwin p p5 pN).1, ?_⟩
    show rd st2.cloudCurvature ((p.toNat : Nat) : Int) = _
    rw [show ((p.toNat : Nat) : Int) = p by omega]
    exact (hwin p p5 pN).2
  · intro r j s e hr0 hr1 hj0 hj6 hs he hlt
    obtain ⟨⟨a1, _⟩, ⟨_, b2⟩⟩ := hrings r s e hr0 hr1 hs he
    obtain ⟨_, _, c3, c4⟩ := sector_inside s e j (ci.cloud_deskewed : Int) a1 b2 (by omega)
      hj0 hj6 hlt
    have hfit := hS.fits.1
    rw [sectorInds_fresh st2.cloudSmoothness _ _ (by omega) (by omega) (by omega)
      (fun p hp1 hp2 => ⟨_, (hwin p (by omega) (by omega)).1⟩)]

/-! ## The sectors of a run on disjoint rings -/

theorem ringsWithin_of {P : ParamServer} {ci : cloud_info} (hread : RingsReadable P ci)
    (hrings : RingsInside P ci) : RingsWithin P ci := by
  intro r hr0 hr1
  obtain ⟨s, e, hs, he⟩ := hread r hr0 hr1
  obtain ⟨⟨a1, _⟩, ⟨_, b2⟩⟩ := hrings r s e hr0 hr1 hs he
  exact ⟨s, e, hs, he, a1, by omega⟩

/-- On entry to sector `j` of ring `r`, in a run on a scan whose ring
intervals lie inside `[5, N - 5)` and are pairwise disjoint, started from a
node whose records are in order and whose labels are 0 at every index
`5 ≤ p < N - 5`: the records are in order, and the indices of the sectors
`j, ..., 5` of ring `r` still have the label 0. -/
theorem entry_tidy {P : ParamServer} {srt : StdSort} {ds : List Int → List Int}
    {ci : cloud_info} (hc : ci.cloud_deskewed ≤ ci.pointColInd.length)
    (hrings : RingsInside P ci) (hdisj : RingsDisjoint P ci)
    {st2 pre : FeatureExtraction} (hT2 : Tidy P ci st2)
    (hl2 : ∀ p : Int, 5 ≤ p → p < (ci.cloud_deskewed : Int) - 5 →
      rd st2.cloudLabel p = .ok 0)
    {r j : Int} (hr0 : 0 ≤ r) (hr1 : r < (P.N_SCAN : Int)) (hj0 : 0 ≤ j) (hj6 : j ≤ 6)
    (hpre : sectorEntry P srt ds ci st2 r j = .ok pre) :
    Tidy P ci pre ∧
    ∀ j' k : Int, j ≤ j' → j' < 6 → InSector ci r j' k → rd pre.cloudLabel k = .ok 0 := by
  have hwin : ∀ (j' p : Int), 0 ≤ j' → j' < 6 →
      InSector ci r j' p → 5 ≤ p ∧ p < (ci.cloud_deskewed : Int) - 5 := by
    rintro j' p h2 h3 ⟨s, e, hs, he, hlt, hp1, hp2⟩
    obtain ⟨⟨a1, _⟩, ⟨_, b2⟩⟩ := hrings r s e hr0 hr1 hs he
    obtain ⟨_, _, c1, c2⟩ := sector_inside s e j' (ci.cloud_deskewed : Int) a1 b2 (by omega)
      h2 h3 hlt
    omega
  unfold sectorEntry at hpre
  obtain ⟨mid, hmid, hpre⟩ := bind_eq_ok hpre
  obtain ⟨t1, l1⟩ := forM_inv (ringStep P srt ds ci)
    (fun x => Tidy P ci x ∧ ∀ j' k : Int, 0 ≤ j' → j' < 6 → InSector ci r j' k →
      rd x.cloudLabel k = .ok 0) (upTo 0 r)
    { st2 with cornerCloud := [], surfaceCloud := [], surfaceCloudScan := [] } mid (by
      intro r' hr' t t' ⟨i1, i2⟩ hstep
      rw [mem_upTo] at hr'
      refine ⟨tidy_ringStep hc hrings hdisj hr'.1 (by omega) i1 hstep, ?_⟩
      intro j' k h0 h6 hk
      obtain ⟨_, o2, _⟩ := ringStep_other hrings hdisj hr'.1 (by omega) k (by
        intro j'' h0' h6' hin
        have := (inSector_unique hrings hdisj hr'.1 (by omega) h0' h6' hr0 hr1 h0 h6 hin hk).1
        omega) hstep (tidy_blockInds hrings i1)
      rw [o2]
      exact i2 j' k h0 h6 hk)
    ⟨tidy_clouds hT2 _ _ _, fun j' k h0 h6 hk => by
      obtain ⟨w1, w2⟩ := hwin j' k h0 h6 hk
      exact hl2 k w1 w2⟩ hmid
  exact forM_inv (sectorStep P srt ci r)
    (fun x => Tidy P ci x ∧ ∀ j' k : Int, j ≤ j' → j' < 6 → InSector ci r j' k →
      rd x.cloudLabel k = .ok 0) (upTo 0 j) { mid with surfaceCloudScan := [] } pre (by
      intro j'' hj'' t t' ⟨i1, i2⟩ hstep
      rw [mem_upTo] at hj''
      refine ⟨tidy_sectorStep hc hrings hdisj hr0 hr1 hj''.1 (by omega) i1 hstep, ?_⟩
      intro j' k h0 h6 hk
      obtain ⟨_, hother, _⟩ := sectorStep_account hrings hdisj hr0 hr1 hj''.1 (by omega) hstep
        (tidy_blockInds hrings i1)
      rw [(hother k (by
        intro hin
        have := (inSector_unique hrings hdisj hr0 hr1 hj''.1 (by omega) hr0 hr1 (by omega) h6
          hin hk).2
        omega)).1]
      exact i2 j' k h0 h6 hk)
    ⟨tidy_clouds t1 _ _ _, fun j' k h0 h6 hk => l1 j' k (by omega) h6 hk⟩ hpre

/-- The account of the work on the positions `sp, ..., ep` of one sector
whose records name the indices of the sector and whose indices have the
label 0: every index of the sector is appended exactly once, to `cornerCloud`
when it ends with the label 1 and to `surfaceCloudScan` when it ends with the
label 0 or -1, and nothing else is appended. -/
theorem processSector_account {P : ParamServer} {srt : StdSort} {ci : cloud_info}
    {sp ep : Int} {st st' : FeatureExtraction}
    (h : processSector P srt ci sp ep st = .ok st') (hle : sp ≤ ep)
    (hin : ∀ (p : Int) (r : smoothness_t), sp ≤ p → p ≤ ep →
      rd st.cloudSmoothness p = .ok r → sp ≤ (r.ind : Int) ∧ (r.ind : Int) ≤ ep)
    (hlab : ∀ k : Int, sp ≤ k → k ≤ ep → rd st.cloudLabel k = .ok 0) :
    ∃ newC newS, st'.cornerCloud = st.cornerCloud ++ newC ∧
      st'.surfaceCloudScan = st.surfaceCloudScan ++ newS ∧
      (∀ k : Int, sp ≤ k → k ≤ ep →
        (List.count k newC = 1 ∧ List.count k newS = 0 ∧ rd st'.cloudLabel k = .ok 1) ∨
        (List.count k newC = 0 ∧ List.count k newS = 1 ∧
          (rd st'.cloudLabel k = .ok 0 ∨ rd st'.cloudLabel k = .ok (-1)))) ∧
      (∀ x ∈ newC, sp ≤ x ∧ x ≤ ep) ∧ (∀ x ∈ newS, sp ≤ x ∧ x ≤ ep) ∧
      (newC.length : Int) + (newS.length : Int) = ep - sp + 1 := by
  have hT := processSector_touches h hin
  obtain ⟨sorted, s2, new, st3, hsort, hC, hS, rfl, hcol⟩ := processSector_spec h
  have hnodup : new.Nodup := hC.separated.imp (fun hab => hab.1)
  have hnewIn : ∀ x ∈ new, sp ≤ x ∧ x ≤ ep := by
    obtain ⟨newC, newS, ec, _, hCin, _⟩ := hT.clouds
    have e1 : st3.cornerCloud = st.cornerCloud ++ new := by rw [hS.corner, hC.corner]
    have : st3.cornerCloud = st.cornerCloud ++ newC := ec
    rw [e1] at this
    have := List.append_cancel_left this
    subst this
    exact hCin
  have hlab3 : ∀ k : Int, sp ≤ k → k ≤ ep →
      (k ∈ new ∧ rd st3.cloudLabel k = .ok 1) ∨
      (k ∉ new ∧ (rd st3.cloudLabel k = .ok 0 ∨ rd st3.cloudLabel k = .ok (-1))) := by
    intro k k1 k2
    have hl2 : rd s2.1.cloudLabel k = if k ∈ new then .ok 1 else rd st.cloudLabel k :=
      hC.label k
    by_cases hknew : k ∈ new
    · left
      refine ⟨hknew, ?_⟩
      rw [if_pos hknew] at hl2
      have hp2 : rd s2.1.cloudNeighborPicked k = .ok 1 := (hC.guarded k hknew).1
      rcases hS.label k with e | ⟨_, hp0, _⟩
      · rw [e, hl2]
      · rw [hp2] at hp0
        cases hp0
    · right
      refine ⟨hknew, ?_⟩
      rw [if_neg hknew, hlab k k1 k2] at hl2
      rcases hS.label k with e | ⟨e, _⟩
      · exact Or.inl (by rw [e, hl2])
      · exact Or.inr e
  have hcounts : ∀ k : Int, sp ≤ k → k ≤ ep →
      (List.count k new = 1 ∧
        List.count k ((upTo sp (ep + 1)).filter (labelNotCorner st3.cloudLabel)) = 0 ∧
        rd st3.cloudLabel k = .ok 1) ∨
      (List.count k new = 0 ∧
        List.count k ((upTo sp (ep + 1)).filter (labelNotCorner st3.cloudLabel)) = 1 ∧
        (rd st3.cloudLabel k = .ok 0 ∨ rd st3.cloudLabel k = .ok (-1))) := by
    intro k k1 k2
    have hkmem : k ∈ upTo sp (ep + 1) := (mem_upTo _ _ _).mpr ⟨k1, by omega⟩
    rcases hlab3 k k1 k2 with ⟨hknew, hl⟩ | ⟨hknew, hl⟩
    · left
      refine ⟨List.count_eq_one_of_mem hnodup hknew, ?_, hl⟩
      apply List.count_eq_zero.mpr
      intro hm
      have := (List.mem_filter.mp hm).2
      rw [labelNotCorner_true_iff, hl] at this
      obtain ⟨lab, e1, e2⟩ := this
      cases e1
      omega
    · right
      refine ⟨List.count_eq_zero.mpr hknew, ?_, hl⟩
      have hyes : labelNotCorner st3.cloudLabel k = true := by
        rw [labelNotCorner_true_iff]
        rcases hl with e | e
        · exact ⟨0, e, le_refl _⟩
        · exact ⟨-1, e, by omega⟩
      rw [List.count_filter hyes]
      exact List.count_eq_one_of_mem (nodup_upTo _ _) hkmem
  have hSin : ∀ x ∈ (upTo sp (ep + 1)).filter (labelNotCorner st3.cloudLabel),
      sp ≤ x ∧ x ≤ ep := by
    intro x hx
    have := (List.mem_filter.mp hx).1
    rw [mem_upTo] at this
    omega
  refine ⟨new, (upTo sp (ep + 1)).filter (labelNotCorner st3.cloudLabel), ?_, ?_, hcounts,
    hnewIn, hSin, ?_⟩
  · show st3.cornerCloud = _
    rw [hS.corner, hC.corner]
  · show st3.surfaceCloudScan ++ _ = _
    rw [hS.scan, hC.scan]
  · have hperm : List.Perm
        (new ++ (upTo sp (ep + 1)).filter (labelNotCorner st3.cloudLabel))
        (upTo sp (ep + 1)) := by
      rw [List.perm_iff_count]
      intro k
      rw [List.count_append]
      by_cases hk : sp ≤ k ∧ k ≤ ep
      · have hkmem : k ∈ upTo sp (ep + 1) := (mem_upTo _ _ _).mpr ⟨hk.1, by omega⟩
        rw [List.count_eq_one_of_mem (nodup_upTo _ _) hkmem]
        rcases hcounts k hk.1 hk.2 with ⟨e1, e2, _⟩ | ⟨e1, e2, _⟩ <;> omega
      · have n1 : k ∉ new := fun hx => hk (hnewIn k hx)
        have n2 : k ∉ (upTo sp (ep + 1)).filter (labelNotCorner st3.cloudLabel) :=
          fun hx => hk (hSin k hx)
        have n3 : k ∉ upTo sp (ep + 1) := by
          rw [mem_upTo]
          omega
        rw [List.count_eq_zero.mpr n1, List.count_eq_zero.mpr n2, List.count_eq_zero.mpr n3]
    have hlen := hperm.length_eq
    rw [List.length_append] at hlen
    have hup : ((upTo sp (ep + 1)).length : Int) = ep - sp + 1 := by
      unfold upTo
      rw [List.length_map, List.length_range]
      omega
    omega

/-! ## The ring of `gapScan` -/

theorem gapScan_readable : RingsReadable P1 gapScan := by
  intro r h0 h1
  have hr : r = 0 := by
    have : (P1.N_SCAN : Int) = 1 := rfl
    omega
  subst hr
  exact ⟨5, 24, by decide, by decide⟩

theorem gapScan_inside : RingsInside P1 gapScan := by
  intro r s e h0 h1 hs he
  have hr : r = 0 := by
    have : (P1.N_SCAN : Int) = 1 := rfl
    omega
  subst hr
  have e1 : s = 5 := by
    have : rd gapScan.startRingIndex 0 = .ok 5 := by decide
    rw [this] at hs
    cases hs
    rfl
  have e2 : e = 24 := by
    have : rd gapScan.endRingIndex 0 = .ok 24 := by decide
    rw [this] at he
    cases he
    rfl
  subst e1 e2
  decide

theorem gapScan_disjoint : RingsDisjoint P1 gapScan := by
  intro r r' s e s' e' k h0 h1 h0' h1' hne
  have : (P1.N_SCAN : Int) = 1 := rfl
  omega

/-! ## How far the work on a sector reaches -/

/-- The work on the positions `sp, ..., ep` of one sector whose records name
indices of the sector changes no picked cell further than 5 cells from the
sector. -/
theorem processSector_reach {P : ParamServer} {srt : StdSort} {ci : cloud_info}
    {sp ep : Int} {st st' : FeatureExtraction}
    (h : processSector P srt ci sp ep st = .ok st')
    (hin : ∀ (p : Int) (r : smoothness_t), sp ≤ p → p ≤ ep →
      rd st.cloudSmoothness p = .ok r → sp ≤ (r.ind : Int) ∧ (r.ind : Int) ≤ ep) :
    ∀ k : Int, (k < sp - 5 ∨ ep + 5 < k) →
      rd st'.cloudNeighborPicked k = rd st.cloudNeighborPicked k := by
  have hT := processSector_touches h hin
  obtain ⟨sorted, s2, new, st3, hsort, hC, hS, rfl, _⟩ := processSector_spec h
  have hnewIn : ∀ x ∈ new, sp ≤ x ∧ x ≤ ep := by
    obtain ⟨newC, newS, ec, _, hCin, _⟩ := hT.clouds
    have e1 : st3.cornerCloud = st.cornerCloud ++ new := by rw [hS.corner, hC.corner]
    have : st3.cornerCloud = st.cornerCloud ++ newC := ec
    rw [e1] at this
    have := List.append_cancel_left this
    subst this
    exact hCin
  intro k hk
  show rd st3.cloudNeighborPicked k = _
  rw [hS.frame k (by
    intro p hp r hr
    rw [mem_upTo] at hp
    have hr3 : rd st3.cloudSmoothness p = .ok r := by rw [hS.smooth]; exact hr
    have := hT.smoothIn p r hp.1 (by omega) hr3
    omega)]
  exact hC.frame k (fun x hx => by
    have := hnewIn x hx
    omega)

/-- The sector loop of ring `r`, with bounds `s` and `e`, on a scan whose ring
intervals lie inside `[5, N - 5)` and are pairwise disjoint: no picked cell
outside `[s - 5, e + 4]` and no label outside `[s, e - 1]` is changed. -/
theorem sectors_reach {P : ParamServer} {srt : StdSort} {ci : cloud_info}
    (hc : ci.cloud_deskewed ≤ ci.pointColInd.length)
    (hrings : RingsInside P ci) (hdisj : RingsDisjoint P ci) {r s e : Int}
    (hr0 : 0 ≤ r) (hr1 : r < (P.N_SCAN : Int))
    (hs : rd ci.startRingIndex r = .ok s) (he : rd ci.endRingIndex r = .ok e)
    (js : List Int) (hjs : ∀ j ∈ js, 0 ≤ j ∧ j < 6) {st st' : FeatureExtraction}
    (hT : Tidy P ci st) (h : forM (sectorStep P srt ci r) js st = .ok st') :
    (∀ k : Int, (k < s - 5 ∨ e + 4 < k) →
      rd st'.cloudNeighborPicked k = rd st.cloudNeighborPicked k) ∧
    (∀ k : Int, (k < s ∨ e ≤ k) → rd st'.cloudLabel k = rd st.cloudLabel k) := by
  obtain ⟨_, h1, h2⟩ := forM_inv (sectorStep P srt ci r)
    (fun x => Tidy P ci x ∧
      (∀ k : Int, (k < s - 5 ∨ e + 4 < k) →
        rd x.cloudNeighborPicked k = rd st.cloudNeighborPicked k) ∧
      (∀ k : Int, (k < s ∨ e ≤ k) → rd x.cloudLabel k = rd st.cloudLabel k)) js st st' (by
      intro j hj t t' ⟨i1, i2, i3⟩ hstep
      obtain ⟨hj0, hj6⟩ := hjs j hj
      refine ⟨tidy_sectorStep hc hrings hdisj hr0 hr1 hj0 hj6 i1 hstep, ?_⟩
      obtain ⟨s', e', hs', he', hcase⟩ := sectorStep_spec hstep
      rw [hs] at hs'
      rw [he] at he'
      cases hs'
      cases he'
      rcases hcase with ⟨_, rfl⟩ | ⟨hlt, hproc⟩
      · exact ⟨i2, i3⟩
      · obtain ⟨b1, b2⟩ := sector_bounds s e j (by
          have := (hrings r s e hr0 hr1 hs he).1.1
          omega) hj0 hj6 hlt
        have hB := tidy_blockInds hrings i1
        have hin : ∀ (p : Int) (rec_ : smoothness_t), sectorStart s e j ≤ p →
            p ≤ sectorEnd s e j → rd t.cloudSmoothness p = .ok rec_ →
            sectorStart s e j ≤ (rec_.ind : Int) ∧ (rec_.ind : Int) ≤ sectorEnd s e j := by
          intro p rec_ p1 p2 hrd
          obtain ⟨s', e', hs', he', _, q1, q2⟩ :=
            hB r j p rec_ hr0 hr1 hj0 hj6 ⟨s, e, hs, he, hlt, p1, p2⟩ hrd
          rw [hs] at hs'
          rw [he] at he'
          cases hs'
          cases he'
          exact ⟨q1, q2⟩
        refine ⟨?_, ?_⟩
        · intro k hk
          rw [processSector_reach hproc hin k (by omega)]
          exact i2 k hk
        · intro k hk
          rw [(processSector_touches hproc hin).labelOut k (by omega)]
          exact i3 k hk)
    ⟨hT, fun k _ => rfl, fun k _ => rfl⟩ h
  exact ⟨h1, h2⟩

/-! ## The record of label writes -/

theorem cornerStepLog_erase (P : ParamServer) (ci : cloud_info) (k : Int)
    (st : FeatureExtraction) (log : List (Int × Int)) (n : Int) :
    ExecRel (fun x y => x.1 = y.1 ∧ x.2.1.1 = y.2.1 ∧ x.2.2 = y.2.2)
      (cornerStepLog P ci k ((st, log), n)) (cornerStep P ci k (st, n)) := by
  unfold cornerStepLog cornerStep
  dsimp only
  refine execRel_bind (execRel_refl _) ?_
  rintro r _ rfl
  refine execRel_bind (execRel_refl _) ?_
  rintro pk _ rfl
  by_cases hp0 : pk = 0
  · simp only [hp0, if_true]
    refine execRel_bind (execRel_refl _) ?_
    rintro c _ rfl
    by_cases hthr : c > P.edgeThreshold
    · simp only [hthr, if_true]
      by_cases hn : n + 1 ≤ 20
      · simp only [hn, if_true]
        refine execRel_bind (execRel_refl _) ?_
        rintro l1 _ rfl
        refine execRel_bind (execRel_refl _) ?_
        rintro c1 _ rfl
        refine execRel_bind (execRel_refl _) ?_
        rintro p1 _ rfl
        refine execRel_bind (execRel_refl _) ?_
        rintro q1 _ rfl
        exact ⟨rfl, rfl, rfl⟩
      · simp only [hn, if_false]
        exact ⟨rfl, rfl, rfl⟩
    · simp only [hthr, if_false]
      exact ⟨rfl, rfl, rfl⟩
  · simp only [hp0, if_false]
    exact ⟨rfl, rfl, rfl⟩

theorem surfaceStepLog_erase (P : ParamServer) (ci : cloud_info) (k : Int)
    (st : FeatureExtraction) (log : List (Int × Int)) :
    ExecRel (fun x y => x.1 = y) (surfaceStepLog P ci k (st, log)) (surfaceStep P ci k st) := by
  unfold surfaceStepLog surfaceStep
  dsimp only
  refine execRel_bind (execRel_refl _) ?_
  rintro r _ rfl
  refine execRel_bind (execRel_refl _) ?_
  rintro pk _ rfl
  by_cases hp0 : pk = 0
  · simp only [hp0, if_true]
    refine execRel_bind (execRel_refl _) ?_
    rintro c _ rfl
    by_cases hthr : c < P.surfThreshold
    · simp only [hthr, if_true]
      refine execRel_bind (execRel_refl _) ?_
      rintro l1 _ rfl
      refine execRel_bind (execRel_refl _) ?_
      rintro p1 _ rfl
      refine execRel_bind (execRel_refl _) ?_
      rintro q1 _ rfl
      exact rfl
    · simp only [hthr, if_false]
      exact rfl
  · simp only [hp0, if_false]
    exact rfl

theorem collectStepLog_erase (ci : cloud_info) (k : Int)
    (st : FeatureExtraction) (log : List (Int × Int)) :
    ExecRel (fun x y => x.1 = y) (collectStepLog ci k (st, log)) (collectStep ci k st) := by
  unfold collectStepLog
  cases h : collectStep ci k st with
  | error e => trivial
  | ok t => exact rfl

theorem processSectorLog_erase (P : ParamServer) (srt : StdSort) (ci : cloud_info)
    (sp ep : Int) (st : FeatureExtraction) (log : List (Int × Int)) :
    ExecRel (fun x y => x.1 = y) (processSectorLog P srt ci sp ep (st, log))
      (processSector P srt ci sp ep st) := by
  unfold processSectorLog processSector
  refine execRel_bind (execRel_refl _) ?_
  rintro sorted _ rfl
  dsimp only
  refine execRel_bind
    (R := fun (x : (FeatureExtraction × List (Int × Int)) × Int) (y : FeatureExtraction × Int) =>
      x.1.1 = y.1 ∧ x.2 = y.2) ?_ ?_
  · refine loopM_rel _ _ _ _ _ _ ?_ ⟨rfl, rfl⟩
    rintro k _ ⟨⟨a, l⟩, n⟩ ⟨b, m⟩ ⟨e1, e2⟩
    dsimp only at e1 e2
    subst e1 e2
    exact execRel_mono (cornerStepLog_erase P ci k a l n) (fun x y h => ⟨h.1, h.2.1, h.2.2⟩)
  · rintro ⟨⟨a, l⟩, n⟩ ⟨b, m⟩ ⟨e1, e2⟩
    dsimp only at e1 e2
    subst e1 e2
    refine execRel_bind
      (R := fun (x : FeatureExtraction × List (Int × Int)) (y : FeatureExtraction) => x.1 = y)
      ?_ ?_
    · refine forM_rel _ _ _ _ _ _ ?_ rfl
      rintro k _ ⟨a', l'⟩ b' e
      dsimp only at e
      subst e
      exact surfaceStepLog_erase P ci k a' l'
    · rintro ⟨a', l'⟩ b' e
      dsimp only at e
      subst e
      refine forM_rel _ _ _ _ _ _ ?_ rfl
      rintro k _ ⟨a'', l''⟩ b'' e
      dsimp only at e
      subst e
      exact collectStepLog_erase ci k a'' l''

theorem sectorStepLog_erase (P : ParamServer) (srt : StdSort) (ci : cloud_info)
    (i j : Int) (st : FeatureExtraction) (log : List (Int × Int)) :
    ExecRel (fun x y => x.1 = y) (sectorStepLog P srt ci i j (st, log))
      (sectorStep P srt ci i j st) := by
  unfold sectorStepLog sectorStep
  refine execRel_bind (execRel_refl _) ?_
  rintro s _ rfl
  refine execRel_bind (execRel_refl _) ?_
  rintro e _ rfl
  dsimp only
  by_cases hskip : sectorStart s e j ≥ sectorEnd s e j
  · simp only [hskip, if_true]
    exact rfl
  · simp only [hskip, if_false]
    exact processSectorLog_erase P srt ci _ _ st log

theorem ringStepLog_erase (P : ParamServer) (srt : StdSort) (ds : List Int → List Int)
    (ci : cloud_info) (i : Int) (st : FeatureExtraction) (log : List (Int × Int)) :
    ExecRel (fun x y => x.1 = y) (ringStepLog P srt ds ci i (st, log))
      (ringStep P srt ds ci i st) := by
  unfold ringStepLog ringStep ringSectorsLog ringSectors
  refine execRel_bind
    (R := fun (x : FeatureExtraction × List (Int × Int)) (y : FeatureExtraction) => x.1 = y)
    ?_ ?_
  · refine forM_rel _ _ _ _ _ _ ?_ rfl
    rintro j _ ⟨a, l⟩ b e
    dsimp only at e
    subst e
    exact sectorStepLog_erase P srt ci i j a l
  · rintro ⟨a, l⟩ b e
    dsimp only at e
    subst e
    exact rfl

theorem extractFeaturesLog_erase (P : ParamServer) (srt : StdSort) (ds : List Int → List Int)
    (ci : cloud_info) (st : FeatureExtraction) :
    ExecRel (fun x y => x.1 = y) (extractFeaturesLog P srt ds ci st)
      (extractFeatures P srt ds ci st) := by
  unfold extractFeaturesLog extractFeatures
  refine forM_rel _ _ _ _ _ _ ?_ rfl
  rintro i _ ⟨a, l⟩ b e
  dsimp only at e
  subst e
  exact ringStepLog_erase P srt ds ci i a l


theorem logInv_accept {ci : cloud_info} {st : FeatureExtraction} {log : List (Int × Int)}
    {ind : Nat} {v : Int} {p1 q : List Int} (hv : v = 1 ∨ v = -1)
    (hI : LogInv (st, log)) (hpk : rd st.cloudNeighborPicked ind = .ok 0)
    (hp1 : wr st.cloudNeighborPicked ind 1 = .ok p1)
    (hq : suppressNeighbors ci ind p1 = .ok q) (st' : FeatureExtraction)
    (hst' : st'.cloudNeighborPicked = q) :
    LogInv (st', log ++ [((ind : Int), v)]) := by
  obtain ⟨i1, i2, i3⟩ := hI
  obtain ⟨_, hgrow, hframe, _⟩ := suppressNeighbors_spec hq
  refine ⟨?_, ?_, ?_⟩
  · show ((log ++ [((ind : Int), v)]).map Prod.fst).Nodup
    rw [List.map_append, List.nodup_append]
    refine ⟨i1, List.nodup_singleton _, ?_⟩
    intro a ha hb
    rw [List.map_singleton, List.mem_singleton] at hb
    subst hb
    obtain ⟨x, hx, hx1⟩ := List.mem_map.mp ha
    have := i2 x hx
    rw [hx1] at this
    have this' : rd st.cloudNeighborPicked (ind : Int) = .ok 1 := this
    rw [hpk] at this'
    cases this'
  · intro x hx
    show rd st'.cloudNeighborPicked x.1 = .ok 1
    rw [hst']
    have h1 : rd p1 x.1 = .ok 1 := by
      rw [rd_wr hp1 x.1]
      by_cases hxi : x.1 = (ind : Int)
      · rw [if_pos hxi]
      · rw [if_neg hxi]
        rcases List.mem_append.mp hx with hx' | hx'
        · exact i2 x hx'
        · rw [List.mem_singleton] at hx'
          subst hx'
          exact absurd rfl hxi
    rcases hgrow x.1 with e | e
    · rw [e, h1]
    · exact e
  · intro x hx
    rcases List.mem_append.mp hx with hx' | hx'
    · exact i3 x hx'
    · rw [List.mem_singleton] at hx'
      subst hx'
      exact hv

theorem cornerStepLog_inv {P : ParamServer} {ci : cloud_info} {k : Int}
    {s s' : (FeatureExtraction × List (Int × Int)) × Int} {b : Bool}
    (hI : LogInv s.1) (h : cornerStepLog P ci k s = .ok (b, s')) : LogInv s'.1 := by
  obtain ⟨⟨st, log⟩, n⟩ := s
  unfold cornerStepLog at h
  dsimp only at h
  obtain ⟨r, hr, h⟩ := bind_eq_ok h
  obtain ⟨pk, hpk, h⟩ := bind_eq_ok h
  by_cases hp0 : pk = 0
  · subst hp0
    simp only [if_true] at h
    obtain ⟨c, hcv, h⟩ := bind_eq_ok h
    by_cases hthr : c > P.edgeThreshold
    · simp only [hthr, if_true] at h
      by_cases hn : n + 1 ≤ 20
      · simp only [hn, if_true] at h
        obtain ⟨l1, hl1, h⟩ := bind_eq_ok h
        obtain ⟨c1, hc1, h⟩ := bind_eq_ok h
        obtain ⟨p1, hp1, h⟩ := bind_eq_ok h
        obtain ⟨q1, hq1, h⟩ := bind_eq_ok h
        simp only [pure_eq_ok, Except.ok.injEq, Prod.mk.injEq] at h
        obtain ⟨_, rfl⟩ := h
        exact logInv_accept (Or.inl rfl) hI hpk hp1 hq1 _ rfl
      · simp only [hn, if_false, pure_eq_ok, Except.ok.injEq, Prod.mk.injEq] at h
        obtain ⟨_, rfl⟩ := h
        exact hI
    · simp only [hthr, if_false, pure_eq_ok, Except.ok.injEq, Prod.mk.injEq] at h
      obtain ⟨_, rfl⟩ := h
      exact hI
  · simp only [hp0, if_false, pure_eq_ok, Except.ok.injEq, Prod.mk.injEq] at h
    obtain ⟨_, rfl⟩ := h
    exact hI

theorem surfaceStepLog_inv {P : ParamServer} {ci : cloud_info} {k : Int}
    {s s' : FeatureExtraction × List (Int × Int)}
    (hI : LogInv s) (h : surfaceStepLog P ci k s = .ok s') : LogInv s' := by
  obtain ⟨st, log⟩ := s
  unfold surfaceStepLog at h
  dsimp only at h
  obtain ⟨r, hr, h⟩ := bind_eq_ok h
  obtain ⟨pk, hpk, h⟩ := bind_eq_ok h
  by_cases hp0 : pk = 0
  · subst hp0
    simp only [if_true] at h
    obtain ⟨c, hcv, h⟩ := bind_eq_ok h
    by_cases hthr : c < P.surfThreshold
    · simp only [hthr, if_true] at h
      obtain ⟨l1, hl1, h⟩ := bind_eq_ok h
      obtain ⟨p1, hp1, h⟩ := bind_eq_ok h
      obtain ⟨q1, hq1, h⟩ := bind_eq_ok h
      simp only [pure_eq_ok, Except.ok.injEq] at h
      subst h
      exact logInv_accept (Or.inr rfl) hI hpk hp1 hq1 _ rfl
    · simp only [hthr, if_false, pure_eq_ok, Except.ok.injEq] at h
      subst h
      exact hI
  · simp only [hp0, if_false, pure_eq_ok, Except.ok.injEq] at h
    subst h
    exact hI

theorem logInv_node {s : FeatureExtraction × List (Int × Int)} (hI : LogInv s)
    (st' : FeatureExtraction) (h : st'.cloudNeighborPicked = s.1.cloudNeighborPicked) :
    LogInv (st', s.2) := by
  obtain ⟨i1, i2, i3⟩ := hI
  refine ⟨i1, ?_, i3⟩
  intro x hx
  show rd st'.cloudNeighborPicked x.1 = .ok 1
  rw [h]
  exact i2 x hx

theorem collectStepLog_inv {ci : cloud_info} {k : Int}
    {s s' : FeatureExtraction × List (Int × Int)}
    (hI : LogInv s) (h : collectStepLog ci k s = .ok s') : LogInv s' := by
  unfold collectStepLog at h
  obtain ⟨st, hst, h⟩ := bind_eq_ok h
  simp only [pure_eq_ok, Except.ok.injEq] at h
  subst h
  exact logInv_node hI st (collectStep_picked hst)

theorem processSectorLog_inv {P : ParamServer} {srt : StdSort} {ci : cloud_info}
    {sp ep : Int} {s s' : FeatureExtraction × List (Int × Int)}
    (hI : LogInv s) (h : processSectorLog P srt ci sp ep s = .ok s') : LogInv s' := by
  unfold processSectorLog at h
  obtain ⟨sorted, _, h⟩ := bind_eq_ok h
  dsimp only at h
  obtain ⟨s2, hs2, h⟩ := bind_eq_ok h
  obtain ⟨s3, hs3, h⟩ := bind_eq_ok h
  have h2 : LogInv s2.1 := loopM_inv (cornerStepLog P ci)
    (fun (x : (FeatureExtraction × List (Int × Int)) × Int) => LogInv x.1) _ _ s2
    (fun i _ t b t' hI' hstep => cornerStepLog_inv hI' hstep)
    (logInv_node hI _ rfl) hs2
  have h3 : LogInv s3 := forM_inv (surfaceStepLog P ci) LogInv _ _ s3
    (fun i _ t t' hI' hstep => surfaceStepLog_inv hI' hstep) h2 hs3
  exact forM_inv (collectStepLog ci) LogInv _ _ s'
    (fun i _ t t' hI' hstep => collectStepLog_inv hI' hstep) h3 h

theorem sectorStepLog_inv {P : ParamServer} {srt : StdSort} {ci : cloud_info}
    {i j : Int} {s s' : FeatureExtraction × List (Int × Int)}
    (hI : LogInv s) (h : sectorStepLog P srt ci i j s = .ok s') : LogInv s' := by
  unfold sectorStepLog at h
  obtain ⟨s0, _, h⟩ := bind_eq_ok h
  obtain ⟨e, _, h⟩ := bind_eq_ok h
  dsimp only at h
  by_cases hskip : sectorStart s0 e j ≥ sectorEnd s0 e j
  · simp only [hskip, if_true, pure_eq_ok, Except.ok.injEq] at h
    subst h
    exact hI
  · simp only [hskip, if_false] at h
    exact processSectorLog_inv hI h

theorem ringStepLog_inv {P : ParamServer} {srt : StdSort} {ds : List Int → List Int}
    {ci : cloud_info} {i : Int} {s s' : FeatureExtraction × List (Int × Int)}
    (hI : LogInv s) (h : ringStepLog P srt ds ci i s = .ok s') : LogInv s' := by
  unfold ringStepLog ringSectorsLog at h
  obtain ⟨s1, hs1, h⟩ := bind_eq_ok h
  simp only [pure_eq_ok, Except.ok.injEq] at h
  subst h
  have h1 : LogInv s1 := forM_inv (sectorStepLog P srt ci i) LogInv _ _ s1
    (fun j _ t t' hI' hstep => sectorStepLog_inv hI' hstep)
    (logInv_node hI { s.1 with surfaceCloudScan := [] } rfl) hs1
  exact logInv_node h1 _ rfl

theorem extractFeaturesLog_inv {P : ParamServer} {srt : StdSort} {ds : List Int → List Int}
    {ci : cloud_info} {st : FeatureExtraction} {s' : FeatureExtraction × List (Int × Int)}
    (h : extractFeaturesLog P srt ds ci st = .ok s') : LogInv s' := by
  unfold extractFeaturesLog at h
  refine forM_inv (ringStepLog P srt ds ci) LogInv _ _ s'
    (fun j _ t t' hI' hstep => ringStepLog_inv hI' hstep) ?_ h
  unfold LogInv
  exact ⟨List.nodup_nil, fun x hx => absurd hx (List.not_mem_nil x),
    fun x hx => absurd hx (List.not_mem_nil x)⟩

/-! ## Claims on scans with a constant range -/

/-- C11, as stated, fails. On `flatScan73`, the flat 23-point ring with
consecutive columns whose range is the `float` nearest to 7.3 at every point,
with `edgeThreshold = 0`, `surfThreshold` the `float` nearest to 0.1 and the ring
`[5, 17]` inside `[5, N - 5)`, `calculateSmoothness` stores the curvature `2^-40`
(the running sum is rounded after every addition), which exceeds
`edgeThreshold`, and `extractFeatures` outputs the corners 6 and 12. -/
theorem flat_ring_corners :
    flatScan73.pointRange = List.replicate 23 (fl32 7.3) ∧
    flatScan73.pointColInd = (List.range 23).map (fun (n : Nat) => (n : Int)) ∧
    0 ≤ P0.edgeThreshold ∧ P0.surfThreshold = fl32 0.1 ∧
    ∃ st1 st2 out, calculateSmoothness flatScan73 (initializationValue P0) = .ok st1 ∧
      rd st1.cloudCurvature 5 = .ok (1 / 1099511627776) ∧
      markOccludedPoints flatScan73 st1 = .ok st2 ∧
      extractFeatures P0 insertionSort id flatScan73 st2 = .ok out ∧
      pipeline P0 insertionSort id flatScan73 (initializationValue P0) = .ok out ∧
      out.cornerCloud = [6, 12] := by
  have hw : Except.map (fun (o : FeatureExtraction) => rd o.cloudCurvature 5)
      (calculateSmoothness flatScan73 (initializationValue P0))
      = .ok (.ok (1 / 1099511627776)) := by
    decide!
  have hp : Except.map (fun (o : FeatureExtraction) => o.cornerCloud)
      (pipeline P0 insertionSort id flatScan73 (initializationValue P0)) = .ok [6, 12] := by
    decide!
  obtain ⟨st1, e1, e2⟩ := map_ok hw
  obtain ⟨out, e3, e4⟩ := map_ok hp
  have e5 := e3
  unfold pipeline at e5
  rw [e1, bind_ok] at e5
  obtain ⟨st2, e6, e7⟩ := bind_eq_ok e5
  exact ⟨by decide!, rfl, by decide!, by decide!, st1, st2, out, e1, e2, e6, e7, e3, e4⟩

/-- C11, amended. On a scan of `N` points whose range is the same constant
`c` at every point, where `c = m / 2^n` with natural numbers `m < 2^19` and
`n ≤ 149` (a non-negative binary32 number with at most 19 significant bits, so
that the sums of the curvature computation are exact), with
`edgeThreshold ≥ 0` and ring bounds that can be read and satisfy
`5 ≤ startRingIndex[r]` and `endRingIndex[r] ≤ N - 5`, the three stages complete
and: every curvature computed is 0; `markOccludedPoints` changes no cell of
`cloudNeighborPicked`, which is 0 at every index `5 ≤ k < N - 5`; `cornerCloud`
ends empty; and for every ring the surface candidates passed to the voxel
filter contain every index of every sector of the ring that is not skipped.
Neither the column indices nor `surfThreshold` matter. -/
theorem flat_ring (P : ParamServer) (srt : StdSort) (ds : List Int → List Int)
    (ci : cloud_info) (st : FeatureExtraction) (c : ℚ) (m n : Nat)
    (hr : ci.cloud_deskewed ≤ ci.pointRange.length)
    (hc : ci.cloud_deskewed ≤ ci.pointColInd.length)
    (hf : Fits ci.cloud_deskewed st) (hrings : RingsWithin P ci)
    (hflat : ∀ i : Int, 0 ≤ i → i < (ci.cloud_deskewed : Int) → rangeAt ci i = c)
    (hcm : c = (m : ℚ) / 2 ^ n) (hm : m < 2 ^ 19) (hn : n ≤ 149)
    (hedge : 0 ≤ P.edgeThreshold) :
    ∃ st1 st2 out, calculateSmoothness ci st = .ok st1 ∧
      markOccludedPoints ci st1 = .ok st2 ∧ extractFeatures P srt ds ci st2 = .ok out ∧
      (∀ k : Int, 5 ≤ k → k < (ci.cloud_deskewed : Int) - 5 →
        rd st1.cloudCurvature k = .ok 0) ∧
      (∀ k : Int, rd st2.cloudNeighborPicked k = rd st1.cloudNeighborPicked k) ∧
      (∀ k : Int, 5 ≤ k → k < (ci.cloud_deskewed : Int) - 5 →
        rd st2.cloudNeighborPicked k = .ok 0) ∧
      out.cornerCloud = [] ∧
      ∀ r : Int, 0 ≤ r → r < (P.N_SCAN : Int) →
        ∃ cand, ringCandidates P srt ds ci st2 r = .ok cand ∧
          ∀ j k : Int, 0 ≤ j → j < 6 → InSector ci r j k → k ∈ cand := by
  have hc0 : 0 ≤ c := by rw [hcm]; positivity
  obtain ⟨st1, st2, h1, h2, hS2, ecv, elb, _, hwin⟩ := marked_total ci st hr hc hf
  obtain ⟨out, h3, _⟩ := extractFeatures_total P srt ds hc hrings hS2
  have hlen1 := (calculateSmoothness_spec ci st hr hf)
  obtain ⟨st1', h1', _, _, _, _, _, g3, _, _⟩ := hlen1
  rw [h1] at h1'
  cases h1'
  obtain ⟨pk', h2', _, hpk⟩ := markOccludedPoints_spec ci st1 hr hc (by rw [g3]; exact hf.2.2.1)
  rw [h2] at h2'
  cases h2'
  have hsame : ∀ k : Int, rd pk' k = rd st1.cloudNeighborPicked k :=
    fun k => (hpk k).2 (no_hit_flat ci c hc0 hflat k)
  have hF0 : Flat ci.cloud_deskewed
      { ({ st1 with cloudNeighborPicked := pk' } : FeatureExtraction) with
        cornerCloud := [], surfaceCloud := [], surfaceCloudScan := [] } := by
    refine ⟨⟨hS2.fits, hS2.inds⟩, rfl, ?_, ?_⟩
    · intro k k5 kN
      have := (hwin k k5 kN).2.1
      rw [curvatureAt_flat ci c m n hm hn hcm hflat k k5 kN] at this
      exact this
    · intro k k5 kN
      exact ⟨0, (hwin k k5 kN).2.2.2, le_refl 0⟩
  have hrun : ∀ (rs : List Int) (t : FeatureExtraction),
      (∀ r ∈ rs, 0 ≤ r ∧ r < (P.N_SCAN : Int)) →
      forM (ringStep P srt ds ci) rs
        { ({ st1 with cloudNeighborPicked := pk' } : FeatureExtraction) with
          cornerCloud := [], surfaceCloud := [], surfaceCloudScan := [] } = .ok t →
      Flat ci.cloud_deskewed t := by
    intro rs t hrs ht
    exact forM_inv (ringStep P srt ds ci) (Flat ci.cloud_deskewed) rs _ t
      (fun i hi a b hI hstep => flat_ringStep hc hrings hedge (hrs i hi).1 (hrs i hi).2 hI hstep)
      hF0 ht
  refine ⟨st1, _, out, h1, h2, h3, ?_, hsame, ?_, ?_, ?_⟩
  · intro k k5 kN
    have := (hwin k k5 kN).2.1
    rw [curvatureAt_flat ci c m n hm hn hcm hflat k k5 kN] at this
    exact this
  · intro k k5 kN
    show rd pk' k = _
    rw [hsame k]
    exact (hwin k k5 kN).2.2.1
  · unfold extractFeatures at h3
    exact (hrun _ out (fun r hr => by rw [mem_upTo] at hr; omega) h3).corner
  · intro r hr0 hr1
    obtain ⟨pre, hpre, hSpre⟩ := rings_total P srt ds hc hrings
      (show Sound ci.cloud_deskewed
        { ({ st1 with cloudNeighborPicked := pk' } : FeatureExtraction) with
          cornerCloud := [], surfaceCloud := [], surfaceCloudScan := [] } from
        ⟨hS2.fits, hS2.inds⟩) (upTo 0 r) (fun r' hr' => by rw [mem_upTo] at hr'; omega)
    have hFpre := hrun _ pre (fun r' hr' => by rw [mem_upTo] at hr'; omega) hpre
    have hFpre0 : Flat ci.cloud_deskewed { pre with surfaceCloudScan := [] } :=
      ⟨sound_scan hFpre.sound [], hFpre.corner, hFpre.curv, hFpre.label⟩
    obtain ⟨post, hpost, _⟩ := ringSectors_total P srt hc hrings (sound_scan hSpre []) r
      hr0 hr1 (upTo 0 6) (fun j hj => by rw [mem_upTo] at hj; omega)
    obtain ⟨_, _, newS, escan, hin⟩ := flat_sectors hc hrings hedge hr0 hr1 (upTo 0 6) _ post
      (fun j hj => by rw [mem_upTo] at hj; omega) hFpre0 hpost
    refine ⟨post.surfaceCloudScan, ?_, ?_⟩
    · unfold ringCandidates ringSectors
      rw [hpre, bind_ok, hpost, bind_ok]
      rfl
    · intro j k hj0 hj6 hk
      rw [escan]
      exact List.mem_append_right _ (hin j ((mem_upTo _ _ _).mpr ⟨hj0, hj6⟩) k hk)


theorem flat_ring_witness :
    ∃ st1 st2 out, calculateSmoothness flatScan20 (initializationValue P1) = .ok st1 ∧
      markOccludedPoints flatScan20 st1 = .ok st2 ∧
      extractFeatures P1 insertionSort id flatScan20 st2 = .ok out ∧
      out.cornerCloud = [] ∧
      ∃ cand, ringCandidates P1 insertionSort id flatScan20 st2 0 = .ok cand ∧
        6 ∈ cand ∧ 7 ∈ cand := by
  have hN : (flatScan20.cloud_deskewed : Int) = 20 := rfl
  obtain ⟨st1, st2, out, h1, h2, h3, _, _, _, hcorner, hcand⟩ :=
    flat_ring P1 insertionSort id flatScan20 (initializationValue P1) 4 4 0
      (by decide) (by decide) ⟨by decide, by decide, by decide, by decide⟩
      (fun r h0 h1 => by
        have hr : r = 0 := by
          have : (P1.N_SCAN : Int) = 1 := rfl
          omega
        subst hr
        exact ⟨5, 14, by decide, by decide, by decide, by decide⟩)
      (fun i h0 h1 => by
        unfold rangeAt
        show ((List.replicate 20 (4 : ℚ))[i.toNat]?).getD 0 = 4
        rw [List.getElem?_replicate, if_pos (by omega)]
        rfl)
      (by norm_num) (by decide) (by decide) (show (0 : ℚ) ≤ 1 by norm_num)
  obtain ⟨cand, hc1, hc2⟩ := hcand 0 (by decide) (by decide)
  exact ⟨st1, st2, out, h1, h2, h3, hcorner, cand, hc1,
    hc2 1 6 (by decide) (by decide) ⟨5, 14, by decide, by decide, by decide, by decide,
      by decide⟩,
    hc2 1 7 (by decide) (by decide) ⟨5, 14, by decide, by decide, by decide, by decide,
      by decide⟩⟩

/-! ## Claims on the sector bounds and the sort -/

/-- C12 (a degenerate sector is skipped). For every ring `r` whose bounds can
be read and every sector `j` whose bounds satisfy `sp ≥ ep`, the body of the
sector loop completes without a fault and returns the node as it was: nothing
is appended to `cornerCloud` or to the surface candidates `surfaceCloudScan`,
and the curvatures, the picked cells, the labels and the smoothness records
are unchanged. -/
theorem degenerate_sector_skipped (P : ParamServer) (srt : StdSort) (ci : cloud_info)
    (r j s e : Int) (st : FeatureExtraction)
    (hs : rd ci.startRingIndex r = .ok s) (he : rd ci.endRingIndex r = .ok e)
    (h : sectorStart s e j ≥ sectorEnd s e j) :
    sectorStep P srt ci r j st = .ok st := by
  unfold sectorStep
  rw [hs, bind_ok, he, bind_ok]
  simp only [h, if_true]
  rfl

theorem degenerate_sector_skipped_witness :
    sectorStep P1 insertionSort stepScan8 0 1 stepMarked = .ok stepMarked :=
  degenerate_sector_skipped P1 insertionSort stepScan8 0 1 5 8 stepMarked
    (by decide) (by decide) (by decide)

/-- C13 (corner scan order), evaluated on `stepScan`, whose sector 3 is
`[14, 16]`. On entry to that sector in the run of `extractFeatures` from
`stepMarked`, the sort rearranges the positions 14 and 15 only, and the corner
loop reads, for `k = 16, 15, 14`, the curvatures `144, 225, 225`: the sequence
is not non-increasing. The loop accepts the point 16 first, although the point
15 has a higher curvature and is not picked. -/
theorem corner_order_broken :
    sectorStart 5 24 3 = 14 ∧ sectorEnd 5 24 3 = 16 ∧
    ∃ pre sorted post,
      sectorEntry P1 insertionSort id stepScan stepMarked 0 3 = .ok pre ∧
      sortRange insertionSort pre.cloudSmoothness 14 16 = .ok sorted ∧
      examinedCurvatures { pre with cloudSmoothness := sorted } (downTo 16 14)
        = .ok [144, 225, 225] ∧
      rd pre.cloudNeighborPicked 15 = .ok 0 ∧
      sectorStep P1 insertionSort stepScan 0 3 pre = .ok post ∧
      post.cornerCloud = pre.cornerCloud ++ [16] := by
  have hw : completes (sectorEntry P1 insertionSort id stepScan stepMarked 0 3) = true ∧
      completes (sortRange insertionSort
        (outcome (sectorEntry P1 insertionSort id stepScan stepMarked 0 3)
          stepMarked).cloudSmoothness 14 16) = true ∧
      examinedCurvatures
        { outcome (sectorEntry P1 insertionSort id stepScan stepMarked 0 3) stepMarked with
          cloudSmoothness := outcome (sortRange insertionSort
            (outcome (sectorEntry P1 insertionSort id stepScan stepMarked 0 3)
              stepMarked).cloudSmoothness 14 16) [] } (downTo 16 14)
        = .ok [144, 225, 225] ∧
      rd (outcome (sectorEntry P1 insertionSort id stepScan stepMarked 0 3)
        stepMarked).cloudNeighborPicked 15 = .ok 0 ∧
      completes (sectorStep P1 insertionSort stepScan 0 3
        (outcome (sectorEntry P1 insertionSort id stepScan stepMarked 0 3) stepMarked)) = true ∧
      (outcome (sectorStep P1 insertionSort stepScan 0 3
        (outcome (sectorEntry P1 insertionSort id stepScan stepMarked 0 3) stepMarked))
        stepMarked).cornerCloud =
      (outcome (sectorEntry P1 insertionSort id stepScan stepMarked 0 3)
        stepMarked).cornerCloud ++ [16] := by
    decide!
  exact ⟨by decide, by decide, _, _, _, completes_outcome _ _ hw.1,
    completes_outcome _ _ hw.2.1, hw.2.2.1, hw.2.2.2.1, completes_outcome _ _ hw.2.2.2.2.1,
    hw.2.2.2.2.2⟩

theorem wrap32_small (x : Int) (h1 : -2147483648 ≤ x) (h2 : x < 2147483648) :
    wrap32 x = x := by
  unfold wrap32
  omega

/-- For ring bounds `0 ≤ s ≤ e ≤ 357913941` (so that `6 * e < 2^31`) no
operation of the 32-bit computation of the sector bounds overflows, and its
results are those of the computation over exact integers. -/
theorem sector32_agree (s e j : Int) (h0 : 0 ≤ s) (h1 : s ≤ e) (h2 : e ≤ 357913941)
    (hj0 : 0 ≤ j) (hj6 : j < 6) :
    sectorStart32 s e j = sectorStart s e j ∧ sectorEnd32 s e j = sectorEnd s e j := by
  have b1 : 0 ≤ s * (6 - j) := mul_nonneg h0 (by omega)
  have b2 : s * (6 - j) ≤ e * (6 - j) := mul_le_mul_of_nonneg_right h1 (by omega)
  have b3 : 0 ≤ e * j := mul_nonneg (by omega) hj0
  have b4 : e * (6 - j) + e * j = e * 6 := by ring
  have c1 : 0 ≤ s * (5 - j) := mul_nonneg h0 (by omega)
  have c2 : s * (5 - j) ≤ e * (5 - j) := mul_le_mul_of_nonneg_right h1 (by omega)
  have c3 : 0 ≤ e * (j + 1) := mul_nonneg (by omega) (by omega)
  have c4 : e * (5 - j) + e * (j + 1) = e * 6 := by ring
  constructor
  · unfold sectorStart32 sectorStart
    rw [wrap32_small (6 - j) (by omega) (by omega),
      wrap32_small (s * (6 - j)) (by omega) (by omega),
      wrap32_small (e * j) (by omega) (by omega),
      wrap32_small (s * (6 - j) + e * j) (by omega) (by omega)]
  · unfold sectorEnd32 sectorEnd
    rw [wrap32_small (5 - j) (by omega) (by omega),
      wrap32_small (j + 1) (by omega) (by omega),
      wrap32_small (s * (5 - j)) (by omega) (by omega),
      wrap32_small (e * (j + 1)) (by omega) (by omega),
      wrap32_small (s * (5 - j) + e * (j + 1)) (by omega) (by omega)]
    apply wrap32_small
    · rw [Int.tdiv_eq_ediv (by omega) (by omega)]
      omega
    · rw [Int.tdiv_eq_ediv (by omega) (by omega)]
      omega

/-- The split over exact integers: for `0 ≤ s ≤ e` the first sector starts at
`s`, each sector starts right after the one before, and the lengths of any two
sectors differ by at most 1. -/
theorem sector_split_exact (s e : Int) (h0 : 0 ≤ s) (h1 : s ≤ e) :
    sectorStart s e 0 = s ∧
    (∀ j : Int, 0 ≤ j → j < 5 → sectorStart s e (j + 1) = sectorEnd s e j + 1) ∧
    (∀ j j' : Int, 0 ≤ j → j < 6 → 0 ≤ j' → j' < 6 →
      |(sectorEnd s e j - sectorStart s e j + 1) -
        (sectorEnd s e j' - sectorStart s e j' + 1)| ≤ 1) := by
  refine ⟨?_, ?_, ?_⟩
  · unfold sectorStart
    rw [Int.tdiv_eq_ediv (by omega) (by omega)]
    omega
  · intro j hj0 hj5
    unfold sectorStart sectorEnd
    have : 6 - (j + 1) = 5 - j := by omega
    rw [this]
    omega
  · intro j j' hj0 hj6 hj0' hj6'
    have key : ∀ i : Int, 0 ≤ i → i < 6 →
        (e - s) / 6 ≤ sectorEnd s e i - sectorStart s e i + 1 ∧
        sectorEnd s e i - sectorStart s e i + 1 ≤ (e - s) / 6 + 1 := by
      intro i hi0 hi6
      unfold sectorStart sectorEnd
      have hi : i = 0 ∨ i = 1 ∨ i = 2 ∨ i = 3 ∨ i = 4 ∨ i = 5 := by omega
      rcases hi with rfl | rfl | rfl | rfl | rfl | rfl <;>
        (rw [Int.tdiv_eq_ediv (by omega) (by omega), Int.tdiv_eq_ediv (by omega) (by omega)]
         omega)
    have a := key j hj0 hj6
    have b := key j' hj0' hj6'
    rw [abs_le]
    omega

/-- C14, as stated, fails for the bounds the source computes. With
`start = 715827888` and `end = 715827900` the 32-bit product `start * 6`
wraps around to 32, so the source gets `sp_0 = 5` and `ep_0 = 6`, not
`sp_0 = start`; over exact integers the formula gives `sp_0 = 715827888`. -/
theorem sector_split_overflow :
    (0 : Int) ≤ 715827888 ∧ (715827888 : Int) ≤ 715827900 ∧
    sectorStart32 715827888 715827900 0 = 5 ∧ sectorEnd32 715827888 715827900 0 = 6 ∧
    sectorStart 715827888 715827900 0 = 715827888 := by
  decide

/-- C14, amended. For all integers `0 ≤ start ≤ end ≤ 357913941` (so that
`6 * end` fits a 32-bit `int`), the bounds computed by the source in 32-bit
arithmetic are those of the formulas over exact integers, and they satisfy
`sp_0 = start`, `sp_(j+1) = ep_j + 1` for `j = 0..4`, and the lengths
`ep_j - sp_j + 1` of any two of the six sectors differ by at most 1. -/
theorem sector_split (s e : Int) (h0 : 0 ≤ s) (h1 : s ≤ e) (h2 : e ≤ 357913941) :
    (∀ j : Int, 0 ≤ j → j < 6 →
      sectorStart32 s e j = sectorStart s e j ∧ sectorEnd32 s e j = sectorEnd s e j) ∧
    sectorStart32 s e 0 = s ∧
    (∀ j : Int, 0 ≤ j → j < 5 → sectorStart32 s e (j + 1) = sectorEnd32 s e j + 1) ∧
    (∀ j j' : Int, 0 ≤ j → j < 6 → 0 ≤ j' → j' < 6 →
      |(sectorEnd32 s e j - sectorStart32 s e j + 1) -
        (sectorEnd32 s e j' - sectorStart32 s e j' + 1)| ≤ 1) := by
  obtain ⟨a, b, c⟩ := sector_split_exact s e h0 h1
  have hag := fun j hj0 hj6 => sector32_agree s e j h0 h1 h2 hj0 hj6
  refine ⟨hag, ?_, ?_, ?_⟩
  · rw [(hag 0 (by decide) (by decide)).1]
    exact a
  · intro j hj0 hj5
    rw [(hag (j + 1) (by omega) (by omega)).1, (hag j hj0 (by omega)).2]
    exact b j hj0 hj5
  · intro j j' hj0 hj6 hj0' hj6'
    rw [(hag j hj0 hj6).1, (hag j hj0 hj6).2, (hag j' hj0' hj6').1, (hag j' hj0' hj6').2]
    exact c j j' hj0 hj6 hj0' hj6'

theorem sector_split_witness :
    (∀ j : Int, 0 ≤ j → j < 6 →
      sectorStart32 5 24 j = sectorStart 5 24 j ∧ sectorEnd32 5 24 j = sectorEnd 5 24 j) ∧
    sectorStart32 5 24 0 = 5 ∧
    (∀ j : Int, 0 ≤ j → j < 5 → sectorStart32 5 24 (j + 1) = sectorEnd32 5 24 j + 1) ∧
    (∀ j j' : Int, 0 ≤ j → j < 6 → 0 ≤ j' → j' < 6 →
      |(sectorEnd32 5 24 j - sectorStart32 5 24 j + 1) -
        (sectorEnd32 5 24 j' - sectorStart32 5 24 j' + 1)| ≤ 1) :=
  sector_split 5 24 (by decide) (by decide) (by decide)

/-! ## Claims on the reach of the suppression walks -/

theorem stepExtract_run :
    extractFeatures P1 insertionSort id stepScan stepMarked = .ok stepDone := by
  have h := stepDone_run
  unfold pipeline at h
  rw [← bind_assoc, stepMarked_run, bind_ok] at h
  exact h

/-- C15, as stated, fails. On `stepScan`, whose one ring is `[5, 24]`, the
point 5 is accepted as a surface point and its backward walk sets the picked
cell 4, an index outside the ring interval. On `pairScan`, whose ring
intervals `[5, 14]` and `[15, 24]` are disjoint, the work on ring 0 sets the
picked cell 15, an index of ring 1. -/
theorem suppression_leaves_ring :
    (rd stepScan.startRingIndex 0 = .ok 5 ∧ rd stepScan.endRingIndex 0 = .ok 24 ∧
      extractFeatures P1 insertionSort id stepScan stepMarked = .ok stepDone ∧
      rd stepMarked.cloudNeighborPicked 4 = .ok 0 ∧
      rd stepDone.cloudNeighborPicked 4 = .ok 1 ∧ rd stepDone.cloudLabel 5 = .ok (-1) ∧
      ∃ pk1 pk2, wr stepMarked.cloudNeighborPicked 5 1 = .ok pk1 ∧
        suppressNeighbors stepScan 5 pk1 = .ok pk2 ∧ rd pk2 4 = .ok 1) ∧
    (rd pairScan.startRingIndex 0 = .ok 5 ∧ rd pairScan.endRingIndex 0 = .ok 14 ∧
      rd pairScan.startRingIndex 1 = .ok 15 ∧ rd pairScan.endRingIndex 1 = .ok 24 ∧
      ∃ st2 pre post,
        calculateSmoothness pairScan (initializationValue P220) >>= markOccludedPoints pairScan
          = .ok st2 ∧
        sectorEntry P220 insertionSort id pairScan st2 0 0 = .ok pre ∧
        ringStep P220 insertionSort id pairScan 0 pre = .ok post ∧
        rd pre.cloudNeighborPicked 15 = .ok 0 ∧ rd post.cloudNeighborPicked 15 = .ok 1) := by
  have hw : completes (wr stepMarked.cloudNeighborPicked 5 1) = true ∧
      completes (suppressNeighbors stepScan 5
        (outcome (wr stepMarked.cloudNeighborPicked 5 1) [])) = true ∧
      rd (outcome (suppressNeighbors stepScan 5
        (outcome (wr stepMarked.cloudNeighborPicked 5 1) [])) []) 4 = .ok 1 := by
    decide
  have hv : completes (calculateSmoothness pairScan (initializationValue P220)
        >>= markOccludedPoints pairScan) = true ∧
      completes (sectorEntry P220 insertionSort id pairScan
        (outcome (calculateSmoothness pairScan (initializationValue P220)
          >>= markOccludedPoints pairScan) (initializationValue P220)) 0 0) = true ∧
      completes (ringStep P220 insertionSort id pairScan 0
        (outcome (sectorEntry P220 insertionSort id pairScan
          (outcome (calculateSmoothness pairScan (initializationValue P220)
            >>= markOccludedPoints pairScan) (initializationValue P220)) 0 0)
          (initializationValue P220))) = true ∧
      rd (outcome (sectorEntry P220 insertionSort id pairScan
          (outcome (calculateSmoothness pairScan (initializationValue P220)
            >>= markOccludedPoints pairScan) (initializationValue P220)) 0 0)
          (initializationValue P220)).cloudNeighborPicked 15 = .ok 0 ∧
      rd (outcome (ringStep P220 insertionSort id pairScan 0
        (outcome (sectorEntry P220 insertionSort id pairScan
          (outcome (calculateSmoothness pairScan (initializationValue P220)
            >>= markOccludedPoints pairScan) (initializationValue P220)) 0 0)
          (initializationValue P220))) (initializationValue P220)).cloudNeighborPicked 15
        = .ok 1 := by
    decide!
  exact ⟨⟨by decide, by decide, stepExtract_run, by decide, by decide, by decide, _, _,
    completes_outcome _ _ hw.1, completes_outcome _ _ hw.2.1, hw.2.2⟩,
    by decide, by decide, by decide, by decide, _, _, _,
    completes_outcome _ _ hv.1, completes_outcome _ _ hv.2.1,
    completes_outcome _ _ hv.2.2.1, hv.2.2.2.1, hv.2.2.2.2⟩

/-- C15, amended. The two suppression walks of a point `ind` change no picked
cell further than 5 cells from `ind`. On a scan of `N` points whose ring
intervals lie inside `[5, N - 5)` and are pairwise disjoint, the run of the
three stages reaches the work on every ring `r` and completes it, and that
work changes no picked cell outside `[startRingIndex[r] - 5, endRingIndex[r] + 4]`
and no label outside `[startRingIndex[r], endRingIndex[r] - 1]`; in particular
it changes no label at an index of another ring. -/
theorem suppression_reach (P : ParamServer) (srt : StdSort) (ds : List Int → List Int)
    (ci : cloud_info) (st : FeatureExtraction)
    (hr : ci.cloud_deskewed ≤ ci.pointRange.length)
    (hc : ci.cloud_deskewed ≤ ci.pointColInd.length)
    (hf : Fits ci.cloud_deskewed st) (hread : RingsReadable P ci)
    (hrings : RingsInside P ci) (hdisj : RingsDisjoint P ci)
    (r s e : Int) (hr0 : 0 ≤ r) (hr1 : r < (P.N_SCAN : Int))
    (hs : rd ci.startRingIndex r = .ok s) (he : rd ci.endRingIndex r = .ok e) :
    (∀ (ind : Nat) (pk pk' : List Int), suppressNeighbors ci ind pk = .ok pk' →
      ∀ k : Int, (k < (ind : Int) - 5 ∨ (ind : Int) + 5 < k) → rd pk' k = rd pk k) ∧
    ∃ st1 st2 pre post, calculateSmoothness ci st = .ok st1 ∧
      markOccludedPoints ci st1 = .ok st2 ∧
      sectorEntry P srt ds ci st2 r 0 = .ok pre ∧ ringStep P srt ds ci r pre = .ok post ∧
      (∀ k : Int, (k < s - 5 ∨ e + 4 < k) →
        rd post.cloudNeighborPicked k = rd pre.cloudNeighborPicked k) ∧
      (∀ k : Int, (k < s ∨ e ≤ k) → rd post.cloudLabel k = rd pre.cloudLabel k) ∧
      (∀ r' s' e' k : Int, 0 ≤ r' → r' < (P.N_SCAN : Int) → r' ≠ r →
        rd ci.startRingIndex r' = .ok s' → rd ci.endRingIndex r' = .ok e' →
        s' ≤ k → k ≤ e' → rd post.cloudLabel k = rd pre.cloudLabel k) := by
  refine ⟨?_, ?_⟩
  · intro ind pk pk' h k hk
    exact (suppressNeighbors_spec h).2.2.1 k (by omega)
  · have hwithin := ringsWithin_of hread hrings
    obtain ⟨st1, st2, h1, h2, hS2, _, _, _, hwin⟩ := marked_total ci st hr hc hf
    obtain ⟨pre, hpre, hSpre⟩ := sectorEntry_total P srt ds hc hwithin hS2 r 0 hr0 hr1
      (by omega)
    obtain ⟨post, hpost, _⟩ := ringStep_total P srt ds hc hwithin hSpre r hr0 hr1
    have hT2 : Tidy P ci st2 :=
      tidy_marked hrings hS2 (fun p p5 pN => ⟨(hwin p p5 pN).1, (hwin p p5 pN).2.1⟩)
    obtain ⟨hTpre, _⟩ := entry_tidy hc hrings hdisj hT2
      (fun p p5 pN => (hwin p p5 pN).2.2.2) hr0 hr1 (le_refl 0) (by omega) hpre
    have hpost' := hpost
    unfold ringStep ringSectors at hpost'
    obtain ⟨m, hm, hpost'⟩ := bind_eq_ok hpost'
    cases hpost'
    obtain ⟨f1, f2⟩ := sectors_reach hc hrings hdisj hr0 hr1 hs he (upTo 0 6)
      (fun j hj => by rw [mem_upTo] at hj; omega)
      (tidy_clouds hTpre pre.cornerCloud pre.surfaceCloud []) hm
    refine ⟨st1, st2, pre, _, h1, h2, hpre, hpost, f1, f2, ?_⟩
    intro r' s' e' k hr0' hr1' hne hs' he' k1 k2
    have := hdisj r r' s e s' e' k hr0 hr1 hr0' hr1' (fun h => hne h.symm) hs he hs' he'
    exact f2 k (by omega)

theorem suppression_reach_witness :
    (∀ (ind : Nat) (pk pk' : List Int), suppressNeighbors gapScan ind pk = .ok pk' →
      ∀ k : Int, (k < (ind : Int) - 5 ∨ (ind : Int) + 5 < k) → rd pk' k = rd pk k) ∧
    ∃ st1 st2 pre post, calculateSmoothness gapScan (initializationValue P1) = .ok st1 ∧
      markOccludedPoints gapScan st1 = .ok st2 ∧
      sectorEntry P1 insertionSort id gapScan st2 0 0 = .ok pre ∧
      ringStep P1 insertionSort id gapScan 0 pre = .ok post ∧
      (∀ k : Int, (k < 5 - 5 ∨ 24 + 4 < k) →
        rd post.cloudNeighborPicked k = rd pre.cloudNeighborPicked k) ∧
      (∀ k : Int, (k < 5 ∨ 24 ≤ k) → rd post.cloudLabel k = rd pre.cloudLabel k) ∧
      (∀ r' s' e' k : Int, 0 ≤ r' → r' < (P1.N_SCAN : Int) → r' ≠ 0 →
        rd gapScan.startRingIndex r' = .ok s' → rd gapScan.endRingIndex r' = .ok e' →
        s' ≤ k → k ≤ e' → rd post.cloudLabel k = rd pre.cloudLabel k) :=
  suppression_reach P1 insertionSort id gapScan (initializationValue P1)
    (by decide) (by decide) ⟨by decide, by decide, by decide, by decide⟩
    gapScan_readable gapScan_inside gapScan_disjoint 0 5 24
    (by decide) (by decide) (by decide) (by decide)

/-! ## Claims on the account of a sector -/

/-- C16 (sector accounting under the remainder fallback). On a scan of `N`
points whose ring intervals lie inside `[5, N - 5)` and are pairwise disjoint,
the run of the three stages reaches every sector `[sp, ep]` that is not
skipped and completes the work on it; that work appends every index `k` of
`[sp, ep]` exactly once: to `cornerCloud` and not to the surface candidates
when `k` ends with the label 1 (corner), to the surface candidates and not to
`cornerCloud` when `k` ends with the label 0 (unset) or -1 (surface). Nothing
else is appended, so the sector contributes `ep - sp + 1` points in all. -/
theorem sector_accounting (P : ParamServer) (srt : StdSort) (ds : List Int → List Int)
    (ci : cloud_info) (st : FeatureExtraction)
    (hr : ci.cloud_deskewed ≤ ci.pointRange.length)
    (hc : ci.cloud_deskewed ≤ ci.pointColInd.length)
    (hf : Fits ci.cloud_deskewed st) (hread : RingsReadable P ci)
    (hrings : RingsInside P ci) (hdisj : RingsDisjoint P ci)
    (r j s e : Int) (hr0 : 0 ≤ r) (hr1 : r < (P.N_SCAN : Int)) (hj0 : 0 ≤ j) (hj6 : j < 6)
    (hs : rd ci.startRingIndex r = .ok s) (he : rd ci.endRingIndex r = .ok e)
    (hlt : sectorStart s e j < sectorEnd s e j) :
    ∃ st1 st2 pre post newC newS, calculateSmoothness ci st = .ok st1 ∧
      markOccludedPoints ci st1 = .ok st2 ∧
      sectorEntry P srt ds ci st2 r j = .ok pre ∧ sectorStep P srt ci r j pre = .ok post ∧
      post.cornerCloud = pre.cornerCloud ++ newC ∧
      post.surfaceCloudScan = pre.surfaceCloudScan ++ newS ∧
      (∀ k : Int, sectorStart s e j ≤ k → k ≤ sectorEnd s e j →
        (List.count k newC = 1 ∧ List.count k newS = 0 ∧ rd post.cloudLabel k = .ok 1) ∨
        (List.count k newC = 0 ∧ List.count k newS = 1 ∧
          (rd post.cloudLabel k = .ok 0 ∨ rd post.cloudLabel k = .ok (-1)))) ∧
      (∀ x ∈ newC, sectorStart s e j ≤ x ∧ x ≤ sectorEnd s e j) ∧
      (∀ x ∈ newS, sectorStart s e j ≤ x ∧ x ≤ sectorEnd s e j) ∧
      (newC.length : Int) + (newS.length : Int) = sectorEnd s e j - sectorStart s e j + 1 := by
  have hwithin := ringsWithin_of hread hrings
  obtain ⟨st1, st2, h1, h2, hS2, _, _, _, hwin⟩ := marked_total ci st hr hc hf
  obtain ⟨pre, hpre, hSpre⟩ := sectorEntry_total P srt ds hc hwithin hS2 r j hr0 hr1 (by omega)
  obtain ⟨post, hpost, _⟩ := sectorStep_total P srt hc hwithin hSpre r j hr0 hr1 hj0 hj6
  have hT2 : Tidy P ci st2 :=
    tidy_marked hrings hS2 (fun p p5 pN => ⟨(hwin p p5 pN).1, (hwin p p5 pN).2.1⟩)
  obtain ⟨hTpre, hlpre⟩ := entry_tidy hc hrings hdisj hT2
    (fun p p5 pN => (hwin p p5 pN).2.2.2) hr0 hr1 hj0 (by omega) hpre
  have hB := tidy_blockInds hrings hTpre
  obtain ⟨s', e', hs', he', hcase⟩ := sectorStep_spec hpost
  rw [hs] at hs'
  rw [he] at he'
  cases hs'
  cases he'
  rcases hcase with ⟨hskip, _⟩ | ⟨_, hproc⟩
  · omega
  · have hown : ∀ p : Int, sectorStart s e j ≤ p → p ≤ sectorEnd s e j → InSector ci r j p :=
      fun p p1 p2 => ⟨s, e, hs, he, hlt, p1, p2⟩
    obtain ⟨newC, newS, a1, a2, a3, a4, a5, a6⟩ := processSector_account hproc (by omega)
      (fun p rec_ p1 p2 hrd => by
        obtain ⟨s', e', hs', he', _, q1, q2⟩ :=
          hB r j p rec_ hr0 hr1 hj0 hj6 (hown p p1 p2) hrd
        rw [hs] at hs'
        rw [he] at he'
        cases hs'
        cases he'
        exact ⟨q1, q2⟩)
      (fun k k1 k2 => hlpre j k (le_refl _) hj6 (hown k k1 k2))
    exact ⟨st1, st2, pre, post, newC, newS, h1, h2, hpre, hpost, a1, a2, a3, a4, a5, a6⟩

theorem sector_accounting_witness :
    ∃ st1 st2 pre post newC newS, calculateSmoothness gapScan (initializationValue P1) = .ok st1 ∧
      markOccludedPoints gapScan st1 = .ok st2 ∧
      sectorEntry P1 insertionSort id gapScan st2 0 3 = .ok pre ∧
      sectorStep P1 insertionSort gapScan 0 3 pre = .ok post ∧
      post.cornerCloud = pre.cornerCloud ++ newC ∧
      post.surfaceCloudScan = pre.surfaceCloudScan ++ newS ∧
      (newC.length : Int) + (newS.length : Int) = 3 := by
  obtain ⟨st1, st2, pre, post, newC, newS, h1, h2, h3, h4, h5, h6, _, _, _, h7⟩ :=
    sector_accounting P1 insertionSort id gapScan (initializationValue P1)
      (by decide) (by decide) ⟨by decide, by decide, by decide, by decide⟩
      gapScan_readable gapScan_inside gapScan_disjoint 0 3 5 24
      (by decide) (by decide) (by decide) (by decide) (by decide) (by decide) (by decide)
  exact ⟨st1, st2, pre, post, newC, newS, h1, h2, h3, h4, h5, h6, h7⟩

/-! ## Claims on the writes to `cloudLabel` -/

/-- C17 (a label is assigned at most once). For every configuration, scan and
node, the run of `extractFeatures` that records its writes to `cloudLabel`
ends as `extractFeatures` itself does, with the same node when it completes,
and in the record of a completed run no index occurs twice and every value
written is 1 (corner) or -1 (surface): no point is labelled twice, so none is
relabelled from corner to surface or from surface to corner. -/
theorem label_once (P : ParamServer) (srt : StdSort) (ds : List Int → List Int)
    (ci : cloud_info) (st : FeatureExtraction) :
    ExecRel (fun x y => x.1 = y ∧ (x.2.map Prod.fst).Nodup ∧ ∀ w ∈ x.2, w.2 = 1 ∨ w.2 = -1)
      (extractFeaturesLog P srt ds ci st) (extractFeatures P srt ds ci st) := by
  have he := extractFeaturesLog_erase P srt ds ci st
  cases hL : extractFeaturesLog P srt ds ci st with
  | error e1 =>
    rw [hL] at he
    cases hE : extractFeatures P srt ds ci st with
    | error e2 => trivial
    | ok y =>
      rw [hE] at he
      exact he
  | ok x =>
    rw [hL] at he
    obtain ⟨i1, _, i3⟩ := extractFeaturesLog_inv hL
    cases hE : extractFeatures P srt ds ci st with
    | error e2 =>
      rw [hE] at he
      exact he
    | ok y =>
      rw [hE] at he
      exact ⟨he, i1, i3⟩

set_option maxRecDepth 100000 in
theorem label_once_witness :
    extractFeaturesLog P1 insertionSort id gapScan gapMarked =
      .ok (gapDone, [(5, -1), (16, 1), (15, 1), (22, -1)]) ∧
    ExecRel (fun x y => x.1 = y ∧ (x.2.map Prod.fst).Nodup ∧ ∀ w ∈ x.2, w.2 = 1 ∨ w.2 = -1)
      (extractFeaturesLog P1 insertionSort id gapScan gapMarked)
      (extractFeatures P1 insertionSort id gapScan gapMarked) :=
  ⟨by decide!, label_once P1 insertionSort id gapScan gapMarked⟩

/-! ## Claims on the picked cells -/

/-- C18 (the picked mask is monotonic). Every step of `markOccludedPoints`
and of `extractFeatures` that completes leaves every cell of
`cloudNeighborPicked` with the value it had or with 1, so that a cell that was
not 0 before the step is not 0 after it. This holds for the loop bodies
(`occludedStep`, `walkStep`, `cornerStep`, `surfaceStep`, `collectStep`), for
the work on a sector and on a ring, and for the two stages as wholes, on every
scan and from every node. -/
theorem picked_monotone (P : ParamServer) (srt : StdSort) (ds : List Int → List Int)
    (ci : cloud_info) :
    (∀ (i : Int) (pk pk' : List Int), occludedStep ci i pk = .ok pk' → PickedGrows pk pk') ∧
    (∀ st st' : FeatureExtraction, markOccludedPoints ci st = .ok st' →
      PickedGrows st.cloudNeighborPicked st'.cloudNeighborPicked) ∧
    (∀ (ind : Nat) (prev : Int → Int) (l : Int) (pk pk' : List Int) (b : Bool),
      walkStep ci ind prev l pk = .ok (b, pk') → PickedGrows pk pk') ∧
    (∀ (k : Int) (st st' : FeatureExtraction) (n n' : Int) (b : Bool),
      cornerStep P ci k (st, n) = .ok (b, (st', n')) →
      PickedGrows st.cloudNeighborPicked st'.cloudNeighborPicked) ∧
    (∀ (k : Int) (st st' : FeatureExtraction), surfaceStep P ci k st = .ok st' →
      PickedGrows st.cloudNeighborPicked st'.cloudNeighborPicked) ∧
    (∀ (k : Int) (st st' : FeatureExtraction), collectStep ci k st = .ok st' →
      PickedGrows st.cloudNeighborPicked st'.cloudNeighborPicked) ∧
    (∀ (r j : Int) (st st' : FeatureExtraction), sectorStep P srt ci r j st = .ok st' →
      PickedGrows st.cloudNeighborPicked st'.cloudNeighborPicked) ∧
    (∀ (r : Int) (st st' : FeatureExtraction), ringStep P srt ds ci r st = .ok st' →
      PickedGrows st.cloudNeighborPicked st'.cloudNeighborPicked) ∧
    (∀ st st' : FeatureExtraction, extractFeatures P srt ds ci st = .ok st' →
      PickedGrows st.cloudNeighborPicked st'.cloudNeighborPicked) := by
  refine ⟨?_, ?_, ?_, ?_, ?_, ?_, ?_, ?_, ?_⟩
  · intro i pk pk' h
    exact pickedGrows_of_grow (occludedStep_grow h)
  · intro st st' h
    exact pickedGrows_of_grow (markOccludedPoints_grow h)
  · intro ind prev l pk pk' b h
    rcases walkStep_spec h with ⟨_, rfl, _⟩ | ⟨_, _, hw⟩
    · exact pickedGrows_of_grow (fun k => Or.inl rfl)
    · exact pickedGrows_of_grow (wr_one_grow hw)
  · intro k st st' n n' b h
    exact pickedGrows_of_grow (cornerStep_grow h)
  · intro k st st' h
    exact pickedGrows_of_grow (surfaceStep_grow h)
  · intro k st st' h
    rw [collectStep_picked h]
    exact pickedGrows_of_grow (fun k => Or.inl rfl)
  · intro r j st st' h
    exact pickedGrows_of_grow (sectorStep_evolves h).grow
  · intro r st st' h
    exact pickedGrows_of_grow (ringStep_evolves h).grow
  · intro st st' h
    exact pickedGrows_of_grow (extractFeatures_evolves h).grow

theorem picked_monotone_witness :
    PickedGrows gapCalc.cloudNeighborPicked gapMarked.cloudNeighborPicked ∧
    PickedGrows gapMarked.cloudNeighborPicked gapDone.cloudNeighborPicked :=
  ⟨(picked_monotone P1 insertionSort id gapScan).2.1 gapCalc gapMarked gapMarked_run,
    (picked_monotone P1 insertionSort id gapScan).2.2.2.2.2.2.2.2 gapMarked gapDone
      gapDone_run⟩

/-! ## Claims on the safety of the array accesses -/

/-- C19 (index safety). On a scan of `N` points whose range and column
arrays hold (at least) `N` entries, run on working arrays of at least `N`
cells, with ring bounds that satisfy `5 ≤ startRingIndex[r]` and
`endRingIndex[r] ≤ N - 5` for every ring, the three stages
`calculateSmoothness`, `markOccludedPoints` and `extractFeatures` complete: no
access of the embedding, which stops at every index outside an array, is out
of bounds. The hypotheses allow arrays of exactly `N` cells, for which every
index used lies in `[0, N)`. -/
theorem index_safety (P : ParamServer) (srt : StdSort) (ds : List Int → List Int)
    (ci : cloud_info) (st : FeatureExtraction)
    (hr : ci.cloud_deskewed ≤ ci.pointRange.length)
    (hc : ci.cloud_deskewed ≤ ci.pointColInd.length)
    (hf : Fits ci.cloud_deskewed st) (hrings : RingsWithin P ci) :
    ∃ st1 st2 st3, calculateSmoothness ci st = .ok st1 ∧
      markOccludedPoints ci st1 = .ok st2 ∧ extractFeatures P srt ds ci st2 = .ok st3 := by
  obtain ⟨st1, st2, st3, h1, h2, h3, _⟩ := pipeline_total P srt ds ci st hr hc hf hrings
  exact ⟨st1, st2, st3, h1, h2, h3⟩

theorem index_safety_witness :
    ∃ st1 st2 st3, calculateSmoothness gapScan (initializationValue P30) = .ok st1 ∧
      markOccludedPoints gapScan st1 = .ok st2 ∧
      extractFeatures P30 insertionSort id gapScan st2 = .ok st3 :=
  index_safety P30 insertionSort id gapScan (initializationValue P30) (by decide) (by decide)
    ⟨by decide, by decide, by decide, by decide⟩
    (fun r h0 h1 => by
      have hr : r = 0 := by
        have : (P30.N_SCAN : Int) = 1 := rfl
        omega
      subst hr
      exact ⟨5, 24, by decide, by decide, by decide, by decide⟩)

/-! ## Claims on the smoothness records -/

/-- C20, as stated, fails twice. On `overlapScan`, whose two ring intervals
`[5, 24]` and `[6, 24]` lie inside `[5, N - 5)` and overlap, the records at the
positions of sector 3 of ring 1, `[15, 17]`, name after the sort the indices
16, 15 and 18: the index 18 is not one of the sector and 17 is missing. And
after the scan `stepScan`, at the start of `extractFeatures` on the 23-point
scan `flatScan23`, the record at the position 18 has the value 81 and names
the index 17, whose curvature is 0. -/
theorem records_not_permuted :
    (rd overlapScan.startRingIndex 0 = .ok 5 ∧ rd overlapScan.endRingIndex 0 = .ok 24 ∧
      rd overlapScan.startRingIndex 1 = .ok 6 ∧ rd overlapScan.endRingIndex 1 = .ok 24 ∧
      overlapScan.cloud_deskewed = 30 ∧
      sectorStart 6 24 3 = 15 ∧ sectorEnd 6 24 3 = 17 ∧
      calculateSmoothness overlapScan (initializationValue P220)
        >>= markOccludedPoints overlapScan = .ok stepMarked ∧
      ∃ pre sorted, sectorEntry P220 insertionSort id overlapScan stepMarked 1 3 = .ok pre ∧
        sortRange insertionSort pre.cloudSmoothness 15 17 = .ok sorted ∧
        sectorInds sorted 15 17 = [16, 15, 18]) ∧
    (pipeline P1 insertionSort id stepScan (initializationValue P1) = .ok stepDone ∧
      ∃ st2, calculateSmoothness flatScan23 stepDone >>= markOccludedPoints flatScan23
          = .ok st2 ∧
        rd st2.cloudSmoothness 18 = .ok ⟨81, 17⟩ ∧ rd st2.cloudCurvature 17 = .ok 0) := by
  have hw : completes (sectorEntry P220 insertionSort id overlapScan stepMarked 1 3) = true ∧
      completes (sortRange insertionSort
        (outcome (sectorEntry P220 insertionSort id overlapScan stepMarked 1 3)
          stepMarked).cloudSmoothness 15 17) = true ∧
      sectorInds (outcome (sortRange insertionSort
        (outcome (sectorEntry P220 insertionSort id overlapScan stepMarked 1 3)
          stepMarked).cloudSmoothness 15 17) []) 15 17 = [16, 15, 18] := by
    decide!
  have hv : completes (calculateSmoothness flatScan23 stepDone
        >>= markOccludedPoints flatScan23) = true ∧
      rd (outcome (calculateSmoothness flatScan23 stepDone
        >>= markOccludedPoints flatScan23) stepDone).cloudSmoothness 18 = .ok ⟨81, 17⟩ ∧
      rd (outcome (calculateSmoothness flatScan23 stepDone
        >>= markOccludedPoints flatScan23) stepDone).cloudCurvature 17 = .ok 0 := by
    decide!
  exact ⟨⟨by decide, by decide, by decide, by decide, rfl, by decide, by decide,
    stepMarked_run, _, _, completes_outcome _ _ hw.1, completes_outcome _ _ hw.2.1, hw.2.2⟩,
    stepDone_run, _, completes_outcome _ _ hv.1, hv.2.1, hv.2.2⟩

/-- C20, amended. On a scan of `N` points whose ring intervals lie inside
`[5, N - 5)` and are pairwise disjoint, the run of the three stages reaches
every sector `[sp, ep]` that is not skipped, and there: on entry and after the
sort, every record at a position `5 ≤ p < N - 5` holds the curvature of the
index it names; after the sort the records at the positions `sp, ..., ep` name
the indices `sp, ..., ep`, each once; and the corner and surface passes leave
the records and the curvatures as the sort left them. -/
theorem records_permuted (P : ParamServer) (srt : StdSort) (ds : List Int → List Int)
    (ci : cloud_info) (st : FeatureExtraction)
    (hr : ci.cloud_deskewed ≤ ci.pointRange.length)
    (hc : ci.cloud_deskewed ≤ ci.pointColInd.length)
    (hf : Fits ci.cloud_deskewed st) (hread : RingsReadable P ci)
    (hrings : RingsInside P ci) (hdisj : RingsDisjoint P ci)
    (r j s e : Int) (hr0 : 0 ≤ r) (hr1 : r < (P.N_SCAN : Int)) (hj0 : 0 ≤ j) (hj6 : j < 6)
    (hs : rd ci.startRingIndex r = .ok s) (he : rd ci.endRingIndex r = .ok e)
    (hlt : sectorStart s e j < sectorEnd s e j) :
    ∃ st1 st2 pre sorted post, calculateSmoothness ci st = .ok st1 ∧
      markOccludedPoints ci st1 = .ok st2 ∧
      sectorEntry P srt ds ci st2 r j = .ok pre ∧
      sortRange srt pre.cloudSmoothness (sectorStart s e j) (sectorEnd s e j) = .ok sorted ∧
      sectorStep P srt ci r j pre = .ok post ∧
      (∀ p : Int, 5 ≤ p → p < (ci.cloud_deskewed : Int) - 5 →
        ∃ rec_, rd pre.cloudSmoothness p = .ok rec_ ∧
          rd pre.cloudCurvature rec_.ind = .ok rec_.value) ∧
      (∀ p : Int, 5 ≤ p → p < (ci.cloud_deskewed : Int) - 5 →
        ∃ rec_, rd sorted p = .ok rec_ ∧ rd pre.cloudCurvature rec_.ind = .ok rec_.value) ∧
      List.Perm (sectorInds sorted (sectorStart s e j) (sectorEnd s e j))
        (upTo (sectorStart s e j) (sectorEnd s e j + 1)) ∧
      post.cloudSmoothness = sorted ∧ post.cloudCurvature = pre.cloudCurvature := by
  have hwithin := ringsWithin_of hread hrings
  obtain ⟨st1, st2, h1, h2, hS2, _, _, _, hwin⟩ := marked_total ci st hr hc hf
  obtain ⟨pre, hpre, hSpre⟩ := sectorEntry_total P srt ds hc hwithin hS2 r j hr0 hr1 (by omega)
  obtain ⟨post, hpost, _⟩ := sectorStep_total P srt hc hwithin hSpre r j hr0 hr1 hj0 hj6
  have hT2 : Tidy P ci st2 :=
    tidy_marked hrings hS2 (fun p p5 pN => ⟨(hwin p p5 pN).1, (hwin p p5 pN).2.1⟩)
  obtain ⟨hTpre, _⟩ := entry_tidy hc hrings hdisj hT2
    (fun p p5 pN => (hwin p p5 pN).2.2.2) hr0 hr1 hj0 (by omega) hpre
  have hTpost := tidy_sectorStep hc hrings hdisj hr0 hr1 hj0 hj6 hTpre hpost
  obtain ⟨s', e', hs', he', hcase⟩ := sectorStep_spec hpost
  rw [hs] at hs'
  rw [he] at he'
  cases hs'
  cases he'
  rcases hcase with ⟨hskip, _⟩ | ⟨_, hproc⟩
  · omega
  · obtain ⟨sorted, s2, new, st3, hsort, hC, hS, rfl, _⟩ := processSector_spec hproc
    have hsm : st3.cloudSmoothness = sorted := by rw [hS.smooth, hC.smooth]
    have hcv : st3.cloudCurvature = pre.cloudCurvature := by rw [hS.curv, hC.curv]
    refine ⟨st1, st2, pre, sorted, _, h1, h2, hpre, hsort, hpost, hTpre.value, ?_, ?_,
      hsm, hcv⟩
    · intro p p5 pN
      obtain ⟨rec_, e1, e2⟩ := hTpost.value p p5 pN
      have e1' : rd st3.cloudSmoothness p = .ok rec_ := e1
      have e2' : rd st3.cloudCurvature rec_.ind = .ok rec_.value := e2
      rw [hsm] at e1'
      rw [hcv] at e2'
      exact ⟨rec_, e1', e2'⟩
    · have := hTpost.perm r j s e hr0 hr1 hj0 hj6 hs he hlt
      have this' : List.Perm (sectorInds st3.cloudSmoothness (sectorStart s e j)
          (sectorEnd s e j)) (upTo (sectorStart s e j) (sectorEnd s e j + 1)) := this
      rw [hsm] at this'
      exact this'

theorem records_permuted_witness :
    ∃ st1 st2 pre sorted post, calculateSmoothness gapScan (initializationValue P1) = .ok st1 ∧
      markOccludedPoints gapScan st1 = .ok st2 ∧
      sectorEntry P1 insertionSort id gapScan st2 0 3 = .ok pre ∧
      sortRange insertionSort pre.cloudSmoothness 14 16 = .ok sorted ∧
      sectorStep P1 insertionSort gapScan 0 3 pre = .ok post ∧
      List.Perm (sectorInds sorted 14 16) (upTo 14 (16 + 1)) ∧
      post.cloudSmoothness = sorted := by
  obtain ⟨st1, st2, pre, sorted, post, h1, h2, h3, h4, h5, _, _, h6, h7, _⟩ :=
    records_permuted P1 insertionSort id gapScan (initializationValue P1)
      (by decide) (by decide) ⟨by decide, by decide, by decide, by decide⟩
      gapScan_readable gapScan_inside gapScan_disjoint 0 3 5 24
      (by decide) (by decide) (by decide) (by decide) (by decide) (by decide) (by decide)
  exact ⟨st1, st2, pre, sorted, post, h1, h2, h3, h4, h5, h6, h7⟩

end LioSam
